import Mathlib

/-!
# Greedy linear oblivious trees (v2)

A shallow embedding of `cpp/methods/greedy_linear_oblivious_trees_v2.cpp`, with
the constructor of `cpp/models/polynom/polynom_gpu.cpp` and the transform of
`cpp/core/src/trans/add_vec.cpp`.

Conventions of the embedding.

* `float` and `double` values are exact rationals (`ℚ`); rounding is not modelled.
* `Eigen`'s `inverse()` is the exact matrix inverse, written as
  `det⁻¹ • adjugate` so that it can be evaluated; on a singular matrix it is
  the zero matrix (Eigen returns non-finite garbage there).
* A raw pointer `BinStat*` is a function from cell index to `BinStat`.
* `parallelFor` bodies run sequentially in increasing index order.
* A thrown exception is an `Except.error`.
-/

/-- Exceptions thrown by the code (`std::runtime_error` messages, `vector::at`);
`nullLeaf` stands for the dereference of a null leaf pointer. -/
inductive Err where
  | noFeatures
  | notFitted
  | noBias
  | noRegion
  | outOfRange
  | unimplemented
  | nullLeaf
deriving DecidableEq, Repr

/-- The grid collaborator, by the accessors the code calls: `nzFeaturesCount()`,
`conditionsCount(f)`, `binOffsets()`, `totalBins()`, `nzFeatures()` (the original
feature id of every local feature), `borders(f)` and `origFeatureIndex(f)`. -/
structure Grid where
  nzFeaturesCount : Nat
  conditionsCount : Nat → Nat
  binOffsets : List Nat
  totalBins : Nat
  nzFeatures : List Nat
  borders : Nat → List ℚ
  origFeatureIndex : Nat → Nat

/-- The unchecked read `grid_->binOffsets()[fId]`. -/
def Grid.offset (g : Grid) (fId : Nat) : Nat := g.binOffsets.getD fId 0

/-- Modelled from the spec: the class `BinStat` is declared in the header
`greedy_linear_oblivious_trees_v2.h`, which is not among the sources. It is the
sufficient statistic of one (feature, bin) cell: a symmetric cross-product
matrix, a cross-target vector and a sample count. `filledSize` is the number of
used features; `dim` is the number of rows of the matrix handed out by `getXTX`
(one per used feature, plus one once a new candidate has been incorporated). -/
structure BinStat where
  filledSize : Nat
  dim : Nat
  XTX : Nat → Nat → ℚ
  XTy : Nat → ℚ
  cnt : ℤ

/-- Modelled from the spec: a `BinStat` is created zeroed; the learner builds
its cells with `filledSize = 1`. -/
def BinStat.zero (filledSize : Nat) : BinStat :=
  { filledSize := filledSize, dim := filledSize, XTX := fun _ _ => 0, XTy := fun _ => 0, cnt := 0 }

/-- Modelled from the spec: `reset()` followed by `setFilledSize(n)`, the only
way the source resets a cell. -/
def BinStat.resetTo (_s : BinStat) (n : Nat) : BinStat := BinStat.zero n

/-- Modelled from the spec: `addFullCorrelation(x, y)` adds the outer product of
the used-feature vector to the matrix, `y · x` to the cross-target vector and
one to the count. -/
def BinStat.addFullCorrelation (s : BinStat) (x : Nat → ℚ) (y : ℚ) : BinStat :=
  { s with
    XTX := fun i j => if i < s.filledSize ∧ j < s.filledSize then s.XTX i j + x i * x j else s.XTX i j
    XTy := fun i => if i < s.filledSize then s.XTy i + x i * y else s.XTy i
    cnt := s.cnt + 1 }

/-- Modelled from the spec: `addNewCorrelation(xtx, xty, shift)` incorporates the
cross-products of one new feature with the used ones into row and column
`filledSize + shift` (`shift = -1` addresses the last row of a matrix that has
already grown). -/
def BinStat.addNewCorrelation (s : BinStat) (xtx : Nat → ℚ) (xty : ℚ) (shift : ℤ) : BinStat :=
  let corPos : Nat := ((s.filledSize : ℤ) + shift).toNat
  { s with
    dim := max s.dim (corPos + 1)
    XTX := fun i j =>
      if i = corPos ∧ j ≤ corPos then s.XTX i j + xtx j
      else if j = corPos ∧ i < corPos then s.XTX i j + xtx i
      else s.XTX i j
    XTy := fun i => if i = corPos then s.XTy i + xty else s.XTy i }

/-- Modelled from the spec: `operator+=` is the element-wise sum. As the source
says where it uses it, it only updates the inner correlations (the block of the
features filled in both operands); a new candidate row stays as it is. -/
def BinStat.add (s t : BinStat) : BinStat :=
  let m := min s.filledSize t.filledSize
  { s with
    XTX := fun i j => if i < m ∧ j < m then s.XTX i j + t.XTX i j else s.XTX i j
    XTy := fun i => if i < m then s.XTy i + t.XTy i else s.XTy i
    cnt := s.cnt + t.cnt }

/-- Modelled from the spec: `operator-=` is the element-wise difference on the
same block as `operator+=`. -/
def BinStat.sub (s t : BinStat) : BinStat :=
  let m := min s.filledSize t.filledSize
  { s with
    XTX := fun i j => if i < m ∧ j < m then s.XTX i j - t.XTX i j else s.XTX i j
    XTy := fun i => if i < m then s.XTy i - t.XTy i else s.XTy i
    cnt := s.cnt - t.cnt }

/-- Modelled from the spec: `getXTX()` as a `dim × dim` matrix; `n` is the
number of rows the caller reads (`BinStat.dim` for the cell's own view). -/
def BinStat.getXTX (s : BinStat) (n : Nat) : Matrix (Fin n) (Fin n) ℚ := fun i j => s.XTX i j

/-- Modelled from the spec: `getXTy()` as a column of `n` entries. -/
def BinStat.getXTy (s : BinStat) (n : Nat) : Fin n → ℚ := fun i => s.XTy i

/-- Modelled from the spec: `getCnt()`. -/
def BinStat.getCnt (s : BinStat) : ℤ := s.cnt

/-- Modelled from the spec: `getTrace()`, the trace of the cross-product matrix. -/
def BinStat.getTrace (s : BinStat) (n : Nat) : ℚ := ∑ i : Fin n, s.XTX i i

/-- `DiagMx(dim, v)`. The source stores the `double` `v` in the `float` entries
of an `Eigen::MatrixXf`; with floating-point values read as exact rationals the
stored value is `v` itself. Where the conversion matters, the argument is the
converted value: `DiagMx dim (narrow v)`. -/
def DiagMx (dim : Nat) (v : ℚ) : Matrix (Fin dim) (Fin dim) ℚ :=
  fun i j => if j = i then v else 0

/-- `Eigen`'s `inverse()`. -/
def inverse {d : Nat} (A : Matrix (Fin d) (Fin d) ℚ) : Matrix (Fin d) (Fin d) ℚ :=
  (A.det)⁻¹ • A.adjugate

/-- `HistogramV2`: the grid, the number of used features, the last used feature
(`-1` for none) and the cells `hist_` points to. -/
structure HistogramV2 where
  grid : Grid
  nUsedFeatures : Nat
  lastUsedFeatureId : ℤ
  hist : Nat → BinStat

/-- `HistogramV2::addNewCorrelation`. -/
def HistogramV2.addNewCorrelation (h : HistogramV2) (bin : Nat) (xtx : Nat → ℚ) (xty : ℚ)
    (shift : ℤ) : HistogramV2 :=
  { h with hist := Function.update h.hist bin ((h.hist bin).addNewCorrelation xtx xty shift) }

/-- `HistogramV2::addBinStat`. -/
def HistogramV2.addBinStat (h : HistogramV2) (bin : Nat) (stats : BinStat) : HistogramV2 :=
  { h with hist := Function.update h.hist bin ((h.hist bin).add stats) }

/-- The inner loop of `prefixSumBins` for one feature:
`hist_[bin] += hist_[bin - 1]` for `localBinId = 1 .. conditionsCount`. -/
def prefixSumFeature (offset conds : Nat) (hist : Nat → BinStat) : Nat → BinStat :=
  (List.range conds).foldl
    (fun h i => Function.update h (offset + (i + 1)) ((h (offset + (i + 1))).add (h (offset + (i + 1) - 1))))
    hist

/-- `HistogramV2::prefixSumBins`. -/
def HistogramV2.prefixSumBins (h : HistogramV2) : HistogramV2 :=
  let hist' := (List.range h.grid.nzFeaturesCount).foldl
    (fun hist fId => prefixSumFeature (h.grid.offset fId) (h.grid.conditionsCount fId) hist)
    h.hist
  { h with hist := hist' }

/-- The weight column `getW` returns: `rows` entries, `val i` for `i < rows`. -/
structure Weights where
  rows : Nat
  val : Nat → ℚ

/-- The column `v` as a `Weights` value. -/
def Weights.ofVec {d : Nat} (v : Fin d → ℚ) : Weights :=
  { rows := d, val := fun i => if h : i < d then v ⟨i, h⟩ else 0 }

/-- The matrix `XTX_r = XTX + DiagMx(XTX.rows(), l2reg)` that `getW` inverts, for
the cell at `lastPos`. -/
def HistogramV2.XTX_r (h : HistogramV2) (lastPos : Nat) (l2reg : ℚ) :
    Matrix (Fin (h.hist lastPos).dim) (Fin (h.hist lastPos).dim) ℚ :=
  (h.hist lastPos).getXTX (h.hist lastPos).dim + DiagMx (h.hist lastPos).dim l2reg

/-- `HistogramV2::getW`. -/
def HistogramV2.getW (h : HistogramV2) (l2reg : ℚ) : Except Err Weights :=
  if h.lastUsedFeatureId = -1 then .error Err.noFeatures
  else
    match (if 0 ≤ h.lastUsedFeatureId then h.grid.binOffsets[h.lastUsedFeatureId.toNat]? else none) with
    | none => .error Err.outOfRange
    | some offset =>
      let lastPos := offset + h.grid.conditionsCount h.lastUsedFeatureId.toNat
      let XTy := (h.hist lastPos).getXTy (h.hist lastPos).dim
      .ok (Weights.ofVec ((inverse (h.XTX_r lastPos l2reg)).mulVec XTy))

/-- `HistogramV2::computeScore`. -/
def computeScore {d : Nat} (XTX : Matrix (Fin d) (Fin d) ℚ) (XTy : Fin d → ℚ) (XTX_trace : ℚ)
    (_cnt : ℤ) (l2reg traceReg : ℚ) : ℚ :=
  let w := (inverse XTX).mulVec XTy
  let c1 := Matrix.dotProduct XTy w * (-2)
  let c2 := Matrix.dotProduct (Matrix.vecMul w XTX) w
  let reg := Matrix.dotProduct w w * l2reg
  let res := c1 + c2 + reg
  res + traceReg * XTX_trace / (d : ℚ)

/-- `binPos = offset + condId` of `splitScore`. -/
def HistogramV2.binPos (h : HistogramV2) (fId condId : Nat) : Nat := h.grid.offset fId + condId

/-- `lastPos = offset + conditionsCount(fId)` of `splitScore`. -/
def HistogramV2.lastPos (h : HistogramV2) (fId : Nat) : Nat :=
  h.grid.offset fId + h.grid.conditionsCount fId

/-- `ydim = XTX_binPos.rows()` of `splitScore`. -/
def HistogramV2.ydim (h : HistogramV2) (fId condId : Nat) : Nat := (h.hist (h.binPos fId condId)).dim

/-- `left_XTX = XTX_binPos + DiagMx(ydim, l2reg)` of `splitScore`. -/
def HistogramV2.left_XTX (h : HistogramV2) (fId condId : Nat) (l2reg : ℚ) :
    Matrix (Fin (h.ydim fId condId)) (Fin (h.ydim fId condId)) ℚ :=
  (h.hist (h.binPos fId condId)).getXTX (h.ydim fId condId) + DiagMx (h.ydim fId condId) l2reg

/-- `right_XTX = XTX_lastPos - XTX_binPos + DiagMx(ydim, l2reg)` of `splitScore`. -/
def HistogramV2.right_XTX (h : HistogramV2) (fId condId : Nat) (l2reg : ℚ) :
    Matrix (Fin (h.ydim fId condId)) (Fin (h.ydim fId condId)) ℚ :=
  (h.hist (h.lastPos fId)).getXTX (h.ydim fId condId)
    - (h.hist (h.binPos fId condId)).getXTX (h.ydim fId condId) + DiagMx (h.ydim fId condId) l2reg

/-- `left_XTy = XTy_binPos` of `splitScore`. -/
def HistogramV2.left_XTy (h : HistogramV2) (fId condId : Nat) : Fin (h.ydim fId condId) → ℚ :=
  (h.hist (h.binPos fId condId)).getXTy (h.ydim fId condId)

/-- `right_XTy = XTy_lastPos - XTy_binPos` of `splitScore`. -/
def HistogramV2.right_XTy (h : HistogramV2) (fId condId : Nat) : Fin (h.ydim fId condId) → ℚ :=
  (h.hist (h.lastPos fId)).getXTy (h.ydim fId condId)
    - (h.hist (h.binPos fId condId)).getXTy (h.ydim fId condId)

/-- `left_XTX_trace = trace_binPos` of `splitScore`. -/
def HistogramV2.left_XTX_trace (h : HistogramV2) (fId condId : Nat) : ℚ :=
  (h.hist (h.binPos fId condId)).getTrace (h.ydim fId condId)

/-- `right_XTX_trace = trace_lastPos - trace_binPos` of `splitScore`. -/
def HistogramV2.right_XTX_trace (h : HistogramV2) (fId condId : Nat) : ℚ :=
  (h.hist (h.lastPos fId)).getTrace (h.ydim fId condId)
    - (h.hist (h.binPos fId condId)).getTrace (h.ydim fId condId)

/-- `HistogramV2::splitScore`. -/
def HistogramV2.splitScore (h : HistogramV2) (fId condId : Nat) (l2reg traceReg : ℚ) : ℚ × ℚ :=
  let binPos := h.binPos fId condId
  let lastPos := h.lastPos fId
  let cnt_binPos := (h.hist binPos).getCnt
  let cnt_lastPos := (h.hist lastPos).getCnt
  if condId ≠ 0 ∧ cnt_binPos - (h.hist (binPos - 1)).getCnt = 0 then
    (1000000, 1000000)
  else
    let left_cnt := cnt_binPos
    let right_cnt := cnt_lastPos - cnt_binPos
    let resLeft := computeScore (h.left_XTX fId condId l2reg) (h.left_XTy fId condId)
      (h.left_XTX_trace fId condId) left_cnt l2reg traceReg
    let resRight := computeScore (h.right_XTX fId condId l2reg) (h.right_XTy fId condId)
      (h.right_XTX_trace fId condId) right_cnt l2reg traceReg
    (resLeft, resRight)

/-- `HistogramV2::operator+=`. -/
def HistogramV2.addHist (h o : HistogramV2) : HistogramV2 :=
  let hist' := (List.range h.grid.totalBins).foldl
    (fun hist bin => Function.update hist bin ((hist bin).add (o.hist bin))) h.hist
  { h with hist := hist' }

/-- `HistogramV2::operator-=`. -/
def HistogramV2.subHist (h o : HistogramV2) : HistogramV2 :=
  let hist' := (List.range h.grid.totalBins).foldl
    (fun hist bin => Function.update hist bin ((hist bin).sub (o.hist bin))) h.hist
  { h with hist := hist' }

/-- The closed-form loss in the words of the specification:
`-2·bᵀw + wᵀAw + λ·wᵀw + t·trace(A)/d` with `w = (A + λI)⁻¹ b`, for the
unregularised cross-product matrix `A` and cross-target vector `b`. -/
def ridgeLossSpec {d : Nat} (A : Matrix (Fin d) (Fin d) ℚ) (b : Fin d → ℚ) (l2reg traceReg : ℚ) : ℚ :=
  let w := (inverse (A + DiagMx d l2reg)).mulVec b
  (-2) * Matrix.dotProduct b w + Matrix.dotProduct w (A.mulVec w) + l2reg * Matrix.dotProduct w w
    + traceReg * A.trace / (d : ℚ)

/-- The sum of outer products `Σ v vᵀ` of a list of sample vectors, entry `(i, j)`. -/
def gram (vs : List (Nat → ℚ)) (i j : Nat) : ℚ := (vs.map (fun v => v i * v j)).sum

/-- A grid with one feature and one border at `1/2`: bins `0` and `1`. -/
def exGrid : Grid :=
  { nzFeaturesCount := 1, conditionsCount := fun _ => 1, binOffsets := [0], totalBins := 2,
    nzFeatures := [0], borders := fun _ => [1 / 2], origFeatureIndex := fun f => f }

/-- The statistic of `n` samples with bias value `1` and target `1`, one used feature. -/
def exStat (n : Nat) : BinStat :=
  { filledSize := 1, dim := 1, XTX := fun _ _ => n, XTy := fun _ => n, cnt := n }

/-- A cumulative histogram over `exGrid`: one sample in bin `0`, two in all. -/
def exHist : HistogramV2 :=
  { grid := exGrid, nUsedFeatures := 1, lastUsedFeatureId := 0,
    hist := fun b => if b = 0 then exStat 1 else exStat 2 }

/-- A cumulative histogram over `exGrid` whose bin `0` holds no sample: both
samples fall right of the border. -/
def exHistEmptyLeft : HistogramV2 :=
  { grid := exGrid, nUsedFeatures := 1, lastUsedFeatureId := 0,
    hist := fun b => if b = 0 then exStat 0 else exStat 2 }

/-- An example of the conversion of a `double` to a `float`: what is below
`2^-150` in absolute value (half of the smallest positive `float`) becomes `0`;
the rounding of the other values is left out. -/
def exNarrow (v : ℚ) : ℚ := if |v| < 1 / 2 ^ 150 then 0 else v

/-- The result of `inverse()` on `M` is the inverse of `M`: the ridge solve on
`M` is well defined. -/
def InverseExact {d : Nat} (M : Matrix (Fin d) (Fin d) ℚ) : Prop :=
  M.det ≠ 0 ∧ inverse M * M = 1 ∧ M * inverse M = 1

/-- The statistics of bins `offset .. offset + k` merged by the `+=` of `BinStat`,
in the order `prefixSumBins` merges them: bin `k` receives the sum of the bins
before it. -/
def sumBins (hist : Nat → BinStat) (offset : Nat) : Nat → BinStat
  | 0 => hist offset
  | k + 1 => (hist (offset + (k + 1))).add (sumBins hist offset k)

/-- The bin ranges `[binOffsets[f], binOffsets[f] + conditionsCount(f)]` of the
features of the grid are pairwise disjoint. -/
def Grid.DisjointBins (g : Grid) : Prop :=
  ∀ f1 f2, f1 < g.nzFeaturesCount → f2 < g.nzFeaturesCount → f1 ≠ f2 →
    g.offset f1 + g.conditionsCount f1 < g.offset f2 ∨
    g.offset f2 + g.conditionsCount f2 < g.offset f1

/-- A grid with two features: bins `0, 1` for the first and `2, 3, 4` for the second. -/
def exGrid2 : Grid :=
  { nzFeaturesCount := 2, conditionsCount := fun f => if f = 0 then 1 else 2, binOffsets := [0, 2],
    totalBins := 5, nzFeatures := [0, 1], borders := fun f => if f = 0 then [1 / 2] else [1, 2],
    origFeatureIndex := fun f => f }

/-- A raw histogram over `exGrid2`: bin `b` holds the statistic of `b + 1` samples. -/
def exHist2 : HistogramV2 :=
  { grid := exGrid2, nUsedFeatures := 1, lastUsedFeatureId := -1, hist := fun b => exStat (b + 1) }

/-- `LinearObliviousTreeLeafV2`. The histogram the leaf owns (`hist_`) points into
the statistics arena: `histCoord` is the coordinate of the arena and `histBase`
the first cell of the leaf's region there. -/
structure LinearObliviousTreeLeafV2 where
  grid : Grid
  usedFeatures : Finset Nat
  usedFeaturesInOrder : List Nat
  w : Option Weights
  splits : List (Nat × Nat × Bool)
  l2reg : ℚ
  traceReg : ℚ
  maxDepth : Nat
  nUsedFeatures : Nat
  lastUsedFeatureId : ℤ
  id : Nat
  histCoord : Nat
  histBase : Nat

/-- The statistics arena `stats_`: coordinate, then cell `lId * totalBins_ + bin`. -/
abbrev Arena := Nat → Nat → BinStat

/-- The histogram `*hist_` of a leaf as it reads the arena. -/
def LinearObliviousTreeLeafV2.hist (l : LinearObliviousTreeLeafV2) (stats : Arena) : HistogramV2 :=
  { grid := l.grid, nUsedFeatures := l.nUsedFeatures, lastUsedFeatureId := l.lastUsedFeatureId,
    hist := fun bin => stats l.histCoord (l.histBase + bin) }

/-- The constructor of `LinearObliviousTreeLeafV2`: `id_ = 0`, nothing used, no
weights, no splits; `stats` is the pointer handed to the histogram. -/
def LinearObliviousTreeLeafV2.mk0 (grid : Grid) (l2reg traceReg : ℚ) (maxDepth nUsedFeatures : Nat)
    (lastUsedFeatureId : ℤ) (statsCoord statsBase : Nat) : LinearObliviousTreeLeafV2 :=
  { grid := grid, usedFeatures := ∅, usedFeaturesInOrder := [], w := none, splits := [],
    l2reg := l2reg, traceReg := traceReg, maxDepth := maxDepth, nUsedFeatures := nUsedFeatures,
    lastUsedFeatureId := lastUsedFeatureId, id := 0, histCoord := statsCoord, histBase := statsBase }

/-- `LinearObliviousTreeLeafV2::splitScore`. -/
def LinearObliviousTreeLeafV2.splitScore (l : LinearObliviousTreeLeafV2) (stats : Arena)
    (fId condId : Nat) : ℚ :=
  let sScore := (l.hist stats).splitScore fId condId l.l2reg l.traceReg
  sScore.1 + sScore.2

/-- `LinearObliviousTreeLeafV2::fit`. -/
def LinearObliviousTreeLeafV2.fit (l : LinearObliviousTreeLeafV2) (stats : Arena) :
    Except Err LinearObliviousTreeLeafV2 :=
  match l.w with
  | some _ => .ok l
  | none =>
    match (l.hist stats).getW l.l2reg with
    | .error e => .error e
    | .ok w => .ok { l with w := some w }

/-- `LinearObliviousTreeLeafV2::value`. -/
def LinearObliviousTreeLeafV2.value (l : LinearObliviousTreeLeafV2) (x : Nat → ℚ) : Except Err ℚ :=
  match l.w with
  | none => .error Err.notFitted
  | some w =>
    .ok ((l.usedFeaturesInOrder.foldl (fun (acc : ℚ × Nat) f => (acc.1 + x f * w.val acc.2, acc.2 + 1))
      (0, 0)).1)

/-- The loop of `isInRegion` over the splits: `.at` throws on a feature or a
condition the grid does not have. -/
def isInRegionLoop (grid : Grid) (x : Nat → ℚ) : List (Nat × Nat × Bool) → Except Err Bool
  | [] => .ok true
  | (fId, condId, isLeft) :: rest =>
    match grid.nzFeatures[fId]? with
    | none => .error Err.outOfRange
    | some origFId =>
      match (grid.borders fId)[condId]? with
      | none => .error Err.outOfRange
      | some border =>
        if xor (decide (x origFId ≤ border)) isLeft then .ok false
        else isInRegionLoop grid x rest

/-- `LinearObliviousTreeLeafV2::isInRegion`. -/
def LinearObliviousTreeLeafV2.isInRegion (l : LinearObliviousTreeLeafV2) (x : Nat → ℚ) :
    Except Err Bool :=
  isInRegionLoop l.grid x l.splits

/-- The value an `int32_t` holds after an operation whose exact result is `z`:
the two's-complement wrap-around into `-2^31 .. 2^31 - 1`. -/
def int32 (z : ℤ) : ℤ := (z + 2147483648) % 4294967296 - 2147483648

/-- The assignments `left->id_ = 2 * id_` and `right->id_ = 2 * id_ + 1` of
`initChildren` in the type `int32_t` of `id_`: the ids the children receive from
a parent with the id `id`. -/
def LinearObliviousTreeLeafV2.childIds (id : ℤ) : ℤ × ℤ :=
  (int32 (2 * id), int32 (int32 (2 * id) + 1))

/-- `LinearObliviousTreeLeafV2::initChildren`. The ids of the leaves are exact
natural numbers here; `id_` is an `int32_t`, and the ids of the children are the
ones of `childIds` as long as the id of the parent is below `2^30`
(every id that `fit` produces is below `2^maxDepth`). -/
def LinearObliviousTreeLeafV2.initChildren (l left right : LinearObliviousTreeLeafV2)
    (splitFId condId : Nat) : LinearObliviousTreeLeafV2 × LinearObliviousTreeLeafV2 :=
  let origFeatureId := l.grid.origFeatureIndex splitFId
  let used := if origFeatureId ∈ l.usedFeatures then l.usedFeatures
    else insert origFeatureId l.usedFeatures
  let order := if origFeatureId ∈ l.usedFeatures then l.usedFeaturesInOrder
    else l.usedFeaturesInOrder ++ [origFeatureId]
  ({ left with id := 2 * l.id, usedFeatures := used, usedFeaturesInOrder := order,
               splits := l.splits ++ [(splitFId, condId, true)] },
   { right with id := 2 * l.id + 1, usedFeatures := used, usedFeaturesInOrder := order,
                splits := l.splits ++ [(splitFId, condId, false)] })

/-- `LinearObliviousTreeLeafV2::split`; `stats` is the buffer of the children,
a pointer to the first cell of a coordinate of the arena. -/
def LinearObliviousTreeLeafV2.split (l : LinearObliviousTreeLeafV2) (fId condId : Nat)
    (statsCoord statsBase : Nat) : LinearObliviousTreeLeafV2 × LinearObliviousTreeLeafV2 :=
  let origFId := l.grid.origFeatureIndex fId
  let nUsedFeatures := l.nUsedFeatures + (1 - (if origFId ∈ l.usedFeatures then 1 else 0))
  let skip := l.grid.totalBins
  let left := LinearObliviousTreeLeafV2.mk0 l.grid l.l2reg l.traceReg l.maxDepth nUsedFeatures fId
    statsCoord (statsBase + 2 * l.id * skip)
  let right := LinearObliviousTreeLeafV2.mk0 l.grid l.l2reg l.traceReg l.maxDepth nUsedFeatures fId
    statsCoord (statsBase + (2 * l.id + 1) * skip)
  l.initChildren left right fId condId

/-- The result of the split search of `fit`: `bestSplitScore`, `splitFId`, `splitCond`. -/
structure BestSplit where
  bestSplitScore : ℚ
  splitFId : ℤ
  splitCond : ℤ

/-- The accumulation `splitScores[fId][cond] += l->splitScore(fId, cond)` over the
leaves, from `0.0`. -/
def totalSplitScore (leaves : List LinearObliviousTreeLeafV2) (stats : Arena) (fId cond : Nat) : ℚ :=
  leaves.foldl (fun acc l => acc + l.splitScore stats fId cond) 0

/-- The selection loop of `fit` over the table `splitScores`: features ascending,
then conditions ascending, a candidate replaces the best one when its score is
strictly smaller; it starts from `(1e9, -1, -1)`. -/
def findBestSplit (fCount : Nat) (conditionsCount : Nat → Nat) (splitScores : Nat → Nat → ℚ) :
    BestSplit :=
  (List.range fCount).foldl
    (fun best fId =>
      (List.range (conditionsCount fId)).foldl
        (fun best cond =>
          let sScore := splitScores fId cond
          if sScore < best.bestSplitScore then
            { bestSplitScore := sScore, splitFId := fId, splitCond := cond }
          else best)
        best)
    { bestSplitScore := 1000000000, splitFId := -1, splitCond := -1 }

/-- The candidate `(f, c)` comes before position `(F, C)` of the selection loop:
the loop has already looked at it when it is about to look at `(F, C)`. -/
def SeenBefore (f c F C : Nat) : Prop := f < F ∨ (f = F ∧ c < C)

/-- The loop invariant of the selection loop at position `(F, C)`: the best score
is at most the initial bound and at most the score of every candidate seen so
far; either nothing was selected, or the selected pair is a seen candidate that
has the best score, below the bound, and every candidate seen before it scores
strictly more. -/
def SearchInv (conditionsCount : Nat → Nat) (splitScores : Nat → Nat → ℚ) (best : BestSplit)
    (F C : Nat) : Prop :=
  best.bestSplitScore ≤ 1000000000 ∧
  (∀ f c, c < conditionsCount f → SeenBefore f c F C → best.bestSplitScore ≤ splitScores f c) ∧
  ((best.splitFId = -1 ∧ best.splitCond = -1 ∧ best.bestSplitScore = 1000000000) ∨
   (∃ f c : Nat, best.splitFId = (f : ℤ) ∧ best.splitCond = (c : ℤ) ∧ c < conditionsCount f ∧
      SeenBefore f c F C ∧ best.bestSplitScore = splitScores f c ∧
      splitScores f c < 1000000000 ∧
      ∀ f2 c2, c2 < conditionsCount f2 → SeenBefore f2 c2 f c → splitScores f c < splitScores f2 c2))

/-- The dataset collaborator: `samplesCount()` and `fVal(sample, featureId)`. -/
structure DataSet where
  samplesCount : Nat
  fVal : Nat → Nat → ℚ

/-- `DataSet::fillSample(i, ids, x)`: entry `k` of the buffer receives the value
of feature `ids[k]` of sample `i`. -/
def DataSet.fillSample (ds : DataSet) (i : Nat) (ids : List Nat) : Nat → ℚ :=
  fun k => match ids[k]? with
    | some f => ds.fVal i f
    | none => 0

/-- The feature vector of sample `i`, as `isInRegion` and `value` read it. -/
def DataSet.sample (ds : DataSet) (i : Nat) : Nat → ℚ := fun f => ds.fVal i f

/-- The binarized dataset collaborator: `sampleBins(i)[fId]`. -/
structure BinarizedDataSet where
  sampleBins : Nat → Nat → Nat

/-- `GreedyLinearObliviousTreeLearnerV2`: its configuration (set by the
constructor, which is in the header), the dataset cache of `cacheDs` and the
state of one `fit` run. `stats` is the arena `stats_` (coordinates `0` and `1` for
the leaves, `2 + blockId` for the worker blocks), `h_XTX` and `h_XTy` the buffers
`h_XTX_ref_[blockId][lId][bin][i]` and `h_XTy_ref_[blockId][lId][bin]`. -/
structure GreedyLinearObliviousTreeLearnerV2 where
  grid : Grid
  maxDepth : Nat
  biasCol : ℤ
  l2reg : ℚ
  traceReg : ℚ
  nThreads : Nat
  fCount : Nat
  totalBins : Nat
  binOffsets : List Nat
  isDsCached : Bool
  fColumnsRefs : List (Nat → ℚ)
  nSamples : Nat
  fullUpdate : Nat → Bool
  samplesLeavesCnt : Nat → ℤ
  usedFeatures : Finset Nat
  usedFeaturesOrdered : List Nat
  leafId : Nat → Nat
  stats : Arena
  h_XTX : Nat → Nat → Nat → Nat → ℚ
  h_XTy : Nat → Nat → Nat → ℚ
  curLeavesCoord : Nat

/-- The cell of the arena that `stats_[thId][lId][bin]` names within coordinate `thId`. -/
def GreedyLinearObliviousTreeLearnerV2.cell (lr : GreedyLinearObliviousTreeLearnerV2)
    (lId bin : Nat) : Nat := lId * lr.totalBins + bin

/-- The unchecked read `binOffsets_[fId]`. -/
def GreedyLinearObliviousTreeLearnerV2.binOffset (lr : GreedyLinearObliviousTreeLearnerV2)
    (fId : Nat) : Nat := lr.binOffsets.getD fId 0

/-- One cell of the arena replaced by `f` of it. -/
def Arena.modify (a : Arena) (coord cell : Nat) (f : BinStat → BinStat) : Arena :=
  Function.update a coord (Function.update (a coord) cell (f (a coord cell)))

/-- The cells from `base` on in coordinate `coord` replaced by `view`: what a
method of a histogram whose `hist_` points to `(coord, base)` leaves behind. -/
def Arena.writeHist (a : Arena) (coord base : Nat) (view : Nat → BinStat) : Arena :=
  fun c cell => if c = coord ∧ base ≤ cell then view (cell - base) else a c cell

/-- `GreedyLinearObliviousTreeLearnerV2::cacheDs`. The vectors `fColumns_`,
`fullUpdate_` and `samplesLeavesCnt_` are empty before the first call; `resize`
only sets the size of the last two. -/
def GreedyLinearObliviousTreeLearnerV2.cacheDs (lr : GreedyLinearObliviousTreeLearnerV2)
    (ds : DataSet) : GreedyLinearObliviousTreeLearnerV2 :=
  if lr.isDsCached then lr
  else
    { lr with
      fColumnsRefs := (List.range lr.grid.nzFeaturesCount).map
        (fun fId => fun i => ds.fVal i (lr.grid.origFeatureIndex fId))
      nSamples := ds.samplesCount
      isDsCached := true }

/-- `GreedyLinearObliviousTreeLearnerV2::resetState`: the sets of used features
are cleared, every leaf id is `0`, the arena is zeroed and rebuilt from cells
`BinStat(…, maxDepth_ + 2, 1)`, the leaves coordinate is `0`. -/
def GreedyLinearObliviousTreeLearnerV2.resetState (lr : GreedyLinearObliviousTreeLearnerV2) :
    GreedyLinearObliviousTreeLearnerV2 :=
  { lr with
    usedFeatures := ∅
    usedFeaturesOrdered := []
    leafId := fun _ => 0
    stats := fun _ _ => BinStat.zero 1
    curLeavesCoord := 0 }

/-- The first pass of `fit` over the samples: every sample adds its full
correlation to the cell of its bin of every feature, in the buffer of its block
(`stats_[2 + blockId][0][bin]`). -/
def GreedyLinearObliviousTreeLearnerV2.rootAccumulate (lr : GreedyLinearObliviousTreeLearnerV2)
    (ds : DataSet) (bds : BinarizedDataSet) (ys : Nat → ℚ) (blockOf : Nat → Nat) : Arena :=
  (List.range lr.nSamples).foldl
    (fun stats i =>
      let x := ds.fillSample i lr.usedFeaturesOrdered
      (List.range lr.fCount).foldl
        (fun stats fId =>
          let bin := lr.binOffset fId + bds.sampleBins i fId
          stats.modify (2 + blockOf i) (lr.cell 0 bin) (fun s => s.addFullCorrelation x (ys i)))
        stats)
    lr.stats

/-- The reduction of the root pass: `stats_[2][0][bin] += stats_[2 + blockId][0][bin]`
for `blockId = 1 .. nThreads_ - 1`, for every bin. -/
def GreedyLinearObliviousTreeLearnerV2.rootReduce (lr : GreedyLinearObliviousTreeLearnerV2)
    (stats : Arena) : Arena :=
  (List.range lr.totalBins).foldl
    (fun stats bin =>
      (List.range (lr.nThreads - 1)).foldl
        (fun stats b =>
          stats.modify 2 (lr.cell 0 bin) (fun s => s.add (stats (2 + (b + 1)) (lr.cell 0 bin))))
        stats)
    stats

/-- `l->hist_->addBinStat(bin, s)` on the arena. -/
def LinearObliviousTreeLeafV2.addBinStat (l : LinearObliviousTreeLeafV2) (stats : Arena)
    (bin : Nat) (s : BinStat) : Arena :=
  stats.modify l.histCoord (l.histBase + bin) (fun t => t.add s)

/-- `l->hist_->addNewCorrelation(bin, xtx, xty, shift)` on the arena. -/
def LinearObliviousTreeLeafV2.addNewCorrelation (l : LinearObliviousTreeLeafV2) (stats : Arena)
    (bin : Nat) (xtx : Nat → ℚ) (xty : ℚ) (shift : ℤ) : Arena :=
  stats.modify l.histCoord (l.histBase + bin) (fun t => t.addNewCorrelation xtx xty shift)

/-- `l->hist_->prefixSumBins()` on the arena. -/
def LinearObliviousTreeLeafV2.prefixSumBins (l : LinearObliviousTreeLeafV2) (stats : Arena) : Arena :=
  stats.writeHist l.histCoord l.histBase (l.hist stats).prefixSumBins.hist

/-- `*dst->hist_ -= *src->hist_` on the arena. -/
def LinearObliviousTreeLeafV2.subHist (dst src : LinearObliviousTreeLeafV2) (stats : Arena) : Arena :=
  stats.writeHist dst.histCoord dst.histBase ((dst.hist stats).subHist (src.hist stats)).hist

/-- `*dst->hist_ += *src->hist_` on the arena. -/
def LinearObliviousTreeLeafV2.addHist (dst src : LinearObliviousTreeLeafV2) (stats : Arena) : Arena :=
  stats.writeHist dst.histCoord dst.histBase ((dst.hist stats).addHist (src.hist stats)).hist

/-- `*dst->hist_ += *parent->hist_ - *sibling->hist_`: `operator-` copies the
parent histogram, the copy shares the parent's cells, so the difference is
taken in the parent's cells; then they are added to `dst`. -/
def LinearObliviousTreeLeafV2.addDifference (dst parent sibling : LinearObliviousTreeLeafV2)
    (stats : Arena) : Arena :=
  dst.addHist parent (parent.subHist sibling stats)

/-- The root of `fit`: its constructor call, then the bias column is marked used. -/
def GreedyLinearObliviousTreeLearnerV2.rootLeaf (lr : GreedyLinearObliviousTreeLearnerV2) :
    LinearObliviousTreeLeafV2 :=
  { LinearObliviousTreeLeafV2.mk0 lr.grid lr.l2reg lr.traceReg (lr.maxDepth + 1) 1 (-1)
      lr.curLeavesCoord 0 with
    usedFeatures := {lr.biasCol.toNat}
    usedFeaturesInOrder := [lr.biasCol.toNat] }

/-- The part of `fit` that builds the root histogram: the sample pass, the
reduction over the blocks, `addBinStat` of every bin into the root and
`prefixSumBins`. -/
def GreedyLinearObliviousTreeLearnerV2.buildRoot (lr : GreedyLinearObliviousTreeLearnerV2)
    (ds : DataSet) (bds : BinarizedDataSet) (ys : Nat → ℚ) (blockOf : Nat → Nat) : Arena :=
  let root := lr.rootLeaf
  let stats1 := lr.rootAccumulate ds bds ys blockOf
  let stats2 := lr.rootReduce stats1
  let stats3 := (List.range lr.totalBins).foldl
    (fun stats bin => root.addBinStat stats bin (stats 2 (lr.cell 0 bin))) stats2
  root.prefixSumBins stats3

/-- Short name of the leaf type in signatures. -/
abbrev Leaf := LinearObliviousTreeLeafV2

/-- Short name of the learner type in signatures. -/
abbrev Learner := GreedyLinearObliviousTreeLearnerV2

/-- `h_XTX_ref_[blockId][lId][bin]` after one sample has added the products of a
new feature value `fVal` with the `n` used features (entries below `n`) and its
square (entry `n`). -/
def addRow (h : Nat → Nat → Nat → Nat → ℚ) (blockId lId bin n : Nat) (x : Nat → ℚ) (fVal : ℚ) :
    Nat → Nat → Nat → Nat → ℚ :=
  fun b l k i =>
    if b = blockId ∧ l = lId ∧ k = bin then
      (if i < n then h b l k i + x i * fVal else if i = n then h b l k i + fVal * fVal else h b l k i)
    else h b l k i

/-- `h_XTy_ref_[blockId][lId][bin] += v`. -/
def addCell (h : Nat → Nat → Nat → ℚ) (blockId lId bin : Nat) (v : ℚ) : Nat → Nat → Nat → ℚ :=
  fun b l k => if b = blockId ∧ l = lId ∧ k = bin then h b l k + v else h b l k

/-- The prefix step of the new correlations: entries `0 .. n` of
`h_XTX_ref_[thId][lId][bin]` and `h_XTy_ref_[thId][lId][bin]` receive those of
`bin - 1`. -/
def GreedyLinearObliviousTreeLearnerV2.prefixStep (lr : Learner) (thId lId bin n : Nat) : Learner :=
  { lr with
    h_XTX := fun b l k i =>
      if b = thId ∧ l = lId ∧ k = bin ∧ i ≤ n then lr.h_XTX b l k i + lr.h_XTX b l (bin - 1) i
      else lr.h_XTX b l k i
    h_XTy := fun b l k =>
      if b = thId ∧ l = lId ∧ k = bin then lr.h_XTy b l k + lr.h_XTy b l (bin - 1)
      else lr.h_XTy b l k }

/-- `stats_[2 + blockId][…] .addFullCorrelation(x, y)` on the cell `cell` of the
block's coordinate. -/
def GreedyLinearObliviousTreeLearnerV2.addFullAt (s : Learner) (blockId cell : Nat) (x : Nat → ℚ)
    (y : ℚ) : Learner :=
  { s with stats := s.stats.modify (2 + blockId) cell (fun t => t.addFullCorrelation x y) }

/-- The additions of one sample to the buffers of new correlations at
`[blockId][lId][bin]`: the products of `fVal` with the `n` used features, its
square, and its product with the target `y`. -/
def GreedyLinearObliviousTreeLearnerV2.addNewAt (s : Learner) (blockId lId bin n : Nat)
    (x : Nat → ℚ) (fVal y : ℚ) : Learner :=
  { s with
    h_XTX := addRow s.h_XTX blockId lId bin n x fVal
    h_XTy := addCell s.h_XTy blockId lId bin (fVal * y) }

/-- `l->hist_->addNewCorrelation(bin, h_XTX_ref_[thId][lId][bin].data(), h_XTy_ref_[thId][lId][bin], shift)`. -/
def GreedyLinearObliviousTreeLearnerV2.feedAt (s : Learner) (l : Leaf) (thId lId bin : Nat)
    (shift : ℤ) : Learner :=
  { s with stats := l.addNewCorrelation s.stats bin (s.h_XTX thId lId bin) (s.h_XTy thId lId bin) shift }

/-- `l->hist_->addBinStat(bin, stats_[2 + blockId][…])` with the cell `cell` of
the block's coordinate. -/
def GreedyLinearObliviousTreeLearnerV2.sumAt (s : Learner) (l : Leaf) (blockId cell bin : Nat) :
    Learner :=
  { s with stats := l.addBinStat s.stats bin (s.stats (2 + blockId) cell) }

/-- The correlation pass of a depth (`memset` of the buffers, then the loop over
the samples): for every feature that is not used yet, the sample adds the
products of its value with the used features, its square and its product with
the target, at its bin of the feature, its current leaf and its block. -/
def GreedyLinearObliviousTreeLearnerV2.correlate (lr : Learner) (ds : DataSet) (bds : BinarizedDataSet) (ys : Nat → ℚ)
    (blockOf : Nat → Nat) (nUsedFeatures : Nat) : Learner :=
  (List.range lr.nSamples).foldl
    (fun s sampleId =>
      let x := ds.fillSample sampleId lr.usedFeaturesOrdered
      let lId := lr.leafId sampleId
      (List.range lr.fCount).foldl
        (fun s fId =>
          let origFId := lr.grid.origFeatureIndex fId
          if origFId ∈ lr.usedFeatures then s
          else
            let bin := lr.binOffset fId + bds.sampleBins sampleId fId
            let fVal := ds.fVal sampleId origFId
            s.addNewAt (blockOf sampleId) lId bin nUsedFeatures x fVal (ys sampleId))
        s)
    { lr with h_XTX := fun _ _ _ _ => 0, h_XTy := fun _ _ _ => 0 }

/-- The reduce and prefix-sum pass of a depth: for every feature that is not
used yet and every bin of it, leaf and worker, the worker's buffer is prefix
summed in place and fed to the leaf's histogram by `addNewCorrelation`. -/
def GreedyLinearObliviousTreeLearnerV2.feedNewCorrelations (lr : Learner) (leaves : List Leaf) (nUsedFeatures : Nat) : Learner :=
  (List.range lr.fCount).foldl
    (fun s fId =>
      if lr.grid.origFeatureIndex fId ∈ lr.usedFeatures then s
      else
        (List.range (lr.grid.conditionsCount fId + 1)).foldl
          (fun s localBinId =>
            let bin := lr.binOffset fId + localBinId
            (List.range leaves.length).foldl
              (fun s lId =>
                (List.range lr.nThreads).foldl
                  (fun s thId =>
                    let s1 := if localBinId ≠ 0 then s.prefixStep thId lId bin nUsedFeatures else s
                    match leaves[lId]? with
                    | none => s1
                    | some l =>
                      s1.feedAt l thId lId bin 0)
                  s)
              s)
          s)
    lr

/-- The partition pass of a depth: the counters of the children are zeroed, every
sample of the dataset moves to the left (`2 · id`) or right (`2 · id + 1`) child
by the cached column of the split feature, the children are counted, and of
every pair of children the smaller one (the left one on a tie) is marked for the
full update. -/
def GreedyLinearObliviousTreeLearnerV2.partition (lr : Learner) (ds : DataSet) (nLeaves splitFId : Nat) (border : ℚ) : Learner :=
  let fColumnRef := lr.fColumnsRefs.getD splitFId (fun _ => 0)
  let cnt0 := (List.range nLeaves).foldl
    (fun cnt i => Function.update (Function.update cnt (2 * i) 0) (2 * i + 1) 0) lr.samplesLeavesCnt
  let moved := (List.range ds.samplesCount).foldl
    (fun (st : (Nat → Nat) × (Nat → ℤ)) i =>
      let leafId := Function.update st.1 i
        (if fColumnRef i ≤ border then 2 * st.1 i else 2 * st.1 i + 1)
      (leafId, Function.update st.2 (leafId i) (st.2 (leafId i) + 1)))
    (lr.leafId, cnt0)
  let fullUpdate := (List.range nLeaves).foldl
    (fun fu i =>
      let fu1 := Function.update fu (2 * i) (decide (moved.2 (2 * i) ≤ moved.2 (2 * i + 1)))
      Function.update fu1 (2 * i + 1) (!(fu1 (2 * i))))
    lr.fullUpdate
  { lr with leafId := moved.1, samplesLeavesCnt := moved.2, fullUpdate := fullUpdate }

/-- The new leaves of a depth: `2 · leaves.size()` null pointers, then every leaf
is split and its children are stored at the positions their ids name. -/
def GreedyLinearObliviousTreeLearnerV2.initNewLeaves (lr : Learner) (leaves : List Leaf) (splitFId splitCond : Nat) :
    List (Option Leaf) :=
  leaves.foldl
    (fun newLeaves l =>
      let splits := l.split splitFId splitCond (lr.curLeavesCoord ^^^ 1) 0
      (newLeaves.set splits.1.id (some splits.1)).set splits.2.id (some splits.2))
    (List.replicate (leaves.length * 2) none)

/-- The new leaves as the later passes dereference them: a pointer that is still
null is an error. -/
def derefLeaves : List (Option Leaf) → Except Err (List Leaf)
  | [] => .ok []
  | none :: _ => .error Err.nullLeaf
  | some l :: rest =>
    match derefLeaves rest with
    | .error e => .error e
    | .ok ls => .ok (l :: ls)

/-- The update of the used features after the split and the reset of the
statistics: the split feature is added if it is new, the buffers of the new
correlations are zeroed, and every cell of the first `nNewLeaves` leaf slots of
every coordinate but the current one is reset to the new number of features. -/
def GreedyLinearObliviousTreeLearnerV2.useFeatureAndReset (lr : Learner) (nNewLeaves splitFId : Nat) : Learner :=
  let splitOrigFId := lr.grid.origFeatureIndex splitFId
  let used := if splitOrigFId ∈ lr.usedFeatures then lr.usedFeatures
    else insert splitOrigFId lr.usedFeatures
  let order := if splitOrigFId ∈ lr.usedFeatures then lr.usedFeaturesOrdered
    else lr.usedFeaturesOrdered ++ [splitOrigFId]
  let nUsedFeatures := used.card
  { lr with
    usedFeatures := used
    usedFeaturesOrdered := order
    h_XTX := fun _ _ _ _ => 0
    h_XTy := fun _ _ _ => 0
    stats := fun thId c =>
      if thId < lr.nThreads + 2 ∧ thId ≠ lr.curLeavesCoord ∧ c < nNewLeaves * lr.totalBins then
        (lr.stats thId c).resetTo nUsedFeatures
      else lr.stats thId c }

/-- The second pass of a depth over the samples: a sample of a child marked for
the full update adds its full correlation to its bins in the buffer of its
block; a sample of the other child adds, if the split feature is new, the
correlations of that feature (`x[oldNUsedFeatures]`) to the buffers of the new
correlations. -/
def GreedyLinearObliviousTreeLearnerV2.accumulateChildren (lr : Learner) (ds : DataSet) (bds : BinarizedDataSet)
    (ys : Nat → ℚ) (blockOf : Nat → Nat) (nUsedFeatures oldNUsedFeatures : Nat) : Learner :=
  (List.range lr.nSamples).foldl
    (fun s i =>
      let x := ds.fillSample i lr.usedFeaturesOrdered
      let lId := lr.leafId i
      if lr.fullUpdate lId then
        (List.range lr.fCount).foldl
          (fun s fId =>
            let bin := lr.binOffset fId + bds.sampleBins i fId
            s.addFullAt (blockOf i) (lr.cell lId bin) x (ys i))
          s
      else if nUsedFeatures > oldNUsedFeatures then
        let fVal := x oldNUsedFeatures
        (List.range lr.fCount).foldl
          (fun s fId =>
            let bin := lr.binOffset fId + bds.sampleBins i fId
            s.addNewAt (blockOf i) lId bin oldNUsedFeatures x fVal (ys i))
          s
      else s)
    lr

/-- The prefix sums of the new correlations of the children that are not marked
for the full update, fed to their histograms with shift `-1`; skipped when the
split feature was already used. -/
def GreedyLinearObliviousTreeLearnerV2.feedDerived (lr : Learner) (newLeaves : List Leaf)
    (nUsedFeatures oldNUsedFeatures : Nat) : Learner :=
  if nUsedFeatures > oldNUsedFeatures then
    (List.range lr.fCount).foldl
      (fun s fId =>
        (List.range (lr.grid.conditionsCount fId + 1)).foldl
          (fun s localBinId =>
            let bin := lr.binOffset fId + localBinId
            (List.range newLeaves.length).foldl
              (fun s lId =>
                if !(lr.fullUpdate lId) then
                  (List.range lr.nThreads).foldl
                    (fun s thId =>
                      let s1 := if localBinId ≠ 0 then s.prefixStep thId lId bin oldNUsedFeatures
                        else s
                      match newLeaves[lId]? with
                      | none => s1
                      | some l =>
                        s1.feedAt l thId lId bin (-1))
                    s
                else s)
              s)
          s)
      lr
  else lr

/-- The sum over the blocks for the children marked for the full update:
`addBinStat(bin, stats_[2 + blockId][lId][bin])`. -/
def GreedyLinearObliviousTreeLearnerV2.sumFullChildren (lr : Learner) (newLeaves : List Leaf) : Learner :=
  (List.range lr.totalBins).foldl
    (fun s bin =>
      (List.range newLeaves.length).foldl
        (fun s lId =>
          if lr.fullUpdate lId then
            (List.range lr.nThreads).foldl
              (fun s blockId =>
                match newLeaves[lId]? with
                | none => s
                | some l =>
                  s.sumAt l blockId (lr.cell lId bin) bin)
              s
          else s)
        s)
    lr

/-- `prefixSumBins` of every child marked for the full update. -/
def GreedyLinearObliviousTreeLearnerV2.prefixFullChildren (lr : Learner) (newLeaves : List Leaf) : Learner :=
  (List.range newLeaves.length).foldl
    (fun s lId =>
      if lr.fullUpdate lId then
        match newLeaves[lId]? with
        | none => s
        | some l => { s with stats := l.prefixSumBins s.stats }
      else s)
    lr

/-- The last pass of a depth: for every parent, the child that is not marked for
the full update receives `parent - sibling`. -/
def GreedyLinearObliviousTreeLearnerV2.deriveChildren (lr : Learner) (leaves newLeaves : List Leaf) : Learner :=
  (List.range leaves.length).foldl
    (fun s lId =>
      match leaves[lId]?, newLeaves[2 * lId]?, newLeaves[2 * lId + 1]? with
      | some parent, some left, some right =>
        if lr.fullUpdate left.id then { s with stats := right.addDifference parent left s.stats }
        else { s with stats := left.addDifference parent right s.stats }
      | _, _, _ => s)
    lr

/-- The state of the growth loop of `fit`: the learner and the current leaves. -/
structure FitState where
  lr : Learner
  leaves : List Leaf

/-- The statistics of the new leaves, once the used features are updated and the
arena is reset (`nUsedFeatures = usedFeatures_.size()`): the second pass over
the samples, the new correlations of the derived children, the sums and prefix
sums of the fully updated children, and the derivation `parent - sibling`. -/
def GreedyLinearObliviousTreeLearnerV2.buildChildren (lr : Learner) (ds : DataSet) (bds : BinarizedDataSet) (ys : Nat → ℚ)
    (blockOf : Nat → Nat) (leaves newLeaves : List Leaf) (oldNUsedFeatures : Nat) : Learner :=
  let nUsedFeatures := lr.usedFeatures.card
  let lr3 := lr.accumulateChildren ds bds ys blockOf nUsedFeatures oldNUsedFeatures
  let lr4 := lr3.feedDerived newLeaves nUsedFeatures oldNUsedFeatures
  let lr5 := lr4.sumFullChildren newLeaves
  let lr6 := lr5.prefixFullChildren newLeaves
  lr6.deriveChildren leaves newLeaves

/-- The split of a depth, from the border lookup on: `borders(splitFId).at(splitCond)`
fails on a pair that is not a condition of the grid (in particular on the
initial `(-1, -1)`). -/
def GreedyLinearObliviousTreeLearnerV2.splitStep (lr : Learner) (ds : DataSet) (bds : BinarizedDataSet) (ys : Nat → ℚ)
    (blockOf : Nat → Nat) (leaves : List Leaf) (nUsedFeatures : Nat) (splitFId splitCond : ℤ) :
    Except Err FitState :=
  if splitFId < 0 ∨ splitCond < 0 then .error Err.outOfRange
  else
    match (lr.grid.borders splitFId.toNat)[splitCond.toNat]? with
    | none => .error Err.outOfRange
    | some border =>
      let lr1 := lr.partition ds leaves.length splitFId.toNat border
      match derefLeaves (lr1.initNewLeaves leaves splitFId.toNat splitCond.toNat) with
      | .error e => .error e
      | .ok newLeaves =>
        let lr2 := lr1.useFeatureAndReset newLeaves.length splitFId.toNat
        let lr7 := lr2.buildChildren ds bds ys blockOf leaves newLeaves nUsedFeatures
        .ok { lr := { lr7 with curLeavesCoord := lr7.curLeavesCoord ^^^ 1 }, leaves := newLeaves }

/-- One iteration of the growth loop of `fit`. `leaves[0]` is dereferenced for its
number of used features. -/
def depthStep (ds : DataSet) (bds : BinarizedDataSet) (ys : Nat → ℚ) (blockOf : Nat → Nat)
    (st : FitState) : Except Err FitState :=
  match st.leaves with
  | [] => .error Err.outOfRange
  | l0 :: _ =>
    let nUsedFeatures := l0.nUsedFeatures
    let lr1 := st.lr.correlate ds bds ys blockOf nUsedFeatures
    let lr2 := lr1.feedNewCorrelations st.leaves nUsedFeatures
    let best := findBestSplit lr2.fCount lr2.grid.conditionsCount (totalSplitScore st.leaves lr2.stats)
    lr2.splitStep ds bds ys blockOf st.leaves nUsedFeatures best.splitFId best.splitCond

/-- The learner when an iteration of the growth loop reaches the split search:
after the correlation pass and the reduce pass of the iteration. -/
def correlated (ds : DataSet) (bds : BinarizedDataSet) (ys : Nat → ℚ) (blockOf : Nat → Nat)
    (st : FitState) : Learner :=
  match st.leaves with
  | [] => st.lr
  | l0 :: _ =>
    (st.lr.correlate ds bds ys blockOf l0.nUsedFeatures).feedNewCorrelations st.leaves
      l0.nUsedFeatures

/-- The growth loop of `fit`: `n` iterations. -/
def growLoop (ds : DataSet) (bds : BinarizedDataSet) (ys : Nat → ℚ) (blockOf : Nat → Nat) :
    Nat → FitState → Except Err FitState
  | 0, st => .ok st
  | n + 1, st =>
    match depthStep ds bds ys blockOf st with
    | .error e => .error e
    | .ok st1 => growLoop ds bds ys blockOf n st1

/-- The final loop of `fit`: `l->fit()` for every leaf. -/
def fitLeaves (stats : Arena) : List Leaf → Except Err (List Leaf)
  | [] => .ok []
  | l :: rest =>
    match l.fit stats with
    | .error e => .error e
    | .ok l1 =>
      match fitLeaves stats rest with
      | .error e => .error e
      | .ok ls => .ok (l1 :: ls)

/-- `LinearObliviousTreeV2`: the grid, the scale and the leaves. -/
structure LinearObliviousTreeV2 where
  grid : Grid
  scale : ℚ
  leaves : List Leaf

/-- The state of `fit` when the root is built: the dataset is cached, the state
reset, the bias column marked used, and the root histogram accumulated. -/
def GreedyLinearObliviousTreeLearnerV2.rootState (lr : Learner) (ds : DataSet) (bds : BinarizedDataSet) (ys : Nat → ℚ)
    (blockOf : Nat → Nat) : FitState :=
  let lr1 := (lr.cacheDs ds).resetState
  let lr2 := { lr1 with
    usedFeatures := insert lr.biasCol.toNat lr1.usedFeatures
    usedFeaturesOrdered := lr1.usedFeaturesOrdered ++ [lr.biasCol.toNat] }
  { lr := { lr2 with stats := lr2.buildRoot ds bds ys blockOf }, leaves := [lr2.rootLeaf] }

/-- The statements of `fit` before the test of the bias column: `cacheDs`,
`resetState`, and the bias column marked used. The sets of the model hold
natural numbers: the bias column enters as `biasCol.toNat`, which is the column
itself on every call that passes the test. -/
def GreedyLinearObliviousTreeLearnerV2.prologue (lr : Learner) (ds : DataSet) : Learner :=
  { (lr.cacheDs ds).resetState with
    usedFeatures := insert lr.biasCol.toNat (lr.cacheDs ds).resetState.usedFeatures
    usedFeaturesOrdered := (lr.cacheDs ds).resetState.usedFeaturesOrdered ++ [lr.biasCol.toNat] }

/-- The learner the growth loop leaves behind: the learner after the last
iteration when every iteration returns; when an iteration throws, the learner
at the throw, which is the learner after the correlation update of that
iteration (the border lookup is the throwing statement of an iteration, and the
split search before it writes local variables only; a null leaf, which no run
meets, is put at the same point). -/
def growLoopLearner (ds : DataSet) (bds : BinarizedDataSet) (ys : Nat → ℚ) (blockOf : Nat → Nat) :
    Nat → FitState → Learner
  | 0, st => st.lr
  | n + 1, st =>
    match depthStep ds bds ys blockOf st with
    | .error _ => correlated ds bds ys blockOf st
    | .ok st1 => growLoopLearner ds bds ys blockOf n st1

/-- The run of `GreedyLinearObliviousTreeLearnerV2::fit`, in the order of its
statements: `cacheDs`, `resetState` and the two insertions of the bias column
(`prologue`); the test `biasCol_ == -1`, which throws "provide bias col!"; the
root and its histogram; the growth loop; the fit of every leaf. The result is
the learner the call leaves behind together with the tree it returns or the
exception it throws. `bds` is the result of `cachedBinarize`, `ys` the targets,
`blockOf` the block `parallelFor` gives a sample to, `scale` the scale the
constructor of the tree sets. -/
def GreedyLinearObliviousTreeLearnerV2.fitRun (lr : Learner) (ds : DataSet) (bds : BinarizedDataSet)
    (ys : Nat → ℚ) (blockOf : Nat → Nat) (scale : ℚ) :
    Learner × Except Err LinearObliviousTreeV2 :=
  let lr2 := lr.prologue ds
  if lr.biasCol = -1 then (lr2, .error Err.noBias)
  else
    let root : FitState :=
      { lr := { lr2 with stats := lr2.buildRoot ds bds ys blockOf }, leaves := [lr2.rootLeaf] }
    match growLoop ds bds ys blockOf lr.maxDepth root with
    | .error e => (growLoopLearner ds bds ys blockOf lr.maxDepth root, .error e)
    | .ok st =>
      match fitLeaves st.lr.stats st.leaves with
      | .error e => (st.lr, .error e)
      | .ok leaves => (st.lr, .ok { grid := lr.grid, scale := scale, leaves := leaves })

/-- `GreedyLinearObliviousTreeLearnerV2::fit` as its caller sees it: the tree
and the learner when the call returns (the cache and the state of the learner
outlive the call), the exception when it throws; `fitRun` has the learner the
call leaves behind in that case too. -/
def GreedyLinearObliviousTreeLearnerV2.fit (lr : Learner) (ds : DataSet) (bds : BinarizedDataSet) (ys : Nat → ℚ)
    (blockOf : Nat → Nat) (scale : ℚ) : Except Err (LinearObliviousTreeV2 × Learner) :=
  match lr.fitRun ds bds ys blockOf scale with
  | (_, .error e) => .error e
  | (lr2, .ok tree) => .ok (tree, lr2)

/-- The loop of `LinearObliviousTreeV2::value` over the leaves. -/
def treeValueLoop (scale : ℚ) (x : Nat → ℚ) : List Leaf → Except Err ℚ
  | [] => .error Err.noRegion
  | l :: rest =>
    match l.isInRegion x with
    | .error e => .error e
    | .ok true =>
      match l.value x with
      | .error e => .error e
      | .ok v => .ok (scale * v)
    | .ok false => treeValueLoop scale x rest

/-- `LinearObliviousTreeV2::value`. -/
def LinearObliviousTreeV2.value (t : LinearObliviousTreeV2) (x : Nat → ℚ) : Except Err ℚ :=
  treeValueLoop t.scale x t.leaves

/-- The learner without its statistics buffers: what the passes that only write
`stats_`, `h_XTX_` and `h_XTy_` leave unchanged. -/
def GreedyLinearObliviousTreeLearnerV2.eraseBuffers (lr : Learner) : Learner :=
  { lr with stats := fun _ _ => BinStat.zero 0, h_XTX := fun _ _ _ _ => 0, h_XTy := fun _ _ _ => 0 }

/-- The children of the leaves of one level, in the order of their ids: what
`initNewLeaves` stores when the leaf at position `j` has id `j`. -/
def childrenOf (leaves : List Leaf) (splitFId splitCond statsCoord : Nat) : List Leaf :=
  leaves.flatMap (fun l =>
    [(l.split splitFId splitCond statsCoord 0).1, (l.split splitFId splitCond statsCoord 0).2])

/-- Of the leaves, exactly the one at position `k` accepts `x`; every other one
rejects it, and no lookup of `isInRegion` fails. -/
def RegionAt (leaves : List Leaf) (x : Nat → ℚ) (k : Nat) : Prop :=
  k < leaves.length ∧ ∀ (j : Nat) (l : Leaf), leaves[j]? = some l → l.isInRegion x = .ok (decide (j = k))

/-- Every leaf stands at the position its id names and shares the grid `g`. -/
def LeavesIndexed (g : Grid) (leaves : List Leaf) : Prop :=
  ∀ (j : Nat) (l : Leaf), leaves[j]? = some l → l.id = j ∧ l.grid = g

/-- The settings and the dataset cache of the learner, without the state of a
run: what one iteration of the growth loop leaves unchanged. -/
def GreedyLinearObliviousTreeLearnerV2.settings (lr : Learner) : Learner :=
  { lr.eraseBuffers with
    fullUpdate := fun _ => false
    samplesLeavesCnt := fun _ => 0
    usedFeatures := ∅
    usedFeaturesOrdered := []
    leafId := fun _ => 0
    curLeavesCoord := 0 }

/-- The leaf id of sample `i` after the partition pass on the cached column
`col` of the split feature. -/
def routedLeafId (col : Nat → ℚ) (border : ℚ) (leafId : Nat → Nat) (samplesCount : Nat) (i : Nat) :
    Nat :=
  if i < samplesCount then (if col i ≤ border then 2 * leafId i else 2 * leafId i + 1) else leafId i

/-- The column cache of the learner holds the columns of `ds`: the cached column
of every local feature is the column of its original feature in `ds`. -/
def GreedyLinearObliviousTreeLearnerV2.CacheFor (lr : Learner) (ds : DataSet) : Prop :=
  ∀ f i, f < lr.fCount → (lr.fColumnsRefs.getD f (fun _ => 0)) i = ds.fVal i (lr.grid.origFeatureIndex f)

/-- A grid for the learner examples: one local feature, original feature `1`,
one border at `1/2` (bins `0` and `1`); original feature `0` is the bias column. -/
def exTreeGrid : Grid :=
  { nzFeaturesCount := 1, conditionsCount := fun _ => 1, binOffsets := [0], totalBins := 2,
    nzFeatures := [1], borders := fun _ => [1 / 2], origFeatureIndex := fun _ => 1 }

/-- A freshly constructed learner over `exTreeGrid`: depth `1`, bias column `0`,
`l2reg = 1`, one worker, nothing cached. -/
def exLearner : Learner :=
  { grid := exTreeGrid, maxDepth := 1, biasCol := 0, l2reg := 1, traceReg := 0, nThreads := 1,
    fCount := 1, totalBins := 2, binOffsets := [0], isDsCached := false, fColumnsRefs := [],
    nSamples := 0, fullUpdate := fun _ => false, samplesLeavesCnt := fun _ => 0, usedFeatures := ∅,
    usedFeaturesOrdered := [], leafId := fun _ => 0, stats := fun _ _ => BinStat.zero 1,
    h_XTX := fun _ _ _ _ => 0, h_XTy := fun _ _ _ => 0, curLeavesCoord := 0 }

/-- Two samples: bias `1`, feature `1` is `0` for sample `0` and `1` for sample `1`. -/
def exDs : DataSet := { samplesCount := 2, fVal := fun i f => if f = 0 then 1 else (i : ℚ) }

/-- The bins of `exDs` on `exTreeGrid`. -/
def exBds : BinarizedDataSet := { sampleBins := fun i _ => i }

/-- The same two samples in the other order: feature `1` is `1` for sample `0`
and `0` for sample `1`. -/
def exDsSwapped : DataSet :=
  { samplesCount := 2, fVal := fun i f => if f = 0 then 1 else 1 - (i : ℚ) }

/-- The bins of `exDsSwapped` on `exTreeGrid`. -/
def exBdsSwapped : BinarizedDataSet := { sampleBins := fun i _ => 1 - i }

/-- The targets of the examples: sample `i` has target `i`. -/
def exYs : Nat → ℚ := fun i => i

/-- The call returned a value (it did not throw). -/
def returned {α : Type} (r : Except Err α) : Bool :=
  match r with
  | .ok _ => true
  | .error _ => false

/-- A second `fit` call, on `ds2`, of a learner that has already fitted `ds1`:
after the first depth level, does the leaf at position `leafId_[i]` reject
sample `i` of `ds2`? -/
def secondFitMisroutes (lr : Learner) (ds1 : DataSet) (bds1 : BinarizedDataSet) (ds2 : DataSet)
    (bds2 : BinarizedDataSet) (ys : Nat → ℚ) (i : Nat) : Bool :=
  match lr.fit ds1 bds1 ys (fun _ => 0) 1 with
  | .error _ => false
  | .ok (_, lr1) =>
    match growLoop ds2 bds2 ys (fun _ => 0) 1 (lr1.rootState ds2 bds2 ys (fun _ => 0)) with
    | .error _ => false
    | .ok st =>
      match st.leaves[st.lr.leafId i]? with
      | none => false
      | some l =>
        match l.isInRegion (ds2.sample i) with
        | .ok false => true
        | _ => false

/-- The root leaf of `exLearner` as the split search sees it. -/
def exRoot : Leaf := (exLearner.rootState exDs exBds exYs (fun _ => 0)).lr.rootLeaf

/-- An arena whose every coordinate holds the cells of `exHist`. -/
def exArena : Arena := fun _ cell => exHist.hist cell

/-- One number of a sufficient statistic: the sample count, an entry of the
cross-product matrix, or an entry of the cross-target vector. -/
inductive Entry where
  | cnt
  | xtx (a b : Nat)
  | xty (a : Nat)

/-- The entry lies in the block of the first `n` features (the count always does). -/
def Entry.InBlock (n : Nat) : Entry → Prop
  | .cnt => True
  | .xtx a b => a < n ∧ b < n
  | .xty a => a < n

/-- The value a statistic holds at an entry. -/
def BinStat.val (s : BinStat) : Entry → ℚ
  | .cnt => (s.cnt : ℚ)
  | .xtx a b => s.XTX a b
  | .xty a => s.XTy a

/-- What one sample with feature vector `x` and target `y` contributes to an
entry: `1` to the count, `x_a · x_b` to the matrix, `x_a · y` to the vector. -/
def sampleVal (x : Nat → ℚ) (y : ℚ) : Entry → ℚ
  | .cnt => 1
  | .xtx a b => x a * x b
  | .xty a => x a * y

/-- The cumulative statistic of leaf `lId` at bin `k` of feature `f`, entry `e`:
the sum of the contributions of the samples that are in the leaf and whose bin
of feature `f` is at most `k`, over the features the learner uses now. -/
def cumulativeVal (lr : Learner) (ds : DataSet) (bds : BinarizedDataSet) (ys : Nat → ℚ)
    (lId f k : Nat) (e : Entry) : ℚ :=
  ∑ i in Finset.range lr.nSamples,
    if lr.leafId i = lId ∧ bds.sampleBins i f ≤ k then
      sampleVal (ds.fillSample i lr.usedFeaturesOrdered) (ys i) e
    else 0

/-- The contracts between the learner, its grid, the binarized dataset and the
scheduler that the statistics rely on: the learner's feature count, bin offsets
and bin count are the grid's; the bin ranges of the features are disjoint and
lie below the bin count; every sample's bin of a feature is one of the feature's
bins; every block is one of the learner's workers. -/
structure Configured (lr : Learner) (bds : BinarizedDataSet) (blockOf : Nat → Nat) : Prop where
  fCount_eq : lr.fCount = lr.grid.nzFeaturesCount
  offset_eq : ∀ f, f < lr.fCount → lr.binOffset f = lr.grid.offset f
  totalBins_eq : lr.totalBins = lr.grid.totalBins
  disjoint : lr.grid.DisjointBins
  inRange : ∀ f, f < lr.fCount → lr.grid.offset f + lr.grid.conditionsCount f < lr.grid.totalBins
  binsOk : ∀ i f, f < lr.fCount → bds.sampleBins i f ≤ lr.grid.conditionsCount f
  blockOk : ∀ i, blockOf i < lr.nThreads

/-- What one sample with feature vector `x` contributes to entry `a` of the
buffer of new correlations of the feature at position `o` of `x`: the product
with a used feature (`a < o`) or the square (`a = o`). -/
def rowVal (o : Nat) (x : Nat → ℚ) (a : Nat) : ℚ :=
  if a < o then x a * x o else if a = o then x o * x o else 0

/-- What `addNewCorrelation(xtx, xty, ·)` adds to an entry when it writes row and
column `p`. -/
def newVal (p : Nat) (xtx : Nat → ℚ) (xty : ℚ) : Entry → ℚ
  | .cnt => 0
  | .xtx a b => if a = p ∧ b ≤ p then xtx b else if b = p ∧ a < p then xtx a else 0
  | .xty a => if a = p then xty else 0

/-- The part of the learner's buffers that belongs to one leaf and one feature:
the buffers of new correlations `h_XTX_ref_[th][l][off + k]`,
`h_XTy_ref_[th][l][off + k]` and the cells `base + off + k` of coordinate `coord`,
for the bins `k ≤ cc` of the feature. -/
structure Slice where
  hx : Nat → Nat → Nat → ℚ
  hy : Nat → Nat → ℚ
  cells : Nat → BinStat

/-- The slice of leaf slot `l` (cells from `base` in coordinate `coord`) and of
the feature with bin offset `off` and `cc` conditions. -/
def sliceOf (lr : Learner) (coord base l off cc : Nat) : Slice :=
  { hx := fun th k a => if k ≤ cc then lr.h_XTX th l (off + k) a else 0
    hy := fun th k => if k ≤ cc then lr.h_XTy th l (off + k) else 0
    cells := fun k => if k ≤ cc then lr.stats coord (base + (off + k)) else BinStat.zero 0 }

/-- One step of the prefix-and-feed loops seen on a slice: worker `th` adds bin
`lb - 1` of its buffers to bin `lb` (entries `0 .. o`, when `lb ≠ 0`) and feeds
bin `lb` to the cell of bin `lb`. -/
def Slice.feedStep (t : Slice) (cc o : Nat) (shift : ℤ) (lb th : Nat) : Slice :=
  let hx := fun th2 k a =>
    if th2 = th ∧ k = lb ∧ lb ≠ 0 ∧ a ≤ o ∧ lb ≤ cc then t.hx th2 k a + t.hx th2 (k - 1) a
    else t.hx th2 k a
  let hy := fun th2 k =>
    if th2 = th ∧ k = lb ∧ lb ≠ 0 ∧ lb ≤ cc then t.hy th2 k + t.hy th2 (k - 1) else t.hy th2 k
  { hx := hx
    hy := hy
    cells := fun k =>
      if k = lb ∧ lb ≤ cc then (t.cells k).addNewCorrelation (hx th lb) (hy th lb) shift
      else t.cells k }

/-- Every leaf of the list keeps its histogram in coordinate `coord`, in the
region of its position: `hist_` points to cell `position · totalBins`. -/
def Layout (leaves : List Leaf) (coord totalBins : Nat) : Prop :=
  ∀ (j : Nat) (l : Leaf), leaves[j]? = some l → l.histCoord = coord ∧ l.histBase = j * totalBins

/-- Entry `a` of the buffer of new correlations of worker `th` at bin `k` of a
slice, once the prefix sums over the bins `0 .. k` are taken (entries `0 .. o`). -/
def prefRow (t0 : Slice) (o th k : Nat) : Nat → ℚ :=
  fun a => if a ≤ o then ∑ j in Finset.range (k + 1), t0.hx th j a else t0.hx th k a

/-- The cross-target buffer of worker `th` at bin `k` of a slice after the prefix sums. -/
def prefY (t0 : Slice) (th k : Nat) : ℚ := ∑ j in Finset.range (k + 1), t0.hy th j

/-- The cell of bin `k` of a slice once the first `TH` workers have fed their
prefix-summed buffers to it. -/
def fedCell (t0 : Slice) (o : Nat) (shift : ℤ) (k TH : Nat) : BinStat :=
  (List.range TH).foldl
    (fun c th => c.addNewCorrelation (prefRow t0 o th k) (prefY t0 th k) shift) (t0.cells k)

/-- The invariant of the prefix-and-feed loops on a slice, when the bins below
`LB` are done and the workers below `TH` have done bin `LB`. -/
structure FeedInv (t0 : Slice) (cc o : Nat) (shift : ℤ) (T LB TH : Nat) (t : Slice) : Prop where
  hx_done : ∀ th k a, th < T → k ≤ cc → (k < LB ∨ (k = LB ∧ th < TH)) →
    t.hx th k a = prefRow t0 o th k a
  hx_todo : ∀ th k a, ¬ (th < T ∧ k ≤ cc ∧ (k < LB ∨ (k = LB ∧ th < TH))) →
    t.hx th k a = t0.hx th k a
  hy_done : ∀ th k, th < T → k ≤ cc → (k < LB ∨ (k = LB ∧ th < TH)) →
    t.hy th k = prefY t0 th k
  hy_todo : ∀ th k, ¬ (th < T ∧ k ≤ cc ∧ (k < LB ∨ (k = LB ∧ th < TH))) →
    t.hy th k = t0.hy th k
  cells_done : ∀ k, k ≤ cc → k < LB → t.cells k = fedCell t0 o shift k T
  cells_cur : LB ≤ cc → t.cells LB = fedCell t0 o shift LB TH
  cells_todo : ∀ k, (cc < k ∨ LB < k) → t.cells k = t0.cells k

/-- The learner after the statistics passes of the split step on feature
`splitFId` at condition `splitCond` with border `border`, before the leaves
coordinate is flipped; `nUsedFeatures` is the number of used features before
the split. -/
def splitLearner (ds : DataSet) (bds : BinarizedDataSet) (ys : Nat → ℚ) (blockOf : Nat → Nat)
    (st : FitState) (nUsedFeatures splitFId splitCond : Nat) (border : ℚ) : Learner :=
  let lr2 := correlated ds bds ys blockOf st
  let newLeaves := childrenOf st.leaves splitFId splitCond (lr2.curLeavesCoord ^^^ 1)
  ((lr2.partition ds st.leaves.length splitFId border).useFeatureAndReset newLeaves.length
    splitFId).buildChildren ds bds ys blockOf st.leaves newLeaves nUsedFeatures

/-- The shape of the state of the growth loop: the leaves coordinate is `0` or
`1`; the learner's bin count is the grid's, whose bin ranges are disjoint and
lie below it; the leaf at position `j` has id `j`, the learner's grid, its
histogram at cell `j · totalBins` of the leaves coordinate and the learner's
used features; and every cell of a leaf's histogram is filled to the number of
used features. -/
structure Shape (st : FitState) : Prop where
  cur_le : st.lr.curLeavesCoord ≤ 1
  totalBins_eq : st.lr.totalBins = st.lr.grid.totalBins
  disjoint : st.lr.grid.DisjointBins
  inRange : ∀ f, f < st.lr.grid.nzFeaturesCount →
    st.lr.grid.offset f + st.lr.grid.conditionsCount f < st.lr.grid.totalBins
  indexed : LeavesIndexed st.lr.grid st.leaves
  layout : Layout st.leaves st.lr.curLeavesCoord st.lr.grid.totalBins
  nUsed : ∀ (j : Nat) (l : Leaf), st.leaves[j]? = some l →
    l.nUsedFeatures = st.lr.usedFeatures.card ∧ l.usedFeatures = st.lr.usedFeatures
  filled : ∀ p b, p < st.leaves.length → b < st.lr.grid.totalBins →
    (st.lr.stats st.lr.curLeavesCoord (p * st.lr.grid.totalBins + b)).filledSize
      = st.lr.usedFeatures.card

/-- What the steps of a split before its statistics passes establish, for the
learner `lrD` they leave (after the partition pass and the reset), the selected
feature `f`, condition `c` and border: the new leaves are the children in the
order of their ids; the learner keeps its settings; the split feature is
appended to the used features if it is new; every sample is routed by the
cached column; of every pair of children exactly one is marked for the full
update; the cells of the parents are the ones the split search read; the cells
of the children and of the blocks are zeroed at the new number of used
features, and so are the buffers of new correlations; and the statistics of
the next state are the ones the statistics passes compute from `lrD`. -/
structure SplitContext (ds : DataSet) (bds : BinarizedDataSet) (ys : Nat → ℚ)
    (blockOf : Nat → Nat) (st st2 : FitState) (lrD : Learner) (f c : Nat) (border : ℚ) : Prop where
  f_lt : f < st.lr.fCount
  leaves_eq : st2.leaves = childrenOf st.leaves f c (st.lr.curLeavesCoord ^^^ 1)
  stats_eq : st2.lr.stats
    = (lrD.buildChildren ds bds ys blockOf st.leaves
        (childrenOf st.leaves f c (st.lr.curLeavesCoord ^^^ 1)) st.lr.usedFeatures.card).stats
  leafId2 : st2.lr.leafId = lrD.leafId
  used2 : st2.lr.usedFeatures = lrD.usedFeatures
  order2 : st2.lr.usedFeaturesOrdered = lrD.usedFeaturesOrdered
  fullUpdate2 : st2.lr.fullUpdate = lrD.fullUpdate
  settings2 : st2.lr.settings = st.lr.settings
  settingsD : lrD.settings = st.lr.settings
  usedD : lrD.usedFeatures
    = if st.lr.grid.origFeatureIndex f ∈ st.lr.usedFeatures then st.lr.usedFeatures
      else insert (st.lr.grid.origFeatureIndex f) st.lr.usedFeatures
  orderD : lrD.usedFeaturesOrdered
    = if st.lr.grid.origFeatureIndex f ∈ st.lr.usedFeatures then st.lr.usedFeaturesOrdered
      else st.lr.usedFeaturesOrdered ++ [st.lr.grid.origFeatureIndex f]
  lidD : ∀ i, lrD.leafId i
    = routedLeafId (st.lr.fColumnsRefs.getD f (fun _ => 0)) border st.lr.leafId ds.samplesCount i
  complD : ∀ p, p < st.leaves.length → lrD.fullUpdate (2 * p + 1) = !(lrD.fullUpdate (2 * p))
  curD : ∀ cell, lrD.stats st.lr.curLeavesCoord cell
    = (correlated ds bds ys blockOf st).stats st.lr.curLeavesCoord cell
  zeroD : ∀ c q b, c < st.lr.nThreads + 2 → c ≠ st.lr.curLeavesCoord →
    q < 2 * st.leaves.length → b < st.lr.grid.totalBins →
    lrD.stats c (q * st.lr.grid.totalBins + b) = BinStat.zero lrD.usedFeatures.card
  hxD : lrD.h_XTX = fun _ _ _ _ => 0
  hyD : lrD.h_XTy = fun _ _ _ => 0

/-- The invariant of the growth loop on the statistics: the state has its shape,
the learner is configured for the binarized dataset and the scheduler, its
sample count is the dataset's, the list of used features is as long as their
set, and the cell of bin `k` of feature `f` of the leaf at position `p` holds, on
the block of the used features, the cumulative statistic of the samples of the
leaf. -/
structure StatInv (ds : DataSet) (bds : BinarizedDataSet) (ys : Nat → ℚ) (blockOf : Nat → Nat)
    (st : FitState) : Prop where
  shape : Shape st
  cfg : Configured st.lr bds blockOf
  nsamp : st.lr.nSamples = ds.samplesCount
  order_len : st.lr.usedFeaturesOrdered.length = st.lr.usedFeatures.card
  vals : ∀ (p f k : Nat) (e : Entry), p < st.leaves.length → f < st.lr.fCount →
    k ≤ st.lr.grid.conditionsCount f → e.InBlock st.lr.usedFeatures.card →
    (st.lr.stats st.lr.curLeavesCoord
      (p * st.lr.grid.totalBins + (st.lr.grid.offset f + k))).val e
      = cumulativeVal st.lr ds bds ys p f k e

/-- The histogram of leaf `lId` in the words of the specification: a full rescan
of the leaf's own samples (every cell starts zeroed at the number of used
features, every sample of the leaf adds its full correlation over the used
features at its bin of every feature) followed by `prefixSumBins`. -/
def rescanHistogram (lr : Learner) (ds : DataSet) (bds : BinarizedDataSet) (ys : Nat → ℚ)
    (lId : Nat) : HistogramV2 :=
  let raw : Nat → BinStat := (List.range lr.nSamples).foldl
    (fun hist i =>
      if lr.leafId i = lId then
        (List.range lr.fCount).foldl
          (fun hist fId =>
            let bin := lr.binOffset fId + bds.sampleBins i fId
            Function.update hist bin
              ((hist bin).addFullCorrelation (ds.fillSample i lr.usedFeaturesOrdered) (ys i)))
          hist
      else hist)
    (fun _ => BinStat.zero lr.usedFeatures.card)
  HistogramV2.prefixSumBins
    { grid := lr.grid, nUsedFeatures := lr.usedFeatures.card, lastUsedFeatureId := -1, hist := raw }

/-- The bins of `exDs` on `exTreeGrid` as a total table: every index beyond the
two samples is put in the last bin. -/
def exBdsTotal : BinarizedDataSet := { sampleBins := fun i _ => min i 1 }

/-- The call returned a state whose position `q` holds a leaf that is not marked
for the full update. -/
def derivedAt (r : Except Err FitState) (q : Nat) : Bool :=
  match r with
  | .ok st => (st.leaves[q]?).isSome && !(st.lr.fullUpdate q)
  | .error _ => false

/-- `HistogramV2::printCnt`; the result is the count it prints. -/
def HistogramV2.printCnt (h : HistogramV2) : Except Err ℤ :=
  if h.lastUsedFeatureId = -1 then .error Err.noFeatures
  else
    match (if 0 ≤ h.lastUsedFeatureId then h.grid.binOffsets[h.lastUsedFeatureId.toNat]? else none) with
    | none => .error Err.outOfRange
    | some offset =>
      let lastPos := offset + h.grid.conditionsCount h.lastUsedFeatureId.toNat
      .ok (h.hist lastPos).getCnt

/-- The left child of the root of `exLearner` after a split on the only
candidate, with its histogram in coordinate `0`. -/
def exChild : Leaf := (exRoot.split 0 0 0 0).1

/-- A tree of one fitted leaf over `exTreeGrid`: the root of `exLearner` with the
weight column `(1)`. -/
def exTree : LinearObliviousTreeV2 :=
  { grid := exTreeGrid, scale := 2,
    leaves := [{ exRoot with w := some { rows := 1, val := fun _ => 1 } }] }

/-- A tree of two fitted leaves over `exTreeGrid`: the children of the root of
`exLearner` for its only candidate (the feature at the border `1/2`), the left
one with the weights `(1, 1)`, the right one with the weights `(1, 2)`. -/
def exTwoLeafTree : LinearObliviousTreeV2 :=
  { grid := exTreeGrid, scale := 2,
    leaves :=
      [{ (exRoot.split 0 0 1 0).1 with w := some { rows := 2, val := fun _ => 1 } },
       { (exRoot.split 0 0 1 0).2 with w := some { rows := 2, val := fun i => (i : ℚ) + 1 } }] }

/-- The tree of the left leaf of `exTwoLeafTree` alone. -/
def exLeftLeafTree : LinearObliviousTreeV2 :=
  { grid := exTreeGrid, scale := 2,
    leaves := [{ (exRoot.split 0 0 1 0).1 with w := some { rows := 2, val := fun _ => 1 } }] }

/-- The number of samples `s < samplesCount` whose leaf id is `q`. -/
def samplesIn (leafId : Nat → Nat) (samplesCount q : Nat) : Nat :=
  ((Finset.range samplesCount).filter (fun s => leafId s = q)).card

/-- The result of the split search of an iteration of the growth loop that starts
in state `st`: the selection loop over the table of the totals of the current
leaves, on the statistics after the correlation update. -/
def selectedSplit (ds : DataSet) (bds : BinarizedDataSet) (ys : Nat → ℚ) (blockOf : Nat → Nat)
    (st : FitState) : BestSplit :=
  findBestSplit (correlated ds bds ys blockOf st).fCount
    (correlated ds bds ys blockOf st).grid.conditionsCount
    (totalSplitScore st.leaves (correlated ds bds ys blockOf st).stats)

/-- The test of `splitScore` for a degenerate bin: `condId != 0` and no sample in
the bin (`cnt_binPos - hist_[binPos - 1].getCnt() == 0`). -/
def HistogramV2.degenerate (h : HistogramV2) (fId condId : Nat) : Bool :=
  decide (condId ≠ 0 ∧
    (h.hist (h.binPos fId condId)).getCnt - (h.hist (h.binPos fId condId - 1)).getCnt = 0)

/-- A grid with one local feature (original feature `1`) and two borders, `1/2`
and `3/2`: bins `0`, `1` and `2`. -/
def exWideGrid : Grid :=
  { nzFeaturesCount := 1, conditionsCount := fun _ => 2, binOffsets := [0], totalBins := 3,
    nzFeatures := [1], borders := fun _ => [1 / 2, 3 / 2], origFeatureIndex := fun _ => 1 }

/-- A freshly constructed learner over `exWideGrid` with trace regulariser
`traceReg`: depth `1`, bias column `0`, `l2reg = 1`, one worker. -/
def exWideLearner (traceReg : ℚ) : Learner :=
  { exLearner with grid := exWideGrid, totalBins := 3, traceReg := traceReg }

/-- Two samples: bias `1`, feature `1` is `0` for sample `0` and `3000` for
sample `1`. -/
def exFarDs : DataSet := { samplesCount := 2, fVal := fun i f => if f = 0 then 1 else 3000 * (i : ℚ) }

/-- The bins of `exFarDs` on `exWideGrid`: bin `0` and bin `2`; no sample is in
bin `1`. -/
def exFarBds : BinarizedDataSet := { sampleBins := fun i _ => 2 * i }

/-- The root state of `fit` of `exWideLearner traceReg` on `exFarDs`. -/
def exFarRoot (traceReg : ℚ) : FitState :=
  (exWideLearner traceReg).rootState exFarDs exFarBds exYs (fun _ => 0)

/-- The learner `exLearner` with depth `2`. -/
def exDeepLearner : Learner := { exLearner with maxDepth := 2 }

/-- Does the second iteration of the growth loop of `fit` return, having selected
the pair that the first iteration selected? -/
def reselects (lr : Learner) (ds : DataSet) (bds : BinarizedDataSet) (ys : Nat → ℚ)
    (blockOf : Nat → Nat) : Bool :=
  match depthStep ds bds ys blockOf (lr.rootState ds bds ys blockOf) with
  | .error _ => false
  | .ok st1 =>
    returned (depthStep ds bds ys blockOf st1) &&
    decide ((selectedSplit ds bds ys blockOf st1).splitFId
      = (selectedSplit ds bds ys blockOf (lr.rootState ds bds ys blockOf)).splitFId) &&
    decide ((selectedSplit ds bds ys blockOf st1).splitCond
      = (selectedSplit ds bds ys blockOf (lr.rootState ds bds ys blockOf)).splitCond)

/-- The invariant of the growth loop after `d` splits, for the grid `g` and the
bias column `bias` of the learner that runs `fit`: the leaf at position `j` has
id `j` and the grid `g`; there are `2 ^ d` leaves, each with a path of `d`
splits; every leaf has the learner's ordered list and set of used features and
counts them; the list starts with the bias column, has no duplicates, the
elements of the set and at most `d + 1` entries; every leaf id of a sample is
below `2 ^ d`. -/
structure LevelInv (g : Grid) (bias d : Nat) (st : FitState) : Prop where
  indexed : LeavesIndexed g st.leaves
  grid_eq : st.lr.grid = g
  length_eq : st.leaves.length = 2 ^ d
  paths : ∀ (j : Nat) (l : Leaf), st.leaves[j]? = some l → l.splits.length = d
  used : ∀ (j : Nat) (l : Leaf), st.leaves[j]? = some l →
    l.usedFeaturesInOrder = st.lr.usedFeaturesOrdered ∧ l.usedFeatures = st.lr.usedFeatures ∧
    l.nUsedFeatures = st.lr.usedFeaturesOrdered.length
  head : st.lr.usedFeaturesOrdered.head? = some bias
  nodup : st.lr.usedFeaturesOrdered.Nodup
  same : ∀ x, x ∈ st.lr.usedFeaturesOrdered ↔ x ∈ st.lr.usedFeatures
  short : st.lr.usedFeaturesOrdered.length ≤ d + 1
  leafIds : ∀ i, st.lr.leafId i < 2 ^ d

/-- The children that the loop `leaves[lId]->split(splitFId, splitCond, stats)` of
`fit` creates, `stats` pointing to cell `statsBase` of coordinate `statsCoord`. -/
def splitAll (leaves : List Leaf) (splitFId splitCond statsCoord statsBase : Nat) : List Leaf :=
  leaves.flatMap (fun l =>
    [(l.split splitFId splitCond statsCoord statsBase).1,
     (l.split splitFId splitCond statsCoord statsBase).2])

/-- The cell `cell` of the leaf's coordinate lies in the region of the leaf's
histogram: the `totalBins` cells from `hist_` on. -/
def LinearObliviousTreeLeafV2.inRegionOfHist (l : Leaf) (cell : Nat) : Prop :=
  l.histBase ≤ cell ∧ cell < l.histBase + l.grid.totalBins

/-- A learner over `exTreeGrid` that reads no feature of it (`fCount = 0`). -/
def exBlindLearner : Learner := { exLearner with fCount := 0 }

/-- A learner without a bias column. -/
def exNoBiasLearner : Learner := { exLearner with biasCol := -1 }

/-- What one sample adds to the buffer `h_XTX_ref_[blockId][lId][bin]` of a new
feature in the correlation pass: the product of the feature's value `fVal` with
used feature `a` (entries `a < n`) and its square (entry `n`). -/
def newRow (n : Nat) (x : Nat → ℚ) (fVal : ℚ) : Nat → ℚ :=
  fun a => if a < n then x a * fVal else if a = n then fVal * fVal else 0

/-- The samples of the dataset that are in leaf `lId` now and whose bin of feature
`f` is at most `k`. -/
def leafSamples (lr : Learner) (ds : DataSet) (bds : BinarizedDataSet) (lId f k : Nat) :
    Finset Nat :=
  (Finset.range ds.samplesCount).filter (fun i => lr.leafId i = lId ∧ bds.sampleBins i f ≤ k)

/-- The learner of the end-to-end scenario: `exLearner` (the grid `exTreeGrid` of
one feature with a border at `1/2`, depth `1`, bias column `0`) with
`l2reg = 0`, the given `traceReg` and the given number of workers. -/
def scenarioLearner (traceReg : ℚ) (nThreads : Nat) : Learner :=
  { exLearner with l2reg := 0, traceReg := traceReg, nThreads := nThreads }

/-- The data of the end-to-end scenario for `scenarioLearner`: column `0` is the
intercept, column `1` the informative feature, binarized by the border `1/2`;
every block is one of the workers; on each side of the border the targets are
an exact linear function of the feature (`aL + bL · v` on the left,
`aR + bR · v` on the right) and the feature takes two different values. -/
structure Scenario (ds : DataSet) (bds : BinarizedDataSet) (ys : Nat → ℚ) (blockOf : Nat → Nat)
    (nThreads : Nat) (aL bL aR bR : ℚ) : Prop where
  bias : ∀ i, ds.fVal i 0 = 1
  bins : ∀ i, bds.sampleBins i 0 = if ds.fVal i 1 ≤ 1 / 2 then 0 else 1
  blocks : ∀ i, blockOf i < nThreads
  targets : ∀ i, i < ds.samplesCount →
    ys i = if ds.fVal i 1 ≤ 1 / 2 then aL + bL * ds.fVal i 1 else aR + bR * ds.fVal i 1
  left : ∃ i j, i < ds.samplesCount ∧ j < ds.samplesCount ∧ ds.fVal i 1 ≤ 1 / 2 ∧
    ds.fVal j 1 ≤ 1 / 2 ∧ ds.fVal i 1 ≠ ds.fVal j 1
  right : ∃ i j, i < ds.samplesCount ∧ j < ds.samplesCount ∧ ¬ ds.fVal i 1 ≤ 1 / 2 ∧
    ¬ ds.fVal j 1 ≤ 1 / 2 ∧ ds.fVal i 1 ≠ ds.fVal j 1

/-- The samples of the dataset on the left of the border `1/2` (`side = true`) or
on its right. -/
def sideSamples (ds : DataSet) (side : Bool) : Finset Nat :=
  (Finset.range ds.samplesCount).filter (fun i => decide (ds.fVal i 1 ≤ 1 / 2) = side)

/-- A cell holds the moments of the samples `S` over the intercept and the
feature of column `1`: two rows, the count, the sums of `v`, `v²`, `y` and
`v · y`. -/
structure Moments (ds : DataSet) (ys : Nat → ℚ) (S : Finset Nat) (s : BinStat) : Prop where
  dim_eq : s.dim = 2
  x00 : s.XTX 0 0 = (S.card : ℚ)
  x01 : s.XTX 0 1 = ∑ i in S, ds.fVal i 1
  x10 : s.XTX 1 0 = ∑ i in S, ds.fVal i 1
  x11 : s.XTX 1 1 = ∑ i in S, ds.fVal i 1 * ds.fVal i 1
  y0 : s.XTy 0 = ∑ i in S, ys i
  y1 : s.XTy 1 = ∑ i in S, ds.fVal i 1 * ys i

/-- The root of `fit` on the scenario. -/
def scenarioRoot (traceReg : ℚ) : Leaf :=
  { LinearObliviousTreeLeafV2.mk0 exTreeGrid 0 traceReg 2 1 (-1) 0 0 with
    usedFeatures := {0}, usedFeaturesInOrder := [0] }

/-- Four samples for the end-to-end scenario: the intercept `1` in column `0` and
the values `0`, `1/3`, `2/3`, `1` of the feature in every other column. -/
def exScenarioDs : DataSet :=
  { samplesCount := 4, fVal := fun i f => if f = 0 then 1 else (i : ℚ) / 3 }

/-- The bins of `exScenarioDs` on `exTreeGrid` (border `1/2`): samples `0` and `1`
are in bin `0`, the others in bin `1`. -/
def exScenarioBds : BinarizedDataSet := { sampleBins := fun i _ => if i ≤ 1 then 0 else 1 }

/-- Targets separated at the border: `1` on its left, `2` on its right. -/
def exScenarioYs : Nat → ℚ := fun i => if i ≤ 1 then 1 else 2

/-- The call of `fit` (one worker, scale `1`) returned a tree whose `value` on
training sample `i` returned a number that is not the target of the sample. -/
def missesTarget (lr : Learner) (ds : DataSet) (bds : BinarizedDataSet) (ys : Nat → ℚ)
    (i : Nat) : Bool :=
  match lr.fit ds bds ys (fun _ => 0) 1 with
  | .error _ => false
  | .ok (t, _) =>
    match t.value (ds.sample i) with
    | .error _ => false
    | .ok v => decide (v ≠ ys i)

/-- The id `2^30`, the first one whose double does not fit the `int32_t` of
`id_`. -/
def exOverflowId : ℤ := 1073741824

/-- The learner `exLearner` with `maxDepth = 0`: the growth loop does not run. -/
def exShallowLearner : Learner := { exLearner with maxDepth := 0 }

/-- Modelled from the spec: `BinarySplit` is declared in a header of the polynom
model that is not among the sources. It is one split of a monom: the feature id
and the condition the constructor of `PolynomCuda` reads. -/
structure BinarySplit where
  Feature : Int
  Condition : ℚ

/-- Modelled from the spec: `PolynomStructure` is declared in the same missing
header: the splits of a monom. Its method `GetDepth()` is a parameter of the
constructor below. -/
structure PolynomStructure where
  Splits : List BinarySplit

/-- Modelled from the spec: `Monom` (missing header), by the members the
constructor reads: the structure and the values. -/
structure Monom where
  Structure_ : PolynomStructure
  Values_ : List ℚ

/-- Modelled from the spec: `Polynom` (missing header), by the member the
constructor reads and reorders: the ensemble of monoms. -/
structure Polynom where
  Ensemble_ : List Monom

/-- `std::sort` with the comparator `lt`: the result is a permutation in
which no element is `lt` an earlier one. The standard leaves the order of
equivalent elements open; the model keeps it. -/
def stdSort {α : Type} (lt : α → α → Bool) (l : List α) : List α :=
  l.mergeSort (fun a b => !lt b a)

/-- The local vectors and the cursor of the constructor of `PolynomCuda`. -/
structure FlatPolynom where
  flatFeatureIds : List Int
  conditions : List ℚ
  offsets : List Int
  values : List ℚ
  cursor : Int

/-- The body of the loop of the constructor for one monom: every split is
pushed to the flat arrays, the values are appended, the cursor is pushed to the
offsets and advanced by the number of splits. -/
def FlatPolynom.pushMonom (st : FlatPolynom) (monom : Monom) : FlatPolynom :=
  let st1 := monom.Structure_.Splits.foldl
    (fun (s : FlatPolynom) split =>
      { s with
        flatFeatureIds := s.flatFeatureIds ++ [split.Feature]
        conditions := s.conditions ++ [split.Condition] })
    st
  { st1 with
    values := st1.values ++ monom.Values_
    offsets := st1.offsets ++ [st1.cursor]
    cursor := st1.cursor + (monom.Structure_.Splits.length : Int) }

/-- `PolynomCuda`: the polynom and the four buffers the constructor fills. -/
structure PolynomCuda where
  Polynom_ : Polynom
  Features : List Int
  Conditions : List ℚ
  PolynomOffsets : List Int
  PolynomValues : List ℚ

/-- `PolynomCuda::PolynomCuda`: the ensemble of the polynom is sorted in place by
depth (`GetDepth` is the method of the structure, from the missing header), the
loop flattens the monoms, the cursor is pushed once more, and the vectors are
turned into the buffers. -/
def PolynomCuda.create (GetDepth : PolynomStructure → Nat) (polynom : Polynom) : PolynomCuda :=
  let ensemble := stdSort
    (fun (left right : Monom) => decide (GetDepth left.Structure_ < GetDepth right.Structure_))
    polynom.Ensemble_
  let st := ensemble.foldl FlatPolynom.pushMonom
    { flatFeatureIds := [], conditions := [], offsets := [], values := [], cursor := 0 }
  { Polynom_ := { polynom with Ensemble_ := ensemble }
    Features := st.flatFeatureIds
    Conditions := st.conditions
    PolynomOffsets := st.offsets ++ [st.cursor]
    PolynomValues := st.values }

/-- The offsets of a list of monoms from the cursor `c`: the cursor before every
monom, then the cursor after the last one. -/
def offsetsFrom (c : Int) : List Monom → List Int
  | [] => [c]
  | m :: ms => c :: offsetsFrom (c + (m.Structure_.Splits.length : Int)) ms

/-- The number of splits of the monoms of a list. -/
def splitsCount (ms : List Monom) : Nat := (ms.map (fun m => m.Structure_.Splits.length)).sum

/-- A polynom of three monoms of depths `2`, `0` and `1`. -/
def exPolynom : Polynom :=
  { Ensemble_ :=
      [{ Structure_ := { Splits := [{ Feature := 3, Condition := 1 }, { Feature := 5, Condition := 2 }] },
         Values_ := [1] },
       { Structure_ := { Splits := [] }, Values_ := [2] },
       { Structure_ := { Splits := [{ Feature := 7, Condition := 3 }] }, Values_ := [3] }] }

/-- Modelled from the spec: the class `Vec` is declared in `core/vec.h`, which is
not among the sources: a vector of floats, `dim()` being the number of its
entries. -/
structure Vec where
  data : List ℚ
deriving DecidableEq

/-- Modelled from the spec: `Vec::dim()`. -/
def Vec.dim (v : Vec) : Nat := v.data.length

/-- Modelled from the spec: `VecTools::copyTo(from, to)` is defined in
`core/vec_tools`, which is not among the sources: every entry of `to` receives
the entry of `from` at the same index (the vectors have the same dimension). -/
def VecTools.copyTo (src toVec : Vec) : Vec :=
  { data := (List.range toVec.dim).map (fun i => src.data.getD i 0) }

/-- Modelled from the spec: `VecTools::subtract(x, y)` is defined in
`core/vec_tools`, which is not among the sources: `y` is subtracted from `x`
entry by entry, in place (the vectors have the same dimension). -/
def VecTools.subtract (x y : Vec) : Vec :=
  { data := (List.range x.dim).map (fun i => x.data.getD i 0 - y.data.getD i 0) }

/-- `AddVecTrans`, by the member `trans` reads: the stored vector `b_`. -/
structure AddVecTrans where
  b_ : Vec

/-- `AddVecTrans::trans(x, to)`: the assertion on the dimensions, `copyTo`,
`subtract`, and `to` is returned (`toVec` stands for `to`, a reserved word here).
A failed assertion is `none`. -/
def AddVecTrans.trans (t : AddVecTrans) (x toVec : Vec) : Option Vec :=
  if x.dim = toVec.dim then
    let to1 := VecTools.copyTo x toVec
    let to2 := VecTools.subtract to1 t.b_
    some to2
  else none

/-- A stored vector of two entries. -/
def exAddVec : AddVecTrans := { b_ := { data := [1, 2] } }

/-! ## Linear algebra of the ridge solve -/

open Matrix

theorem diagMx_eq (d : Nat) (v : ℚ) : DiagMx d v = v • (1 : Matrix (Fin d) (Fin d) ℚ) := by
  ext i j
  by_cases h : j = i
  · subst h; simp [DiagMx]
  · have h2 : ¬ i = j := fun e => h e.symm
    simp [DiagMx, h, Matrix.one_apply, h2]

theorem inverse_eq_inv {d : Nat} (A : Matrix (Fin d) (Fin d) ℚ) : inverse A = A⁻¹ := by
  simp [inverse, Matrix.inv_def, Ring.inverse_eq_inv']

theorem dotProduct_self_pos_of_ne_zero {d : Nat} (v : Fin d → ℚ) (hv : v ≠ 0) : 0 < v ⬝ᵥ v := by
  rcases lt_or_eq_of_le
    (show 0 ≤ v ⬝ᵥ v from Finset.sum_nonneg (fun i _ => mul_self_nonneg (v i))) with h | h
  · exact h
  · exact absurd (Matrix.dotProduct_self_eq_zero.mp h.symm) hv

theorem det_add_diag_ne_zero {d : Nat} (A : Matrix (Fin d) (Fin d) ℚ) (l2reg : ℚ) (hl : 0 < l2reg)
    (hA : ∀ v : Fin d → ℚ, 0 ≤ v ⬝ᵥ (A *ᵥ v)) : (A + DiagMx d l2reg).det ≠ 0 := by
  intro hdet
  obtain ⟨v, hv, hmul⟩ := Matrix.exists_mulVec_eq_zero_iff.mpr hdet
  have h1 : v ⬝ᵥ ((A + DiagMx d l2reg) *ᵥ v) = 0 := by rw [hmul]; simp
  rw [diagMx_eq, Matrix.add_mulVec, Matrix.dotProduct_add, Matrix.smul_mulVec_assoc,
    Matrix.one_mulVec, Matrix.dotProduct_smul] at h1
  have h2 : 0 < v ⬝ᵥ v := dotProduct_self_pos_of_ne_zero v hv
  have h3 := hA v
  have h4 : 0 < l2reg • (v ⬝ᵥ v) := by simpa using mul_pos hl h2
  linarith

theorem inverse_mul_self {d : Nat} (M : Matrix (Fin d) (Fin d) ℚ) (h : M.det ≠ 0) :
    inverse M * M = 1 ∧ M * inverse M = 1 := by
  rw [inverse_eq_inv]
  have hu : IsUnit M.det := isUnit_iff_ne_zero.mpr h
  exact ⟨Matrix.nonsing_inv_mul M hu, Matrix.mul_nonsing_inv M hu⟩

/-- What `computeScore` returns when it is handed the regularised matrix, as
`splitScore` does: the loss of the specification plus one more `λ·wᵀw`. -/
theorem computeScore_add_diag {d : Nat} (A : Matrix (Fin d) (Fin d) ℚ) (b : Fin d → ℚ)
    (cnt : ℤ) (l2reg traceReg : ℚ) :
    computeScore (A + DiagMx d l2reg) b A.trace cnt l2reg traceReg
      = ridgeLossSpec A b l2reg traceReg
        + l2reg * ((inverse (A + DiagMx d l2reg)).mulVec b ⬝ᵥ (inverse (A + DiagMx d l2reg)).mulVec b) := by
  simp only [computeScore, ridgeLossSpec]
  rw [← Matrix.dotProduct_mulVec, diagMx_eq, Matrix.add_mulVec, Matrix.dotProduct_add,
    Matrix.smul_mulVec_assoc, Matrix.one_mulVec, Matrix.dotProduct_smul]
  simp only [smul_eq_mul]
  ring

theorem gram_quadratic_nonneg {d : Nat} (vs : List (Nat → ℚ)) (v : Fin d → ℚ) :
    0 ≤ v ⬝ᵥ ((Matrix.of fun i j : Fin d => gram vs i j) *ᵥ v) := by
  have key : v ⬝ᵥ ((Matrix.of fun i j : Fin d => gram vs i j) *ᵥ v)
      = (vs.map (fun u => (∑ i : Fin d, v i * u i) ^ 2)).sum := by
    induction vs with
    | nil => simp [gram, Matrix.dotProduct, Matrix.mulVec]
    | cons u us ih =>
      have hcons : (Matrix.of fun i j : Fin d => gram (u :: us) i j)
          = (Matrix.of fun i j : Fin d => u i * u j) + (Matrix.of fun i j : Fin d => gram us i j) := by
        ext i j
        simp [gram]
      rw [hcons, Matrix.add_mulVec, Matrix.dotProduct_add, ih, List.map_cons, List.sum_cons]
      congr 1
      simp only [Matrix.dotProduct, Matrix.mulVec, Matrix.of_apply]
      rw [sq, Finset.sum_mul_sum]
      refine Finset.sum_congr rfl (fun i _ => ?_)
      rw [Finset.mul_sum]
      exact Finset.sum_congr rfl (fun j _ => by ring)
  rw [key]
  exact List.sum_nonneg (by
    intro x hx
    obtain ⟨u, _, rfl⟩ := List.mem_map.mp hx
    exact sq_nonneg _)

theorem gram_append (vsL vsR : List (Nat → ℚ)) (i j : Nat) :
    gram (vsL ++ vsR) i j = gram vsL i j + gram vsR i j := by
  simp [gram]

/-! ## Claims on `splitScore` and `getW` -/

/-- C10: for every histogram, feature and condition, `splitScore` returns the
sentinel pair `(1e6, 1e6)` when the condition is not `0` and the count at its bin
equals the count at the bin before (this branch precedes every matrix
computation), and the pair of the two `computeScore` results when the condition
is `0` or the counts differ. -/
theorem splitScore_sentinel_or_ridge (h : HistogramV2) (fId condId : Nat) (l2reg traceReg : ℚ) :
    ((condId ≠ 0 ∧ (h.hist (h.binPos fId condId)).getCnt = (h.hist (h.binPos fId condId - 1)).getCnt) →
      h.splitScore fId condId l2reg traceReg = (1000000, 1000000)) ∧
    ((condId = 0 ∨ (h.hist (h.binPos fId condId)).getCnt ≠ (h.hist (h.binPos fId condId - 1)).getCnt) →
      h.splitScore fId condId l2reg traceReg =
        (computeScore (h.left_XTX fId condId l2reg) (h.left_XTy fId condId)
            (h.left_XTX_trace fId condId) (h.hist (h.binPos fId condId)).getCnt l2reg traceReg,
         computeScore (h.right_XTX fId condId l2reg) (h.right_XTy fId condId)
            (h.right_XTX_trace fId condId)
            ((h.hist (h.lastPos fId)).getCnt - (h.hist (h.binPos fId condId)).getCnt) l2reg traceReg)) := by
  constructor
  · rintro ⟨hc, hcnt⟩
    have : condId ≠ 0 ∧ (h.hist (h.binPos fId condId)).getCnt
        - (h.hist (h.binPos fId condId - 1)).getCnt = 0 := ⟨hc, by rw [hcnt]; simp⟩
    simp only [HistogramV2.splitScore, if_pos this]
  · intro hc
    have : ¬ (condId ≠ 0 ∧ (h.hist (h.binPos fId condId)).getCnt
        - (h.hist (h.binPos fId condId - 1)).getCnt = 0) := by
      rintro ⟨h1, h2⟩
      rcases hc with hc | hc
      · exact h1 hc
      · exact hc (sub_eq_zero.mp h2)
    simp only [HistogramV2.splitScore, if_neg this]

/-- C2: on the cumulative histogram `exHist` (one feature, one border, one sample
left of it and one right, bias value and target `1`) with `l2reg = 1` and
`traceReg = 0`, `splitScore` returns `-1/4` on both sides, while the loss of the
specification, taken on the unregularised statistics, is `-1/2` on both sides:
the code counts `λ·wᵀw` twice. -/
theorem splitScore_counts_regulariser_twice :
    exHist.splitScore 0 0 1 0 = (-1 / 4, -1 / 4) ∧
    ridgeLossSpec ((exHist.hist 0).getXTX 1) ((exHist.hist 0).getXTy 1) 1 0 = -1 / 2 ∧
    ridgeLossSpec ((exHist.hist 1).getXTX 1 - (exHist.hist 0).getXTX 1)
      ((exHist.hist 1).getXTy 1 - (exHist.hist 0).getXTy 1) 1 0 = -1 / 2 := by
  refine ⟨by decide!, by decide!, by decide!⟩

/-- C5: for `l2reg > 0` and a histogram whose last used feature `f` has a bin
offset and whose statistic at the last bin of `f` has a symmetric positive
semi-definite cross-product matrix `A` and cross-target vector `b`, `getW`
returns a column `w` with `(A + λI)·w = b`, and `w` is the only such column. -/
theorem getW_ridge_solution (h : HistogramV2) (l2reg : ℚ) (hl : 0 < l2reg) (f offset : Nat)
    (hlast : h.lastUsedFeatureId = (f : ℤ)) (hoff : h.grid.binOffsets[f]? = some offset)
    (hpsd : ((h.hist (offset + h.grid.conditionsCount f)).getXTX
      (h.hist (offset + h.grid.conditionsCount f)).dim).PosSemidef) :
    ∃ w : Fin (h.hist (offset + h.grid.conditionsCount f)).dim → ℚ,
      h.getW l2reg = .ok (Weights.ofVec w) ∧
      ((h.hist (offset + h.grid.conditionsCount f)).getXTX _ + DiagMx _ l2reg) *ᵥ w
        = (h.hist (offset + h.grid.conditionsCount f)).getXTy _ ∧
      ∀ v, ((h.hist (offset + h.grid.conditionsCount f)).getXTX _ + DiagMx _ l2reg) *ᵥ v
        = (h.hist (offset + h.grid.conditionsCount f)).getXTy _ → v = w := by
  have hquad : ∀ v, 0 ≤ v ⬝ᵥ (((h.hist (offset + h.grid.conditionsCount f)).getXTX
      (h.hist (offset + h.grid.conditionsCount f)).dim) *ᵥ v) := by
    intro v
    simpa using hpsd.2 v
  have hdet := det_add_diag_ne_zero _ l2reg hl hquad
  obtain ⟨hinvl, hinvr⟩ := inverse_mul_self _ hdet
  refine ⟨(inverse (h.XTX_r (offset + h.grid.conditionsCount f) l2reg)).mulVec
    ((h.hist (offset + h.grid.conditionsCount f)).getXTy _), ?_, ?_, ?_⟩
  · have hne : ¬ (h.lastUsedFeatureId = -1) := by rw [hlast]; omega
    have hnn : 0 ≤ h.lastUsedFeatureId := by rw [hlast]; omega
    have htn : h.lastUsedFeatureId.toNat = f := by rw [hlast]; simp
    simp only [HistogramV2.getW]
    rw [if_neg hne, if_pos hnn, htn, hoff]
  · rw [HistogramV2.XTX_r, Matrix.mulVec_mulVec, hinvr, Matrix.one_mulVec]
  · intro v hv
    rw [HistogramV2.XTX_r, ← hv, Matrix.mulVec_mulVec, hinvl, Matrix.one_mulVec]

/-- The witness of C5: on `exHist` with `l2reg = 1` the weight is `2/3`. -/
theorem getW_ridge_solution_witness :
    ∃ w : Fin 1 → ℚ, exHist.getW 1 = .ok (Weights.ofVec w) ∧ w 0 = 2 / 3 := by
  have hpsd : ((exStat 2).getXTX 1).PosSemidef := by
    refine ⟨by ext i j; rfl, fun x => ?_⟩
    have h2 : (0 : ℚ) ≤ 2 * (x 0 * x 0) := by nlinarith [mul_self_nonneg (x 0)]
    simpa [Matrix.dotProduct, Matrix.mulVec, BinStat.getXTX, exStat,
      Finset.univ_unique, mul_comm, mul_left_comm] using h2
  have key : ∃ w : Fin 1 → ℚ, exHist.getW 1 = .ok (Weights.ofVec w) ∧
      ((exStat 2).getXTX 1 + DiagMx 1 1) *ᵥ w = (exStat 2).getXTy 1 ∧
      ∀ v, ((exStat 2).getXTX 1 + DiagMx 1 1) *ᵥ v = (exStat 2).getXTy 1 → v = w :=
    getW_ridge_solution exHist 1 (by norm_num) 0 0 rfl rfl hpsd
  obtain ⟨w, h1, h2, _⟩ := key
  refine ⟨w, h1, ?_⟩
  have h3 := congrFun h2 0
  simp [Matrix.mulVec, Matrix.dotProduct, BinStat.getXTX, BinStat.getXTy, DiagMx, exStat,
    Finset.univ_unique] at h3
  linarith

/-- In exact arithmetic: for `l2reg > 0` and a histogram whose cross-product
matrices are exact sums of outer products of sample vectors (those of the
samples left of the split at the split bin, those of all samples at the last
bin), the three matrices of `splitScore` and `getW` (left, right, `XTX_r`) are
invertible and the exact inverse is their inverse; this covers a side with no
sample (`vsL` or `vsR` empty). Single precision does not keep this: the
regulariser can vanish in the conversion or in the sum. -/
theorem ridge_matrices_invertible (h : HistogramV2) (fId condId : Nat) (l2reg : ℚ) (hl : 0 < l2reg)
    (vsL vsR : List (Nat → ℚ))
    (hbin : ∀ i j, (h.hist (h.binPos fId condId)).XTX i j = gram vsL i j)
    (hlast : ∀ i j, (h.hist (h.lastPos fId)).XTX i j = gram (vsL ++ vsR) i j) :
    InverseExact (h.left_XTX fId condId l2reg) ∧
    InverseExact (h.right_XTX fId condId l2reg) ∧
    InverseExact (h.XTX_r (h.lastPos fId) l2reg) := by
  have hL : (h.hist (h.binPos fId condId)).getXTX (h.ydim fId condId)
      = Matrix.of fun i j : Fin (h.ydim fId condId) => gram vsL i j := by
    ext i j; simp [BinStat.getXTX, hbin]
  have hR : (h.hist (h.lastPos fId)).getXTX (h.ydim fId condId)
        - (h.hist (h.binPos fId condId)).getXTX (h.ydim fId condId)
      = Matrix.of fun i j : Fin (h.ydim fId condId) => gram vsR i j := by
    ext i j; simp [BinStat.getXTX, hbin, hlast, gram_append]
  have hT : (h.hist (h.lastPos fId)).getXTX (h.hist (h.lastPos fId)).dim
      = Matrix.of fun i j : Fin (h.hist (h.lastPos fId)).dim => gram (vsL ++ vsR) i j := by
    ext i j; simp [BinStat.getXTX, hlast]
  refine ⟨?_, ?_, ?_⟩
  · have hdet : (h.left_XTX fId condId l2reg).det ≠ 0 := by
      rw [HistogramV2.left_XTX, hL]
      exact det_add_diag_ne_zero _ l2reg hl (gram_quadratic_nonneg vsL)
    exact ⟨hdet, inverse_mul_self _ hdet⟩
  · have hdet : (h.right_XTX fId condId l2reg).det ≠ 0 := by
      rw [HistogramV2.right_XTX, hR]
      exact det_add_diag_ne_zero _ l2reg hl (gram_quadratic_nonneg vsR)
    exact ⟨hdet, inverse_mul_self _ hdet⟩
  · have hdet : (h.XTX_r (h.lastPos fId) l2reg).det ≠ 0 := by
      rw [HistogramV2.XTX_r, hT]
      exact det_add_diag_ne_zero _ l2reg hl (gram_quadratic_nonneg (vsL ++ vsR))
    exact ⟨hdet, inverse_mul_self _ hdet⟩

/-- The exact matrices of `exHistEmptyLeft` with `l2reg = 1`, no sample on the
left side. -/
theorem ridge_matrices_invertible_witness :
    InverseExact (exHistEmptyLeft.left_XTX 0 0 1) ∧
    InverseExact (exHistEmptyLeft.right_XTX 0 0 1) ∧
    InverseExact (exHistEmptyLeft.XTX_r (exHistEmptyLeft.lastPos 0) 1) :=
  ridge_matrices_invertible exHistEmptyLeft 0 0 1 (by norm_num) [] [fun _ => 1, fun _ => 1]
    (by intro i j; simp [exHistEmptyLeft, HistogramV2.binPos, exGrid, Grid.offset, exStat, gram])
    (by
      intro i j
      simp [exHistEmptyLeft, HistogramV2.lastPos, exGrid, Grid.offset, exStat, gram]
      norm_num)

/-- A positive `l2reg` that the conversion to single precision turns into zero
leaves the matrix of an empty side singular: `l2reg = 2^-200` with
`exHistEmptyLeft`. -/
theorem empty_side_singular_when_l2reg_vanishes :
    (0 : ℚ) < 1 / 2 ^ 200 ∧ exNarrow (1 / 2 ^ 200) = 0 ∧
    (exHistEmptyLeft.left_XTX 0 0 (exNarrow (1 / 2 ^ 200))).det = 0 := by
  have h0 : exNarrow (1 / 2 ^ 200) = 0 := by decide!
  refine ⟨by positivity, h0, ?_⟩
  rw [h0]
  decide!

/-! ## Prefix sums -/

theorem prefixSumFeature_succ (offset n : Nat) (hist : Nat → BinStat) :
    prefixSumFeature offset (n + 1) hist
      = Function.update (prefixSumFeature offset n hist) (offset + (n + 1))
          (((prefixSumFeature offset n hist) (offset + (n + 1))).add
            ((prefixSumFeature offset n hist) (offset + (n + 1) - 1))) := by
  simp [prefixSumFeature, List.range_succ, List.foldl_append]

theorem prefixSumFeature_frame (offset n : Nat) (hist : Nat → BinStat) (b : Nat)
    (hb : b ≤ offset ∨ offset + n < b) : prefixSumFeature offset n hist b = hist b := by
  induction n with
  | zero => simp [prefixSumFeature]
  | succ n ih =>
    rw [prefixSumFeature_succ, Function.update_noteq (by omega)]
    exact ih (by omega)

theorem prefixSumFeature_sumBins (offset n : Nat) (hist : Nat → BinStat) (k : Nat) (hk : k ≤ n) :
    prefixSumFeature offset n hist (offset + k) = sumBins hist offset k := by
  induction n generalizing k with
  | zero =>
    have : k = 0 := by omega
    subst this
    simp [prefixSumFeature, sumBins]
  | succ n ih =>
    rw [prefixSumFeature_succ]
    by_cases hkn : k = n + 1
    · subst hkn
      rw [Function.update_same, prefixSumFeature_frame offset n hist _ (by omega)]
      have h1 : offset + (n + 1) - 1 = offset + n := by omega
      rw [h1, ih n (le_refl n)]
      rfl
    · rw [Function.update_noteq (by omega)]
      exact ih k (by omega)

theorem sumBins_congr (hist1 hist2 : Nat → BinStat) (offset k : Nat)
    (h : ∀ j, j ≤ k → hist1 (offset + j) = hist2 (offset + j)) :
    sumBins hist1 offset k = sumBins hist2 offset k := by
  induction k with
  | zero => simpa [sumBins] using h 0 (le_refl 0)
  | succ k ih =>
    simp only [sumBins]
    rw [h (k + 1) (le_refl _), ih (fun j hj => h j (by omega))]

theorem sumBins_cnt (hist : Nat → BinStat) (offset k : Nat) :
    (sumBins hist offset k).cnt = ∑ j in Finset.range (k + 1), (hist (offset + j)).cnt := by
  induction k with
  | zero => simp [sumBins]
  | succ k ih =>
    rw [Finset.sum_range_succ, ← ih]
    simp [sumBins, BinStat.add, add_comm]

theorem sumBins_filledSize (hist : Nat → BinStat) (offset k : Nat) :
    (sumBins hist offset k).filledSize = (hist (offset + k)).filledSize := by
  cases k <;> simp [sumBins, BinStat.add]

theorem sumBins_XTX (hist : Nat → BinStat) (offset k n : Nat)
    (hn : ∀ j, j ≤ k → (hist (offset + j)).filledSize = n) (a b : Nat) (ha : a < n) (hb : b < n) :
    (sumBins hist offset k).XTX a b = ∑ j in Finset.range (k + 1), (hist (offset + j)).XTX a b := by
  induction k with
  | zero => simp [sumBins]
  | succ k ih =>
    rw [Finset.sum_range_succ, ← ih (fun j hj => hn j (by omega))]
    have h1 : (hist (offset + (k + 1))).filledSize = n := hn (k + 1) (le_refl _)
    have h2 : (sumBins hist offset k).filledSize = n := by
      rw [sumBins_filledSize]; exact hn k (by omega)
    simp [sumBins, BinStat.add, h1, h2, ha, hb, add_comm]

theorem sumBins_XTy (hist : Nat → BinStat) (offset k n : Nat)
    (hn : ∀ j, j ≤ k → (hist (offset + j)).filledSize = n) (a : Nat) (ha : a < n) :
    (sumBins hist offset k).XTy a = ∑ j in Finset.range (k + 1), (hist (offset + j)).XTy a := by
  induction k with
  | zero => simp [sumBins]
  | succ k ih =>
    rw [Finset.sum_range_succ, ← ih (fun j hj => hn j (by omega))]
    have h1 : (hist (offset + (k + 1))).filledSize = n := hn (k + 1) (le_refl _)
    have h2 : (sumBins hist offset k).filledSize = n := by
      rw [sumBins_filledSize]; exact hn k (by omega)
    simp [sumBins, BinStat.add, h1, h2, ha, add_comm]

/-- The state of `prefixSumBins` after its first `m` features: the bins of these
features hold their prefix sums, every bin outside their ranges is untouched. -/
theorem prefixSumBins_loop (g : Grid) (hd : g.DisjointBins) (hist : Nat → BinStat) (m : Nat)
    (hm : m ≤ g.nzFeaturesCount) :
    (∀ b, (∀ f, f < m → b < g.offset f ∨ g.offset f + g.conditionsCount f < b) →
      (List.range m).foldl
        (fun hist fId => prefixSumFeature (g.offset fId) (g.conditionsCount fId) hist) hist b
        = hist b) ∧
    (∀ f, f < m → ∀ k, k ≤ g.conditionsCount f →
      (List.range m).foldl
        (fun hist fId => prefixSumFeature (g.offset fId) (g.conditionsCount fId) hist) hist
        (g.offset f + k) = sumBins hist (g.offset f) k) := by
  induction m with
  | zero => exact ⟨fun b _ => rfl, fun f hf => absurd hf (Nat.not_lt_zero f)⟩
  | succ m ih =>
    obtain ⟨iha, ihb⟩ := ih (by omega)
    rw [List.range_succ, List.foldl_append]
    simp only [List.foldl_cons, List.foldl_nil]
    refine ⟨?_, ?_⟩
    · intro b hb
      rw [prefixSumFeature_frame _ _ _ _ (by have := hb m (by omega); omega)]
      exact iha b (fun f hf => hb f (by omega))
    · intro f hf k hk
      by_cases hfm : f = m
      · subst hfm
        rw [prefixSumFeature_sumBins _ _ _ _ hk]
        refine sumBins_congr _ _ _ _ (fun j hj => iha _ (fun f2 hf2 => ?_))
        have := hd f2 f (by omega) (by omega) (by omega)
        omega
      · have hfl : f < m := by omega
        have := hd f m (by omega) (by omega) hfm
        rw [prefixSumFeature_frame _ _ _ _ (by omega)]
        exact ihb f hfl k hk

/-- C4: for a grid whose per-feature bin ranges are pairwise disjoint and every
histogram, after `prefixSumBins` the statistic at bin `binOffsets[f] + k` is the
`+=`-sum of the statistics the bins `binOffsets[f] + 0 .. binOffsets[f] + k` held
before the call, for every feature `f` and `0 ≤ k ≤ conditionsCount(f)`: its
count is the sum of their counts, and where these bins have the same number `n`
of used features its matrix and vector entries below `n` are the sums of theirs.
It depends on the bins of `f` only: a second histogram that agrees on them gets
the same statistic. -/
theorem prefixSumBins_cumulative (h : HistogramV2) (hd : h.grid.DisjointBins) (f k : Nat)
    (hf : f < h.grid.nzFeaturesCount) (hk : k ≤ h.grid.conditionsCount f) :
    h.prefixSumBins.hist (h.grid.offset f + k) = sumBins h.hist (h.grid.offset f) k ∧
    (h.prefixSumBins.hist (h.grid.offset f + k)).cnt
      = ∑ j in Finset.range (k + 1), (h.hist (h.grid.offset f + j)).cnt ∧
    (∀ n, (∀ j, j ≤ k → (h.hist (h.grid.offset f + j)).filledSize = n) →
      (∀ a b, a < n → b < n → (h.prefixSumBins.hist (h.grid.offset f + k)).XTX a b
        = ∑ j in Finset.range (k + 1), (h.hist (h.grid.offset f + j)).XTX a b) ∧
      (∀ a, a < n → (h.prefixSumBins.hist (h.grid.offset f + k)).XTy a
        = ∑ j in Finset.range (k + 1), (h.hist (h.grid.offset f + j)).XTy a)) ∧
    (∀ h2 : HistogramV2, h2.grid = h.grid →
      (∀ j, j ≤ k → h2.hist (h.grid.offset f + j) = h.hist (h.grid.offset f + j)) →
      h2.prefixSumBins.hist (h.grid.offset f + k) = h.prefixSumBins.hist (h.grid.offset f + k)) := by
  have main : ∀ h3 : HistogramV2, h3.grid = h.grid →
      h3.prefixSumBins.hist (h.grid.offset f + k) = sumBins h3.hist (h.grid.offset f) k := by
    intro h3 hg
    have := (prefixSumBins_loop h3.grid (hg ▸ hd) h3.hist h3.grid.nzFeaturesCount (le_refl _)).2 f
      (hg ▸ hf) k (hg ▸ hk)
    simpa [HistogramV2.prefixSumBins, hg] using this
  have h0 := main h rfl
  refine ⟨h0, ?_, ?_, ?_⟩
  · rw [h0, sumBins_cnt]
  · intro n hn
    refine ⟨fun a b ha hb => ?_, fun a ha => ?_⟩
    · rw [h0, sumBins_XTX _ _ _ n hn a b ha hb]
    · rw [h0, sumBins_XTy _ _ _ n hn a ha]
  · intro h2 hg hagree
    rw [main h2 hg, h0]
    exact sumBins_congr _ _ _ _ hagree

/-- The witness of C4: on `exGrid2` the last bin of the second feature holds the
counts `3 + 4 + 5`; the bins of the first feature do not enter. -/
theorem prefixSumBins_cumulative_witness :
    exHist2.grid.DisjointBins ∧ (exHist2.prefixSumBins.hist 4).cnt = 12 := by
  have hd : exHist2.grid.DisjointBins := by
    intro f1 f2 h1 h2 hne
    have h1b : f1 < 2 := h1
    have h2b : f2 < 2 := h2
    interval_cases f1 <;> interval_cases f2 <;> simp_all [exHist2, exGrid2, Grid.offset]
  refine ⟨hd, ?_⟩
  have := (prefixSumBins_cumulative exHist2 hd 1 2 (by decide) (by decide)).2.1
  simpa [exHist2, exGrid2, Grid.offset, exStat, Finset.sum_range_succ] using this

/-! ## The split search -/

theorem searchInv_inner (cc : Nat → Nat) (score : Nat → Nat → ℚ) (F : Nat) (best : BestSplit)
    (h0 : SearchInv cc score best F 0) (C : Nat) (hC : C ≤ cc F) :
    SearchInv cc score
      ((List.range C).foldl
        (fun best cond =>
          let sScore := score F cond
          if sScore < best.bestSplitScore then
            { bestSplitScore := sScore, splitFId := F, splitCond := cond }
          else best)
        best) F C := by
  induction C with
  | zero => simpa using h0
  | succ C ih =>
    have ihC := ih (by omega)
    rw [List.range_succ, List.foldl_append]
    simp only [List.foldl_cons, List.foldl_nil]
    generalize (List.range C).foldl
        (fun best cond =>
          let sScore := score F cond
          if sScore < best.bestSplitScore then
            { bestSplitScore := sScore, splitFId := F, splitCond := cond }
          else best)
        best = cur at ihC ⊢
    obtain ⟨hb, hle, hsel⟩ := ihC
    by_cases hlt : score F C < cur.bestSplitScore
    · simp only [hlt, if_true]
      refine ⟨le_of_lt (lt_of_lt_of_le hlt hb), ?_, Or.inr ⟨F, C, rfl, rfl, by omega, ?_, rfl,
        lt_of_lt_of_le hlt hb, ?_⟩⟩
      · intro f c hc hseen
        rcases hseen with h | ⟨h1, h2⟩
        · exact le_of_lt (lt_of_lt_of_le hlt (hle f c hc (Or.inl h)))
        · by_cases hcC : c = C
          · subst hcC; subst h1; exact le_refl _
          · exact le_of_lt (lt_of_lt_of_le hlt (hle f c hc (Or.inr ⟨h1, by omega⟩)))
      · exact Or.inr ⟨rfl, by omega⟩
      · intro f2 c2 hc2 hseen
        exact lt_of_lt_of_le hlt (hle f2 c2 hc2 hseen)
    · simp only [hlt, if_false]
      refine ⟨hb, ?_, ?_⟩
      · intro f c hc hseen
        rcases hseen with h | ⟨h1, h2⟩
        · exact hle f c hc (Or.inl h)
        · by_cases hcC : c = C
          · subst hcC; subst h1; exact not_lt.mp hlt
          · exact hle f c hc (Or.inr ⟨h1, by omega⟩)
      · rcases hsel with h | ⟨f, c, h1, h2, h3, h4, h5, h6, h7⟩
        · exact Or.inl h
        · refine Or.inr ⟨f, c, h1, h2, h3, ?_, h5, h6, h7⟩
          rcases h4 with h | ⟨ha, hb2⟩
          · exact Or.inl h
          · exact Or.inr ⟨ha, by omega⟩

theorem searchInv_next_feature (cc : Nat → Nat) (score : Nat → Nat → ℚ) (F : Nat) (best : BestSplit)
    (h : SearchInv cc score best F (cc F)) : SearchInv cc score best (F + 1) 0 := by
  obtain ⟨hb, hle, hsel⟩ := h
  have hseen : ∀ f c, c < cc f → SeenBefore f c (F + 1) 0 → SeenBefore f c F (cc F) := by
    intro f c hc hs
    rcases hs with h | ⟨_, h⟩
    · by_cases hf : f = F
      · subst hf; exact Or.inr ⟨rfl, hc⟩
      · exact Or.inl (by omega)
    · omega
  refine ⟨hb, fun f c hc hs => hle f c hc (hseen f c hc hs), ?_⟩
  rcases hsel with h | ⟨f, c, h1, h2, h3, h4, h5, h6, h7⟩
  · exact Or.inl h
  · refine Or.inr ⟨f, c, h1, h2, h3, ?_, h5, h6, h7⟩
    rcases h4 with h | ⟨ha, _⟩
    · exact Or.inl (by omega)
    · exact Or.inl (by omega)

theorem searchInv_outer (cc : Nat → Nat) (score : Nat → Nat → ℚ) (F : Nat) :
    SearchInv cc score
      ((List.range F).foldl
        (fun best fId =>
          (List.range (cc fId)).foldl
            (fun best cond =>
              let sScore := score fId cond
              if sScore < best.bestSplitScore then
                { bestSplitScore := sScore, splitFId := fId, splitCond := cond }
              else best)
            best)
        { bestSplitScore := 1000000000, splitFId := -1, splitCond := -1 }) F 0 := by
  induction F with
  | zero =>
    refine ⟨le_refl _, ?_, Or.inl ⟨rfl, rfl, rfl⟩⟩
    intro f c _ hs
    rcases hs with h | ⟨_, h⟩ <;> omega
  | succ F ih =>
    rw [List.range_succ, List.foldl_append]
    simp only [List.foldl_cons, List.foldl_nil]
    exact searchInv_next_feature cc score F _ (searchInv_inner cc score F _ ih (cc F) (le_refl _))

theorem findBestSplit_inv (fCount : Nat) (cc : Nat → Nat) (score : Nat → Nat → ℚ) :
    SearchInv cc score (findBestSplit fCount cc score) fCount 0 :=
  searchInv_outer cc score fCount

/-- C3: in the split search of `fit`, with `total(f, c)` the sum over the current
leaves of `Leaf::splitScore(f, c)`: whenever some candidate has a total below
`1e9`, the selected pair is a valid candidate (`0 ≤ splitFId < fCount`,
`0 ≤ splitCond < conditionsCount(splitFId)`), its total is the recorded best
score and is at most the total of every candidate, and every candidate with the
same total comes at or after it in the order features ascending, then conditions
ascending. -/
theorem findBestSplit_minimal_first (leaves : List LinearObliviousTreeLeafV2) (stats : Arena)
    (fCount : Nat) (conditionsCount : Nat → Nat)
    (hex : ∃ f c, f < fCount ∧ c < conditionsCount f ∧ totalSplitScore leaves stats f c < 1000000000) :
    ∃ f c : Nat,
      (findBestSplit fCount conditionsCount (totalSplitScore leaves stats)).splitFId = (f : ℤ) ∧
      (findBestSplit fCount conditionsCount (totalSplitScore leaves stats)).splitCond = (c : ℤ) ∧
      f < fCount ∧ c < conditionsCount f ∧
      (findBestSplit fCount conditionsCount (totalSplitScore leaves stats)).bestSplitScore
        = totalSplitScore leaves stats f c ∧
      (∀ f2 c2, f2 < fCount → c2 < conditionsCount f2 →
        totalSplitScore leaves stats f c ≤ totalSplitScore leaves stats f2 c2) ∧
      (∀ f2 c2, f2 < fCount → c2 < conditionsCount f2 →
        totalSplitScore leaves stats f2 c2 = totalSplitScore leaves stats f c →
        f < f2 ∨ (f = f2 ∧ c ≤ c2)) := by
  obtain ⟨hb, hle, hsel⟩ :=
    findBestSplit_inv fCount conditionsCount (totalSplitScore leaves stats)
  obtain ⟨f0, c0, hf0, hc0, hs0⟩ := hex
  rcases hsel with ⟨_, _, h3⟩ | ⟨f, c, h1, h2, h3, h4, h5, h6, h7⟩
  · have := hle f0 c0 hc0 (Or.inl hf0)
    rw [h3] at this
    exact absurd hs0 (not_lt.mpr this)
  · have hf : f < fCount := by
      rcases h4 with h | ⟨_, h⟩
      · exact h
      · omega
    refine ⟨f, c, h1, h2, hf, h3, h5, ?_, ?_⟩
    · intro f2 c2 hf2 hc2
      rw [← h5]
      exact hle f2 c2 hc2 (Or.inl hf2)
    · intro f2 c2 _ hc2 heq
      by_contra hcon
      have hseen : SeenBefore f2 c2 f c := by
        unfold SeenBefore
        omega
      have := h7 f2 c2 hc2 hseen
      rw [heq] at this
      exact lt_irrefl _ this

/-! ## The shape of the leaves and the passes of one depth -/

theorem foldl_inv {α β : Type} (P : β → Prop) (f : β → α → β) (l : List α) (b : β) (hb : P b)
    (hstep : ∀ b a, P b → P (f b a)) : P (l.foldl f b) := by
  induction l generalizing b with
  | nil => exact hb
  | cons a l ih => exact ih (f b a) (hstep b a hb)

theorem split_fst_id (l : Leaf) (f c coord base : Nat) : (l.split f c coord base).1.id = 2 * l.id := rfl
theorem split_snd_id (l : Leaf) (f c coord base : Nat) : (l.split f c coord base).2.id = 2 * l.id + 1 := rfl

theorem childrenOf_length (leaves : List Leaf) (f c coord : Nat) :
    (childrenOf leaves f c coord).length = 2 * leaves.length := by
  induction leaves with
  | nil => rfl
  | cons l ls ih =>
    simp only [childrenOf, List.flatMap_cons, List.length_append, List.length_cons, List.length_nil] at ih ⊢
    omega

theorem childrenOf_append (a b : List Leaf) (f c coord : Nat) :
    childrenOf (a ++ b) f c coord = childrenOf a f c coord ++ childrenOf b f c coord := by
  simp [childrenOf, List.flatMap_append]

theorem initNewLeaves_fold (f c coord : Nat) (rest done : List Leaf)
    (hid : ∀ (j : Nat) (l : Leaf), rest[j]? = some l → l.id = done.length + j) :
    rest.foldl
      (fun newLeaves l =>
        let splits := l.split f c coord 0
        (newLeaves.set splits.1.id (some splits.1)).set splits.2.id (some splits.2))
      ((childrenOf done f c coord).map some ++ List.replicate (rest.length * 2) none)
      = (childrenOf (done ++ rest) f c coord).map some := by
  induction rest generalizing done with
  | nil => simp
  | cons l rest ih =>
    have hl : l.id = done.length := by simpa using hid 0 l (by simp)
    have hlen : ((childrenOf done f c coord).map some).length = 2 * done.length := by
      simp [childrenOf_length]
    simp only [List.foldl_cons]
    have hstep : ((((childrenOf done f c coord).map some
          ++ List.replicate ((l :: rest).length * 2) none).set (l.split f c coord 0).1.id
            (some (l.split f c coord 0).1)).set (l.split f c coord 0).2.id
            (some (l.split f c coord 0).2))
        = (childrenOf (done ++ [l]) f c coord).map some ++ List.replicate (rest.length * 2) none := by
      rw [split_fst_id, split_snd_id, hl]
      have h2 : (l :: rest).length * 2 = rest.length * 2 + 1 + 1 := by simp; omega
      rw [h2, List.replicate_succ, List.replicate_succ]
      rw [List.set_append_right _ _ (by rw [hlen]), hlen, Nat.sub_self, List.set_cons_zero]
      rw [List.set_append_right _ _ (by rw [hlen]; omega), hlen]
      have h3 : 2 * done.length + 1 - 2 * done.length = 1 := by omega
      rw [h3, List.set_cons_succ, List.set_cons_zero]
      simp [childrenOf_append, childrenOf]
    rw [hstep]
    have := ih (done ++ [l]) (by
      intro j l2 hj
      have := hid (j + 1) l2 (by simpa using hj)
      simp; omega)
    simpa using this

theorem initNewLeaves_eq (lr : Learner) (leaves : List Leaf) (f c : Nat)
    (hid : ∀ (j : Nat) (l : Leaf), leaves[j]? = some l → l.id = j) :
    lr.initNewLeaves leaves f c = (childrenOf leaves f c (lr.curLeavesCoord ^^^ 1)).map some := by
  have := initNewLeaves_fold f c (lr.curLeavesCoord ^^^ 1) leaves [] (by simpa using hid)
  simpa [GreedyLinearObliviousTreeLearnerV2.initNewLeaves, childrenOf] using this

theorem derefLeaves_map_some (ls : List Leaf) : derefLeaves (ls.map some) = .ok ls := by
  induction ls with
  | nil => rfl
  | cons l ls ih => simp [derefLeaves, ih]

theorem correlate_erase (lr : Learner) (ds : DataSet) (bds : BinarizedDataSet) (ys : Nat → ℚ)
    (blockOf : Nat → Nat) (n : Nat) :
    (lr.correlate ds bds ys blockOf n).eraseBuffers = lr.eraseBuffers := by
  unfold GreedyLinearObliviousTreeLearnerV2.correlate
  refine foldl_inv (fun s : Learner => s.eraseBuffers = lr.eraseBuffers) _ _ _ rfl ?_
  intro s i hs
  refine foldl_inv (fun s : Learner => s.eraseBuffers = lr.eraseBuffers) _ _ _ hs ?_
  intro s fId hs
  dsimp only
  split_ifs
  · exact hs
  · exact hs

theorem prefixStep_erase (s : Learner) (a b c d : Nat) :
    (s.prefixStep a b c d).eraseBuffers = s.eraseBuffers := rfl

theorem feedNewCorrelations_erase (lr : Learner) (leaves : List Leaf) (n : Nat) :
    (lr.feedNewCorrelations leaves n).eraseBuffers = lr.eraseBuffers := by
  unfold GreedyLinearObliviousTreeLearnerV2.feedNewCorrelations
  refine foldl_inv (fun s : Learner => s.eraseBuffers = lr.eraseBuffers) _ _ _ rfl ?_
  intro s fId hs
  dsimp only
  split_ifs
  · exact hs
  refine foldl_inv (fun s : Learner => s.eraseBuffers = lr.eraseBuffers) _ _ _ hs ?_
  intro s localBinId hs
  refine foldl_inv (fun s : Learner => s.eraseBuffers = lr.eraseBuffers) _ _ _ hs ?_
  intro s lId hs
  refine foldl_inv (fun s : Learner => s.eraseBuffers = lr.eraseBuffers) _ _ _ hs ?_
  intro s thId hs
  dsimp only
  cases leaves[lId]? <;> split_ifs <;> exact hs

theorem accumulateChildren_erase (lr : Learner) (ds : DataSet) (bds : BinarizedDataSet)
    (ys : Nat → ℚ) (blockOf : Nat → Nat) (n o : Nat) :
    (lr.accumulateChildren ds bds ys blockOf n o).eraseBuffers = lr.eraseBuffers := by
  unfold GreedyLinearObliviousTreeLearnerV2.accumulateChildren
  refine foldl_inv (fun s : Learner => s.eraseBuffers = lr.eraseBuffers) _ _ _ rfl ?_
  intro s i hs
  dsimp only
  split_ifs
  · refine foldl_inv (fun s : Learner => s.eraseBuffers = lr.eraseBuffers) _ _ _ hs ?_
    intro s fId hs
    exact hs
  · refine foldl_inv (fun s : Learner => s.eraseBuffers = lr.eraseBuffers) _ _ _ hs ?_
    intro s fId hs
    exact hs
  · exact hs

theorem feedDerived_erase (lr : Learner) (newLeaves : List Leaf) (n o : Nat) :
    (lr.feedDerived newLeaves n o).eraseBuffers = lr.eraseBuffers := by
  unfold GreedyLinearObliviousTreeLearnerV2.feedDerived
  by_cases hno : n > o
  · rw [if_pos hno]
    refine foldl_inv (fun s : Learner => s.eraseBuffers = lr.eraseBuffers) _ _ _ rfl ?_
    intro s fId hs
    refine foldl_inv (fun s : Learner => s.eraseBuffers = lr.eraseBuffers) _ _ _ hs ?_
    intro s localBinId hs
    refine foldl_inv (fun s : Learner => s.eraseBuffers = lr.eraseBuffers) _ _ _ hs ?_
    intro s lId hs
    by_cases hfu : (!(lr.fullUpdate lId)) = true
    · simp only [hfu, if_true]
      refine foldl_inv (fun s : Learner => s.eraseBuffers = lr.eraseBuffers) _ _ _ hs ?_
      intro s thId hs
      dsimp only
      cases newLeaves[lId]? <;> split_ifs <;> exact hs
    · simp only [hfu]
      exact hs
  · rw [if_neg hno]

theorem sumFullChildren_erase (lr : Learner) (newLeaves : List Leaf) :
    (lr.sumFullChildren newLeaves).eraseBuffers = lr.eraseBuffers := by
  unfold GreedyLinearObliviousTreeLearnerV2.sumFullChildren
  refine foldl_inv (fun s : Learner => s.eraseBuffers = lr.eraseBuffers) _ _ _ rfl ?_
  intro s bin hs
  refine foldl_inv (fun s : Learner => s.eraseBuffers = lr.eraseBuffers) _ _ _ hs ?_
  intro s lId hs
  dsimp only
  split_ifs
  · refine foldl_inv (fun s : Learner => s.eraseBuffers = lr.eraseBuffers) _ _ _ hs ?_
    intro s blockId hs
    dsimp only
    cases newLeaves[lId]? <;> exact hs
  · exact hs

theorem prefixFullChildren_erase (lr : Learner) (newLeaves : List Leaf) :
    (lr.prefixFullChildren newLeaves).eraseBuffers = lr.eraseBuffers := by
  unfold GreedyLinearObliviousTreeLearnerV2.prefixFullChildren
  refine foldl_inv (fun s : Learner => s.eraseBuffers = lr.eraseBuffers) _ _ _ rfl ?_
  intro s lId hs
  dsimp only
  split_ifs
  · cases newLeaves[lId]? <;> exact hs
  · exact hs

theorem deriveChildren_erase (lr : Learner) (leaves newLeaves : List Leaf) :
    (lr.deriveChildren leaves newLeaves).eraseBuffers = lr.eraseBuffers := by
  unfold GreedyLinearObliviousTreeLearnerV2.deriveChildren
  refine foldl_inv (fun s : Learner => s.eraseBuffers = lr.eraseBuffers) _ _ _ rfl ?_
  intro s lId hs
  dsimp only
  split
  · split_ifs <;> exact hs
  · exact hs

theorem partition_leafId (lr : Learner) (ds : DataSet) (n f : Nat) (border : ℚ) (i : Nat) :
    (lr.partition ds n f border).leafId i
      = routedLeafId (lr.fColumnsRefs.getD f (fun _ => 0)) border lr.leafId ds.samplesCount i := by
  have key : ∀ (m : Nat) (cnt0 : Nat → ℤ),
      ((List.range m).foldl
        (fun (st : (Nat → Nat) × (Nat → ℤ)) i =>
          (Function.update st.1 i
            (if (lr.fColumnsRefs.getD f (fun _ => 0)) i ≤ border then 2 * st.1 i else 2 * st.1 i + 1),
           Function.update st.2
            ((Function.update st.1 i
              (if (lr.fColumnsRefs.getD f (fun _ => 0)) i ≤ border then 2 * st.1 i
                else 2 * st.1 i + 1)) i)
            (st.2 ((Function.update st.1 i
              (if (lr.fColumnsRefs.getD f (fun _ => 0)) i ≤ border then 2 * st.1 i
                else 2 * st.1 i + 1)) i) + 1)))
        (lr.leafId, cnt0)).1 i
        = routedLeafId (lr.fColumnsRefs.getD f (fun _ => 0)) border lr.leafId m i := by
    intro m cnt0
    induction m with
    | zero => simp [routedLeafId]
    | succ m ih =>
      rw [List.range_succ, List.foldl_append]
      simp only [List.foldl_cons, List.foldl_nil]
      by_cases him : i = m
      · rw [him] at ih ⊢
        rw [Function.update_same]
        simp only [routedLeafId, lt_irrefl, if_false] at ih
        rw [ih]
        simp [routedLeafId]
      · rw [Function.update_noteq him, ih]
        simp only [routedLeafId]
        by_cases h1 : i < m
        · simp [h1, Nat.lt_succ_of_lt h1]
        · have : ¬ i < m + 1 := by omega
          simp [h1, this]
  exact key ds.samplesCount _

theorem settings_of_erase (a b : Learner) (h : a.eraseBuffers = b.eraseBuffers) :
    a.settings = b.settings := by
  unfold GreedyLinearObliviousTreeLearnerV2.settings
  rw [h]

theorem leafId_of_erase (a b : Learner) (h : a.eraseBuffers = b.eraseBuffers) :
    a.leafId = b.leafId := by
  have h1 : a.eraseBuffers.leafId = b.eraseBuffers.leafId := by rw [h]
  exact h1

theorem fields_of_erase (a b : Learner) (h : a.eraseBuffers = b.eraseBuffers) :
    a.grid = b.grid ∧ a.fCount = b.fCount ∧ a.curLeavesCoord = b.curLeavesCoord ∧
    a.fColumnsRefs = b.fColumnsRefs ∧ a.nSamples = b.nSamples ∧ a.fullUpdate = b.fullUpdate ∧
    a.usedFeatures = b.usedFeatures ∧ a.usedFeaturesOrdered = b.usedFeaturesOrdered ∧
    a.totalBins = b.totalBins ∧ a.binOffsets = b.binOffsets ∧ a.nThreads = b.nThreads := by
  have h1 : a.eraseBuffers.grid = b.eraseBuffers.grid := by rw [h]
  have h2 : a.eraseBuffers.fCount = b.eraseBuffers.fCount := by rw [h]
  have h3 : a.eraseBuffers.curLeavesCoord = b.eraseBuffers.curLeavesCoord := by rw [h]
  have h4 : a.eraseBuffers.fColumnsRefs = b.eraseBuffers.fColumnsRefs := by rw [h]
  have h5 : a.eraseBuffers.nSamples = b.eraseBuffers.nSamples := by rw [h]
  have h6 : a.eraseBuffers.fullUpdate = b.eraseBuffers.fullUpdate := by rw [h]
  have h7 : a.eraseBuffers.usedFeatures = b.eraseBuffers.usedFeatures := by rw [h]
  have h8 : a.eraseBuffers.usedFeaturesOrdered = b.eraseBuffers.usedFeaturesOrdered := by rw [h]
  have h9 : a.eraseBuffers.totalBins = b.eraseBuffers.totalBins := by rw [h]
  have h10 : a.eraseBuffers.binOffsets = b.eraseBuffers.binOffsets := by rw [h]
  have h11 : a.eraseBuffers.nThreads = b.eraseBuffers.nThreads := by rw [h]
  exact ⟨h1, h2, h3, h4, h5, h6, h7, h8, h9, h10, h11⟩

theorem buildChildren_erase (lr : Learner) (ds : DataSet) (bds : BinarizedDataSet) (ys : Nat → ℚ)
    (blockOf : Nat → Nat) (leaves newLeaves : List Leaf) (o : Nat) :
    (lr.buildChildren ds bds ys blockOf leaves newLeaves o).eraseBuffers = lr.eraseBuffers := by
  unfold GreedyLinearObliviousTreeLearnerV2.buildChildren
  simp only
  rw [deriveChildren_erase, prefixFullChildren_erase, sumFullChildren_erase, feedDerived_erase,
    accumulateChildren_erase]

theorem depthStep_ok (ds : DataSet) (bds : BinarizedDataSet) (ys : Nat → ℚ) (blockOf : Nat → Nat)
    (st st2 : FitState) (hidx : LeavesIndexed st.lr.grid st.leaves)
    (h : depthStep ds bds ys blockOf st = .ok st2) :
    ∃ (f c : Nat) (border : ℚ), f < st.lr.fCount ∧ c < st.lr.grid.conditionsCount f ∧
      (st.lr.grid.borders f)[c]? = some border ∧
      st2.leaves = childrenOf st.leaves f c (st.lr.curLeavesCoord ^^^ 1) ∧
      st2.lr.settings = st.lr.settings ∧
      (∀ i, st2.lr.leafId i
        = routedLeafId (st.lr.fColumnsRefs.getD f (fun _ => 0)) border st.lr.leafId ds.samplesCount i) ∧
      st2.lr.curLeavesCoord = st.lr.curLeavesCoord ^^^ 1 := by
  unfold depthStep at h
  cases hl : st.leaves with
  | nil => rw [hl] at h; simp at h
  | cons l0 rest =>
    rw [hl] at h
    simp only at h
    rw [← hl] at h
    generalize hlr2 : (st.lr.correlate ds bds ys blockOf l0.nUsedFeatures).feedNewCorrelations
      st.leaves l0.nUsedFeatures = lr2 at h
    have e2 : lr2.eraseBuffers = st.lr.eraseBuffers := by
      rw [← hlr2, feedNewCorrelations_erase, correlate_erase]
    obtain ⟨hgr, hfc, hcur, hcol, _⟩ := fields_of_erase _ _ e2
    have hlid : lr2.leafId = st.lr.leafId := leafId_of_erase _ _ e2
    have hinv := findBestSplit_inv lr2.fCount lr2.grid.conditionsCount
      (totalSplitScore st.leaves lr2.stats)
    generalize findBestSplit lr2.fCount lr2.grid.conditionsCount
      (totalSplitScore st.leaves lr2.stats) = best at h hinv
    unfold GreedyLinearObliviousTreeLearnerV2.splitStep at h
    by_cases hneg : best.splitFId < 0 ∨ best.splitCond < 0
    · rw [if_pos hneg] at h
      exact absurd h (by simp)
    · rw [if_neg hneg] at h
      obtain ⟨_, _, hsel⟩ := hinv
      rcases hsel with ⟨h1, _, _⟩ | ⟨f, c, h1, h2, h3, h4, _⟩
      · exact absurd (Or.inl (by rw [h1]; decide)) hneg
      · have hfn : best.splitFId.toNat = f := by rw [h1]; simp
        have hcn : best.splitCond.toNat = c := by rw [h2]; simp
        rw [hfn, hcn] at h
        have hf : f < lr2.fCount := by
          rcases h4 with h | ⟨_, h⟩
          · exact h
          · omega
        cases hb : (lr2.grid.borders f)[c]? with
        | none => rw [hb] at h; exact absurd h (by simp)
        | some border =>
          rw [hb] at h
          simp only at h
          have hnew : derefLeaves ((lr2.partition ds st.leaves.length f border).initNewLeaves
              st.leaves f c) = .ok (childrenOf st.leaves f c (lr2.curLeavesCoord ^^^ 1)) := by
            rw [initNewLeaves_eq _ _ _ _ (fun j l hj => (hidx j l hj).1), derefLeaves_map_some]
            rfl
          rw [hnew] at h
          simp only at h
          injection h with h
          subst h
          have e7 := buildChildren_erase ((lr2.partition ds st.leaves.length f border).useFeatureAndReset
            (childrenOf st.leaves f c (lr2.curLeavesCoord ^^^ 1)).length f) ds bds ys blockOf
            st.leaves (childrenOf st.leaves f c (lr2.curLeavesCoord ^^^ 1)) l0.nUsedFeatures
          refine ⟨f, c, border, hfc ▸ hf, hgr ▸ h3, hgr ▸ hb,
            by show childrenOf _ _ _ _ = _; rw [hcur, hl], ?_, ?_, ?_⟩
          · have s7 := settings_of_erase _ _ e7
            have s2 := settings_of_erase _ _ e2
            have smid : ((lr2.partition ds st.leaves.length f border).useFeatureAndReset
              (childrenOf st.leaves f c (lr2.curLeavesCoord ^^^ 1)).length f).settings
                = lr2.settings := rfl
            exact s7.trans (smid.trans s2)
          · intro i
            have l7 := congrFun (leafId_of_erase _ _ e7) i
            show (GreedyLinearObliviousTreeLearnerV2.buildChildren _ ds bds ys blockOf _ _ _).leafId i = _
            rw [l7]
            show (lr2.partition ds st.leaves.length f border).leafId i = _
            rw [partition_leafId, hcol, hlid]
          · have c7 := (fields_of_erase _ _ e7).2.2.1
            show (GreedyLinearObliviousTreeLearnerV2.buildChildren _ ds bds ys blockOf _ _ _).curLeavesCoord ^^^ 1 = _
            rw [c7]
            show lr2.curLeavesCoord ^^^ 1 = _
            rw [hcur]

theorem isInRegionLoop_append (g : Grid) (x : Nat → ℚ) (s : List (Nat × Nat × Bool))
    (t : Nat × Nat × Bool) :
    isInRegionLoop g x (s ++ [t]) =
      match isInRegionLoop g x s with
      | .error e => .error e
      | .ok false => .ok false
      | .ok true => isInRegionLoop g x [t] := by
  induction s with
  | nil =>
    simp only [List.nil_append, isInRegionLoop]
  | cons a s ih =>
    obtain ⟨f, c, b⟩ := a
    simp only [List.cons_append, isInRegionLoop]
    cases g.nzFeatures[f]? with
    | none => rfl
    | some o =>
      simp only
      cases (g.borders f)[c]? with
      | none => rfl
      | some border =>
        simp only
        split_ifs
        · rfl
        · exact ih

theorem split_fst_isInRegion (l : Leaf) (f c coord base : Nat) (x : Nat → ℚ) (o : Nat)
    (border : ℚ) (ho : l.grid.nzFeatures[f]? = some o) (hb : (l.grid.borders f)[c]? = some border) :
    (l.split f c coord base).1.isInRegion x =
      match l.isInRegion x with
      | .error e => .error e
      | .ok false => .ok false
      | .ok true => .ok (decide (x o ≤ border)) := by
  show isInRegionLoop l.grid x (l.splits ++ [(f, c, true)]) = _
  rw [isInRegionLoop_append]
  unfold LinearObliviousTreeLeafV2.isInRegion
  cases isInRegionLoop l.grid x l.splits with
  | error e => rfl
  | ok b =>
    cases b with
    | false => rfl
    | true =>
      simp only [isInRegionLoop, ho, hb]
      by_cases h : x o ≤ border <;> simp [h]

theorem split_snd_isInRegion (l : Leaf) (f c coord base : Nat) (x : Nat → ℚ) (o : Nat)
    (border : ℚ) (ho : l.grid.nzFeatures[f]? = some o) (hb : (l.grid.borders f)[c]? = some border) :
    (l.split f c coord base).2.isInRegion x =
      match l.isInRegion x with
      | .error e => .error e
      | .ok false => .ok false
      | .ok true => .ok (!decide (x o ≤ border)) := by
  show isInRegionLoop l.grid x (l.splits ++ [(f, c, false)]) = _
  rw [isInRegionLoop_append]
  unfold LinearObliviousTreeLeafV2.isInRegion
  cases isInRegionLoop l.grid x l.splits with
  | error e => rfl
  | ok b =>
    cases b with
    | false => rfl
    | true =>
      simp only [isInRegionLoop, ho, hb]
      by_cases h : x o ≤ border <;> simp [h]

theorem childrenOf_getElem? (leaves : List Leaf) (f c coord p : Nat) :
    (childrenOf leaves f c coord)[p]? =
      (leaves[p / 2]?).map (fun l => if p % 2 = 0 then (l.split f c coord 0).1
        else (l.split f c coord 0).2) := by
  induction leaves generalizing p with
  | nil => simp [childrenOf]
  | cons l ls ih =>
    have hc : childrenOf (l :: ls) f c coord
        = (l.split f c coord 0).1 :: (l.split f c coord 0).2 :: childrenOf ls f c coord := by
      simp [childrenOf]
    rw [hc]
    match p with
    | 0 => simp
    | 1 => simp
    | p + 2 =>
      have h1 : (p + 2) / 2 = p / 2 + 1 := by omega
      have h2 : (p + 2) % 2 = p % 2 := by omega
      simp only [List.getElem?_cons_succ, h1, h2]
      exact ih p

theorem childrenOf_indexed (g : Grid) (leaves : List Leaf) (f c coord : Nat)
    (h : LeavesIndexed g leaves) : LeavesIndexed g (childrenOf leaves f c coord) := by
  intro p l hp
  rw [childrenOf_getElem?] at hp
  cases hq : leaves[p / 2]? with
  | none => rw [hq] at hp; simp at hp
  | some q =>
    rw [hq] at hp
    simp only [Option.map_some'] at hp
    obtain ⟨hid, hg⟩ := h (p / 2) q hq
    injection hp with hp
    subst hp
    by_cases h0 : p % 2 = 0
    · simp only [h0, if_true]
      refine ⟨?_, hg⟩
      rw [split_fst_id, hid]; omega
    · simp only [h0, if_false]
      refine ⟨?_, hg⟩
      rw [split_snd_id, hid]; omega

theorem childrenOf_regionAt (g : Grid) (leaves : List Leaf) (f c coord : Nat) (x : Nat → ℚ)
    (k o : Nat) (border : ℚ) (hidx : LeavesIndexed g leaves)
    (ho : g.nzFeatures[f]? = some o) (hb : (g.borders f)[c]? = some border)
    (h : RegionAt leaves x k) :
    RegionAt (childrenOf leaves f c coord) x (if x o ≤ border then 2 * k else 2 * k + 1) := by
  obtain ⟨hk, hall⟩ := h
  refine ⟨by rw [childrenOf_length]; split_ifs <;> omega, ?_⟩
  intro p l hp
  rw [childrenOf_getElem?] at hp
  cases hq : leaves[p / 2]? with
  | none => rw [hq] at hp; simp at hp
  | some q =>
    rw [hq] at hp
    simp only [Option.map_some'] at hp
    obtain ⟨_, hg⟩ := hidx (p / 2) q hq
    have hreg := hall (p / 2) q hq
    injection hp with hp
    subst hp
    have hfalse : ¬ p / 2 = k → decide (p = (if x o ≤ border then 2 * k else 2 * k + 1)) = false := by
      intro hpk
      have : ¬ p = (if x o ≤ border then 2 * k else 2 * k + 1) := by split_ifs <;> omega
      simp [this]
    by_cases h0 : p % 2 = 0
    · simp only [h0, if_true]
      rw [split_fst_isInRegion q f c coord 0 x o border (hg ▸ ho) (hg ▸ hb), hreg]
      by_cases hpk : p / 2 = k
      · have hd : decide (p / 2 = k) = true := by simp [hpk]
        rw [hd]
        simp only
        congr 1
        by_cases hx : x o ≤ border
        · have : p = 2 * k := by omega
          simp only [hx, if_true, decide_True]
          exact (decide_eq_true this).symm
        · have : ¬ p = 2 * k + 1 := by omega
          simp only [hx, if_false, decide_False]
          exact (decide_eq_false this).symm
      · have hd : decide (p / 2 = k) = false := by simp [hpk]
        rw [hd, hfalse hpk]
    · simp only [h0, if_false]
      rw [split_snd_isInRegion q f c coord 0 x o border (hg ▸ ho) (hg ▸ hb), hreg]
      by_cases hpk : p / 2 = k
      · have hd : decide (p / 2 = k) = true := by simp [hpk]
        rw [hd]
        simp only
        congr 1
        by_cases hx : x o ≤ border
        · have : ¬ p = 2 * k := by omega
          simp only [hx, if_true, decide_True, Bool.not_true]
          exact (decide_eq_false this).symm
        · have : p = 2 * k + 1 := by omega
          simp only [hx, if_false, decide_False, Bool.not_false]
          exact (decide_eq_true this).symm
      · have hd : decide (p / 2 = k) = false := by simp [hpk]
        rw [hd, hfalse hpk]

theorem fields_of_settings (a b : Learner) (h : a.settings = b.settings) :
    a.grid = b.grid ∧ a.fCount = b.fCount ∧ a.fColumnsRefs = b.fColumnsRefs ∧
    a.nSamples = b.nSamples ∧ a.totalBins = b.totalBins ∧ a.nThreads = b.nThreads ∧
    a.binOffsets = b.binOffsets := by
  have h1 : a.settings.grid = b.settings.grid := by rw [h]
  have h2 : a.settings.fCount = b.settings.fCount := by rw [h]
  have h3 : a.settings.fColumnsRefs = b.settings.fColumnsRefs := by rw [h]
  have h4 : a.settings.nSamples = b.settings.nSamples := by rw [h]
  have h5 : a.settings.totalBins = b.settings.totalBins := by rw [h]
  have h6 : a.settings.nThreads = b.settings.nThreads := by rw [h]
  have h7 : a.settings.binOffsets = b.settings.binOffsets := by rw [h]
  exact ⟨h1, h2, h3, h4, h5, h6, h7⟩

theorem cacheDs_fields (lr : Learner) (ds : DataSet) :
    (lr.cacheDs ds).grid = lr.grid ∧ (lr.cacheDs ds).fCount = lr.fCount ∧
    (lr.cacheDs ds).biasCol = lr.biasCol ∧ (lr.cacheDs ds).maxDepth = lr.maxDepth := by
  unfold GreedyLinearObliviousTreeLearnerV2.cacheDs
  split_ifs <;> exact ⟨rfl, rfl, rfl, rfl⟩

theorem rootState_fields (lr : Learner) (ds : DataSet) (bds : BinarizedDataSet) (ys : Nat → ℚ)
    (blockOf : Nat → Nat) :
    (lr.rootState ds bds ys blockOf).lr.grid = lr.grid ∧
    (lr.rootState ds bds ys blockOf).lr.fCount = lr.fCount ∧
    (lr.rootState ds bds ys blockOf).lr.fColumnsRefs = (lr.cacheDs ds).fColumnsRefs ∧
    (lr.rootState ds bds ys blockOf).lr.leafId = (fun _ => 0) ∧
    (∃ root : Leaf, (lr.rootState ds bds ys blockOf).leaves = [root] ∧ root.id = 0 ∧
      root.grid = lr.grid ∧ root.splits = []) := by
  obtain ⟨h1, h2, _, _⟩ := cacheDs_fields lr ds
  refine ⟨h1, h2, rfl, rfl, ⟨_, rfl, rfl, h1, rfl⟩⟩

theorem growLoop_inv (ds : DataSet) (bds : BinarizedDataSet) (ys : Nat → ℚ) (blockOf : Nat → Nat)
    (I : FitState → Prop)
    (hstep : ∀ st st2, I st → depthStep ds bds ys blockOf st = .ok st2 → I st2) :
    ∀ (n : Nat) (st st2 : FitState), I st → growLoop ds bds ys blockOf n st = .ok st2 → I st2 := by
  intro n
  induction n with
  | zero =>
    intro st st2 hI h
    simp only [growLoop] at h
    injection h with h
    exact h ▸ hI
  | succ n ih =>
    intro st st2 hI h
    simp only [growLoop] at h
    cases hd : depthStep ds bds ys blockOf st with
    | error e => rw [hd] at h; simp at h
    | ok st1 =>
      rw [hd] at h
      exact ih st1 st2 (hstep st st1 hI hd) h

/-- The structural invariant of the growth loop: the leaves stand at their ids
on the learner's grid, the settings are those of the start, and for every `x`
exactly one leaf accepts it. -/
theorem growLoop_partition (lr : Learner) (ds : DataSet) (bds : BinarizedDataSet) (ys : Nat → ℚ)
    (blockOf : Nat → Nat) (hcfg : lr.fCount ≤ lr.grid.nzFeatures.length) (n : Nat) (st : FitState)
    (h : growLoop ds bds ys blockOf n (lr.rootState ds bds ys blockOf) = .ok st) :
    LeavesIndexed lr.grid st.leaves ∧ st.lr.grid = lr.grid ∧ st.lr.fCount = lr.fCount ∧
    ∀ x, ∃ k, RegionAt st.leaves x k := by
  refine growLoop_inv ds bds ys blockOf
    (fun st => LeavesIndexed lr.grid st.leaves ∧ st.lr.grid = lr.grid ∧ st.lr.fCount = lr.fCount ∧
      ∀ x, ∃ k, RegionAt st.leaves x k) ?_ n _ st ?_ h
  · rintro st st2 ⟨hidx, hg, hf, hreg⟩ hd
    obtain ⟨f, c, border, hfl, _, hb, hleaves, hset, _, _⟩ :=
      depthStep_ok ds bds ys blockOf st st2 (hg ▸ hidx) hd
    obtain ⟨hg2, hf2, _⟩ := fields_of_settings _ _ hset
    have hfn : f < lr.grid.nzFeatures.length := by omega
    refine ⟨hleaves ▸ childrenOf_indexed _ _ _ _ _ hidx, hg2.trans hg, hf2.trans hf, ?_⟩
    intro x
    obtain ⟨k, hk⟩ := hreg x
    rw [hleaves]
    exact ⟨_, childrenOf_regionAt lr.grid st.leaves f c _ x k _ border hidx
      (List.getElem?_eq_getElem hfn) (hg ▸ hb) hk⟩
  · obtain ⟨h1, h2, _, _, root, hr, hid, hgr, hsp⟩ := rootState_fields lr ds bds ys blockOf
    refine ⟨?_, h1, h2, ?_⟩
    · intro j l hj
      rw [hr] at hj
      cases j with
      | zero => simp at hj; subst hj; exact ⟨hid, hgr⟩
      | succ j => simp at hj
    · intro x
      refine ⟨0, by rw [hr]; simp, ?_⟩
      intro j l hj
      rw [hr] at hj
      cases j with
      | zero =>
        simp at hj; subst hj
        simp [LinearObliviousTreeLeafV2.isInRegion, hsp, isInRegionLoop]
      | succ j => simp at hj

theorem leaf_fit_ok (l l2 : Leaf) (stats : Arena) (h : l.fit stats = .ok l2) :
    l2.splits = l.splits ∧ l2.grid = l.grid ∧ l2.id = l.id ∧ l2.w.isSome = true := by
  unfold LinearObliviousTreeLeafV2.fit at h
  cases hw : l.w with
  | some w =>
    rw [hw] at h
    simp only at h
    injection h with h
    subst h
    exact ⟨rfl, rfl, rfl, by rw [hw]; rfl⟩
  | none =>
    rw [hw] at h
    simp only at h
    cases hg : (l.hist stats).getW l.l2reg with
    | error e => rw [hg] at h; simp at h
    | ok w =>
      rw [hg] at h
      simp only at h
      injection h with h
      subst h
      exact ⟨rfl, rfl, rfl, rfl⟩

theorem fitLeaves_ok (stats : Arena) (ls ls2 : List Leaf) (h : fitLeaves stats ls = .ok ls2) :
    ls2.length = ls.length ∧
    ∀ (j : Nat) (l2 : Leaf), ls2[j]? = some l2 →
      ∃ l, ls[j]? = some l ∧ l2.splits = l.splits ∧ l2.grid = l.grid ∧ l2.id = l.id ∧
        l2.w.isSome = true := by
  induction ls generalizing ls2 with
  | nil =>
    simp only [fitLeaves] at h
    injection h with h
    subst h
    exact ⟨rfl, fun j l2 hj => by simp at hj⟩
  | cons l ls ih =>
    simp only [fitLeaves] at h
    cases hl : l.fit stats with
    | error e => rw [hl] at h; simp at h
    | ok l1 =>
      rw [hl] at h
      simp only at h
      cases hr : fitLeaves stats ls with
      | error e => rw [hr] at h; simp at h
      | ok lsr =>
        rw [hr] at h
        simp only at h
        injection h with h
        subst h
        obtain ⟨hlen, hall⟩ := ih lsr hr
        refine ⟨by simp [hlen], ?_⟩
        intro j l2 hj
        cases j with
        | zero =>
          simp at hj
          subst hj
          exact ⟨l, by simp, leaf_fit_ok l l1 stats hl⟩
        | succ j =>
          simp at hj
          obtain ⟨l0, h0, hrest⟩ := hall j l2 hj
          exact ⟨l0, by simpa using h0, hrest⟩

theorem regionAt_of_fitted (ls ls2 : List Leaf) (x : Nat → ℚ) (k : Nat)
    (hlen : ls2.length = ls.length)
    (hall : ∀ (j : Nat) (l2 : Leaf), ls2[j]? = some l2 →
      ∃ l, ls[j]? = some l ∧ l2.splits = l.splits ∧ l2.grid = l.grid ∧ l2.id = l.id ∧
        l2.w.isSome = true)
    (h : RegionAt ls x k) : RegionAt ls2 x k := by
  refine ⟨hlen ▸ h.1, ?_⟩
  intro j l2 hj
  obtain ⟨l, hl, hs, hg, _, _⟩ := hall j l2 hj
  have := h.2 j l hl
  unfold LinearObliviousTreeLeafV2.isInRegion at this ⊢
  rw [hs, hg]
  exact this

theorem treeValueLoop_ok (scale : ℚ) (x : Nat → ℚ) (ls : List Leaf) (k : Nat)
    (hfit : ∀ (j : Nat) (l : Leaf), ls[j]? = some l → l.w.isSome = true)
    (h : RegionAt ls x k) : ∃ v, treeValueLoop scale x ls = .ok v := by
  induction ls generalizing k with
  | nil => exact absurd h.1 (by simp)
  | cons l ls ih =>
    have hl := h.2 0 l (by simp)
    simp only [treeValueLoop]
    rw [hl]
    cases k with
    | zero =>
      simp only [decide_True]
      have hw := hfit 0 l (by simp)
      unfold LinearObliviousTreeLeafV2.value
      cases hlw : l.w with
      | none => rw [hlw] at hw; simp at hw
      | some w => exact ⟨_, rfl⟩
    | succ k =>
      have hne : ¬ (0 = k + 1) := by omega
      simp only [hne, decide_False]
      refine ih k (fun j l2 hj => hfit (j + 1) l2 (by simpa using hj)) ⟨?_, ?_⟩
      · have := h.1
        simp at this
        omega
      · intro j l2 hj
        have := h.2 (j + 1) l2 (by simpa using hj)
        rw [this]
        congr 1
        simp

/-- The result of `fit` without the learner of a throwing call: the test of the
bias column, the growth loop from the root state, the fit of the leaves. -/
theorem fit_eq (lr : Learner) (ds : DataSet) (bds : BinarizedDataSet) (ys : Nat → ℚ)
    (blockOf : Nat → Nat) (scale : ℚ) :
    lr.fit ds bds ys blockOf scale
      = if lr.biasCol = -1 then .error Err.noBias
        else
          match growLoop ds bds ys blockOf lr.maxDepth (lr.rootState ds bds ys blockOf) with
          | .error e => .error e
          | .ok st =>
            match fitLeaves st.lr.stats st.leaves with
            | .error e => .error e
            | .ok leaves => .ok ({ grid := lr.grid, scale := scale, leaves := leaves }, st.lr) := by
  have hroot : lr.rootState ds bds ys blockOf
      = { lr := { lr.prologue ds with stats := (lr.prologue ds).buildRoot ds bds ys blockOf },
          leaves := [(lr.prologue ds).rootLeaf] } := rfl
  unfold GreedyLinearObliviousTreeLearnerV2.fit GreedyLinearObliviousTreeLearnerV2.fitRun
  rw [hroot]
  by_cases hb : lr.biasCol = -1
  · simp only [hb, if_true]
  · simp only [hb, if_false]
    generalize growLoop ds bds ys blockOf lr.maxDepth _ = r
    cases r with
    | error e => rfl
    | ok st =>
      simp only []
      cases fitLeaves st.lr.stats st.leaves with
      | error e => rfl
      | ok leaves => rfl

theorem fit_ok_unfold (lr : Learner) (ds : DataSet) (bds : BinarizedDataSet) (ys : Nat → ℚ)
    (blockOf : Nat → Nat) (scale : ℚ) (t : LinearObliviousTreeV2) (lr2 : Learner)
    (h : lr.fit ds bds ys blockOf scale = .ok (t, lr2)) :
    lr.biasCol ≠ -1 ∧ ∃ st, growLoop ds bds ys blockOf lr.maxDepth (lr.rootState ds bds ys blockOf) = .ok st ∧
      fitLeaves st.lr.stats st.leaves = .ok t.leaves ∧ t.scale = scale ∧ t.grid = lr.grid ∧
      lr2 = st.lr := by
  rw [fit_eq] at h
  by_cases hb : lr.biasCol = -1
  · rw [if_pos hb] at h; simp at h
  · rw [if_neg hb] at h
    refine ⟨hb, ?_⟩
    cases hg : growLoop ds bds ys blockOf lr.maxDepth (lr.rootState ds bds ys blockOf) with
    | error e => rw [hg] at h; simp at h
    | ok st =>
      rw [hg] at h
      simp only at h
      cases hf : fitLeaves st.lr.stats st.leaves with
      | error e => rw [hf] at h; simp at h
      | ok leaves =>
        rw [hf] at h
        simp only at h
        injection h with h
        injection h with h1 h2
        subst h1
        exact ⟨st, rfl, hf, rfl, rfl, h2.symm⟩

/-- C1: for every learner whose feature count does not exceed the grid's feature
table, and every dataset, binarization, target and block assignment, if `fit`
returns a tree then for every vector `x` (training sample or not) exactly one
leaf of the tree accepts `x` (the leaf at some position `k` returns `true`,
every other leaf returns `false`, and no lookup fails), and
`LinearObliviousTreeV2::value` returns a value: it never reaches its
"does not belong to any region" error. -/
theorem fit_leaves_partition (lr : Learner) (ds : DataSet) (bds : BinarizedDataSet) (ys : Nat → ℚ)
    (blockOf : Nat → Nat) (scale : ℚ) (hcfg : lr.fCount ≤ lr.grid.nzFeatures.length)
    (t : LinearObliviousTreeV2) (lr2 : Learner)
    (h : lr.fit ds bds ys blockOf scale = .ok (t, lr2)) (x : Nat → ℚ) :
    (∃ k, k < t.leaves.length ∧
      ∀ (j : Nat) (l : Leaf), t.leaves[j]? = some l → l.isInRegion x = .ok (decide (j = k))) ∧
    (∃ v, t.value x = .ok v) ∧ t.value x ≠ .error Err.noRegion := by
  obtain ⟨_, st, hg, hf, _, _, _⟩ := fit_ok_unfold lr ds bds ys blockOf scale t lr2 h
  obtain ⟨_, _, _, hreg⟩ := growLoop_partition lr ds bds ys blockOf hcfg _ st hg
  obtain ⟨hlen, hall⟩ := fitLeaves_ok _ _ _ hf
  obtain ⟨k, hk⟩ := hreg x
  have hk2 := regionAt_of_fitted _ _ x k hlen hall hk
  obtain ⟨v, hv⟩ := treeValueLoop_ok t.scale x t.leaves k
    (fun j l hj => (hall j l hj).choose_spec.2.2.2.2) hk2
  refine ⟨⟨k, hk2.1, hk2.2⟩, ⟨v, hv⟩, ?_⟩
  unfold LinearObliviousTreeV2.value
  rw [hv]
  simp

theorem cacheDs_cacheFor (lr : Learner) (ds : DataSet) (hfresh : lr.isDsCached = false)
    (hcnt : lr.fCount ≤ lr.grid.nzFeaturesCount) : (lr.cacheDs ds).CacheFor ds := by
  intro f i hf
  have hf2 : f < lr.fCount := by
    have := (cacheDs_fields lr ds).2.1
    omega
  unfold GreedyLinearObliviousTreeLearnerV2.cacheDs
  simp only [hfresh, Bool.false_eq_true, if_false]
  have hlt : f < lr.grid.nzFeaturesCount := by omega
  simp [List.getD_eq_getElem?_getD, List.getElem?_map, List.getElem?_range hlt]

/-- C8 (amended): when the column cache that `fit` uses (the one `cacheDs` leaves)
holds the columns of the dataset being fitted, and the grid's feature table
names the original feature of every local feature, then after any number of
depth levels of `fit`, for every sample `i` of the dataset, the leaf at position
`leafId_[i]` accepts the sample's feature vector and every other current leaf
rejects it. -/
theorem leafId_routes_to_region (lr : Learner) (ds : DataSet) (bds : BinarizedDataSet)
    (ys : Nat → ℚ) (blockOf : Nat → Nat)
    (hgrid : ∀ f, f < lr.fCount → lr.grid.nzFeatures[f]? = some (lr.grid.origFeatureIndex f))
    (hcache : (lr.cacheDs ds).CacheFor ds) (n : Nat) (st : FitState)
    (h : growLoop ds bds ys blockOf n (lr.rootState ds bds ys blockOf) = .ok st)
    (i : Nat) (hi : i < ds.samplesCount) :
    RegionAt st.leaves (ds.sample i) (st.lr.leafId i) := by
  have key := growLoop_inv ds bds ys blockOf
    (fun st => LeavesIndexed lr.grid st.leaves ∧ st.lr.grid = lr.grid ∧ st.lr.fCount = lr.fCount ∧
      st.lr.fColumnsRefs = (lr.cacheDs ds).fColumnsRefs ∧
      ∀ i, i < ds.samplesCount → RegionAt st.leaves (ds.sample i) (st.lr.leafId i)) ?_ n _ st ?_ h
  · exact key.2.2.2.2 i hi
  · rintro st st2 ⟨hidx, hg, hf, hcol, hreg⟩ hd
    obtain ⟨f, c, border, hfl, _, hb, hleaves, hset, hlid, _⟩ :=
      depthStep_ok ds bds ys blockOf st st2 (hg ▸ hidx) hd
    obtain ⟨hg2, hf2, hc2, _⟩ := fields_of_settings _ _ hset
    refine ⟨hleaves ▸ childrenOf_indexed _ _ _ _ _ hidx, hg2.trans hg, hf2.trans hf,
      hc2.trans hcol, ?_⟩
    intro i hi
    have hk := hreg i hi
    rw [hleaves, hlid i]
    have hfl2 : f < lr.fCount := by omega
    have hres := childrenOf_regionAt lr.grid st.leaves f c (st.lr.curLeavesCoord ^^^ 1)
      (ds.sample i) (st.lr.leafId i) _ border hidx (hgrid f hfl2) (hg ▸ hb) hk
    have hcol2 : (st.lr.fColumnsRefs.getD f (fun _ => 0)) i
        = ds.sample i (lr.grid.origFeatureIndex f) := by
      rw [hcol]
      have := hcache f i (by rw [(cacheDs_fields lr ds).2.1]; exact hfl2)
      rw [(cacheDs_fields lr ds).1] at this
      exact this
    simp only [routedLeafId, hi, if_true, hcol2]
    exact hres
  · obtain ⟨h1, h2, h3, h4, root, hr, hid, hgr, hsp⟩ := rootState_fields lr ds bds ys blockOf
    refine ⟨?_, h1, h2, h3, ?_⟩
    · intro j l hj
      rw [hr] at hj
      cases j with
      | zero => simp at hj; subst hj; exact ⟨hid, hgr⟩
      | succ j => simp at hj
    · intro i _
      rw [h4]
      refine ⟨by rw [hr]; simp, ?_⟩
      intro j l hj
      rw [hr] at hj
      cases j with
      | zero =>
        simp at hj; subst hj
        simp [LinearObliviousTreeLeafV2.isInRegion, hsp, isInRegionLoop]
      | succ j => simp at hj

/-! ## Witnesses on the example learner -/

/-- The witness of C3: one leaf over the cells of `exHist`, one candidate. -/
theorem findBestSplit_minimal_first_witness :
    ∃ f c : Nat,
      (findBestSplit 1 (fun _ => 1) (totalSplitScore [exRoot] exArena)).splitFId = (f : ℤ) ∧
      (findBestSplit 1 (fun _ => 1) (totalSplitScore [exRoot] exArena)).splitCond = (c : ℤ) ∧
      f < 1 ∧ c < 1 := by
  obtain ⟨f, c, h1, h2, h3, h4, _⟩ := findBestSplit_minimal_first [exRoot] exArena 1 (fun _ => 1)
    ⟨0, 0, by decide, by decide, by decide!⟩
  exact ⟨f, c, h1, h2, h3, h4⟩

/-- The witness of C1: `fit` returns a tree on `exLearner` and `exDs`, and exactly
one of its leaves accepts sample `0`. -/
theorem fit_leaves_partition_witness :
    ∃ (t : LinearObliviousTreeV2) (lr2 : Learner),
      exLearner.fit exDs exBds exYs (fun _ => 0) 1 = .ok (t, lr2) ∧
      ∃ k, k < t.leaves.length ∧ ∀ (j : Nat) (l : Leaf), t.leaves[j]? = some l →
        l.isInRegion (exDs.sample 0) = .ok (decide (j = k)) := by
  have hok : returned (exLearner.fit exDs exBds exYs (fun _ => 0) 1) = true := by decide!
  cases h : exLearner.fit exDs exBds exYs (fun _ => 0) 1 with
  | error e => rw [h] at hok; exact absurd hok (by simp [returned])
  | ok p =>
    obtain ⟨t, lr2⟩ := p
    exact ⟨t, lr2, rfl, (fit_leaves_partition exLearner exDs exBds exYs (fun _ => 0) 1 (by decide)
      t lr2 h (exDs.sample 0)).1⟩

/-- C8 (as stated, refuted): `exLearner` fits `exDs` and then, with the columns of
`exDs` still cached, `exDsSwapped`; after the first depth level of the second
call the leaf at position `leafId_[0]` rejects sample `0` of `exDsSwapped`. -/
theorem leafId_misroutes_on_stale_cache :
    ∃ (t : LinearObliviousTreeV2) (lr1 : Learner) (st : FitState) (l : Leaf),
      exLearner.fit exDs exBds exYs (fun _ => 0) 1 = .ok (t, lr1) ∧
      growLoop exDsSwapped exBdsSwapped exYs (fun _ => 0) 1
        (lr1.rootState exDsSwapped exBdsSwapped exYs (fun _ => 0)) = .ok st ∧
      st.leaves[st.lr.leafId 0]? = some l ∧
      l.isInRegion (exDsSwapped.sample 0) = .ok false ∧
      ¬ RegionAt st.leaves (exDsSwapped.sample 0) (st.lr.leafId 0) := by
  have hmis : secondFitMisroutes exLearner exDs exBds exDsSwapped exBdsSwapped exYs 0 = true := by
    decide!
  unfold secondFitMisroutes at hmis
  cases h1 : exLearner.fit exDs exBds exYs (fun _ => 0) 1 with
  | error e => rw [h1] at hmis; simp at hmis
  | ok p =>
    obtain ⟨t, lr1⟩ := p
    rw [h1] at hmis
    simp only at hmis
    cases h2 : growLoop exDsSwapped exBdsSwapped exYs (fun _ => 0) 1
        (lr1.rootState exDsSwapped exBdsSwapped exYs (fun _ => 0)) with
    | error e => rw [h2] at hmis; simp at hmis
    | ok st =>
      rw [h2] at hmis
      simp only at hmis
      cases h3 : st.leaves[st.lr.leafId 0]? with
      | none => rw [h3] at hmis; simp at hmis
      | some l =>
        rw [h3] at hmis
        simp only at hmis
        have h4 : l.isInRegion (exDsSwapped.sample 0) = .ok false := by
          cases h5 : l.isInRegion (exDsSwapped.sample 0) with
          | error e => rw [h5] at hmis; simp at hmis
          | ok b =>
            cases b with
            | false => rfl
            | true => rw [h5] at hmis; simp at hmis
        refine ⟨t, lr1, st, l, rfl, h2, h3, h4, ?_⟩
        intro hreg
        have := hreg.2 _ l h3
        rw [h4] at this
        simp at this

/-- The witness of C8 (amended): the first `fit` call of `exLearner`, on `exDs`;
after its depth level sample `1` is in the region of the leaf at `leafId_[1]`. -/
theorem leafId_routes_to_region_witness :
    ∃ st : FitState,
      growLoop exDs exBds exYs (fun _ => 0) 1 (exLearner.rootState exDs exBds exYs (fun _ => 0)) = .ok st ∧
      RegionAt st.leaves (exDs.sample 1) (st.lr.leafId 1) := by
  have hok : returned (growLoop exDs exBds exYs (fun _ => 0) 1
      (exLearner.rootState exDs exBds exYs (fun _ => 0))) = true := by decide!
  cases h : growLoop exDs exBds exYs (fun _ => 0) 1
      (exLearner.rootState exDs exBds exYs (fun _ => 0)) with
  | error e => rw [h] at hok; exact absurd hok (by simp [returned])
  | ok st =>
    refine ⟨st, rfl, ?_⟩
    exact leafId_routes_to_region exLearner exDs exBds exYs (fun _ => 0)
      (by
        intro f hf
        have hf0 : f = 0 := by
          have : f < 1 := hf
          omega
        subst hf0
        rfl)
      (cacheDs_cacheFor exLearner exDs rfl (by decide)) 1 st h 1 (by decide)

/-! ## Statistics: entries, cells and sums over samples -/

theorem foldl_range_val {σ : Type} (step : σ → Nat → σ) (val : σ → ℚ) (Inv : σ → Prop)
    (delta : Nat → ℚ) (hinv : ∀ s i, Inv s → Inv (step s i))
    (hval : ∀ s i, Inv s → val (step s i) = val s + delta i) (n : Nat) (s : σ) (h0 : Inv s) :
    Inv ((List.range n).foldl step s) ∧
    val ((List.range n).foldl step s) = val s + ∑ i in Finset.range n, delta i := by
  induction n with
  | zero => simpa using h0
  | succ n ih =>
    rw [List.range_succ, List.foldl_append]
    simp only [List.foldl_cons, List.foldl_nil]
    refine ⟨hinv _ _ ih.1, ?_⟩
    rw [hval _ _ ih.1, ih.2, Finset.sum_range_succ, add_assoc]

theorem val_zero (n : Nat) (e : Entry) : (BinStat.zero n).val e = 0 := by
  cases e <;> simp [BinStat.val, BinStat.zero]

theorem val_add (s t : BinStat) (e : Entry) (h : e.InBlock (min s.filledSize t.filledSize)) :
    (s.add t).val e = s.val e + t.val e := by
  cases e with
  | cnt => simp [BinStat.val, BinStat.add]
  | xtx a b =>
    simp only [Entry.InBlock] at h
    have h1 : a < min s.filledSize t.filledSize ∧ b < min s.filledSize t.filledSize := h
    simp only [BinStat.val, BinStat.add, h1, and_self, if_true]
  | xty a =>
    simp only [Entry.InBlock] at h
    have h1 : a < min s.filledSize t.filledSize := h
    simp only [BinStat.val, BinStat.add, h1, if_true]

theorem val_sub (s t : BinStat) (e : Entry) (h : e.InBlock (min s.filledSize t.filledSize)) :
    (s.sub t).val e = s.val e - t.val e := by
  cases e with
  | cnt => simp [BinStat.val, BinStat.sub]
  | xtx a b =>
    simp only [Entry.InBlock] at h
    have h1 : a < min s.filledSize t.filledSize ∧ b < min s.filledSize t.filledSize := h
    simp only [BinStat.val, BinStat.sub, h1, and_self, if_true]
  | xty a =>
    simp only [Entry.InBlock] at h
    have h1 : a < min s.filledSize t.filledSize := h
    simp only [BinStat.val, BinStat.sub, h1, if_true]

theorem val_addFull (s : BinStat) (x : Nat → ℚ) (y : ℚ) (e : Entry) (h : e.InBlock s.filledSize) :
    (s.addFullCorrelation x y).val e = s.val e + sampleVal x y e := by
  cases e with
  | cnt => simp [BinStat.val, BinStat.addFullCorrelation, sampleVal]
  | xtx a b =>
    simp only [Entry.InBlock] at h
    simp [BinStat.val, BinStat.addFullCorrelation, sampleVal, h.1, h.2]
  | xty a =>
    simp only [Entry.InBlock] at h
    simp [BinStat.val, BinStat.addFullCorrelation, sampleVal, h]

theorem val_addNew_inner (s : BinStat) (xtx : Nat → ℚ) (xty : ℚ) (shift : ℤ) (e : Entry)
    (h : e.InBlock ((s.filledSize : ℤ) + shift).toNat) :
    (s.addNewCorrelation xtx xty shift).val e = s.val e := by
  cases e with
  | cnt => simp [BinStat.val, BinStat.addNewCorrelation]
  | xtx a b =>
    simp only [Entry.InBlock] at h
    have h1 : ¬ a = ((s.filledSize : ℤ) + shift).toNat := by omega
    have h2 : ¬ b = ((s.filledSize : ℤ) + shift).toNat := by omega
    simp [BinStat.val, BinStat.addNewCorrelation, h1, h2]
  | xty a =>
    simp only [Entry.InBlock] at h
    have h1 : ¬ a = ((s.filledSize : ℤ) + shift).toNat := by omega
    simp [BinStat.val, BinStat.addNewCorrelation, h1]

theorem filledSize_add (s t : BinStat) : (s.add t).filledSize = s.filledSize := rfl
theorem filledSize_sub (s t : BinStat) : (s.sub t).filledSize = s.filledSize := rfl
theorem filledSize_addFull (s : BinStat) (x : Nat → ℚ) (y : ℚ) :
    (s.addFullCorrelation x y).filledSize = s.filledSize := rfl
theorem filledSize_addNew (s : BinStat) (xtx : Nat → ℚ) (xty : ℚ) (shift : ℤ) :
    (s.addNewCorrelation xtx xty shift).filledSize = s.filledSize := rfl

theorem modify_apply (a : Arena) (coord cell : Nat) (f : BinStat → BinStat) (c k : Nat) :
    (a.modify coord cell f) c k = if c = coord ∧ k = cell then f (a coord cell) else a c k := by
  unfold Arena.modify
  by_cases hc : c = coord
  · subst hc
    rw [Function.update_same]
    by_cases hk : k = cell
    · subst hk; simp
    · simp [Function.update_noteq hk, hk]
  · rw [Function.update_noteq hc]
    simp [hc]

/-- The cells of the valid bins of two (leaf, feature, bin) triples coincide only
if the triples do. -/
theorem cell_injective (g : Grid) (hd : g.DisjointBins) (nF : Nat) (hnF : nF = g.nzFeaturesCount)
    (hr : ∀ f, f < nF → g.offset f + g.conditionsCount f < g.totalBins)
    (l1 f1 k1 l2 f2 k2 : Nat) (hf1 : f1 < nF) (hf2 : f2 < nF)
    (hk1 : k1 ≤ g.conditionsCount f1) (hk2 : k2 ≤ g.conditionsCount f2)
    (h : l1 * g.totalBins + (g.offset f1 + k1) = l2 * g.totalBins + (g.offset f2 + k2)) :
    l1 = l2 ∧ f1 = f2 ∧ k1 = k2 := by
  have h1 := hr f1 hf1
  have h2 := hr f2 hf2
  have hb1 : g.offset f1 + k1 < g.totalBins := by omega
  have hb2 : g.offset f2 + k2 < g.totalBins := by omega
  have hl : l1 = l2 := by
    have e1 : (l1 * g.totalBins + (g.offset f1 + k1)) / g.totalBins = l1 := by
      rw [Nat.add_comm, Nat.add_mul_div_right _ _ (by omega), Nat.div_eq_of_lt hb1, Nat.zero_add]
    have e2 : (l2 * g.totalBins + (g.offset f2 + k2)) / g.totalBins = l2 := by
      rw [Nat.add_comm, Nat.add_mul_div_right _ _ (by omega), Nat.div_eq_of_lt hb2, Nat.zero_add]
    rw [← e1, ← e2, h]
  subst hl
  have hb : g.offset f1 + k1 = g.offset f2 + k2 := by omega
  by_cases hf : f1 = f2
  · subst hf
    exact ⟨rfl, rfl, by omega⟩
  · have := hd f1 f2 (hnF ▸ hf1) (hnF ▸ hf2) hf
    omega

/-! ## The second pass over the samples -/

theorem addFullAt_stats (s : Learner) (blockId cell : Nat) (x : Nat → ℚ) (y : ℚ) (c k : Nat) :
    (s.addFullAt blockId cell x y).stats c k
      = if c = 2 + blockId ∧ k = cell then (s.stats (2 + blockId) cell).addFullCorrelation x y
        else s.stats c k := by
  simp only [GreedyLinearObliviousTreeLearnerV2.addFullAt, modify_apply]

theorem addNewAt_stats (s : Learner) (blockId lId bin n : Nat) (x : Nat → ℚ) (fVal y : ℚ) :
    (s.addNewAt blockId lId bin n x fVal y).stats = s.stats := rfl

theorem accumulateChildren_stats_low (lr : Learner) (ds : DataSet) (bds : BinarizedDataSet)
    (ys : Nat → ℚ) (blockOf : Nat → Nat) (n o : Nat) (c : Nat) (hc : c < 2) :
    (lr.accumulateChildren ds bds ys blockOf n o).stats c = lr.stats c := by
  unfold GreedyLinearObliviousTreeLearnerV2.accumulateChildren
  refine foldl_inv (fun s : Learner => s.stats c = lr.stats c) _ _ _ rfl ?_
  intro s i hs
  dsimp only
  split_ifs
  · refine foldl_inv (fun s : Learner => s.stats c = lr.stats c) _ _ _ hs ?_
    intro s fId hs
    funext k
    rw [addFullAt_stats, if_neg (by omega), hs]
  · refine foldl_inv (fun s : Learner => s.stats c = lr.stats c) _ _ _ hs ?_
    intro s fId hs
    exact hs
  · exact hs

theorem accumulateChildren_block (lr : Learner) (ds : DataSet) (bds : BinarizedDataSet)
    (ys : Nat → ℚ) (blockOf : Nat → Nat) (n o : Nat) (blk cell n0 : Nat) (e : Entry)
    (hfs : (lr.stats (2 + blk) cell).filledSize = n0) (he : e.InBlock n0) :
    ((lr.accumulateChildren ds bds ys blockOf n o).stats (2 + blk) cell).filledSize = n0 ∧
    ((lr.accumulateChildren ds bds ys blockOf n o).stats (2 + blk) cell).val e
      = (lr.stats (2 + blk) cell).val e
        + ∑ i in Finset.range lr.nSamples,
            if lr.fullUpdate (lr.leafId i) = true ∧ blockOf i = blk then
              ∑ f in Finset.range lr.fCount,
                if lr.cell (lr.leafId i) (lr.binOffset f + bds.sampleBins i f) = cell then
                  sampleVal (ds.fillSample i lr.usedFeaturesOrdered) (ys i) e
                else 0
            else 0 := by
  unfold GreedyLinearObliviousTreeLearnerV2.accumulateChildren
  have hinner : ∀ (i : Nat) (s : Learner), (s.stats (2 + blk) cell).filledSize = n0 →
      (((List.range lr.fCount).foldl
        (fun (s : Learner) fId =>
          s.addFullAt (blockOf i) (lr.cell (lr.leafId i) (lr.binOffset fId + bds.sampleBins i fId))
            (ds.fillSample i lr.usedFeaturesOrdered) (ys i)) s).stats (2 + blk) cell).filledSize = n0 ∧
      (((List.range lr.fCount).foldl
        (fun (s : Learner) fId =>
          s.addFullAt (blockOf i) (lr.cell (lr.leafId i) (lr.binOffset fId + bds.sampleBins i fId))
            (ds.fillSample i lr.usedFeaturesOrdered) (ys i)) s).stats (2 + blk) cell).val e
        = (s.stats (2 + blk) cell).val e + ∑ f in Finset.range lr.fCount,
            if blockOf i = blk ∧
                lr.cell (lr.leafId i) (lr.binOffset f + bds.sampleBins i f) = cell then
              sampleVal (ds.fillSample i lr.usedFeaturesOrdered) (ys i) e else 0 := by
    intro i s hs
    refine foldl_range_val _ (fun s : Learner => (s.stats (2 + blk) cell).val e)
      (fun s : Learner => (s.stats (2 + blk) cell).filledSize = n0) _ ?_ ?_ lr.fCount s hs
    · intro s fId hs
      show ((s.addFullAt _ _ _ _).stats (2 + blk) cell).filledSize = n0
      rw [addFullAt_stats]
      split_ifs with h
      · obtain ⟨h1, h2⟩ := h
        rw [filledSize_addFull, ← h1, ← h2]
        exact hs
      · exact hs
    · intro s fId hs
      show ((s.addFullAt _ _ _ _).stats (2 + blk) cell).val e = _
      rw [addFullAt_stats]
      by_cases h : 2 + blk = 2 + blockOf i ∧
          cell = lr.cell (lr.leafId i) (lr.binOffset fId + bds.sampleBins i fId)
      · rw [if_pos h]
        obtain ⟨h1, h2⟩ := h
        have hb : blockOf i = blk := by omega
        rw [val_addFull _ _ _ _ (by rw [← h1, ← h2, hs]; exact he), ← h1, ← h2]
        simp [hb, h2]
      · rw [if_neg h]
        have : ¬ (blockOf i = blk ∧
            lr.cell (lr.leafId i) (lr.binOffset fId + bds.sampleBins i fId) = cell) := by
          rintro ⟨h1, h2⟩
          exact h ⟨by omega, h2.symm⟩
        simp [this]
  have hnew : ∀ (i : Nat) (s : Learner),
      ((List.range lr.fCount).foldl
        (fun (s : Learner) fId =>
          s.addNewAt (blockOf i) (lr.leafId i) (lr.binOffset fId + bds.sampleBins i fId) o
            (ds.fillSample i lr.usedFeaturesOrdered) (ds.fillSample i lr.usedFeaturesOrdered o)
            (ys i)) s).stats = s.stats := by
    intro i s
    refine foldl_inv (fun s2 : Learner => s2.stats = s.stats) _ _ _ rfl ?_
    intro s2 fId hs
    exact hs
  refine foldl_range_val _ (fun s : Learner => (s.stats (2 + blk) cell).val e)
    (fun s : Learner => (s.stats (2 + blk) cell).filledSize = n0) _ ?_ ?_ lr.nSamples lr hfs
  · intro s i hs
    dsimp only
    split_ifs
    · exact (hinner i s hs).1
    · rw [hnew]; exact hs
    · exact hs
  · intro s i hs
    dsimp only
    by_cases hfull : lr.fullUpdate (lr.leafId i) = true
    · rw [if_pos hfull, (hinner i s hs).2]
      congr 1
      by_cases hb : blockOf i = blk
      · simp [hfull, hb]
      · simp [hb]
    · rw [if_neg hfull]
      have : (if n > o then
          (List.range lr.fCount).foldl
            (fun (s : Learner) fId =>
              s.addNewAt (blockOf i) (lr.leafId i) (lr.binOffset fId + bds.sampleBins i fId) o
                (ds.fillSample i lr.usedFeaturesOrdered) (ds.fillSample i lr.usedFeaturesOrdered o)
                (ys i)) s
          else s).stats = s.stats := by
        split_ifs
        · exact hnew i s
        · rfl
      rw [this]
      simp [hfull]

theorem addNewAt_hXTX (s : Learner) (blockId lId bin o : Nat) (x : Nat → ℚ) (y : ℚ)
    (b l k a : Nat) :
    (s.addNewAt blockId lId bin o x (x o) y).h_XTX b l k a
      = s.h_XTX b l k a + (if b = blockId ∧ l = lId ∧ k = bin then rowVal o x a else 0) := by
  simp only [GreedyLinearObliviousTreeLearnerV2.addNewAt, addRow, rowVal]
  by_cases h : b = blockId ∧ l = lId ∧ k = bin
  · simp only [h, and_self, if_true]
    split_ifs <;> simp
  · simp only [h, if_false, add_zero]

theorem addNewAt_hXTy (s : Learner) (blockId lId bin o : Nat) (x : Nat → ℚ) (fVal y : ℚ)
    (b l k : Nat) :
    (s.addNewAt blockId lId bin o x fVal y).h_XTy b l k
      = s.h_XTy b l k + (if b = blockId ∧ l = lId ∧ k = bin then fVal * y else 0) := by
  simp only [GreedyLinearObliviousTreeLearnerV2.addNewAt, addCell]
  by_cases h : b = blockId ∧ l = lId ∧ k = bin
  · simp only [h, and_self, if_true]
  · simp only [h, if_false, add_zero]

theorem addFullAt_h (s : Learner) (blockId cell : Nat) (x : Nat → ℚ) (y : ℚ) :
    (s.addFullAt blockId cell x y).h_XTX = s.h_XTX ∧ (s.addFullAt blockId cell x y).h_XTy = s.h_XTy :=
  ⟨rfl, rfl⟩

theorem accumulateChildren_hXTX (lr : Learner) (ds : DataSet) (bds : BinarizedDataSet)
    (ys : Nat → ℚ) (blockOf : Nat → Nat) (n o : Nat) (blk l bin a : Nat) :
    (lr.accumulateChildren ds bds ys blockOf n o).h_XTX blk l bin a
      = lr.h_XTX blk l bin a
        + ∑ i in Finset.range lr.nSamples,
            if (lr.fullUpdate (lr.leafId i) = false ∧ n > o) ∧ blockOf i = blk ∧ lr.leafId i = l then
              ∑ f in Finset.range lr.fCount,
                if lr.binOffset f + bds.sampleBins i f = bin then
                  rowVal o (ds.fillSample i lr.usedFeaturesOrdered) a
                else 0
            else 0 := by
  unfold GreedyLinearObliviousTreeLearnerV2.accumulateChildren
  have hfullh : ∀ (i : Nat) (s : Learner),
      ((List.range lr.fCount).foldl
        (fun (s : Learner) fId =>
          s.addFullAt (blockOf i) (lr.cell (lr.leafId i) (lr.binOffset fId + bds.sampleBins i fId))
            (ds.fillSample i lr.usedFeaturesOrdered) (ys i)) s).h_XTX = s.h_XTX := by
    intro i s
    refine foldl_inv (fun s2 : Learner => s2.h_XTX = s.h_XTX) _ _ _ rfl ?_
    intro s2 fId hs
    exact hs
  have hinner : ∀ (i : Nat) (s : Learner),
      ((List.range lr.fCount).foldl
        (fun (s : Learner) fId =>
          s.addNewAt (blockOf i) (lr.leafId i) (lr.binOffset fId + bds.sampleBins i fId) o
            (ds.fillSample i lr.usedFeaturesOrdered) (ds.fillSample i lr.usedFeaturesOrdered o)
            (ys i)) s).h_XTX blk l bin a
        = s.h_XTX blk l bin a + ∑ f in Finset.range lr.fCount,
            if blk = blockOf i ∧ l = lr.leafId i ∧ bin = lr.binOffset f + bds.sampleBins i f then
              rowVal o (ds.fillSample i lr.usedFeaturesOrdered) a else 0 := by
    intro i s
    refine (foldl_range_val _ (fun s : Learner => s.h_XTX blk l bin a) (fun _ => True) _
      (fun _ _ _ => trivial) ?_ lr.fCount s trivial).2
    intro s fId _
    show (s.addNewAt _ _ _ _ _ _ _).h_XTX blk l bin a = _
    rw [addNewAt_hXTX]
  refine (foldl_range_val _ (fun s : Learner => s.h_XTX blk l bin a) (fun _ => True) _
    (fun _ _ _ => trivial) ?_ lr.nSamples lr trivial).2
  intro s i _
  dsimp only
  by_cases hfull : lr.fullUpdate (lr.leafId i) = true
  · rw [if_pos hfull, hfullh]
    simp [hfull]
  · rw [if_neg hfull]
    have hf2 : lr.fullUpdate (lr.leafId i) = false := by simpa using hfull
    by_cases hno : n > o
    · rw [if_pos hno, hinner]
      congr 1
      by_cases hb : blockOf i = blk ∧ lr.leafId i = l
      · obtain ⟨hb1, hb2⟩ := hb
        subst hb1 hb2
        simp only [hf2, hno, and_self, if_true, true_and]
        apply Finset.sum_congr rfl
        intro f _
        by_cases hbin : lr.binOffset f + bds.sampleBins i f = bin
        · simp [hbin]
        · have : ¬ bin = lr.binOffset f + bds.sampleBins i f := fun h => hbin h.symm
          simp [hbin, this]
      · have h1 : ¬ (blk = blockOf i ∧ l = lr.leafId i) := fun h => hb ⟨h.1.symm, h.2.symm⟩
        have h2 : ∀ f, ¬ (blk = blockOf i ∧ l = lr.leafId i ∧
            bin = lr.binOffset f + bds.sampleBins i f) := fun f h => h1 ⟨h.1, h.2.1⟩
        simp [h2, hb]
    · rw [if_neg hno]
      simp [hno]

theorem accumulateChildren_hXTy (lr : Learner) (ds : DataSet) (bds : BinarizedDataSet)
    (ys : Nat → ℚ) (blockOf : Nat → Nat) (n o : Nat) (blk l bin : Nat) :
    (lr.accumulateChildren ds bds ys blockOf n o).h_XTy blk l bin
      = lr.h_XTy blk l bin
        + ∑ i in Finset.range lr.nSamples,
            if (lr.fullUpdate (lr.leafId i) = false ∧ n > o) ∧ blockOf i = blk ∧ lr.leafId i = l then
              ∑ f in Finset.range lr.fCount,
                if lr.binOffset f + bds.sampleBins i f = bin then
                  ds.fillSample i lr.usedFeaturesOrdered o * ys i
                else 0
            else 0 := by
  unfold GreedyLinearObliviousTreeLearnerV2.accumulateChildren
  have hfullh : ∀ (i : Nat) (s : Learner),
      ((List.range lr.fCount).foldl
        (fun (s : Learner) fId =>
          s.addFullAt (blockOf i) (lr.cell (lr.leafId i) (lr.binOffset fId + bds.sampleBins i fId))
            (ds.fillSample i lr.usedFeaturesOrdered) (ys i)) s).h_XTy = s.h_XTy := by
    intro i s
    refine foldl_inv (fun s2 : Learner => s2.h_XTy = s.h_XTy) _ _ _ rfl ?_
    intro s2 fId hs
    exact hs
  have hinner : ∀ (i : Nat) (s : Learner),
      ((List.range lr.fCount).foldl
        (fun (s : Learner) fId =>
          s.addNewAt (blockOf i) (lr.leafId i) (lr.binOffset fId + bds.sampleBins i fId) o
            (ds.fillSample i lr.usedFeaturesOrdered) (ds.fillSample i lr.usedFeaturesOrdered o)
            (ys i)) s).h_XTy blk l bin
        = s.h_XTy blk l bin + ∑ f in Finset.range lr.fCount,
            if blk = blockOf i ∧ l = lr.leafId i ∧ bin = lr.binOffset f + bds.sampleBins i f then
              ds.fillSample i lr.usedFeaturesOrdered o * ys i else 0 := by
    intro i s
    refine (foldl_range_val _ (fun s : Learner => s.h_XTy blk l bin) (fun _ => True) _
      (fun _ _ _ => trivial) ?_ lr.fCount s trivial).2
    intro s fId _
    show (s.addNewAt _ _ _ _ _ _ _).h_XTy blk l bin = _
    rw [addNewAt_hXTy]
  refine (foldl_range_val _ (fun s : Learner => s.h_XTy blk l bin) (fun _ => True) _
    (fun _ _ _ => trivial) ?_ lr.nSamples lr trivial).2
  intro s i _
  dsimp only
  by_cases hfull : lr.fullUpdate (lr.leafId i) = true
  · rw [if_pos hfull, hfullh]
    simp [hfull]
  · rw [if_neg hfull]
    have hf2 : lr.fullUpdate (lr.leafId i) = false := by simpa using hfull
    by_cases hno : n > o
    · rw [if_pos hno, hinner]
      congr 1
      by_cases hb : blockOf i = blk ∧ lr.leafId i = l
      · obtain ⟨hb1, hb2⟩ := hb
        subst hb1 hb2
        simp only [hf2, hno, and_self, if_true, true_and]
        apply Finset.sum_congr rfl
        intro f _
        by_cases hbin : lr.binOffset f + bds.sampleBins i f = bin
        · simp [hbin]
        · have : ¬ bin = lr.binOffset f + bds.sampleBins i f := fun h => hbin h.symm
          simp [hbin, this]
      · have h1 : ¬ (blk = blockOf i ∧ l = lr.leafId i) := fun h => hb ⟨h.1.symm, h.2.symm⟩
        have h2 : ∀ f, ¬ (blk = blockOf i ∧ l = lr.leafId i ∧
            bin = lr.binOffset f + bds.sampleBins i f) := fun f h => h1 ⟨h.1, h.2.1⟩
        simp [h2, hb]
    · rw [if_neg hno]
      simp [hno]

/-! ## The statistics passes of the split step -/

theorem foldl_proj {σ τ ι : Type} (step : σ → ι → σ) (proj : σ → τ) (pstep : τ → ι → τ)
    (l : List ι) (hp : ∀ s i, i ∈ l → proj (step s i) = pstep (proj s) i) (s : σ) :
    proj (l.foldl step s) = l.foldl pstep (proj s) := by
  induction l generalizing s with
  | nil => rfl
  | cons a l ih =>
    simp only [List.foldl_cons]
    rw [ih (fun s i hi => hp s i (List.mem_cons_of_mem _ hi)) (step s a),
      hp s a (List.mem_cons_self _ _)]

theorem foldl_range_single {τ : Type} (g : τ → τ) (f0 n : Nat) (t : τ) :
    (List.range n).foldl (fun t f => if f = f0 then g t else t) t = if f0 < n then g t else t := by
  induction n with
  | zero => simp
  | succ n ih =>
    rw [List.range_succ, List.foldl_append, ih]
    simp only [List.foldl_cons, List.foldl_nil]
    by_cases h1 : f0 < n
    · have h2 : n ≠ f0 := by omega
      have h3 : f0 < n + 1 := by omega
      simp [h1, h2, h3]
    · by_cases h2 : n = f0
      · subst h2
        simp
      · have h3 : ¬ f0 < n + 1 := by omega
        simp [h1, h2, h3]

theorem foldl_id {τ ι : Type} (l : List ι) (t : τ) : l.foldl (fun t _ => t) t = t := by
  induction l with
  | nil => rfl
  | cons a l ih => exact ih

theorem slice_ext (a b : Slice) (h1 : ∀ th k x, a.hx th k x = b.hx th k x)
    (h2 : ∀ th k, a.hy th k = b.hy th k) (h3 : ∀ k, a.cells k = b.cells k) : a = b := by
  cases a
  cases b
  simp only [Slice.mk.injEq]
  exact ⟨funext fun th => funext fun k => funext fun x => h1 th k x,
    funext fun th => funext fun k => h2 th k, funext h3⟩

/-- A prefix-and-feed step of the slice's own leaf and feature is the step on the slice. -/
theorem feed_step_slice_own (s : Learner) (lf : Leaf) (coord base q off0 cc0 lb th o : Nat)
    (shift : ℤ) (hlb : lb ≤ cc0) (hc : lf.histCoord = coord) (hb : lf.histBase = base) :
    sliceOf ((if lb ≠ 0 then s.prefixStep th q (off0 + lb) o else s).feedAt lf th q (off0 + lb) shift)
        coord base q off0 cc0
      = (sliceOf s coord base q off0 cc0).feedStep cc0 o shift lb th := by
  apply slice_ext
  · intro th2 k x
    by_cases h0 : lb = 0
    · subst h0
      simp [sliceOf, Slice.feedStep, GreedyLinearObliviousTreeLearnerV2.feedAt]
    · simp only [sliceOf, Slice.feedStep, GreedyLinearObliviousTreeLearnerV2.feedAt, ne_eq, h0,
        not_false_eq_true, if_true, GreedyLinearObliviousTreeLearnerV2.prefixStep]
      by_cases hk : k ≤ cc0
      · have hk1 : k - 1 ≤ cc0 := by omega
        have e1 : off0 + lb - 1 = off0 + (lb - 1) := by omega
        by_cases hkl : k = lb
        · subst hkl
          simp [hk, hk1, e1]
        · have : off0 + k ≠ off0 + lb := by omega
          simp [hk, hkl, this]
      · have hkl : k ≠ lb := by omega
        simp [hk, hkl]
  · intro th2 k
    by_cases h0 : lb = 0
    · subst h0
      simp [sliceOf, Slice.feedStep, GreedyLinearObliviousTreeLearnerV2.feedAt]
    · simp only [sliceOf, Slice.feedStep, GreedyLinearObliviousTreeLearnerV2.feedAt, ne_eq, h0,
        not_false_eq_true, if_true, GreedyLinearObliviousTreeLearnerV2.prefixStep]
      by_cases hk : k ≤ cc0
      · have hk1 : k - 1 ≤ cc0 := by omega
        have e1 : off0 + lb - 1 = off0 + (lb - 1) := by omega
        by_cases hkl : k = lb
        · subst hkl
          simp [hk, hk1, e1]
        · have : off0 + k ≠ off0 + lb := by omega
          simp [hk, hkl, this]
      · have hkl : k ≠ lb := by omega
        simp [hk, hkl]
  · intro k
    simp only [sliceOf, Slice.feedStep, GreedyLinearObliviousTreeLearnerV2.feedAt,
      LinearObliviousTreeLeafV2.addNewCorrelation, modify_apply, hc, hb]
    by_cases hk : k ≤ cc0
    · by_cases hkl : k = lb
      · subst hkl
        simp only [hk, if_true, and_self, true_and]
        by_cases h0 : k = 0
        · subst h0
          simp
        · have hk1 : k - 1 ≤ cc0 := by omega
          have e1 : off0 + k - 1 = off0 + (k - 1) := by omega
          simp only [ne_eq, h0, not_false_eq_true, if_true,
            GreedyLinearObliviousTreeLearnerV2.prefixStep, and_self, true_and, e1, hk1]
          congr 1
          funext a
          by_cases ha : a ≤ o <;> simp [ha]
      · have : base + (off0 + k) ≠ base + (off0 + lb) := by omega
        simp only [hk, if_true, this, and_false, if_false, hkl, false_and]
        by_cases h0 : lb = 0 <;> simp [h0, GreedyLinearObliviousTreeLearnerV2.prefixStep]
    · have hkl : k ≠ lb := by omega
      simp [hk, hkl]

/-- A prefix-and-feed step of another leaf or another feature leaves the slice as it is. -/
theorem feed_step_slice_other (s : Learner) (lf : Leaf) (coord base q off0 cc0 l bin lb th o : Nat)
    (shift : ℤ) (hh : l ≠ q ∨ ∀ k, k ≤ cc0 → bin ≠ off0 + k)
    (hs : lf.histCoord ≠ coord ∨ ∀ k, k ≤ cc0 → lf.histBase + bin ≠ base + (off0 + k)) :
    sliceOf ((if lb ≠ 0 then s.prefixStep th l bin o else s).feedAt lf th l bin shift)
        coord base q off0 cc0
      = sliceOf s coord base q off0 cc0 := by
  have hne : ∀ k, k ≤ cc0 → ¬ (q = l ∧ off0 + k = bin) := by
    intro k hk ⟨h1, h2⟩
    rcases hh with h | h
    · exact h h1.symm
    · exact h k hk h2.symm
  apply slice_ext
  · intro th2 k x
    simp only [sliceOf, GreedyLinearObliviousTreeLearnerV2.feedAt]
    by_cases hk : k ≤ cc0
    · simp only [hk, if_true]
      by_cases h0 : lb = 0
      · simp [h0]
      · have := hne k hk
        simp only [ne_eq, h0, not_false_eq_true, if_true,
          GreedyLinearObliviousTreeLearnerV2.prefixStep]
        rw [if_neg]
        tauto
    · simp [hk]
  · intro th2 k
    simp only [sliceOf, GreedyLinearObliviousTreeLearnerV2.feedAt]
    by_cases hk : k ≤ cc0
    · simp only [hk, if_true]
      by_cases h0 : lb = 0
      · simp [h0]
      · have := hne k hk
        simp only [ne_eq, h0, not_false_eq_true, if_true,
          GreedyLinearObliviousTreeLearnerV2.prefixStep]
        rw [if_neg]
        tauto
    · simp [hk]
  · intro k
    simp only [sliceOf, GreedyLinearObliviousTreeLearnerV2.feedAt,
      LinearObliviousTreeLeafV2.addNewCorrelation, modify_apply]
    by_cases hk : k ≤ cc0
    · simp only [hk, if_true]
      have hn : ¬ (coord = lf.histCoord ∧ base + (off0 + k) = lf.histBase + bin) := by
        intro ⟨h1, h2⟩
        rcases hs with h | h
        · exact h h1.symm
        · exact h k hk h2.symm
      rw [if_neg hn]
      by_cases h0 : lb = 0 <;> simp [h0, GreedyLinearObliviousTreeLearnerV2.prefixStep]
    · simp [hk]

theorem feedDerived_slice (lr : Learner) (newLeaves : List Leaf) (N o coord : Nat) (hNo : N > o)
    (hinj : ∀ l1 f1 k1 l2 f2 k2, f1 < lr.fCount → f2 < lr.fCount →
      k1 ≤ lr.grid.conditionsCount f1 → k2 ≤ lr.grid.conditionsCount f2 →
      l1 * lr.totalBins + (lr.binOffset f1 + k1) = l2 * lr.totalBins + (lr.binOffset f2 + k2) →
      l1 = l2 ∧ f1 = f2 ∧ k1 = k2)
    (hlay : Layout newLeaves coord lr.totalBins)
    (q f0 : Nat) (hq : q < newLeaves.length) (hder : lr.fullUpdate q = false)
    (hf0 : f0 < lr.fCount) :
    sliceOf (lr.feedDerived newLeaves N o) coord (q * lr.totalBins) q (lr.binOffset f0)
        (lr.grid.conditionsCount f0)
      = (List.range (lr.grid.conditionsCount f0 + 1)).foldl
          (fun t lb => (List.range lr.nThreads).foldl
            (fun t th => t.feedStep (lr.grid.conditionsCount f0) o (-1) lb th) t)
          (sliceOf lr coord (q * lr.totalBins) q (lr.binOffset f0) (lr.grid.conditionsCount f0)) := by
  unfold GreedyLinearObliviousTreeLearnerV2.feedDerived
  rw [if_pos hNo]
  refine (foldl_proj _
    (fun s => sliceOf s coord (q * lr.totalBins) q (lr.binOffset f0) (lr.grid.conditionsCount f0))
    (fun t f => if f = f0 then
      (List.range (lr.grid.conditionsCount f0 + 1)).foldl
          (fun t lb => (List.range lr.nThreads).foldl
            (fun t th => t.feedStep (lr.grid.conditionsCount f0) o (-1) lb th) t) t else t)
    _ ?_ _).trans ?_
  · intro s f hf
    have hf : f < lr.fCount := List.mem_range.mp hf
    by_cases hff : f = f0
    · subst hff
      simp only [if_true]
      refine foldl_proj _
        (fun s => sliceOf s coord (q * lr.totalBins) q (lr.binOffset f) (lr.grid.conditionsCount f))
        (fun t lb => (List.range lr.nThreads).foldl
            (fun t th => t.feedStep (lr.grid.conditionsCount f) o (-1) lb th) t) _ ?_ _
      intro s lb hlb
      have hlb : lb ≤ lr.grid.conditionsCount f := by
        have := List.mem_range.mp hlb
        omega
      refine (foldl_proj _
        (fun s => sliceOf s coord (q * lr.totalBins) q (lr.binOffset f) (lr.grid.conditionsCount f))
        (fun t l => if l = q then (List.range lr.nThreads).foldl
            (fun t th => t.feedStep (lr.grid.conditionsCount f) o (-1) lb th) t else t) _ ?_ _).trans
        ?_
      · intro s l hl
        have hl : l < newLeaves.length := List.mem_range.mp hl
        obtain ⟨lf, hlf⟩ : ∃ lf, newLeaves[l]? = some lf := ⟨newLeaves[l], List.getElem?_eq_getElem hl⟩
        obtain ⟨hc, hb⟩ := hlay l lf hlf
        by_cases hlq : l = q
        · subst hlq
          simp only [hder, Bool.not_false, if_true, hlf]
          refine foldl_proj _
            (fun s => sliceOf s coord (l * lr.totalBins) l (lr.binOffset f)
              (lr.grid.conditionsCount f))
            (fun t th => t.feedStep (lr.grid.conditionsCount f) o (-1) lb th) _ ?_ _
          intro s th _
          exact feed_step_slice_own s lf coord (l * lr.totalBins) l (lr.binOffset f)
            (lr.grid.conditionsCount f) lb th o (-1) hlb hc hb
        · simp only [hlq, if_false, hlf]
          by_cases hfu : lr.fullUpdate l = true
          · simp [hfu]
          · simp only [hfu, Bool.not_false, if_true]
            refine (foldl_proj _
              (fun s => sliceOf s coord (q * lr.totalBins) q (lr.binOffset f)
                (lr.grid.conditionsCount f))
              (fun t _ => t) _ ?_ _).trans (foldl_id _ _)
            intro s th _
            refine feed_step_slice_other s lf coord (q * lr.totalBins) q (lr.binOffset f)
              (lr.grid.conditionsCount f) l (lr.binOffset f + lb) lb th o (-1) (Or.inl hlq)
              (Or.inr ?_)
            intro k hk heq
            rw [hb] at heq
            exact hlq (hinj _ _ _ _ _ _ hf hf hlb hk heq).1
      · exact foldl_range_single _ q newLeaves.length _ |>.trans (by rw [if_pos hq])
    · simp only [hff, if_false]
      refine (foldl_proj _
        (fun s => sliceOf s coord (q * lr.totalBins) q (lr.binOffset f0)
          (lr.grid.conditionsCount f0))
        (fun t _ => t) _ ?_ _).trans (foldl_id _ _)
      intro s lb hlb
      have hlb : lb ≤ lr.grid.conditionsCount f := by
        have := List.mem_range.mp hlb
        omega
      refine (foldl_proj _
        (fun s => sliceOf s coord (q * lr.totalBins) q (lr.binOffset f0)
          (lr.grid.conditionsCount f0))
        (fun t _ => t) _ ?_ _).trans (foldl_id _ _)
      intro s l hl
      have hl : l < newLeaves.length := List.mem_range.mp hl
      obtain ⟨lf, hlf⟩ : ∃ lf, newLeaves[l]? = some lf := ⟨newLeaves[l], List.getElem?_eq_getElem hl⟩
      obtain ⟨hc, hb⟩ := hlay l lf hlf
      by_cases hfu : lr.fullUpdate l = true
      · simp [hfu]
      · simp only [hfu, Bool.not_false, if_true, hlf]
        refine (foldl_proj _
          (fun s => sliceOf s coord (q * lr.totalBins) q (lr.binOffset f0)
            (lr.grid.conditionsCount f0))
          (fun t _ => t) _ ?_ _).trans (foldl_id _ _)
        intro s th _
        refine feed_step_slice_other s lf coord (q * lr.totalBins) q (lr.binOffset f0)
          (lr.grid.conditionsCount f0) l (lr.binOffset f + lb) lb th o (-1) (Or.inr ?_)
          (Or.inr ?_)
        · intro k hk heq
          have := hinj 0 f lb 0 f0 k hf hf0 hlb hk (by rw [heq])
          exact hff this.2.1
        · intro k hk heq
          rw [hb] at heq
          exact hff (hinj _ _ _ _ _ _ hf hf0 hlb hk heq).2.1
  · exact foldl_range_single _ f0 lr.fCount _ |>.trans (by rw [if_pos hf0])

theorem feedInv_init (t0 : Slice) (cc o : Nat) (shift : ℤ) (T : Nat) :
    FeedInv t0 cc o shift T 0 0 t0 := by
  refine ⟨?_, ?_, ?_, ?_, ?_, ?_, ?_⟩
  · intro th k a _ _ h
    omega
  · intro th k a _
    rfl
  · intro th k _ _ h
    omega
  · intro th k _
    rfl
  · intro k _ h
    omega
  · intro _
    rfl
  · intro k _
    rfl

theorem feedInv_next (t0 : Slice) (cc o : Nat) (shift : ℤ) (T LB : Nat) (t : Slice)
    (h : FeedInv t0 cc o shift T LB T t) : FeedInv t0 cc o shift T (LB + 1) 0 t := by
  refine ⟨?_, ?_, ?_, ?_, ?_, ?_, ?_⟩
  · intro th k a hth hk hd
    exact h.hx_done th k a hth hk (by omega)
  · intro th k a hn
    exact h.hx_todo th k a (by omega)
  · intro th k hth hk hd
    exact h.hy_done th k hth hk (by omega)
  · intro th k hn
    exact h.hy_todo th k (by omega)
  · intro k hk hlt
    by_cases hkl : k = LB
    · subst hkl
      exact h.cells_cur hk
    · exact h.cells_done k hk (by omega)
  · intro hle
    exact h.cells_todo (LB + 1) (by omega)
  · intro k hk
    exact h.cells_todo k (by omega)

theorem prefRow_succ (t0 : Slice) (o th k a : Nat) (ha : a ≤ o) :
    prefRow t0 o th (k + 1) a = t0.hx th (k + 1) a + prefRow t0 o th k a := by
  simp only [prefRow, ha, if_true]
  rw [Finset.sum_range_succ _ (k + 1)]
  ring

theorem prefY_succ (t0 : Slice) (th k : Nat) :
    prefY t0 th (k + 1) = t0.hy th (k + 1) + prefY t0 th k := by
  simp only [prefY]
  rw [Finset.sum_range_succ _ (k + 1)]
  ring

theorem feedInv_step (t0 : Slice) (cc o : Nat) (shift : ℤ) (T LB TH : Nat) (t : Slice)
    (h : FeedInv t0 cc o shift T LB TH t) (hLB : LB ≤ cc) (hTH : TH < T) :
    FeedInv t0 cc o shift T LB (TH + 1) (t.feedStep cc o shift LB TH) := by
  have hx_new : ∀ a, (t.feedStep cc o shift LB TH).hx TH LB a = prefRow t0 o TH LB a := by
    intro a
    simp only [Slice.feedStep, true_and, hLB, and_true]
    have h1 := h.hx_todo TH LB a (by omega)
    by_cases h0 : LB = 0
    · subst h0
      simp [h1, prefRow]
    · by_cases ha : a ≤ o
      · simp only [ne_eq, h0, not_false_eq_true, ha, and_self, if_true]
        have h2 := h.hx_done TH (LB - 1) a hTH (by omega) (Or.inl (by omega))
        obtain ⟨m, rfl⟩ : ∃ m, LB = m + 1 := ⟨LB - 1, by omega⟩
        rw [prefRow_succ _ _ _ _ _ ha, h1]
        simp only [Nat.add_sub_cancel] at h2 ⊢
        rw [h2]
      · simp [ha, h1, prefRow]
  have hy_new : (t.feedStep cc o shift LB TH).hy TH LB = prefY t0 TH LB := by
    simp only [Slice.feedStep, true_and, hLB, and_true]
    have h1 := h.hy_todo TH LB (by omega)
    by_cases h0 : LB = 0
    · subst h0
      simp [h1, prefY]
    · simp only [ne_eq, h0, not_false_eq_true, if_true]
      have h2 := h.hy_done TH (LB - 1) hTH (by omega) (Or.inl (by omega))
      obtain ⟨m, rfl⟩ : ∃ m, LB = m + 1 := ⟨LB - 1, by omega⟩
      rw [prefY_succ, h1]
      simp only [Nat.add_sub_cancel] at h2 ⊢
      rw [h2]
  have hx_old : ∀ th k a, ¬ (th = TH ∧ k = LB) →
      (t.feedStep cc o shift LB TH).hx th k a = t.hx th k a := by
    intro th k a hn
    simp only [Slice.feedStep]
    rw [if_neg]
    tauto
  have hy_old : ∀ th k, ¬ (th = TH ∧ k = LB) →
      (t.feedStep cc o shift LB TH).hy th k = t.hy th k := by
    intro th k hn
    simp only [Slice.feedStep]
    rw [if_neg]
    tauto
  have hc_old : ∀ k, k ≠ LB → (t.feedStep cc o shift LB TH).cells k = t.cells k := by
    intro k hn
    simp only [Slice.feedStep]
    rw [if_neg]
    tauto
  refine ⟨?_, ?_, ?_, ?_, ?_, ?_, ?_⟩
  · intro th k a hth hk hd
    by_cases hcur : th = TH ∧ k = LB
    · obtain ⟨rfl, rfl⟩ := hcur
      exact hx_new a
    · rw [hx_old th k a hcur]
      exact h.hx_done th k a hth hk (by omega)
  · intro th k a hn
    have hcur : ¬ (th = TH ∧ k = LB) := by
      intro ⟨h1, h2⟩
      apply hn
      subst h1 h2
      exact ⟨hTH, hLB, Or.inr ⟨rfl, by omega⟩⟩
    rw [hx_old th k a hcur]
    exact h.hx_todo th k a (by omega)
  · intro th k hth hk hd
    by_cases hcur : th = TH ∧ k = LB
    · obtain ⟨rfl, rfl⟩ := hcur
      exact hy_new
    · rw [hy_old th k hcur]
      exact h.hy_done th k hth hk (by omega)
  · intro th k hn
    have hcur : ¬ (th = TH ∧ k = LB) := by
      intro ⟨h1, h2⟩
      apply hn
      subst h1 h2
      exact ⟨hTH, hLB, Or.inr ⟨rfl, by omega⟩⟩
    rw [hy_old th k hcur]
    exact h.hy_todo th k (by omega)
  · intro k hk hlt
    rw [hc_old k (by omega)]
    exact h.cells_done k hk hlt
  · intro _
    have e1 : (t.feedStep cc o shift LB TH).cells LB
        = (t.cells LB).addNewCorrelation ((t.feedStep cc o shift LB TH).hx TH LB)
            ((t.feedStep cc o shift LB TH).hy TH LB) shift := by
      simp only [Slice.feedStep, hLB, and_self, if_true]
    rw [e1, h.cells_cur hLB, hy_new, (funext hx_new : (t.feedStep cc o shift LB TH).hx TH LB = _)]
    simp only [fedCell]
    rw [List.range_succ, List.foldl_append]
    rfl
  · intro k hk
    rw [hc_old k (by omega)]
    exact h.cells_todo k hk

theorem feedInv_workers (t0 : Slice) (cc o : Nat) (shift : ℤ) (T LB : Nat) (hLB : LB ≤ cc)
    (TH : Nat) (hTH : TH ≤ T) (t : Slice) (h : FeedInv t0 cc o shift T LB 0 t) :
    FeedInv t0 cc o shift T LB TH
      ((List.range TH).foldl (fun t th => t.feedStep cc o shift LB th) t) := by
  induction TH with
  | zero => simpa using h
  | succ TH ih =>
    rw [List.range_succ, List.foldl_append]
    simp only [List.foldl_cons, List.foldl_nil]
    exact feedInv_step t0 cc o shift T LB TH _ (ih (by omega)) hLB (by omega)

theorem feedInv_bins (t0 : Slice) (cc o : Nat) (shift : ℤ) (T LB : Nat) (hLB : LB ≤ cc + 1) :
    FeedInv t0 cc o shift T LB 0
      ((List.range LB).foldl
        (fun t lb => (List.range T).foldl (fun t th => t.feedStep cc o shift lb th) t) t0) := by
  induction LB with
  | zero => simpa using feedInv_init t0 cc o shift T
  | succ LB ih =>
    rw [List.range_succ, List.foldl_append]
    simp only [List.foldl_cons, List.foldl_nil]
    exact feedInv_next t0 cc o shift T LB _
      (feedInv_workers t0 cc o shift T LB (by omega) T (le_refl _) _ (ih (by omega)))

/-- The prefix-and-feed loops on a slice: every bin's cell has received the
prefix-summed buffers of all the workers. -/
theorem feed_slice_cells (t0 : Slice) (cc o : Nat) (shift : ℤ) (T k : Nat) (hk : k ≤ cc) :
    ((List.range (cc + 1)).foldl
        (fun t lb => (List.range T).foldl (fun t th => t.feedStep cc o shift lb th) t) t0).cells k
      = fedCell t0 o shift k T :=
  (feedInv_bins t0 cc o shift T (cc + 1) (le_refl _)).cells_done k hk (by omega)

theorem val_addNew (s : BinStat) (xtx : Nat → ℚ) (xty : ℚ) (shift : ℤ) (e : Entry) :
    (s.addNewCorrelation xtx xty shift).val e
      = s.val e + newVal ((s.filledSize : ℤ) + shift).toNat xtx xty e := by
  cases e with
  | cnt => simp [BinStat.val, BinStat.addNewCorrelation, newVal]
  | xtx a b =>
    simp only [BinStat.val, BinStat.addNewCorrelation, newVal]
    generalize ((s.filledSize : ℤ) + shift).toNat = p
    by_cases h1 : a = p ∧ b ≤ p
    · rw [if_pos h1, if_pos h1]
    · rw [if_neg h1, if_neg h1]
      by_cases h2 : b = p ∧ a < p
      · rw [if_pos h2, if_pos h2]
      · rw [if_neg h2, if_neg h2, add_zero]
  | xty a =>
    simp only [BinStat.val, BinStat.addNewCorrelation, newVal]
    generalize ((s.filledSize : ℤ) + shift).toNat = p
    by_cases h1 : a = p
    · rw [if_pos h1, if_pos h1]
    · rw [if_neg h1, if_neg h1, add_zero]

theorem fedCell_val (t0 : Slice) (o : Nat) (shift : ℤ) (k T : Nat) (e : Entry) :
    (fedCell t0 o shift k T).filledSize = (t0.cells k).filledSize ∧
    (fedCell t0 o shift k T).val e = (t0.cells k).val e +
      ∑ th in Finset.range T,
        newVal (((t0.cells k).filledSize : ℤ) + shift).toNat (prefRow t0 o th k) (prefY t0 th k) e := by
  unfold fedCell
  refine foldl_range_val _ (fun c : BinStat => c.val e)
    (fun c : BinStat => c.filledSize = (t0.cells k).filledSize)
    _ ?_ ?_ T _ rfl
  · intro s i hs
    exact hs
  · intro s i hs
    simp only
    rw [val_addNew, hs]

theorem slot_injective (TB l1 b1 l2 b2 : Nat) (h1 : b1 < TB) (h2 : b2 < TB)
    (h : l1 * TB + b1 = l2 * TB + b2) : l1 = l2 ∧ b1 = b2 := by
  have e1 : (l1 * TB + b1) / TB = l1 := by
    rw [Nat.add_comm, Nat.add_mul_div_right _ _ (by omega), Nat.div_eq_of_lt h1, Nat.zero_add]
  have e2 : (l2 * TB + b2) / TB = l2 := by
    rw [Nat.add_comm, Nat.add_mul_div_right _ _ (by omega), Nat.div_eq_of_lt h2, Nat.zero_add]
  have hl : l1 = l2 := by rw [← e1, ← e2, h]
  subst hl
  exact ⟨rfl, by omega⟩

theorem newVal_inBlock (p : Nat) (xtx : Nat → ℚ) (xty : ℚ) (e : Entry) (he : e.InBlock p) :
    newVal p xtx xty e = 0 := by
  cases e with
  | cnt => rfl
  | xtx a b =>
    have h : a < p ∧ b < p := he
    simp only [newVal]
    rw [if_neg (by omega), if_neg (by omega)]
  | xty a =>
    have h : a < p := he
    simp only [newVal]
    rw [if_neg (by omega)]

theorem correlate_stats (lr : Learner) (ds : DataSet) (bds : BinarizedDataSet) (ys : Nat → ℚ)
    (blockOf : Nat → Nat) (n : Nat) : (lr.correlate ds bds ys blockOf n).stats = lr.stats := by
  unfold GreedyLinearObliviousTreeLearnerV2.correlate
  refine foldl_inv (fun s : Learner => s.stats = lr.stats) _ _ _ rfl ?_
  intro s i hs
  refine foldl_inv (fun s : Learner => s.stats = lr.stats) _ _ _ hs ?_
  intro s fId hs
  dsimp only
  split_ifs
  · exact hs
  · exact hs

/-- A prefix-and-feed step keeps the size of every cell and its entries in the
block below the row it writes. -/
theorem feed_step_kept (s : Learner) (lf : Leaf) (l bin lb th o : Nat) (shift : ℤ) (c cell n0 : Nat)
    (e : Entry) (v : ℚ) (he : e.InBlock ((n0 : ℤ) + shift).toNat)
    (h : (s.stats c cell).filledSize = n0 ∧ (s.stats c cell).val e = v) :
    (((if lb ≠ 0 then s.prefixStep th l bin o else s).feedAt lf th l bin shift).stats c cell).filledSize
        = n0 ∧
    (((if lb ≠ 0 then s.prefixStep th l bin o else s).feedAt lf th l bin shift).stats c cell).val e
        = v := by
  have hst : (if lb ≠ 0 then s.prefixStep th l bin o else s).stats = s.stats := by
    by_cases h0 : lb = 0 <;> simp [h0, GreedyLinearObliviousTreeLearnerV2.prefixStep]
  simp only [GreedyLinearObliviousTreeLearnerV2.feedAt, LinearObliviousTreeLeafV2.addNewCorrelation,
    modify_apply, hst]
  by_cases hc : c = lf.histCoord ∧ cell = lf.histBase + bin
  · rw [if_pos hc]
    obtain ⟨rfl, rfl⟩ := hc
    refine ⟨h.1, ?_⟩
    rw [val_addNew_inner _ _ _ _ _ (by rw [h.1]; exact he)]
    exact h.2
  · rw [if_neg hc]
    exact h

theorem feedNewCorrelations_kept (lr : Learner) (leaves : List Leaf) (n : Nat) (c cell n0 : Nat)
    (e : Entry) (he : e.InBlock n0) (h : (lr.stats c cell).filledSize = n0) :
    ((lr.feedNewCorrelations leaves n).stats c cell).filledSize = n0 ∧
    ((lr.feedNewCorrelations leaves n).stats c cell).val e = (lr.stats c cell).val e := by
  unfold GreedyLinearObliviousTreeLearnerV2.feedNewCorrelations
  refine foldl_inv (fun s : Learner => (s.stats c cell).filledSize = n0 ∧
    (s.stats c cell).val e = (lr.stats c cell).val e) _ _ _ ⟨h, rfl⟩ ?_
  intro s f hs
  dsimp only
  split_ifs
  · exact hs
  refine foldl_inv (fun s : Learner => (s.stats c cell).filledSize = n0 ∧
    (s.stats c cell).val e = (lr.stats c cell).val e) _ _ _ hs ?_
  intro s lb hs
  refine foldl_inv (fun s : Learner => (s.stats c cell).filledSize = n0 ∧
    (s.stats c cell).val e = (lr.stats c cell).val e) _ _ _ hs ?_
  intro s l hs
  refine foldl_inv (fun s : Learner => (s.stats c cell).filledSize = n0 ∧
    (s.stats c cell).val e = (lr.stats c cell).val e) _ _ _ hs ?_
  intro s th hs
  dsimp only
  cases hl : leaves[l]? with
  | none =>
    simp only
    by_cases h0 : lb = 0 <;> simpa [h0, GreedyLinearObliviousTreeLearnerV2.prefixStep] using hs
  | some lf =>
    simp only
    exact feed_step_kept s lf l _ lb th n 0 c cell n0 e _ (by simpa using he) hs

theorem feedDerived_kept (lr : Learner) (newLeaves : List Leaf) (N o : Nat) (c cell n0 : Nat)
    (e : Entry) (he : e.InBlock (n0 - 1)) (h : (lr.stats c cell).filledSize = n0) :
    ((lr.feedDerived newLeaves N o).stats c cell).filledSize = n0 ∧
    ((lr.feedDerived newLeaves N o).stats c cell).val e = (lr.stats c cell).val e := by
  unfold GreedyLinearObliviousTreeLearnerV2.feedDerived
  by_cases hNo : N > o
  swap
  · rw [if_neg hNo]
    exact ⟨h, rfl⟩
  rw [if_pos hNo]
  refine foldl_inv (fun s : Learner => (s.stats c cell).filledSize = n0 ∧
    (s.stats c cell).val e = (lr.stats c cell).val e) _ _ _ ⟨h, rfl⟩ ?_
  intro s f hs
  refine foldl_inv (fun s : Learner => (s.stats c cell).filledSize = n0 ∧
    (s.stats c cell).val e = (lr.stats c cell).val e) _ _ _ hs ?_
  intro s lb hs
  refine foldl_inv (fun s : Learner => (s.stats c cell).filledSize = n0 ∧
    (s.stats c cell).val e = (lr.stats c cell).val e) _ _ _ hs ?_
  intro s l hs
  dsimp only
  by_cases hfu : lr.fullUpdate l = true
  · simp only [hfu, Bool.not_true, Bool.false_eq_true, if_false]
    exact hs
  simp only [hfu, Bool.not_false, if_true]
  refine foldl_inv (fun s : Learner => (s.stats c cell).filledSize = n0 ∧
    (s.stats c cell).val e = (lr.stats c cell).val e) _ _ _ hs ?_
  intro s th hs
  cases hl : newLeaves[l]? with
  | none =>
    simp only
    by_cases h0 : lb = 0 <;> simpa [h0, GreedyLinearObliviousTreeLearnerV2.prefixStep] using hs
  | some lf =>
    simp only
    refine feed_step_kept s lf l _ lb th o (-1) c cell n0 e _ ?_ hs
    have : ((n0 : ℤ) + -1).toNat = n0 - 1 := by omega
    rw [this]
    exact he

/-- The prefix-and-feed pass of the derived children writes the cells of the
derived children only. -/
theorem feedDerived_frame (lr : Learner) (newLeaves : List Leaf) (N o : Nat) (c cell : Nat)
    (hfr : ∀ l lf f lb, newLeaves[l]? = some lf → lr.fullUpdate l = false → f < lr.fCount →
      lb ≤ lr.grid.conditionsCount f →
      ¬ (c = lf.histCoord ∧ cell = lf.histBase + (lr.binOffset f + lb))) :
    (lr.feedDerived newLeaves N o).stats c cell = lr.stats c cell := by
  unfold GreedyLinearObliviousTreeLearnerV2.feedDerived
  split_ifs
  swap
  · rfl
  refine (foldl_proj _ (fun s : Learner => s.stats c cell) (fun t _ => t) _ ?_ _).trans
    (foldl_id _ _)
  intro s f hf
  have hf : f < lr.fCount := List.mem_range.mp hf
  refine (foldl_proj _ (fun s : Learner => s.stats c cell) (fun t _ => t) _ ?_ _).trans
    (foldl_id _ _)
  intro s lb hlb
  have hlb : lb ≤ lr.grid.conditionsCount f := by
    have := List.mem_range.mp hlb
    omega
  refine (foldl_proj _ (fun s : Learner => s.stats c cell) (fun t _ => t) _ ?_ _).trans
    (foldl_id _ _)
  intro s l hl
  have hl : l < newLeaves.length := List.mem_range.mp hl
  obtain ⟨lf, hlf⟩ : ∃ lf, newLeaves[l]? = some lf := ⟨newLeaves[l], List.getElem?_eq_getElem hl⟩
  by_cases hfu : lr.fullUpdate l = true
  · simp [hfu]
  · simp only [hfu, Bool.not_false, if_true, hlf]
    refine (foldl_proj _ (fun s : Learner => s.stats c cell) (fun t _ => t) _ ?_ _).trans
      (foldl_id _ _)
    intro s th _
    have hst : (if lb ≠ 0 then s.prefixStep th l (lr.binOffset f + lb) o else s).stats = s.stats := by
      by_cases h0 : lb = 0 <;> simp [h0, GreedyLinearObliviousTreeLearnerV2.prefixStep]
    simp only [GreedyLinearObliviousTreeLearnerV2.feedAt,
      LinearObliviousTreeLeafV2.addNewCorrelation, modify_apply, hst]
    rw [if_neg (hfr l lf f lb hlf (by simpa using hfu) hf hlb)]

/-- The cell of bin `k` of feature `f0` of a derived child after the
prefix-and-feed pass: every worker's prefix-summed buffer has been fed to it. -/
theorem feedDerived_cell (lr : Learner) (newLeaves : List Leaf) (N o coord : Nat) (hNo : N > o)
    (hinj : ∀ l1 f1 k1 l2 f2 k2, f1 < lr.fCount → f2 < lr.fCount →
      k1 ≤ lr.grid.conditionsCount f1 → k2 ≤ lr.grid.conditionsCount f2 →
      l1 * lr.totalBins + (lr.binOffset f1 + k1) = l2 * lr.totalBins + (lr.binOffset f2 + k2) →
      l1 = l2 ∧ f1 = f2 ∧ k1 = k2)
    (hlay : Layout newLeaves coord lr.totalBins)
    (q f0 k : Nat) (hq : q < newLeaves.length) (hder : lr.fullUpdate q = false)
    (hf0 : f0 < lr.fCount) (hk : k ≤ lr.grid.conditionsCount f0) :
    (lr.feedDerived newLeaves N o).stats coord (q * lr.totalBins + (lr.binOffset f0 + k))
      = fedCell (sliceOf lr coord (q * lr.totalBins) q (lr.binOffset f0)
          (lr.grid.conditionsCount f0)) o (-1) k lr.nThreads := by
  have h1 := feedDerived_slice lr newLeaves N o coord hNo hinj hlay q f0 hq hder hf0
  have h2 := congrArg (fun t : Slice => t.cells k) h1
  simp only at h2
  rw [feed_slice_cells _ _ _ _ _ _ hk] at h2
  rw [← h2]
  simp [sliceOf, hk]

/-! ### The sum over the blocks of the fully updated children -/

theorem sumFullChildren_filledSize (lr : Learner) (newLeaves : List Leaf) (c cell : Nat) :
    ((lr.sumFullChildren newLeaves).stats c cell).filledSize = (lr.stats c cell).filledSize := by
  unfold GreedyLinearObliviousTreeLearnerV2.sumFullChildren
  refine foldl_inv (fun s : Learner => (s.stats c cell).filledSize = (lr.stats c cell).filledSize)
    _ _ _ rfl ?_
  intro s bin hs
  refine foldl_inv (fun s : Learner => (s.stats c cell).filledSize = (lr.stats c cell).filledSize)
    _ _ _ hs ?_
  intro s l hs
  dsimp only
  by_cases hfu : lr.fullUpdate l = true
  swap
  · simp only [hfu, Bool.false_eq_true, if_false]
    exact hs
  simp only [hfu, if_true]
  refine foldl_inv (fun s : Learner => (s.stats c cell).filledSize = (lr.stats c cell).filledSize)
    _ _ _ hs ?_
  intro s blk hs
  cases hl : newLeaves[l]? with
  | none => exact hs
  | some lf =>
    simp only [GreedyLinearObliviousTreeLearnerV2.sumAt, LinearObliviousTreeLeafV2.addBinStat,
      modify_apply]
    by_cases hc : c = lf.histCoord ∧ cell = lf.histBase + bin
    · rw [if_pos hc]
      obtain ⟨rfl, rfl⟩ := hc
      exact hs
    · rw [if_neg hc]
      exact hs

/-- The sum over the blocks writes the cells of the fully updated children only. -/
theorem sumFullChildren_frame (lr : Learner) (newLeaves : List Leaf) (c cell : Nat)
    (hfr : ∀ l lf bin, newLeaves[l]? = some lf → lr.fullUpdate l = true → bin < lr.totalBins →
      ¬ (c = lf.histCoord ∧ cell = lf.histBase + bin)) :
    (lr.sumFullChildren newLeaves).stats c cell = lr.stats c cell := by
  unfold GreedyLinearObliviousTreeLearnerV2.sumFullChildren
  refine (foldl_proj _ (fun s : Learner => s.stats c cell) (fun t _ => t) _ ?_ _).trans
    (foldl_id _ _)
  intro s bin hbin
  have hbin : bin < lr.totalBins := List.mem_range.mp hbin
  refine (foldl_proj _ (fun s : Learner => s.stats c cell) (fun t _ => t) _ ?_ _).trans
    (foldl_id _ _)
  intro s l hl
  have hl : l < newLeaves.length := List.mem_range.mp hl
  obtain ⟨lf, hlf⟩ : ∃ lf, newLeaves[l]? = some lf := ⟨newLeaves[l], List.getElem?_eq_getElem hl⟩
  by_cases hfu : lr.fullUpdate l = true
  swap
  · simp [hfu]
  simp only [hfu, if_true, hlf]
  refine (foldl_proj _ (fun s : Learner => s.stats c cell) (fun t _ => t) _ ?_ _).trans
    (foldl_id _ _)
  intro s blk _
  simp only [GreedyLinearObliviousTreeLearnerV2.sumAt, LinearObliviousTreeLeafV2.addBinStat,
    modify_apply]
  rw [if_neg (hfr l lf bin hlf hfu hbin)]

/-- The cell of bin `b` of a fully updated child after the sum over the blocks:
the cells of the blocks have been added to it, block after block. -/
theorem sumFullChildren_cell (lr : Learner) (newLeaves : List Leaf) (coord : Nat) (hcoord : coord < 2)
    (hlay : Layout newLeaves coord lr.totalBins)
    (q b : Nat) (hq : q < newLeaves.length) (hfull : lr.fullUpdate q = true) (hb : b < lr.totalBins) :
    (lr.sumFullChildren newLeaves).stats coord (q * lr.totalBins + b)
      = (List.range lr.nThreads).foldl
          (fun c blk => c.add (lr.stats (2 + blk) (q * lr.totalBins + b)))
          (lr.stats coord (q * lr.totalBins + b)) := by
  unfold GreedyLinearObliviousTreeLearnerV2.sumFullChildren
  have key := foldl_proj
    (fun (s : Learner) bin =>
      (List.range newLeaves.length).foldl
        (fun s lId =>
          if lr.fullUpdate lId then
            (List.range lr.nThreads).foldl
              (fun s blockId =>
                match newLeaves[lId]? with
                | none => s
                | some l =>
                  s.sumAt l blockId (lr.cell lId bin) bin)
              s
          else s)
        s)
    (fun s : Learner => (s.stats coord (q * lr.totalBins + b),
      fun blk => s.stats (2 + blk) (q * lr.totalBins + b)))
    (fun (t : BinStat × (Nat → BinStat)) bin => if bin = b then
      ((List.range lr.nThreads).foldl (fun c blk => c.add (t.2 blk)) t.1, t.2) else t)
    (List.range lr.totalBins) ?_ lr
  · have h1 := congrArg Prod.fst key
    refine h1.trans ?_
    rw [foldl_range_single (fun (t : BinStat × (Nat → BinStat)) =>
      ((List.range lr.nThreads).foldl (fun c blk => c.add (t.2 blk)) t.1, t.2)) b lr.totalBins,
      if_pos hb]
  · intro s bin hbin
    have hbin : bin < lr.totalBins := List.mem_range.mp hbin
    refine (foldl_proj _
      (fun s : Learner => (s.stats coord (q * lr.totalBins + b),
        fun blk => s.stats (2 + blk) (q * lr.totalBins + b)))
      (fun (t : BinStat × (Nat → BinStat)) l => if l = q then
        (if bin = b then
          ((List.range lr.nThreads).foldl (fun c blk => c.add (t.2 blk)) t.1, t.2) else t)
        else t) _ ?_ _).trans ?_
    · intro s l hl
      have hl : l < newLeaves.length := List.mem_range.mp hl
      obtain ⟨lf, hlf⟩ : ∃ lf, newLeaves[l]? = some lf :=
        ⟨newLeaves[l], List.getElem?_eq_getElem hl⟩
      obtain ⟨hc, hbase⟩ := hlay l lf hlf
      by_cases hfu : lr.fullUpdate l = true
      swap
      · have hlq : l ≠ q := by
          intro h
          rw [h, hfull] at hfu
          exact hfu rfl
        simp [hfu, hlq]
      simp only [hfu, if_true, hlf]
      by_cases hcase : l = q ∧ bin = b
      · obtain ⟨rfl, rfl⟩ := hcase
        simp only [if_true]
        have hstep : ∀ (T : Nat) (s : Learner),
            (fun s : Learner => (s.stats coord (l * lr.totalBins + bin),
              fun blk => s.stats (2 + blk) (l * lr.totalBins + bin)))
              ((List.range T).foldl
                (fun s blockId => s.sumAt lf blockId (lr.cell l bin) bin) s)
            = ((List.range T).foldl
                (fun c blk => c.add (s.stats (2 + blk) (l * lr.totalBins + bin)))
                (s.stats coord (l * lr.totalBins + bin)),
               fun blk => s.stats (2 + blk) (l * lr.totalBins + bin)) := by
          intro T s
          induction T with
          | zero => rfl
          | succ T ih =>
            rw [List.range_succ, List.foldl_append, List.foldl_append]
            simp only [List.foldl_cons, List.foldl_nil] at ih ⊢
            generalize (List.range T).foldl
              (fun s blockId => s.sumAt lf blockId (lr.cell l bin) bin) s = s1 at ih
            have ih1 := congrArg Prod.fst ih
            have ih2 := congrArg Prod.snd ih
            simp only at ih1 ih2
            simp only [GreedyLinearObliviousTreeLearnerV2.sumAt,
              LinearObliviousTreeLeafV2.addBinStat, modify_apply, hc, hbase,
              GreedyLinearObliviousTreeLearnerV2.cell, and_self, if_true]
            rw [Prod.mk.injEq]
            refine ⟨?_, ?_⟩
            · rw [ih1, congrFun ih2 T]
            · funext blk
              rw [if_neg (by omega)]
              exact congrFun ih2 blk
        exact hstep lr.nThreads s
      · have e1 : (if l = q then
            (if bin = b then
              ((List.range lr.nThreads).foldl
                (fun c blk => c.add ((s.stats coord (q * lr.totalBins + b),
                  fun blk => s.stats (2 + blk) (q * lr.totalBins + b)).2 blk))
                (s.stats coord (q * lr.totalBins + b),
                  fun blk => s.stats (2 + blk) (q * lr.totalBins + b)).1,
               (s.stats coord (q * lr.totalBins + b),
                  fun blk => s.stats (2 + blk) (q * lr.totalBins + b)).2)
             else (s.stats coord (q * lr.totalBins + b),
                  fun blk => s.stats (2 + blk) (q * lr.totalBins + b)))
            else (s.stats coord (q * lr.totalBins + b),
                  fun blk => s.stats (2 + blk) (q * lr.totalBins + b)))
            = (s.stats coord (q * lr.totalBins + b),
                  fun blk => s.stats (2 + blk) (q * lr.totalBins + b)) := by
          by_cases h1 : l = q
          · by_cases h2 : bin = b
            · exact absurd ⟨h1, h2⟩ hcase
            · simp [h1, h2]
          · simp [h1]
        simp only at e1 ⊢
        rw [e1]
        refine (foldl_proj _
          (fun s : Learner => (s.stats coord (q * lr.totalBins + b),
            fun blk => s.stats (2 + blk) (q * lr.totalBins + b)))
          (fun t _ => t) _ ?_ _).trans (foldl_id _ _)
        intro s blk _
        simp only [GreedyLinearObliviousTreeLearnerV2.sumAt,
          LinearObliviousTreeLeafV2.addBinStat, modify_apply, hc, hbase]
        have hne : ¬ (q * lr.totalBins + b = l * lr.totalBins + bin) := by
          intro h
          have := slot_injective _ _ _ _ _ hb hbin h
          exact hcase ⟨this.1.symm, this.2.symm⟩
        rw [Prod.mk.injEq]
        refine ⟨?_, ?_⟩
        · rw [if_neg (by tauto)]
        · funext blk2
          rw [if_neg (by omega)]
    · exact (foldl_range_single _ q newLeaves.length _).trans (by rw [if_pos hq])

theorem sum_blocks_val (cells : Nat → BinStat) (c0 : BinStat) (T n0 : Nat) (e : Entry)
    (h0 : c0.filledSize = n0) (hT : ∀ blk, blk < T → (cells blk).filledSize = n0)
    (he : e.InBlock n0) :
    ((List.range T).foldl (fun c blk => c.add (cells blk)) c0).filledSize = n0 ∧
    ((List.range T).foldl (fun c blk => c.add (cells blk)) c0).val e
      = c0.val e + ∑ blk in Finset.range T, (cells blk).val e := by
  induction T with
  | zero => simpa using h0
  | succ T ih =>
    obtain ⟨ih1, ih2⟩ := ih (fun blk hblk => hT blk (by omega))
    rw [List.range_succ, List.foldl_append]
    simp only [List.foldl_cons, List.foldl_nil]
    refine ⟨ih1, ?_⟩
    rw [val_add _ _ _ (by rw [ih1, hT T (by omega), min_self]; exact he), ih2,
      Finset.sum_range_succ, add_assoc]

/-! ### The prefix sums of the fully updated children -/

theorem prefixSumFeature_filledSize (offset n : Nat) (hist : Nat → BinStat) (b : Nat) :
    (prefixSumFeature offset n hist b).filledSize = (hist b).filledSize := by
  induction n with
  | zero => simp [prefixSumFeature]
  | succ n ih =>
    rw [prefixSumFeature_succ]
    by_cases hb : b = offset + (n + 1)
    · subst hb
      rw [Function.update_same, filledSize_add]
      exact ih
    · rw [Function.update_noteq hb]
      exact ih

/-- The loop of `prefixSumBins` over the features, on the cells. -/
theorem prefixFold_filledSize (g : Grid) (hist : Nat → BinStat) (b : Nat) :
    ((List.range g.nzFeaturesCount).foldl
      (fun hist fId => prefixSumFeature (g.offset fId) (g.conditionsCount fId) hist) hist b).filledSize
      = (hist b).filledSize := by
  refine foldl_inv (fun h : Nat → BinStat => (h b).filledSize = (hist b).filledSize) _ _ _ rfl ?_
  intro h f hh
  rw [prefixSumFeature_filledSize]
  exact hh

theorem prefixFold_agree (g : Grid) (hd : g.DisjointBins)
    (hr : ∀ f, f < g.nzFeaturesCount → g.offset f + g.conditionsCount f < g.totalBins)
    (hist1 hist2 : Nat → BinStat) (h : ∀ b, b < g.totalBins → hist1 b = hist2 b)
    (b : Nat) (hb : b < g.totalBins) :
    (List.range g.nzFeaturesCount).foldl
      (fun hist fId => prefixSumFeature (g.offset fId) (g.conditionsCount fId) hist) hist1 b
    = (List.range g.nzFeaturesCount).foldl
      (fun hist fId => prefixSumFeature (g.offset fId) (g.conditionsCount fId) hist) hist2 b := by
  obtain ⟨ha1, hb1⟩ := prefixSumBins_loop g hd hist1 g.nzFeaturesCount (le_refl _)
  obtain ⟨ha2, hb2⟩ := prefixSumBins_loop g hd hist2 g.nzFeaturesCount (le_refl _)
  by_cases hex : ∃ f, f < g.nzFeaturesCount ∧ g.offset f ≤ b ∧ b ≤ g.offset f + g.conditionsCount f
  · obtain ⟨f, hf, h1, h2⟩ := hex
    obtain ⟨k, rfl⟩ : ∃ k, b = g.offset f + k := ⟨b - g.offset f, by omega⟩
    rw [hb1 f hf k (by omega), hb2 f hf k (by omega)]
    refine sumBins_congr _ _ _ _ (fun j hj => h _ ?_)
    have := hr f hf
    omega
  · have hout : ∀ f, f < g.nzFeaturesCount → b < g.offset f ∨ g.offset f + g.conditionsCount f < b := by
      intro f hf
      by_contra hcon
      exact hex ⟨f, hf, by omega, by omega⟩
    rw [ha1 b hout, ha2 b hout]
    exact h b hb

theorem leaf_prefixSumBins_apply (lf : Leaf) (stats : Arena) (c cell : Nat) :
    (lf.prefixSumBins stats) c cell
      = if c = lf.histCoord ∧ lf.histBase ≤ cell then
          (List.range lf.grid.nzFeaturesCount).foldl
            (fun hist fId => prefixSumFeature (lf.grid.offset fId) (lf.grid.conditionsCount fId) hist)
            (fun b => stats lf.histCoord (lf.histBase + b)) (cell - lf.histBase)
        else stats c cell := rfl

theorem leaf_prefixSumBins_filledSize (lf : Leaf) (stats : Arena) (c cell : Nat) :
    ((lf.prefixSumBins stats) c cell).filledSize = (stats c cell).filledSize := by
  rw [leaf_prefixSumBins_apply]
  by_cases h : c = lf.histCoord ∧ lf.histBase ≤ cell
  · rw [if_pos h, prefixFold_filledSize]
    obtain ⟨rfl, h2⟩ := h
    have : lf.histBase + (cell - lf.histBase) = cell := by omega
    simp only [this]
  · rw [if_neg h]

theorem leaf_prefixSumBins_frame (lf : Leaf) (stats : Arena) (hd : lf.grid.DisjointBins)
    (hr : ∀ f, f < lf.grid.nzFeaturesCount →
      lf.grid.offset f + lf.grid.conditionsCount f < lf.grid.totalBins)
    (c cell : Nat)
    (h : ¬ (c = lf.histCoord ∧ lf.histBase ≤ cell ∧ cell < lf.histBase + lf.grid.totalBins)) :
    (lf.prefixSumBins stats) c cell = stats c cell := by
  rw [leaf_prefixSumBins_apply]
  by_cases h1 : c = lf.histCoord ∧ lf.histBase ≤ cell
  · rw [if_pos h1]
    obtain ⟨rfl, h2⟩ := h1
    have h3 : lf.histBase + lf.grid.totalBins ≤ cell := by
      by_contra hcon
      exact h ⟨rfl, h2, by omega⟩
    obtain ⟨ha, _⟩ := prefixSumBins_loop lf.grid hd (fun b => stats lf.histCoord (lf.histBase + b))
      lf.grid.nzFeaturesCount (le_refl _)
    rw [ha]
    · have : lf.histBase + (cell - lf.histBase) = cell := by omega
      simp only [this]
    · intro f hf
      have := hr f hf
      omega
  · rw [if_neg h1]

theorem prefixFullChildren_filledSize (lr : Learner) (newLeaves : List Leaf) (c cell : Nat) :
    ((lr.prefixFullChildren newLeaves).stats c cell).filledSize = (lr.stats c cell).filledSize := by
  unfold GreedyLinearObliviousTreeLearnerV2.prefixFullChildren
  refine foldl_inv (fun s : Learner => (s.stats c cell).filledSize = (lr.stats c cell).filledSize)
    _ _ _ rfl ?_
  intro s l hs
  dsimp only
  by_cases hfu : lr.fullUpdate l = true
  swap
  · simp only [hfu, Bool.false_eq_true, if_false]
    exact hs
  simp only [hfu, if_true]
  cases hl : newLeaves[l]? with
  | none => exact hs
  | some lf =>
    simp only
    rw [leaf_prefixSumBins_filledSize]
    exact hs

/-- The prefix sums of the fully updated children write the regions of these
children only. -/
theorem prefixFullChildren_frame (lr : Learner) (newLeaves : List Leaf) (g : Grid)
    (hd : g.DisjointBins)
    (hr : ∀ f, f < g.nzFeaturesCount → g.offset f + g.conditionsCount f < g.totalBins)
    (hg : ∀ (j : Nat) (l : Leaf), newLeaves[j]? = some l → l.grid = g) (c cell : Nat)
    (hfr : ∀ (l : Nat) (lf : Leaf), newLeaves[l]? = some lf → lr.fullUpdate l = true →
      ¬ (c = lf.histCoord ∧ lf.histBase ≤ cell ∧ cell < lf.histBase + g.totalBins)) :
    (lr.prefixFullChildren newLeaves).stats c cell = lr.stats c cell := by
  unfold GreedyLinearObliviousTreeLearnerV2.prefixFullChildren
  refine (foldl_proj _ (fun s : Learner => s.stats c cell) (fun t _ => t) _ ?_ _).trans
    (foldl_id _ _)
  intro s l hl
  have hl : l < newLeaves.length := List.mem_range.mp hl
  obtain ⟨lf, hlf⟩ : ∃ lf, newLeaves[l]? = some lf := ⟨newLeaves[l], List.getElem?_eq_getElem hl⟩
  by_cases hfu : lr.fullUpdate l = true
  swap
  · simp [hfu]
  simp only [hfu, if_true, hlf]
  have hgl := hg l lf hlf
  exact leaf_prefixSumBins_frame lf s.stats (hgl ▸ hd) (hgl ▸ hr) c cell (hgl ▸ hfr l lf hlf hfu)

/-- The cell of bin `k` of feature `f` of a fully updated child after the prefix
sums: the `+=`-sum of the cells of the bins `0 .. k` of the feature. -/
theorem prefixFullChildren_cell (lr : Learner) (newLeaves : List Leaf) (g : Grid) (coord : Nat)
    (hd : g.DisjointBins)
    (hr : ∀ f, f < g.nzFeaturesCount → g.offset f + g.conditionsCount f < g.totalBins)
    (hg : ∀ (j : Nat) (l : Leaf), newLeaves[j]? = some l → l.grid = g)
    (hlay : Layout newLeaves coord g.totalBins)
    (q f k : Nat) (hq : q < newLeaves.length) (hfull : lr.fullUpdate q = true)
    (hf : f < g.nzFeaturesCount) (hk : k ≤ g.conditionsCount f) :
    (lr.prefixFullChildren newLeaves).stats coord (q * g.totalBins + (g.offset f + k))
      = sumBins (fun b => lr.stats coord (q * g.totalBins + b)) (g.offset f) k := by
  unfold GreedyLinearObliviousTreeLearnerV2.prefixFullChildren
  have hfk : g.offset f + k < g.totalBins := by
    have := hr f hf
    omega
  have key := foldl_proj
    (fun (s : Learner) lId =>
      if lr.fullUpdate lId then
        match newLeaves[lId]? with
        | none => s
        | some l => { s with stats := l.prefixSumBins s.stats }
      else s)
    (fun s : Learner => fun b => if b < g.totalBins then s.stats coord (q * g.totalBins + b)
      else BinStat.zero 0)
    (fun (r : Nat → BinStat) l => if l = q then
      (fun b => if b < g.totalBins then
        (List.range g.nzFeaturesCount).foldl
          (fun hist fId => prefixSumFeature (g.offset fId) (g.conditionsCount fId) hist) r b
        else BinStat.zero 0) else r)
    (List.range newLeaves.length) ?_ lr
  · have h1 := congrFun key (g.offset f + k)
    simp only [hfk, if_true] at h1
    refine h1.trans ?_
    rw [foldl_range_single (fun (r : Nat → BinStat) =>
      (fun b => if b < g.totalBins then
        (List.range g.nzFeaturesCount).foldl
          (fun hist fId => prefixSumFeature (g.offset fId) (g.conditionsCount fId) hist) r b
        else BinStat.zero 0)) q newLeaves.length, if_pos hq]
    simp only [hfk, if_true]
    obtain ⟨_, hb1⟩ := prefixSumBins_loop g hd
      (fun b => if b < g.totalBins then lr.stats coord (q * g.totalBins + b) else BinStat.zero 0)
      g.nzFeaturesCount (le_refl _)
    rw [hb1 f hf k hk]
    refine sumBins_congr _ _ _ _ (fun j hj => ?_)
    have : g.offset f + j < g.totalBins := by omega
    simp only [this, if_true]
  · intro s l hl
    have hl : l < newLeaves.length := List.mem_range.mp hl
    obtain ⟨lf, hlf⟩ : ∃ lf, newLeaves[l]? = some lf := ⟨newLeaves[l], List.getElem?_eq_getElem hl⟩
    obtain ⟨hc, hbase⟩ := hlay l lf hlf
    have hgl := hg l lf hlf
    by_cases hlq : l = q
    · subst hlq
      simp only [hfull, if_true, hlf]
      funext b
      by_cases hb : b < g.totalBins
      · simp only [hb, if_true]
        rw [leaf_prefixSumBins_apply, hc, hbase, hgl, if_pos ⟨rfl, by omega⟩]
        have e1 : l * g.totalBins + b - l * g.totalBins = b := by omega
        rw [e1]
        refine prefixFold_agree g hd hr _ _ (fun b2 hb2 => ?_) b hb
        simp only [hb2, if_true]
      · simp only [hb, if_false]
    · simp only [hlq, if_false]
      by_cases hfu : lr.fullUpdate l = true
      swap
      · simp [hfu]
      simp only [hfu, if_true, hlf]
      funext b
      by_cases hb : b < g.totalBins
      · simp only [hb, if_true]
        refine leaf_prefixSumBins_frame lf s.stats (hgl ▸ hd) (hgl ▸ hr) _ _ ?_
        rw [hc, hbase, hgl]
        intro ⟨_, h2, h3⟩
        have := slot_injective g.totalBins q b l (q * g.totalBins + b - l * g.totalBins) hb
          (by omega) (by omega)
        exact hlq this.1.symm
      · simp only [hb, if_false]

/-! ### The derivation `parent - sibling` -/

theorem foldl_update_range (n : Nat) (F : Nat → BinStat → BinStat) (hist : Nat → BinStat) (b : Nat) :
    (List.range n).foldl (fun hist bin => Function.update hist bin (F bin (hist bin))) hist b
      = if b < n then F b (hist b) else hist b := by
  induction n with
  | zero => simp
  | succ n ih =>
    rw [List.range_succ, List.foldl_append]
    simp only [List.foldl_cons, List.foldl_nil]
    by_cases hb : b = n
    · subst hb
      rw [Function.update_same, if_pos (by omega)]
      have : (List.range b).foldl (fun hist bin => Function.update hist bin (F bin (hist bin))) hist b
          = hist b := by
        have h2 := ih
        rw [if_neg (by omega)] at h2
        exact h2
      rw [this]
    · rw [Function.update_noteq hb, ih]
      by_cases h1 : b < n
      · rw [if_pos h1, if_pos (by omega)]
      · rw [if_neg h1, if_neg (by omega)]

theorem leaf_subHist_apply (dst src : Leaf) (stats : Arena) (c cell : Nat) :
    (dst.subHist src stats) c cell
      = if c = dst.histCoord ∧ dst.histBase ≤ cell ∧ cell < dst.histBase + dst.grid.totalBins then
          (stats c cell).sub (stats src.histCoord (src.histBase + (cell - dst.histBase)))
        else stats c cell := by
  unfold LinearObliviousTreeLeafV2.subHist Arena.writeHist HistogramV2.subHist
  simp only
  by_cases h1 : c = dst.histCoord ∧ dst.histBase ≤ cell
  · rw [if_pos h1]
    obtain ⟨rfl, h2⟩ := h1
    rw [foldl_update_range _ (fun bin (s : BinStat) => s.sub ((src.hist stats).hist bin))]
    have e1 : dst.histBase + (cell - dst.histBase) = cell := by omega
    by_cases h3 : cell - dst.histBase < (dst.hist stats).grid.totalBins
    · have h4 : cell < dst.histBase + dst.grid.totalBins := by
        have : (dst.hist stats).grid.totalBins = dst.grid.totalBins := rfl
        omega
      rw [if_pos h3, if_pos ⟨rfl, h2, h4⟩]
      simp only [LinearObliviousTreeLeafV2.hist, e1]
    · have h4 : ¬ cell < dst.histBase + dst.grid.totalBins := by
        have : (dst.hist stats).grid.totalBins = dst.grid.totalBins := rfl
        omega
      rw [if_neg h3, if_neg (by tauto)]
      simp only [LinearObliviousTreeLeafV2.hist, e1]
  · rw [if_neg h1, if_neg (by tauto)]

theorem leaf_addHist_apply (dst src : Leaf) (stats : Arena) (c cell : Nat) :
    (dst.addHist src stats) c cell
      = if c = dst.histCoord ∧ dst.histBase ≤ cell ∧ cell < dst.histBase + dst.grid.totalBins then
          (stats c cell).add (stats src.histCoord (src.histBase + (cell - dst.histBase)))
        else stats c cell := by
  unfold LinearObliviousTreeLeafV2.addHist Arena.writeHist HistogramV2.addHist
  simp only
  by_cases h1 : c = dst.histCoord ∧ dst.histBase ≤ cell
  · rw [if_pos h1]
    obtain ⟨rfl, h2⟩ := h1
    rw [foldl_update_range _ (fun bin (s : BinStat) => s.add ((src.hist stats).hist bin))]
    have e1 : dst.histBase + (cell - dst.histBase) = cell := by omega
    by_cases h3 : cell - dst.histBase < (dst.hist stats).grid.totalBins
    · have h4 : cell < dst.histBase + dst.grid.totalBins := by
        have : (dst.hist stats).grid.totalBins = dst.grid.totalBins := rfl
        omega
      rw [if_pos h3, if_pos ⟨rfl, h2, h4⟩]
      simp only [LinearObliviousTreeLeafV2.hist, e1]
    · have h4 : ¬ cell < dst.histBase + dst.grid.totalBins := by
        have : (dst.hist stats).grid.totalBins = dst.grid.totalBins := rfl
        omega
      rw [if_neg h3, if_neg (by tauto)]
      simp only [LinearObliviousTreeLeafV2.hist, e1]
  · rw [if_neg h1, if_neg (by tauto)]

/-- One derivation `*dst += *parent - *sibling` on the arena: the parent's cells
become `parent - sibling`, which is then added to the cells of `dst`; no other
cell changes. -/
theorem addDifference_apply (dst parent sibling : Leaf) (stats : Arena) (TB : Nat)
    (hgd : dst.grid.totalBins = TB) (hgp : parent.grid.totalBins = TB)
    (hne : parent.histCoord ≠ dst.histCoord) (c cell : Nat) :
    (dst.addDifference parent sibling stats) c cell
      = if c = dst.histCoord ∧ dst.histBase ≤ cell ∧ cell < dst.histBase + TB then
          (stats c cell).add
            ((stats parent.histCoord (parent.histBase + (cell - dst.histBase))).sub
              (stats sibling.histCoord (sibling.histBase + (cell - dst.histBase))))
        else if c = parent.histCoord ∧ parent.histBase ≤ cell ∧ cell < parent.histBase + TB then
          (stats c cell).sub (stats sibling.histCoord (sibling.histBase + (cell - parent.histBase)))
        else stats c cell := by
  unfold LinearObliviousTreeLeafV2.addDifference
  rw [leaf_addHist_apply, hgd]
  by_cases h1 : c = dst.histCoord ∧ dst.histBase ≤ cell ∧ cell < dst.histBase + TB
  · rw [if_pos h1, if_pos h1]
    obtain ⟨rfl, h2, h3⟩ := h1
    rw [leaf_subHist_apply, if_neg (by intro h; exact hne h.1.symm), leaf_subHist_apply, hgp,
      if_pos ⟨rfl, by omega, by omega⟩]
    have e1 : parent.histBase + (cell - dst.histBase) - parent.histBase = cell - dst.histBase := by
      omega
    rw [e1]
  · rw [if_neg h1, if_neg h1, leaf_subHist_apply, hgp]

/-- The derivation pass at bin `b` of parent `p0`: the derived child `D` receives
`parent - sibling`, the parent's cell is left holding `parent - sibling`, and
the cell of the scanned sibling `S` is unchanged. -/
theorem deriveChildren_cells (lr : Learner) (leaves newLeaves : List Leaf) (TB cur nc : Nat)
    (hne : cur ≠ nc) (hlen : newLeaves.length = 2 * leaves.length)
    (hlayP : Layout leaves cur TB) (hlayC : Layout newLeaves nc TB)
    (hgP : ∀ (j : Nat) (l : Leaf), leaves[j]? = some l → l.grid.totalBins = TB)
    (hgC : ∀ (j : Nat) (l : Leaf), newLeaves[j]? = some l → l.grid.totalBins = TB ∧ l.id = j)
    (p0 D S b : Nat) (hp0 : p0 < leaves.length) (hb : b < TB)
    (hDS : (lr.fullUpdate (2 * p0) = true ∧ D = 2 * p0 + 1 ∧ S = 2 * p0) ∨
      (lr.fullUpdate (2 * p0) = false ∧ D = 2 * p0 ∧ S = 2 * p0 + 1)) :
    (lr.deriveChildren leaves newLeaves).stats nc (D * TB + b)
      = (lr.stats nc (D * TB + b)).add
          ((lr.stats cur (p0 * TB + b)).sub (lr.stats nc (S * TB + b))) ∧
    (lr.deriveChildren leaves newLeaves).stats cur (p0 * TB + b)
      = (lr.stats cur (p0 * TB + b)).sub (lr.stats nc (S * TB + b)) ∧
    (lr.deriveChildren leaves newLeaves).stats nc (S * TB + b) = lr.stats nc (S * TB + b) := by
  unfold GreedyLinearObliviousTreeLearnerV2.deriveChildren
  have key := foldl_proj
    (fun (s : Learner) lId =>
      match leaves[lId]?, newLeaves[2 * lId]?, newLeaves[2 * lId + 1]? with
      | some parent, some left, some right =>
        if lr.fullUpdate left.id then { s with stats := right.addDifference parent left s.stats }
        else { s with stats := left.addDifference parent right s.stats }
      | _, _, _ => s)
    (fun s : Learner =>
      (s.stats nc (D * TB + b), s.stats cur (p0 * TB + b), s.stats nc (S * TB + b)))
    (fun (t : BinStat × BinStat × BinStat) p => if p = p0 then
      (t.1.add (t.2.1.sub t.2.2), t.2.1.sub t.2.2, t.2.2) else t)
    (List.range leaves.length) ?_ lr
  · rw [foldl_range_single (fun (t : BinStat × BinStat × BinStat) =>
      (t.1.add (t.2.1.sub t.2.2), t.2.1.sub t.2.2, t.2.2)) p0 leaves.length, if_pos hp0] at key
    simp only [Prod.mk.injEq] at key
    exact key
  · intro s p hp
    have hp : p < leaves.length := List.mem_range.mp hp
    obtain ⟨parent, hparent⟩ : ∃ l, leaves[p]? = some l := ⟨leaves[p], List.getElem?_eq_getElem hp⟩
    obtain ⟨left, hleft⟩ : ∃ l, newLeaves[2 * p]? = some l :=
      ⟨newLeaves[2 * p], List.getElem?_eq_getElem (by omega)⟩
    obtain ⟨right, hright⟩ : ∃ l, newLeaves[2 * p + 1]? = some l :=
      ⟨newLeaves[2 * p + 1], List.getElem?_eq_getElem (by omega)⟩
    obtain ⟨hpc, hpb⟩ := hlayP p parent hparent
    obtain ⟨hlc, hlb⟩ := hlayC (2 * p) left hleft
    obtain ⟨hrc, hrb⟩ := hlayC (2 * p + 1) right hright
    have hgp := hgP p parent hparent
    obtain ⟨hgl, hlid⟩ := hgC (2 * p) left hleft
    obtain ⟨hgr, _⟩ := hgC (2 * p + 1) right hright
    simp only [hparent, hleft, hright, hlid]
    -- the cells written by the step of parent `p`: the regions of its derived child and its own
    have hstep : ∀ (dst sib : Leaf) (dI sI : Nat), dst.histCoord = nc → dst.histBase = dI * TB →
        sib.histCoord = nc → sib.histBase = sI * TB → dst.grid.totalBins = TB →
        ((lr.fullUpdate (2 * p) = true ∧ dI = 2 * p + 1 ∧ sI = 2 * p) ∨
          (lr.fullUpdate (2 * p) = false ∧ dI = 2 * p ∧ sI = 2 * p + 1)) →
        ((dst.addDifference parent sib s.stats) nc (D * TB + b),
          (dst.addDifference parent sib s.stats) cur (p0 * TB + b),
          (dst.addDifference parent sib s.stats) nc (S * TB + b))
        = (if p = p0 then
            ((s.stats nc (D * TB + b)).add
                ((s.stats cur (p0 * TB + b)).sub (s.stats nc (S * TB + b))),
              (s.stats cur (p0 * TB + b)).sub (s.stats nc (S * TB + b)),
              s.stats nc (S * TB + b))
           else (s.stats nc (D * TB + b), s.stats cur (p0 * TB + b), s.stats nc (S * TB + b))) := by
      intro dst sib dI sI hdc hdb hsc hsb hgd hds
      have hne2 : parent.histCoord ≠ dst.histCoord := by rw [hpc, hdc]; exact hne
      rw [addDifference_apply dst parent sib s.stats TB hgd hgp hne2,
        addDifference_apply dst parent sib s.stats TB hgd hgp hne2,
        addDifference_apply dst parent sib s.stats TB hgd hgp hne2]
      simp only [hdc, hdb, hsc, hsb, hpc, hpb]
      by_cases hpp : p = p0
      · subst hpp
        have hD : dI = D := by rcases hds with ⟨h1, h2, _⟩ | ⟨h1, h2, _⟩ <;>
          rcases hDS with ⟨g1, g2, _⟩ | ⟨g1, g2, _⟩ <;> simp_all
        have hS : sI = S := by rcases hds with ⟨h1, _, h2⟩ | ⟨h1, _, h2⟩ <;>
          rcases hDS with ⟨g1, _, g2⟩ | ⟨g1, _, g2⟩ <;> simp_all
        subst hD hS
        have hSD : ¬ (dI * TB ≤ sI * TB + b ∧ sI * TB + b < dI * TB + TB) := by
          intro ⟨h1, h2⟩
          have := slot_injective TB sI b dI (sI * TB + b - dI * TB) hb (by omega) (by omega)
          rcases hds with ⟨_, h3, h4⟩ | ⟨_, h3, h4⟩ <;> omega
        have e1 : dI * TB + b - dI * TB = b := by omega
        have e2 : p * TB + b - p * TB = b := by omega
        rw [if_pos ⟨trivial, by omega, by omega⟩, if_neg (by intro h; exact hne h.1),
          if_pos ⟨trivial, by omega, by omega⟩, if_neg (by intro h; exact hSD h.2),
          if_neg (by intro h; exact hne h.1.symm), e1, e2]
        simp only [if_true]
      · have hDd : ¬ (dI * TB ≤ D * TB + b ∧ D * TB + b < dI * TB + TB) := by
          intro ⟨h1, h2⟩
          have := slot_injective TB D b dI (D * TB + b - dI * TB) hb (by omega) (by omega)
          rcases hds with ⟨_, h3, h4⟩ | ⟨_, h3, h4⟩ <;>
            rcases hDS with ⟨_, g3, g4⟩ | ⟨_, g3, g4⟩ <;> omega
        have hSd : ¬ (dI * TB ≤ S * TB + b ∧ S * TB + b < dI * TB + TB) := by
          intro ⟨h1, h2⟩
          have := slot_injective TB S b dI (S * TB + b - dI * TB) hb (by omega) (by omega)
          rcases hds with ⟨_, h3, h4⟩ | ⟨_, h3, h4⟩ <;>
            rcases hDS with ⟨_, g3, g4⟩ | ⟨_, g3, g4⟩ <;> omega
        have hPp : ¬ (p * TB ≤ p0 * TB + b ∧ p0 * TB + b < p * TB + TB) := by
          intro ⟨h1, h2⟩
          have := slot_injective TB p0 b p (p0 * TB + b - p * TB) hb (by omega) (by omega)
          exact hpp this.1.symm
        rw [if_neg (by intro h; exact hDd h.2), if_neg (by intro h; exact hne h.1.symm),
          if_neg (by intro h; exact hne h.1), if_neg (by intro h; exact hPp h.2),
          if_neg (by intro h; exact hSd h.2), if_neg (by intro h; exact hne h.1.symm),
          if_neg hpp]
    by_cases hfu : lr.fullUpdate (2 * p) = true
    · simp only [hfu, if_true]
      exact hstep right left (2 * p + 1) (2 * p) hrc hrb hlc hlb hgr (Or.inl ⟨hfu, rfl, rfl⟩)
    · simp only [hfu, Bool.false_eq_true, if_false]
      exact hstep left right (2 * p) (2 * p + 1) hlc hlb hrc hrb hgl
        (Or.inr ⟨by simpa using hfu, rfl, rfl⟩)

/-! ### The statistics of the children after the split step -/

theorem feedDerived_skip (lr : Learner) (newLeaves : List Leaf) (N o : Nat) (h : ¬ N > o) :
    lr.feedDerived newLeaves N o = lr := by
  unfold GreedyLinearObliviousTreeLearnerV2.feedDerived
  rw [if_neg h]

theorem val_add_outside (s t : BinStat) (e : Entry) (hc : e ≠ Entry.cnt)
    (h : ¬ e.InBlock (min s.filledSize t.filledSize)) : (s.add t).val e = s.val e := by
  cases e with
  | cnt => exact absurd rfl hc
  | xtx a b =>
    have h1 : ¬ (a < min s.filledSize t.filledSize ∧ b < min s.filledSize t.filledSize) := h
    simp only [BinStat.val, BinStat.add]
    rw [if_neg h1]
  | xty a =>
    have h1 : ¬ (a < min s.filledSize t.filledSize) := h
    simp only [BinStat.val, BinStat.add]
    rw [if_neg h1]

theorem partition_fullUpdate (lr : Learner) (ds : DataSet) (n f : Nat) (border : ℚ) (p : Nat)
    (hp : p < n) :
    (lr.partition ds n f border).fullUpdate (2 * p + 1)
      = !((lr.partition ds n f border).fullUpdate (2 * p)) := by
  unfold GreedyLinearObliviousTreeLearnerV2.partition
  simp only
  generalize ((List.range ds.samplesCount).foldl
    (fun (st : (Nat → Nat) × (Nat → ℤ)) i =>
      (Function.update st.1 i
        (if (lr.fColumnsRefs.getD f (fun _ => 0)) i ≤ border then 2 * st.1 i else 2 * st.1 i + 1),
       Function.update st.2
        ((Function.update st.1 i
          (if (lr.fColumnsRefs.getD f (fun _ => 0)) i ≤ border then 2 * st.1 i
            else 2 * st.1 i + 1)) i)
        (st.2 ((Function.update st.1 i
          (if (lr.fColumnsRefs.getD f (fun _ => 0)) i ≤ border then 2 * st.1 i
            else 2 * st.1 i + 1)) i) + 1)))
    (lr.leafId, (List.range n).foldl
      (fun cnt i => Function.update (Function.update cnt (2 * i) 0) (2 * i + 1) 0)
      lr.samplesLeavesCnt)) = moved
  induction n with
  | zero => omega
  | succ n ih =>
    rw [List.range_succ, List.foldl_append]
    simp only [List.foldl_cons, List.foldl_nil]
    by_cases hpn : p = n
    · subst hpn
      have a3 : 2 * p ≠ 2 * p + 1 := by omega
      simp [Function.update_same, Function.update_noteq a3]
    · have a1 : 2 * p + 1 ≠ 2 * n + 1 := by omega
      have a2 : 2 * p + 1 ≠ 2 * n := by omega
      have a3 : 2 * p ≠ 2 * n + 1 := by omega
      have a4 : 2 * p ≠ 2 * n := by omega
      rw [Function.update_noteq a1, Function.update_noteq a2, Function.update_noteq a3,
        Function.update_noteq a4]
      exact ih (by omega)

/-- The passes of a split before the derivation leave the coordinate of the
parents as it is. -/
theorem childrenPasses_parents (lr : Learner) (ds : DataSet) (bds : BinarizedDataSet)
    (ys : Nat → ℚ) (blockOf : Nat → Nat) (newLeaves : List Leaf) (N o : Nat) (g : Grid)
    (cur nc : Nat) (hcur : cur < 2) (hne : cur ≠ nc) (hd : g.DisjointBins)
    (hr : ∀ f, f < g.nzFeaturesCount → g.offset f + g.conditionsCount f < g.totalBins)
    (hlayC : Layout newLeaves nc g.totalBins)
    (hgC : ∀ (j : Nat) (l : Leaf), newLeaves[j]? = some l → l.grid = g) (cell : Nat) :
    ((((lr.accumulateChildren ds bds ys blockOf N o).feedDerived newLeaves N o).sumFullChildren
      newLeaves).prefixFullChildren newLeaves).stats cur cell = lr.stats cur cell := by
  rw [prefixFullChildren_frame _ _ g hd hr hgC cur cell
      (fun l lf hlf _ h => hne (h.1.trans (hlayC l lf hlf).1)),
    sumFullChildren_frame _ _ cur cell (fun l lf bin hlf _ _ h => hne (h.1.trans (hlayC l lf hlf).1)),
    feedDerived_frame _ _ _ _ cur cell
      (fun l lf f lb hlf _ _ _ h => hne (h.1.trans (hlayC l lf hlf).1)),
    accumulateChildren_stats_low _ _ _ _ _ _ _ cur hcur]

/-- The sum and the prefix sums of the fully updated children leave the cells of
a derived child as they are. -/
theorem fullPasses_derived (lr : Learner) (newLeaves : List Leaf) (g : Grid) (nc : Nat)
    (htb : lr.totalBins = g.totalBins) (hd : g.DisjointBins)
    (hr : ∀ f, f < g.nzFeaturesCount → g.offset f + g.conditionsCount f < g.totalBins)
    (hlayC : Layout newLeaves nc g.totalBins)
    (hgC : ∀ (j : Nat) (l : Leaf), newLeaves[j]? = some l → l.grid = g)
    (D b : Nat) (hfuD : lr.fullUpdate D = false) (hb : b < g.totalBins) :
    ((lr.sumFullChildren newLeaves).prefixFullChildren newLeaves).stats nc (D * g.totalBins + b)
      = lr.stats nc (D * g.totalBins + b) := by
  have e5 : (lr.sumFullChildren newLeaves).eraseBuffers = lr.eraseBuffers :=
    sumFullChildren_erase _ _
  obtain ⟨_, _, _, _, _, fu5, _, _, _, _, _⟩ := fields_of_erase _ _ e5
  rw [prefixFullChildren_frame _ _ g hd hr hgC nc _ ?_, sumFullChildren_frame _ _ nc _ ?_]
  · intro l lf bin hlf hfu hbin ⟨_, h2⟩
    rw [(hlayC l lf hlf).2] at h2
    have := slot_injective g.totalBins D b l bin hb (htb ▸ hbin) h2
    rw [this.1, hfu] at hfuD
    exact Bool.noConfusion hfuD
  · intro l lf hlf hfu ⟨_, h2, h3⟩
    rw [(hlayC l lf hlf).2] at h2 h3
    have := slot_injective g.totalBins D b l (D * g.totalBins + b - l * g.totalBins) hb
      (by omega) (by omega)
    rw [fu5, ← this.1, hfuD] at hfu
    exact Bool.noConfusion hfu

/-- The anatomy of the statistics pass of a split at bin `b` of parent `p0`, with
`D` the derived child and `S` the fully updated one: the passes before the
derivation leave the parent's cell alone, the derived child's cell is the one
the prefix-and-feed pass left plus `parent - sibling`, and the sibling's cell
is the one its own prefix sums left. -/
theorem buildChildren_anatomy (lr : Learner) (ds : DataSet) (bds : BinarizedDataSet)
    (ys : Nat → ℚ) (blockOf : Nat → Nat) (leaves newLeaves : List Leaf) (o : Nat) (g : Grid)
    (cur nc : Nat) (hcur : cur < 2) (hne : cur ≠ nc)
    (htb : lr.totalBins = g.totalBins) (hd : g.DisjointBins)
    (hr : ∀ f, f < g.nzFeaturesCount → g.offset f + g.conditionsCount f < g.totalBins)
    (hlen : newLeaves.length = 2 * leaves.length)
    (hlayP : Layout leaves cur g.totalBins) (hlayC : Layout newLeaves nc g.totalBins)
    (hgP : ∀ (j : Nat) (l : Leaf), leaves[j]? = some l → l.grid = g)
    (hgC : ∀ (j : Nat) (l : Leaf), newLeaves[j]? = some l → l.grid = g ∧ l.id = j)
    (p0 D S b : Nat) (hp0 : p0 < leaves.length) (hb : b < g.totalBins)
    (hcompl : ∀ p, p < leaves.length → lr.fullUpdate (2 * p + 1) = !(lr.fullUpdate (2 * p)))
    (hDS : (lr.fullUpdate (2 * p0) = true ∧ D = 2 * p0 + 1 ∧ S = 2 * p0) ∨
      (lr.fullUpdate (2 * p0) = false ∧ D = 2 * p0 ∧ S = 2 * p0 + 1)) :
    (lr.buildChildren ds bds ys blockOf leaves newLeaves o).stats nc (D * g.totalBins + b)
      = ((((lr.accumulateChildren ds bds ys blockOf lr.usedFeatures.card o).feedDerived newLeaves
            lr.usedFeatures.card o).stats nc (D * g.totalBins + b)).add
          ((lr.stats cur (p0 * g.totalBins + b)).sub
            (((((lr.accumulateChildren ds bds ys blockOf lr.usedFeatures.card o).feedDerived
              newLeaves lr.usedFeatures.card o).sumFullChildren newLeaves).prefixFullChildren
              newLeaves).stats nc (S * g.totalBins + b)))) ∧
    (lr.buildChildren ds bds ys blockOf leaves newLeaves o).stats nc (S * g.totalBins + b)
      = ((((lr.accumulateChildren ds bds ys blockOf lr.usedFeatures.card o).feedDerived
              newLeaves lr.usedFeatures.card o).sumFullChildren newLeaves).prefixFullChildren
              newLeaves).stats nc (S * g.totalBins + b) ∧
    (lr.buildChildren ds bds ys blockOf leaves newLeaves o).stats cur (p0 * g.totalBins + b)
      = (lr.stats cur (p0 * g.totalBins + b)).sub
            (((((lr.accumulateChildren ds bds ys blockOf lr.usedFeatures.card o).feedDerived
              newLeaves lr.usedFeatures.card o).sumFullChildren newLeaves).prefixFullChildren
              newLeaves).stats nc (S * g.totalBins + b)) := by
  unfold GreedyLinearObliviousTreeLearnerV2.buildChildren
  simp only
  have hfuD : lr.fullUpdate D = false := by
    rcases hDS with ⟨h1, h2, _⟩ | ⟨h1, h2, _⟩
    · subst h2
      rw [hcompl p0 hp0, h1]
      rfl
    · subst h2; exact h1
  have hP := childrenPasses_parents lr ds bds ys blockOf newLeaves lr.usedFeatures.card o g cur nc
    hcur hne hd hr hlayC (fun j l h => (hgC j l h).1) (p0 * g.totalBins + b)
  generalize h3 : lr.accumulateChildren ds bds ys blockOf lr.usedFeatures.card o = lr3 at hP
  generalize h4 : lr3.feedDerived newLeaves lr.usedFeatures.card o = lr4 at hP
  have e3 : lr3.eraseBuffers = lr.eraseBuffers := by rw [← h3, accumulateChildren_erase]
  have e4 : lr4.eraseBuffers = lr.eraseBuffers := by rw [← h4, feedDerived_erase, e3]
  obtain ⟨_, _, _, _, _, fu4, _, _, tb4, _, _⟩ := fields_of_erase _ _ e4
  have hDf := fullPasses_derived lr4 newLeaves g nc (tb4.trans htb) hd hr hlayC
    (fun j l h => (hgC j l h).1) D b (fu4 ▸ hfuD) hb
  generalize h5 : lr4.sumFullChildren newLeaves = lr5 at hP hDf
  generalize h6 : lr5.prefixFullChildren newLeaves = lr6 at hP hDf
  have e5 : lr5.eraseBuffers = lr4.eraseBuffers := by rw [← h5, sumFullChildren_erase]
  have e6 : lr6.eraseBuffers = lr5.eraseBuffers := by rw [← h6, prefixFullChildren_erase]
  obtain ⟨_, _, _, _, _, fu5, _, _, _, _, _⟩ := fields_of_erase _ _ e5
  obtain ⟨_, _, _, _, _, fu6, _, _, _, _, _⟩ := fields_of_erase _ _ e6
  have hfu6 : lr6.fullUpdate = lr.fullUpdate := fu6.trans (fu5.trans fu4)
  obtain ⟨k1, k2, k3⟩ := deriveChildren_cells lr6 leaves newLeaves g.totalBins cur nc hne hlen hlayP
    hlayC (fun j l h => by rw [hgP j l h]) (fun j l h => ⟨by rw [(hgC j l h).1], (hgC j l h).2⟩)
    p0 D S b hp0 hb (by rw [hfu6]; exact hDS)
  rw [k1, k2, k3, hP, hDf]
  exact ⟨rfl, rfl, rfl⟩

theorem correlated_erase (ds : DataSet) (bds : BinarizedDataSet) (ys : Nat → ℚ)
    (blockOf : Nat → Nat) (st : FitState) :
    (correlated ds bds ys blockOf st).eraseBuffers = st.lr.eraseBuffers := by
  unfold correlated
  cases st.leaves with
  | nil => rfl
  | cons l0 rest =>
    simp only
    rw [feedNewCorrelations_erase, correlate_erase]

/-- The correlation update of a depth keeps the size of every cell and its
entries in the block of the used features. -/
theorem correlated_kept (ds : DataSet) (bds : BinarizedDataSet) (ys : Nat → ℚ)
    (blockOf : Nat → Nat) (st : FitState) (c cell n0 : Nat) (e : Entry) (he : e.InBlock n0)
    (h : (st.lr.stats c cell).filledSize = n0) :
    ((correlated ds bds ys blockOf st).stats c cell).filledSize = n0 ∧
    ((correlated ds bds ys blockOf st).stats c cell).val e = (st.lr.stats c cell).val e := by
  unfold correlated
  cases st.leaves with
  | nil => exact ⟨h, rfl⟩
  | cons l0 rest =>
    simp only
    have h1 := feedNewCorrelations_kept (st.lr.correlate ds bds ys blockOf l0.nUsedFeatures)
      (l0 :: rest) l0.nUsedFeatures c cell n0 e he (by rw [correlate_stats]; exact h)
    rw [correlate_stats] at h1
    exact h1

theorem depthStep_unfold (ds : DataSet) (bds : BinarizedDataSet) (ys : Nat → ℚ)
    (blockOf : Nat → Nat) (st st2 : FitState) (hidx : LeavesIndexed st.lr.grid st.leaves)
    (h : depthStep ds bds ys blockOf st = .ok st2) :
    ∃ (l0 : Leaf) (f c : Nat) (border : ℚ), st.leaves[0]? = some l0 ∧ f < st.lr.fCount ∧
      c < st.lr.grid.conditionsCount f ∧ (st.lr.grid.borders f)[c]? = some border ∧
      st2.leaves = childrenOf st.leaves f c (st.lr.curLeavesCoord ^^^ 1) ∧
      st2.lr = { splitLearner ds bds ys blockOf st l0.nUsedFeatures f c border with
        curLeavesCoord := st.lr.curLeavesCoord ^^^ 1 } := by
  have ec := correlated_erase ds bds ys blockOf st
  unfold depthStep at h
  cases hl : st.leaves with
  | nil => rw [hl] at h; simp at h
  | cons l0 rest =>
    rw [hl] at h
    simp only at h
    rw [← hl] at h
    have hcor : correlated ds bds ys blockOf st
        = (st.lr.correlate ds bds ys blockOf l0.nUsedFeatures).feedNewCorrelations
            st.leaves l0.nUsedFeatures := by
      unfold correlated
      rw [hl]
    rw [← hcor] at h
    generalize hlr2 : correlated ds bds ys blockOf st = lr2 at h ec
    obtain ⟨hgr, hfc, hcur, hcol, _⟩ := fields_of_erase _ _ ec
    have hinv := findBestSplit_inv lr2.fCount lr2.grid.conditionsCount
      (totalSplitScore st.leaves lr2.stats)
    generalize findBestSplit lr2.fCount lr2.grid.conditionsCount
      (totalSplitScore st.leaves lr2.stats) = best at h hinv
    unfold GreedyLinearObliviousTreeLearnerV2.splitStep at h
    by_cases hneg : best.splitFId < 0 ∨ best.splitCond < 0
    · rw [if_pos hneg] at h
      exact absurd h (by simp)
    · rw [if_neg hneg] at h
      obtain ⟨_, _, hsel⟩ := hinv
      rcases hsel with ⟨h1, _, _⟩ | ⟨f, c, h1, h2, h3, h4, _⟩
      · exact absurd (Or.inl (by rw [h1]; decide)) hneg
      · have hfn : best.splitFId.toNat = f := by rw [h1]; simp
        have hcn : best.splitCond.toNat = c := by rw [h2]; simp
        rw [hfn, hcn] at h
        have hf : f < lr2.fCount := by
          rcases h4 with h | ⟨_, h⟩
          · exact h
          · omega
        cases hb : (lr2.grid.borders f)[c]? with
        | none => rw [hb] at h; exact absurd h (by simp)
        | some border =>
          rw [hb] at h
          simp only at h
          have hnew : derefLeaves ((lr2.partition ds st.leaves.length f border).initNewLeaves
              st.leaves f c) = .ok (childrenOf st.leaves f c (lr2.curLeavesCoord ^^^ 1)) := by
            rw [initNewLeaves_eq _ _ _ _ (fun j l hj => (hidx j l hj).1), derefLeaves_map_some]
            rfl
          rw [hnew] at h
          simp only at h
          injection h with h
          subst h
          refine ⟨l0, f, c, border, by simp, hfc ▸ hf, hgr ▸ h3, hgr ▸ hb, ?_, ?_⟩
          · show childrenOf _ _ _ _ = _
            rw [hcur, hl]
          · have e7 := buildChildren_erase ((lr2.partition ds st.leaves.length f border).useFeatureAndReset
              (childrenOf st.leaves f c (lr2.curLeavesCoord ^^^ 1)).length f) ds bds ys blockOf
              st.leaves (childrenOf st.leaves f c (lr2.curLeavesCoord ^^^ 1)) l0.nUsedFeatures
            have c7 := (fields_of_erase _ _ e7).2.2.1
            have c7b : (GreedyLinearObliviousTreeLearnerV2.buildChildren
                ((lr2.partition ds st.leaves.length f border).useFeatureAndReset
                  (childrenOf st.leaves f c (lr2.curLeavesCoord ^^^ 1)).length f) ds bds ys blockOf
                st.leaves (childrenOf st.leaves f c (lr2.curLeavesCoord ^^^ 1))
                l0.nUsedFeatures).curLeavesCoord = st.lr.curLeavesCoord := by
              rw [c7]
              exact hcur
            simp only [splitLearner, hlr2]
            rw [c7b]

theorem childrenOf_layout (g : Grid) (leaves : List Leaf) (f c coord : Nat)
    (h : LeavesIndexed g leaves) : Layout (childrenOf leaves f c coord) coord g.totalBins := by
  intro p l hp
  rw [childrenOf_getElem?] at hp
  cases hq : leaves[p / 2]? with
  | none => rw [hq] at hp; simp at hp
  | some q =>
    rw [hq] at hp
    simp only [Option.map_some'] at hp
    obtain ⟨hid, hg⟩ := h (p / 2) q hq
    injection hp with hp
    subst hp
    by_cases h0 : p % 2 = 0
    · simp only [h0, if_true]
      refine ⟨rfl, ?_⟩
      show 0 + 2 * q.id * q.grid.totalBins = p * g.totalBins
      rw [hid, hg, Nat.zero_add]
      congr 1
      omega
    · simp only [h0, if_false]
      refine ⟨rfl, ?_⟩
      show 0 + (2 * q.id + 1) * q.grid.totalBins = p * g.totalBins
      rw [hid, hg, Nat.zero_add]
      congr 1
      omega

theorem childrenOf_nUsed (leaves : List Leaf) (f c coord p : Nat) (l : Leaf)
    (hp : (childrenOf leaves f c coord)[p]? = some l) :
    ∃ q, leaves[p / 2]? = some q ∧
      l.nUsedFeatures
        = q.nUsedFeatures + (1 - (if q.grid.origFeatureIndex f ∈ q.usedFeatures then 1 else 0)) ∧
      l.usedFeatures = (if q.grid.origFeatureIndex f ∈ q.usedFeatures then q.usedFeatures
        else insert (q.grid.origFeatureIndex f) q.usedFeatures) := by
  rw [childrenOf_getElem?] at hp
  cases hq : leaves[p / 2]? with
  | none => rw [hq] at hp; simp at hp
  | some q =>
    rw [hq] at hp
    simp only [Option.map_some'] at hp
    injection hp with hp
    subst hp
    refine ⟨q, rfl, ?_⟩
    by_cases h0 : p % 2 = 0
    · simp only [h0, if_true]
      exact ⟨rfl, rfl⟩
    · simp only [h0, if_false]
      exact ⟨rfl, rfl⟩

theorem inBlock_mono (e : Entry) (n m : Nat) (h : n ≤ m) (he : e.InBlock n) : e.InBlock m := by
  cases e with
  | cnt => trivial
  | xtx a b =>
    have h1 : a < n ∧ b < n := he
    exact ⟨by omega, by omega⟩
  | xty a =>
    have h1 : a < n := he
    show a < m
    omega

theorem filledSize_zero (n : Nat) : (BinStat.zero n).filledSize = n := rfl

/-- The cells of the two children of parent `p0` at bin `b` after the statistics
passes of a split, when the children's cells start zeroed at the new number of
used features: both are filled to the new number, and on the block of the old
features the derived child and the scanned child add up to the parent's cell. -/
theorem split_cells (lr : Learner) (ds : DataSet) (bds : BinarizedDataSet)
    (ys : Nat → ℚ) (blockOf : Nat → Nat) (leaves newLeaves : List Leaf) (o : Nat) (g : Grid)
    (cur nc : Nat) (hcur : cur < 2) (hnc : nc < 2) (hne : cur ≠ nc)
    (htb : lr.totalBins = g.totalBins) (hd : g.DisjointBins)
    (hr : ∀ f, f < g.nzFeaturesCount → g.offset f + g.conditionsCount f < g.totalBins)
    (hlen : newLeaves.length = 2 * leaves.length)
    (hlayP : Layout leaves cur g.totalBins) (hlayC : Layout newLeaves nc g.totalBins)
    (hgP : ∀ (j : Nat) (l : Leaf), leaves[j]? = some l → l.grid = g)
    (hgC : ∀ (j : Nat) (l : Leaf), newLeaves[j]? = some l → l.grid = g ∧ l.id = j)
    (p0 D S b : Nat) (hp0 : p0 < leaves.length) (hb : b < g.totalBins)
    (hcompl : ∀ p, p < leaves.length → lr.fullUpdate (2 * p + 1) = !(lr.fullUpdate (2 * p)))
    (hDS : (lr.fullUpdate (2 * p0) = true ∧ D = 2 * p0 + 1 ∧ S = 2 * p0) ∨
      (lr.fullUpdate (2 * p0) = false ∧ D = 2 * p0 ∧ S = 2 * p0 + 1))
    (hzero : ∀ q b, q < newLeaves.length → b < g.totalBins →
      lr.stats nc (q * g.totalBins + b) = BinStat.zero lr.usedFeatures.card)
    (hPfs : (lr.stats cur (p0 * g.totalBins + b)).filledSize = o)
    (ho : o ≤ lr.usedFeatures.card ∧ lr.usedFeatures.card ≤ o + 1) :
    ((lr.buildChildren ds bds ys blockOf leaves newLeaves o).stats nc
        (D * g.totalBins + b)).filledSize = lr.usedFeatures.card ∧
    ((lr.buildChildren ds bds ys blockOf leaves newLeaves o).stats nc
        (S * g.totalBins + b)).filledSize = lr.usedFeatures.card ∧
    ∀ e : Entry, e.InBlock o →
      ((lr.buildChildren ds bds ys blockOf leaves newLeaves o).stats nc (D * g.totalBins + b)).val e
        + ((lr.buildChildren ds bds ys blockOf leaves newLeaves o).stats nc
            (S * g.totalBins + b)).val e
        = (lr.stats cur (p0 * g.totalBins + b)).val e := by
  obtain ⟨a1, a2, _⟩ := buildChildren_anatomy lr ds bds ys blockOf leaves newLeaves o g cur nc hcur
    hne htb hd hr hlen hlayP hlayC hgP hgC p0 D S b hp0 hb hcompl hDS
  have hD : D < newLeaves.length := by rcases hDS with ⟨_, h, _⟩ | ⟨_, h, _⟩ <;> omega
  have hS : S < newLeaves.length := by rcases hDS with ⟨_, _, h⟩ | ⟨_, _, h⟩ <;> omega
  -- the cells after the second pass over the samples are still zero
  have h3 : ∀ q, q < newLeaves.length →
      (lr.accumulateChildren ds bds ys blockOf lr.usedFeatures.card o).stats nc
        (q * g.totalBins + b) = BinStat.zero lr.usedFeatures.card := by
    intro q hq
    rw [accumulateChildren_stats_low _ _ _ _ _ _ _ nc hnc]
    exact hzero q b hq hb
  -- the derived child after the prefix-and-feed pass
  have h4 : ∀ q, q < newLeaves.length →
      (((lr.accumulateChildren ds bds ys blockOf lr.usedFeatures.card o).feedDerived newLeaves
        lr.usedFeatures.card o).stats nc (q * g.totalBins + b)).filledSize
          = lr.usedFeatures.card ∧
      ∀ e : Entry, e.InBlock o →
        (((lr.accumulateChildren ds bds ys blockOf lr.usedFeatures.card o).feedDerived newLeaves
          lr.usedFeatures.card o).stats nc (q * g.totalBins + b)).val e = 0 := by
    intro q hq
    by_cases hNo : lr.usedFeatures.card > o
    · refine ⟨(feedDerived_kept _ newLeaves _ o nc _ lr.usedFeatures.card Entry.cnt trivial
        (by rw [h3 q hq]; rfl)).1, ?_⟩
      intro e he
      have hk := feedDerived_kept (lr.accumulateChildren ds bds ys blockOf lr.usedFeatures.card o)
        newLeaves lr.usedFeatures.card o nc (q * g.totalBins + b) lr.usedFeatures.card e
        (inBlock_mono e o _ (by omega) he) (by rw [h3 q hq]; rfl)
      rw [hk.2, h3 q hq, val_zero]
    · rw [feedDerived_skip _ _ _ _ hNo, h3 q hq]
      exact ⟨rfl, fun e _ => val_zero _ e⟩
  have h6 : (((((lr.accumulateChildren ds bds ys blockOf lr.usedFeatures.card o).feedDerived
      newLeaves lr.usedFeatures.card o).sumFullChildren newLeaves).prefixFullChildren
      newLeaves).stats nc (S * g.totalBins + b)).filledSize = lr.usedFeatures.card := by
    rw [prefixFullChildren_filledSize, sumFullChildren_filledSize]
    exact (h4 S hS).1
  rw [a1, a2]
  refine ⟨by rw [filledSize_add]; exact (h4 D hD).1, h6, ?_⟩
  intro e he
  have hm1 : min lr.usedFeatures.card o = o := by omega
  have hm2 : min o lr.usedFeatures.card = o := by omega
  rw [val_add _ _ _ (by rw [filledSize_sub, (h4 D hD).1, hPfs, hm1]; exact he),
    val_sub _ _ _ (by rw [hPfs, h6, hm2]; exact he), (h4 D hD).2 e he]
  ring

theorem xor_one_facts (cur : Nat) (h : cur ≤ 1) : cur ^^^ 1 ≤ 1 ∧ cur ≠ cur ^^^ 1 := by
  have : cur = 0 ∨ cur = 1 := by omega
  rcases this with h | h <;> subst h <;> decide

theorem region_lt (TB q n b : Nat) (hq : q < n) (hb : b < TB) : q * TB + b < n * TB := by
  have h1 : (q + 1) * TB ≤ n * TB := Nat.mul_le_mul_right TB (by omega)
  have h2 : (q + 1) * TB = q * TB + TB := by ring
  omega

theorem useFeatureAndReset_stats (lr : Learner) (n f c cell : Nat) :
    (lr.useFeatureAndReset n f).stats c cell
      = if c < lr.nThreads + 2 ∧ c ≠ lr.curLeavesCoord ∧ cell < n * lr.totalBins then
          BinStat.zero (lr.useFeatureAndReset n f).usedFeatures.card
        else lr.stats c cell := rfl

theorem useFeatureAndReset_used (lr : Learner) (n f : Nat) :
    (lr.useFeatureAndReset n f).usedFeatures
      = if lr.grid.origFeatureIndex f ∈ lr.usedFeatures then lr.usedFeatures
        else insert (lr.grid.origFeatureIndex f) lr.usedFeatures := rfl

theorem useFeatureAndReset_fields (lr : Learner) (n f : Nat) :
    (lr.useFeatureAndReset n f).fullUpdate = lr.fullUpdate ∧
    (lr.useFeatureAndReset n f).totalBins = lr.totalBins ∧
    (lr.useFeatureAndReset n f).grid = lr.grid ∧
    (lr.useFeatureAndReset n f).leafId = lr.leafId ∧
    (lr.useFeatureAndReset n f).nSamples = lr.nSamples ∧
    (lr.useFeatureAndReset n f).fCount = lr.fCount ∧
    (lr.useFeatureAndReset n f).binOffsets = lr.binOffsets ∧
    (lr.useFeatureAndReset n f).nThreads = lr.nThreads ∧
    (lr.useFeatureAndReset n f).curLeavesCoord = lr.curLeavesCoord :=
  ⟨rfl, rfl, rfl, rfl, rfl, rfl, rfl, rfl, rfl⟩

theorem partition_fields (lr : Learner) (ds : DataSet) (n f : Nat) (border : ℚ) :
    (lr.partition ds n f border).stats = lr.stats ∧
    (lr.partition ds n f border).totalBins = lr.totalBins ∧
    (lr.partition ds n f border).grid = lr.grid ∧
    (lr.partition ds n f border).usedFeatures = lr.usedFeatures ∧
    (lr.partition ds n f border).usedFeaturesOrdered = lr.usedFeaturesOrdered ∧
    (lr.partition ds n f border).nSamples = lr.nSamples ∧
    (lr.partition ds n f border).fCount = lr.fCount ∧
    (lr.partition ds n f border).binOffsets = lr.binOffsets ∧
    (lr.partition ds n f border).nThreads = lr.nThreads ∧
    (lr.partition ds n f border).curLeavesCoord = lr.curLeavesCoord :=
  ⟨rfl, rfl, rfl, rfl, rfl, rfl, rfl, rfl, rfl, rfl⟩

theorem used_card_step (used : Finset Nat) (x : Nat) :
    used.card ≤ (if x ∈ used then used else insert x used).card ∧
    (if x ∈ used then used else insert x used).card ≤ used.card + 1 ∧
    (if x ∈ used then used else insert x used).card = used.card + (1 - (if x ∈ used then 1 else 0)) := by
  by_cases h : x ∈ used
  · simp [h]
  · simp [h, Finset.card_insert_of_not_mem]

/-- One iteration of the growth loop keeps the shape of the state, and on the
block of the parent's features the cells of the two children of every parent
add up to the cell the parent held when the split step began. -/
theorem shape_step (ds : DataSet) (bds : BinarizedDataSet) (ys : Nat → ℚ) (blockOf : Nat → Nat)
    (st st2 : FitState) (hs : Shape st) (h : depthStep ds bds ys blockOf st = .ok st2) :
    Shape st2 ∧ st2.lr.grid = st.lr.grid ∧ st2.leaves.length = 2 * st.leaves.length ∧
    st2.lr.curLeavesCoord = st.lr.curLeavesCoord ^^^ 1 ∧
    ∀ (p : Nat) (parent : Leaf) (b : Nat) (e : Entry), st.leaves[p]? = some parent →
      b < st.lr.grid.totalBins → e.InBlock parent.nUsedFeatures →
      (st2.lr.stats (st.lr.curLeavesCoord ^^^ 1) (2 * p * st.lr.grid.totalBins + b)).val e
        + (st2.lr.stats (st.lr.curLeavesCoord ^^^ 1) ((2 * p + 1) * st.lr.grid.totalBins + b)).val e
        = ((correlated ds bds ys blockOf st).stats st.lr.curLeavesCoord
            (p * st.lr.grid.totalBins + b)).val e := by
  obtain ⟨l0, f, c, border, hl0, hf, hc, hbo, hleaves, hlr⟩ :=
    depthStep_unfold ds bds ys blockOf st st2 hs.indexed h
  obtain ⟨hnc, hne⟩ := xor_one_facts _ hs.cur_le
  have eB := correlated_erase ds bds ys blockOf st
  obtain ⟨gB, fcB, curB, _, _, _, usedB, _, tbB, _, nthB⟩ := fields_of_erase _ _ eB
  have hN : l0.nUsedFeatures = st.lr.usedFeatures.card := (hs.nUsed 0 l0 hl0).1
  -- the learner after the partition and the reset
  have hX : splitLearner ds bds ys blockOf st l0.nUsedFeatures f c border
      = (((correlated ds bds ys blockOf st).partition ds st.leaves.length f border).useFeatureAndReset
          (childrenOf st.leaves f c (st.lr.curLeavesCoord ^^^ 1)).length f).buildChildren ds bds ys
          blockOf st.leaves (childrenOf st.leaves f c (st.lr.curLeavesCoord ^^^ 1))
          l0.nUsedFeatures := by
    unfold splitLearner
    simp only [curB]
  obtain ⟨pst, ptb, pgrid, pused, _, _, _, _, pnth, pcur⟩ :=
    partition_fields (correlated ds bds ys blockOf st) ds st.leaves.length f border
  generalize hlrC : (correlated ds bds ys blockOf st).partition ds st.leaves.length f border = lrC
    at hX pst ptb pgrid pused pnth pcur
  have hCcompl : ∀ p, p < st.leaves.length →
      lrC.fullUpdate (2 * p + 1) = !(lrC.fullUpdate (2 * p)) := by
    intro p hp
    rw [← hlrC]
    exact partition_fullUpdate _ ds _ f border p hp
  obtain ⟨rfu, rtb, rgrid, _, _, _, _, _, _⟩ := useFeatureAndReset_fields lrC
    (childrenOf st.leaves f c (st.lr.curLeavesCoord ^^^ 1)).length f
  have rused := useFeatureAndReset_used lrC
    (childrenOf st.leaves f c (st.lr.curLeavesCoord ^^^ 1)).length f
  have rstats := useFeatureAndReset_stats lrC
    (childrenOf st.leaves f c (st.lr.curLeavesCoord ^^^ 1)).length f
  generalize hlrD : lrC.useFeatureAndReset
      (childrenOf st.leaves f c (st.lr.curLeavesCoord ^^^ 1)).length f = lrD
      at hX rfu rtb rgrid rused rstats
  have hDtb : lrD.totalBins = st.lr.grid.totalBins := by
    rw [rtb, ptb, tbB, hs.totalBins_eq]
  have hDgrid : lrD.grid = st.lr.grid := by
    rw [rgrid, pgrid, gB]
  have hDused : lrD.usedFeatures = if st.lr.grid.origFeatureIndex f ∈ st.lr.usedFeatures
      then st.lr.usedFeatures else insert (st.lr.grid.origFeatureIndex f) st.lr.usedFeatures := by
    rw [rused, pgrid, pused, gB, usedB]
  have hDcompl : ∀ p, p < st.leaves.length →
      lrD.fullUpdate (2 * p + 1) = !(lrD.fullUpdate (2 * p)) := by
    intro p hp
    rw [rfu]
    exact hCcompl p hp
  have hDcur : ∀ cell, lrD.stats st.lr.curLeavesCoord cell
      = (correlated ds bds ys blockOf st).stats st.lr.curLeavesCoord cell := by
    intro cell
    rw [rstats, if_neg, pst]
    intro ⟨_, h2, _⟩
    exact h2 (pcur.trans curB).symm
  have hlen := childrenOf_length st.leaves f c (st.lr.curLeavesCoord ^^^ 1)
  have hDzero : ∀ q b, q < (childrenOf st.leaves f c (st.lr.curLeavesCoord ^^^ 1)).length →
      b < st.lr.grid.totalBins →
      lrD.stats (st.lr.curLeavesCoord ^^^ 1) (q * st.lr.grid.totalBins + b)
        = BinStat.zero lrD.usedFeatures.card := by
    intro q b hq hb
    rw [rstats, if_pos]
    refine ⟨by omega, ?_, ?_⟩
    · intro h2
      exact hne (h2.trans (pcur.trans curB)).symm
    · rw [ptb, tbB, hs.totalBins_eq]
      exact region_lt _ _ _ _ hq hb
  obtain ⟨hc1, hc2, hc3⟩ := used_card_step st.lr.usedFeatures (st.lr.grid.origFeatureIndex f)
  rw [← hDused] at hc1 hc2 hc3
  -- the result of the statistics passes
  have e7 : (splitLearner ds bds ys blockOf st l0.nUsedFeatures f c border).eraseBuffers
      = lrD.eraseBuffers := by
    rw [hX, buildChildren_erase]
  obtain ⟨g7, _, _, _, _, _, used7, _, tb7, _, _⟩ := fields_of_erase _ _ e7
  have hstats2 : st2.lr.stats
      = (lrD.buildChildren ds bds ys blockOf st.leaves
          (childrenOf st.leaves f c (st.lr.curLeavesCoord ^^^ 1)) l0.nUsedFeatures).stats := by
    rw [hlr, ← hX]
  have hgrid2 : st2.lr.grid = st.lr.grid := by
    rw [hlr]
    exact g7.trans hDgrid
  have hused2 : st2.lr.usedFeatures = lrD.usedFeatures := by
    rw [hlr]
    exact used7
  have htb2 : st2.lr.totalBins = st.lr.grid.totalBins := by
    rw [hlr]
    exact tb7.trans hDtb
  have hcur2 : st2.lr.curLeavesCoord = st.lr.curLeavesCoord ^^^ 1 := by rw [hlr]
  have hidxC := childrenOf_indexed st.lr.grid st.leaves f c (st.lr.curLeavesCoord ^^^ 1) hs.indexed
  have hlayC := childrenOf_layout st.lr.grid st.leaves f c (st.lr.curLeavesCoord ^^^ 1) hs.indexed
  -- the cells of the children of parent `p`
  have hcells : ∀ p b, p < st.leaves.length → b < st.lr.grid.totalBins →
      ∃ D S, ((D = 2 * p + 1 ∧ S = 2 * p) ∨ (D = 2 * p ∧ S = 2 * p + 1)) ∧
        (st2.lr.stats (st.lr.curLeavesCoord ^^^ 1) (D * st.lr.grid.totalBins + b)).filledSize
          = lrD.usedFeatures.card ∧
        (st2.lr.stats (st.lr.curLeavesCoord ^^^ 1) (S * st.lr.grid.totalBins + b)).filledSize
          = lrD.usedFeatures.card ∧
        ∀ e : Entry, e.InBlock l0.nUsedFeatures →
          (st2.lr.stats (st.lr.curLeavesCoord ^^^ 1) (D * st.lr.grid.totalBins + b)).val e
            + (st2.lr.stats (st.lr.curLeavesCoord ^^^ 1) (S * st.lr.grid.totalBins + b)).val e
            = ((correlated ds bds ys blockOf st).stats st.lr.curLeavesCoord
                (p * st.lr.grid.totalBins + b)).val e := by
    intro p b hp hb
    have hDS : ∃ D S, ((lrD.fullUpdate (2 * p) = true ∧ D = 2 * p + 1 ∧ S = 2 * p) ∨
        (lrD.fullUpdate (2 * p) = false ∧ D = 2 * p ∧ S = 2 * p + 1)) := by
      cases hfu : lrD.fullUpdate (2 * p) with
      | true => exact ⟨2 * p + 1, 2 * p, Or.inl ⟨rfl, rfl, rfl⟩⟩
      | false => exact ⟨2 * p, 2 * p + 1, Or.inr ⟨rfl, rfl, rfl⟩⟩
    obtain ⟨D, S, hDS⟩ := hDS
    have hPfs : (lrD.stats st.lr.curLeavesCoord (p * st.lr.grid.totalBins + b)).filledSize
        = l0.nUsedFeatures := by
      rw [hDcur, hN]
      exact (correlated_kept ds bds ys blockOf st _ _ _ Entry.cnt trivial (hs.filled p b hp hb)).1
    obtain ⟨k1, k2, k3⟩ := split_cells lrD ds bds ys blockOf st.leaves
      (childrenOf st.leaves f c (st.lr.curLeavesCoord ^^^ 1)) l0.nUsedFeatures st.lr.grid
      st.lr.curLeavesCoord (st.lr.curLeavesCoord ^^^ 1) (by have := hs.cur_le; omega) (by omega) hne
      hDtb hs.disjoint hs.inRange hlen hs.layout hlayC (fun j l hj => (hs.indexed j l hj).2)
      (fun j l hj => ⟨(hidxC j l hj).2, (hidxC j l hj).1⟩) p D S b hp hb hDcompl hDS hDzero hPfs
      (by rw [hN]; exact ⟨hc1, hc2⟩)
    refine ⟨D, S, ?_, ?_, ?_, ?_⟩
    · rcases hDS with ⟨_, h1, h2⟩ | ⟨_, h1, h2⟩
      · exact Or.inl ⟨h1, h2⟩
      · exact Or.inr ⟨h1, h2⟩
    · rw [hstats2]; exact k1
    · rw [hstats2]; exact k2
    · intro e he
      rw [hstats2, k3 e he, hDcur]
  refine ⟨⟨?_, ?_, ?_, ?_, ?_, ?_, ?_, ?_⟩, hgrid2, by rw [hleaves]; exact hlen, hcur2, ?_⟩
  · rw [hcur2]; exact hnc
  · rw [htb2, hgrid2]
  · rw [hgrid2]; exact hs.disjoint
  · rw [hgrid2]; exact hs.inRange
  · rw [hgrid2, hleaves]; exact hidxC
  · rw [hgrid2, hleaves, hcur2]; exact hlayC
  · intro j l hj
    rw [hleaves] at hj
    obtain ⟨q, hq, hn1, hn2⟩ := childrenOf_nUsed st.leaves f c _ j l hj
    obtain ⟨hq1, hq2⟩ := hs.nUsed (j / 2) q hq
    have hqg : q.grid = st.lr.grid := (hs.indexed (j / 2) q hq).2
    rw [hused2, hDused]
    rw [hqg, hq2] at hn1 hn2
    refine ⟨?_, hn2⟩
    rw [hn1, hq1, ← hDused, hc3]
  · intro q b hq hb
    rw [hgrid2] at hb ⊢
    rw [hleaves, hlen] at hq
    rw [hcur2, hused2]
    obtain ⟨D, S, hDS, k1, k2, _⟩ := hcells (q / 2) b (by omega) hb
    have hq2 : q = 2 * (q / 2) ∨ q = 2 * (q / 2) + 1 := by omega
    rcases hDS with ⟨h1, h2⟩ | ⟨h1, h2⟩ <;> rcases hq2 with h3 | h3
    · rw [h3, ← h2]; exact k2
    · rw [h3, ← h1]; exact k1
    · rw [h3, ← h1]; exact k1
    · rw [h3, ← h2]; exact k2
  · intro p parent b e hp hb he
    have hpl : p < st.leaves.length := by
      by_contra hcon
      rw [List.getElem?_eq_none (by omega)] at hp
      exact Option.noConfusion hp
    obtain ⟨D, S, hDS, _, _, k3⟩ := hcells p b hpl hb
    have he2 : e.InBlock l0.nUsedFeatures := by
      rw [hN, ← (hs.nUsed p parent hp).1]
      exact he
    rw [← k3 e he2]
    rcases hDS with ⟨h1, h2⟩ | ⟨h1, h2⟩
    · rw [h1, h2, add_comm]
    · rw [h1, h2]

/-! ### The root histogram -/

theorem rootAccumulate_filledSize (lr : Learner) (ds : DataSet) (bds : BinarizedDataSet)
    (ys : Nat → ℚ) (blockOf : Nat → Nat) (c cell : Nat) :
    ((lr.rootAccumulate ds bds ys blockOf) c cell).filledSize = (lr.stats c cell).filledSize := by
  unfold GreedyLinearObliviousTreeLearnerV2.rootAccumulate
  refine foldl_inv (fun s : Arena => (s c cell).filledSize = (lr.stats c cell).filledSize)
    _ _ _ rfl ?_
  intro s i hs
  refine foldl_inv (fun s : Arena => (s c cell).filledSize = (lr.stats c cell).filledSize)
    _ _ _ hs ?_
  intro s f hs
  simp only [modify_apply]
  split_ifs with h
  · obtain ⟨rfl, rfl⟩ := h
    exact hs
  · exact hs

theorem rootReduce_filledSize (lr : Learner) (stats : Arena) (c cell : Nat) :
    ((lr.rootReduce stats) c cell).filledSize = (stats c cell).filledSize := by
  unfold GreedyLinearObliviousTreeLearnerV2.rootReduce
  refine foldl_inv (fun s : Arena => (s c cell).filledSize = (stats c cell).filledSize)
    _ _ _ rfl ?_
  intro s bin hs
  refine foldl_inv (fun s : Arena => (s c cell).filledSize = (stats c cell).filledSize)
    _ _ _ hs ?_
  intro s b hs
  simp only [modify_apply]
  split_ifs with h
  · obtain ⟨rfl, rfl⟩ := h
    exact hs
  · exact hs

theorem buildRoot_filledSize (lr : Learner) (ds : DataSet) (bds : BinarizedDataSet)
    (ys : Nat → ℚ) (blockOf : Nat → Nat) (c cell : Nat) :
    ((lr.buildRoot ds bds ys blockOf) c cell).filledSize = (lr.stats c cell).filledSize := by
  unfold GreedyLinearObliviousTreeLearnerV2.buildRoot
  rw [leaf_prefixSumBins_filledSize]
  have h3 : (((List.range lr.totalBins).foldl
      (fun stats bin => lr.rootLeaf.addBinStat stats bin (stats 2 (lr.cell 0 bin)))
      (lr.rootReduce (lr.rootAccumulate ds bds ys blockOf))) c cell).filledSize
      = ((lr.rootReduce (lr.rootAccumulate ds bds ys blockOf)) c cell).filledSize := by
    refine foldl_inv (fun s : Arena => (s c cell).filledSize
      = ((lr.rootReduce (lr.rootAccumulate ds bds ys blockOf)) c cell).filledSize) _ _ _ rfl ?_
    intro s bin hs
    simp only [LinearObliviousTreeLeafV2.addBinStat, modify_apply]
    split_ifs with h
    · obtain ⟨rfl, rfl⟩ := h
      exact hs
    · exact hs
  rw [h3, rootReduce_filledSize, rootAccumulate_filledSize]

theorem rootState_leaf (lr : Learner) (ds : DataSet) (bds : BinarizedDataSet) (ys : Nat → ℚ)
    (blockOf : Nat → Nat) :
    ∃ root : Leaf, (lr.rootState ds bds ys blockOf).leaves = [root] ∧ root.id = 0 ∧
      root.grid = (lr.rootState ds bds ys blockOf).lr.grid ∧ root.histCoord = 0 ∧
      root.histBase = 0 ∧ root.nUsedFeatures = 1 ∧ root.usedFeatures = {lr.biasCol.toNat} := by
  refine ⟨_, rfl, rfl, rfl, rfl, rfl, rfl, ?_⟩
  show ({(lr.cacheDs ds).biasCol.toNat} : Finset Nat) = {lr.biasCol.toNat}
  rw [(cacheDs_fields lr ds).2.2.1]

theorem singleton_getElem? (root l : Leaf) (j : Nat) (h : [root][j]? = some l) : j = 0 ∧ l = root := by
  match j with
  | 0 =>
    simp at h
    exact ⟨rfl, h.symm⟩
  | j + 1 => simp at h

/-- The state of `fit` when the root is built has the shape the growth loop keeps. -/
theorem shape_root (lr : Learner) (ds : DataSet) (bds : BinarizedDataSet) (ys : Nat → ℚ)
    (blockOf : Nat → Nat) (htb : lr.totalBins = lr.grid.totalBins) (hd : lr.grid.DisjointBins)
    (hr : ∀ f, f < lr.grid.nzFeaturesCount →
      lr.grid.offset f + lr.grid.conditionsCount f < lr.grid.totalBins) :
    Shape (lr.rootState ds bds ys blockOf) := by
  obtain ⟨hg, _, _, _⟩ := cacheDs_fields lr ds
  have htb1 : (lr.cacheDs ds).totalBins = lr.totalBins := by
    unfold GreedyLinearObliviousTreeLearnerV2.cacheDs
    split_ifs <;> rfl
  have hgrid : (lr.rootState ds bds ys blockOf).lr.grid = lr.grid := hg
  have hcur : (lr.rootState ds bds ys blockOf).lr.curLeavesCoord = 0 := rfl
  have hu : (lr.rootState ds bds ys blockOf).lr.usedFeatures = {lr.biasCol.toNat} := by
    show insert lr.biasCol.toNat (∅ : Finset Nat) = {lr.biasCol.toNat}
    simp
  obtain ⟨root, hleaves, rid, rgrid, rcoord, rbase, rn, ru⟩ := rootState_leaf lr ds bds ys blockOf
  refine ⟨?_, ?_, ?_, ?_, ?_, ?_, ?_, ?_⟩
  · rw [hcur]
    omega
  · show (lr.cacheDs ds).totalBins = (lr.cacheDs ds).grid.totalBins
    rw [htb1, hg, htb]
  · rw [hgrid]; exact hd
  · rw [hgrid]; exact hr
  · intro j l hj
    rw [hleaves] at hj
    obtain ⟨rfl, rfl⟩ := singleton_getElem? _ _ _ hj
    exact ⟨rid, rgrid⟩
  · intro j l hj
    rw [hleaves] at hj
    obtain ⟨rfl, rfl⟩ := singleton_getElem? _ _ _ hj
    rw [hcur, rcoord, rbase]
    exact ⟨rfl, by omega⟩
  · intro j l hj
    rw [hleaves] at hj
    obtain ⟨rfl, rfl⟩ := singleton_getElem? _ _ _ hj
    rw [hu, rn, ru, Finset.card_singleton]
    exact ⟨rfl, rfl⟩
  · intro p b _ _
    rw [hu, Finset.card_singleton]
    show ((GreedyLinearObliviousTreeLearnerV2.buildRoot _ ds bds ys blockOf) _ _).filledSize = 1
    rw [buildRoot_filledSize]
    rfl

theorem growLoop_shape (lr : Learner) (ds : DataSet) (bds : BinarizedDataSet) (ys : Nat → ℚ)
    (blockOf : Nat → Nat) (htb : lr.totalBins = lr.grid.totalBins) (hd : lr.grid.DisjointBins)
    (hr : ∀ f, f < lr.grid.nzFeaturesCount →
      lr.grid.offset f + lr.grid.conditionsCount f < lr.grid.totalBins)
    (n : Nat) (st : FitState)
    (h : growLoop ds bds ys blockOf n (lr.rootState ds bds ys blockOf) = .ok st) :
    Shape st ∧ st.lr.grid = lr.grid := by
  refine growLoop_inv ds bds ys blockOf (fun st => Shape st ∧ st.lr.grid = lr.grid) ?_ n _ st
    ⟨shape_root lr ds bds ys blockOf htb hd hr, (cacheDs_fields lr ds).1⟩ h
  rintro st st2 ⟨hs, hg⟩ hd
  obtain ⟨h1, h2, _⟩ := shape_step ds bds ys blockOf st st2 hs hd
  exact ⟨h1, h2.trans hg⟩

/-- C7: at any depth of `fit` (after `d` iterations of the growth loop, on a
learner whose bin count is the grid's and a grid whose bin ranges are disjoint
and lie below the bin count), when the split step of the next iteration returns,
for every parent leaf at position `p` and every bin, the statistic of the left
child (position `2p`) plus the statistic of the right child (position `2p + 1`)
equals the statistic the parent's histogram held when the split step began
(after the correlation update of the iteration), on the count and on every
matrix and vector entry of the features the parent used. -/
theorem children_sum_to_parent (lr : Learner) (ds : DataSet) (bds : BinarizedDataSet)
    (ys : Nat → ℚ) (blockOf : Nat → Nat) (htb : lr.totalBins = lr.grid.totalBins)
    (hd : lr.grid.DisjointBins)
    (hr : ∀ f, f < lr.grid.nzFeaturesCount →
      lr.grid.offset f + lr.grid.conditionsCount f < lr.grid.totalBins)
    (d : Nat) (st st2 : FitState)
    (hgrow : growLoop ds bds ys blockOf d (lr.rootState ds bds ys blockOf) = .ok st)
    (hstep : depthStep ds bds ys blockOf st = .ok st2)
    (p : Nat) (parent : Leaf) (hp : st.leaves[p]? = some parent)
    (bin : Nat) (hbin : bin < lr.grid.totalBins) (e : Entry) (he : e.InBlock parent.nUsedFeatures) :
    ∃ left right : Leaf, st2.leaves[2 * p]? = some left ∧ st2.leaves[2 * p + 1]? = some right ∧
      ((left.hist st2.lr.stats).hist bin).val e + ((right.hist st2.lr.stats).hist bin).val e
        = ((parent.hist (correlated ds bds ys blockOf st).stats).hist bin).val e := by
  obtain ⟨hs, hg⟩ := growLoop_shape lr ds bds ys blockOf htb hd hr d st hgrow
  obtain ⟨hs2, hg2, hlen, hcur2, hsum⟩ := shape_step ds bds ys blockOf st st2 hs hstep
  have hpl : p < st.leaves.length := by
    by_contra hcon
    rw [List.getElem?_eq_none (by omega)] at hp
    exact Option.noConfusion hp
  have hl : 2 * p < st2.leaves.length := by omega
  have hrt : 2 * p + 1 < st2.leaves.length := by omega
  refine ⟨st2.leaves[2 * p], st2.leaves[2 * p + 1], List.getElem?_eq_getElem hl,
    List.getElem?_eq_getElem hrt, ?_⟩
  obtain ⟨lc, lb⟩ := hs2.layout (2 * p) _ (List.getElem?_eq_getElem hl)
  obtain ⟨rc, rb⟩ := hs2.layout (2 * p + 1) _ (List.getElem?_eq_getElem hrt)
  obtain ⟨pc, pb⟩ := hs.layout p parent hp
  rw [← hg] at hbin
  have := hsum p parent bin e hp hbin he
  simp only [LinearObliviousTreeLeafV2.hist]
  rw [lc, lb, rc, rb, pc, pb, hcur2, hg2]
  exact this

/-- The witness of C7: the first depth of the first `fit` call of `exLearner` on
`exDs`, the root as parent, bin `0`, the count. -/
theorem children_sum_to_parent_witness :
    ∃ st2 : FitState,
      depthStep exDs exBds exYs (fun _ => 0) (exLearner.rootState exDs exBds exYs (fun _ => 0))
        = .ok st2 ∧
      ∃ left right : Leaf, st2.leaves[2 * 0]? = some left ∧ st2.leaves[2 * 0 + 1]? = some right ∧
        ((left.hist st2.lr.stats).hist 0).val Entry.cnt
          + ((right.hist st2.lr.stats).hist 0).val Entry.cnt
          = (((exLearner.rootState exDs exBds exYs (fun _ => 0)).lr.rootLeaf.hist
              (correlated exDs exBds exYs (fun _ => 0)
                (exLearner.rootState exDs exBds exYs (fun _ => 0))).stats).hist 0).val Entry.cnt := by
  have hok : returned (depthStep exDs exBds exYs (fun _ => 0)
      (exLearner.rootState exDs exBds exYs (fun _ => 0))) = true := by decide!
  cases h : depthStep exDs exBds exYs (fun _ => 0)
      (exLearner.rootState exDs exBds exYs (fun _ => 0)) with
  | error e => rw [h] at hok; exact absurd hok (by simp [returned])
  | ok st2 =>
    refine ⟨st2, rfl, ?_⟩
    exact children_sum_to_parent exLearner exDs exBds exYs (fun _ => 0) rfl
      (by
        intro f1 f2 h1 h2 hne
        have e1 : f1 = 0 := by
          have : f1 < 1 := h1
          omega
        have e2 : f2 = 0 := by
          have : f2 < 1 := h2
          omega
        exact absurd (e1.trans e2.symm) hne)
      (by
        intro f hf
        have e1 : f = 0 := by
          have : f < 1 := hf
          omega
        subst e1
        decide)
      0 _ st2 rfl h 0 _ rfl 0 (by decide) Entry.cnt trivial

/-! ## Sums over samples, blocks and bins -/

theorem sumBins_val (hist : Nat → BinStat) (offset k n : Nat) (e : Entry)
    (hn : ∀ j, j ≤ k → (hist (offset + j)).filledSize = n) (he : e.InBlock n) :
    (sumBins hist offset k).val e = ∑ j in Finset.range (k + 1), (hist (offset + j)).val e := by
  induction k with
  | zero => simp [sumBins]
  | succ k ih =>
    rw [Finset.sum_range_succ, ← ih (fun j hj => hn j (by omega))]
    simp only [sumBins]
    rw [val_add _ _ _ (by
      rw [sumBins_filledSize, hn (k + 1) (le_refl _), hn k (by omega), min_self]
      exact he)]
    ring

theorem sum_block_pick (T blk0 : Nat) (h : blk0 < T) (P : Prop) [Decidable P] (X : ℚ) :
    (∑ blk in Finset.range T, if P ∧ blk0 = blk then X else 0) = if P then X else 0 := by
  by_cases hP : P
  · simp only [hP, true_and, if_true]
    rw [Finset.sum_ite_eq]
    simp [h]
  · simp [hP]

/-- The cells of the bins `0 .. k` of feature `f` of leaf slot `S` that a sample
of leaf `l` with the bins `bins` touches: one cell if `l = S` and the sample's
bin of `f` is at most `k`, none otherwise. -/
theorem cells_collapse (F TB : Nat) (off cc bins : Nat → Nat)
    (hinj : ∀ l1 f1 k1 l2 f2 k2, f1 < F → f2 < F → k1 ≤ cc f1 → k2 ≤ cc f2 →
      l1 * TB + (off f1 + k1) = l2 * TB + (off f2 + k2) → l1 = l2 ∧ f1 = f2 ∧ k1 = k2)
    (hb : ∀ f, f < F → bins f ≤ cc f) (l S f k : Nat) (hf : f < F) (hk : k ≤ cc f) (v : ℚ) :
    (∑ j in Finset.range (k + 1), ∑ f2 in Finset.range F,
      if l * TB + (off f2 + bins f2) = S * TB + (off f + j) then v else 0)
      = if l = S ∧ bins f ≤ k then v else 0 := by
  by_cases hc : l = S ∧ bins f ≤ k
  · obtain ⟨rfl, hle⟩ := hc
    rw [if_pos ⟨rfl, hle⟩, Finset.sum_eq_single (bins f)]
    · rw [Finset.sum_eq_single f]
      · simp
      · intro f2 hf2 hne
        rw [if_neg]
        intro heq
        exact hne (hinj _ _ _ _ _ _ (Finset.mem_range.mp hf2) hf (hb f2 (Finset.mem_range.mp hf2))
          (hb f hf) heq).2.1
      · intro hnot
        exact absurd (Finset.mem_range.mpr hf) hnot
    · intro j hj hne
      apply Finset.sum_eq_zero
      intro f2 hf2
      rw [if_neg]
      intro heq
      have hj2 : j ≤ cc f := by
        have := Finset.mem_range.mp hj
        omega
      have h3 := hinj _ _ _ _ _ _ (Finset.mem_range.mp hf2) hf (hb f2 (Finset.mem_range.mp hf2))
        hj2 heq
      obtain ⟨_, h4, h5⟩ := h3
      subst h4
      exact hne h5.symm
    · intro hnot
      exact absurd (Finset.mem_range.mpr (by omega)) hnot
  · rw [if_neg hc]
    apply Finset.sum_eq_zero
    intro j hj
    apply Finset.sum_eq_zero
    intro f2 hf2
    rw [if_neg]
    intro heq
    have hj2 : j ≤ cc f := by
      have := Finset.mem_range.mp hj
      omega
    obtain ⟨h3, h4, h5⟩ := hinj _ _ _ _ _ _ (Finset.mem_range.mp hf2) hf
      (hb f2 (Finset.mem_range.mp hf2)) hj2 heq
    subst h4
    apply hc
    refine ⟨h3, ?_⟩
    have := Finset.mem_range.mp hj
    omega

/-- The bins `0 .. k` of feature `f` that a sample with the bins `bins` touches. -/
theorem bins_collapse (F TB : Nat) (off cc bins : Nat → Nat)
    (hinj : ∀ l1 f1 k1 l2 f2 k2, f1 < F → f2 < F → k1 ≤ cc f1 → k2 ≤ cc f2 →
      l1 * TB + (off f1 + k1) = l2 * TB + (off f2 + k2) → l1 = l2 ∧ f1 = f2 ∧ k1 = k2)
    (hb : ∀ f, f < F → bins f ≤ cc f) (f k : Nat) (hf : f < F) (hk : k ≤ cc f) (v : ℚ) :
    (∑ j in Finset.range (k + 1), ∑ f2 in Finset.range F,
      if off f2 + bins f2 = off f + j then v else 0)
      = if bins f ≤ k then v else 0 := by
  have h := cells_collapse F TB off cc bins hinj hb 0 0 f k hf hk v
  simp only [Nat.zero_mul, Nat.zero_add, true_and] at h
  exact h

theorem configured_inj (lr : Learner) (bds : BinarizedDataSet) (blockOf : Nat → Nat)
    (hc : Configured lr bds blockOf) :
    ∀ l1 f1 k1 l2 f2 k2, f1 < lr.fCount → f2 < lr.fCount →
      k1 ≤ lr.grid.conditionsCount f1 → k2 ≤ lr.grid.conditionsCount f2 →
      l1 * lr.totalBins + (lr.binOffset f1 + k1) = l2 * lr.totalBins + (lr.binOffset f2 + k2) →
      l1 = l2 ∧ f1 = f2 ∧ k1 = k2 := by
  intro l1 f1 k1 l2 f2 k2 hf1 hf2 hk1 hk2 h
  rw [hc.offset_eq f1 hf1, hc.offset_eq f2 hf2, hc.totalBins_eq] at h
  exact cell_injective lr.grid hc.disjoint lr.fCount hc.fCount_eq hc.inRange l1 f1 k1 l2 f2 k2
    hf1 hf2 hk1 hk2 h

/-! ### The rescanned child -/

/-- The cell of bin `k` of feature `f` of a fully updated child after the passes
of a split before the derivation, when the cells of the children and of the
blocks start zeroed at the number of used features: it holds the cumulative
statistic of the samples of the child. -/
theorem scanned_child_val (lr : Learner) (ds : DataSet) (bds : BinarizedDataSet)
    (ys : Nat → ℚ) (blockOf : Nat → Nat) (newLeaves : List Leaf) (o nc : Nat)
    (hc : Configured lr bds blockOf) (hnc : nc < 2)
    (hlayC : Layout newLeaves nc lr.grid.totalBins)
    (hgC : ∀ (j : Nat) (l : Leaf), newLeaves[j]? = some l → l.grid = lr.grid)
    (S f k : Nat) (hS : S < newLeaves.length) (hfull : lr.fullUpdate S = true)
    (hf : f < lr.fCount) (hk : k ≤ lr.grid.conditionsCount f) (e : Entry)
    (he : e.InBlock lr.usedFeatures.card)
    (hzero : ∀ q b, q < newLeaves.length → b < lr.grid.totalBins →
      lr.stats nc (q * lr.grid.totalBins + b) = BinStat.zero lr.usedFeatures.card)
    (hzeroB : ∀ blk q b, blk < lr.nThreads → q < newLeaves.length → b < lr.grid.totalBins →
      lr.stats (2 + blk) (q * lr.grid.totalBins + b) = BinStat.zero lr.usedFeatures.card) :
    (((((lr.accumulateChildren ds bds ys blockOf lr.usedFeatures.card o).feedDerived newLeaves
        lr.usedFeatures.card o).sumFullChildren newLeaves).prefixFullChildren newLeaves).stats nc
        (S * lr.grid.totalBins + (lr.grid.offset f + k))).val e
      = ∑ i in Finset.range lr.nSamples,
          if lr.leafId i = S ∧ bds.sampleBins i f ≤ k then
            sampleVal (ds.fillSample i lr.usedFeaturesOrdered) (ys i) e
          else 0 := by
  have hinj := configured_inj lr bds blockOf hc
  have hfg : f < lr.grid.nzFeaturesCount := hc.fCount_eq ▸ hf
  have hr : ∀ f, f < lr.grid.nzFeaturesCount →
      lr.grid.offset f + lr.grid.conditionsCount f < lr.grid.totalBins :=
    fun f hf => hc.inRange f (hc.fCount_eq ▸ hf)
  have hbin : ∀ j, j ≤ k → lr.grid.offset f + j < lr.grid.totalBins := by
    intro j hj
    have := hr f hfg
    omega
  generalize h3 : lr.accumulateChildren ds bds ys blockOf lr.usedFeatures.card o = lr3
  generalize h4 : lr3.feedDerived newLeaves lr.usedFeatures.card o = lr4
  generalize h5 : lr4.sumFullChildren newLeaves = lr5
  have e3 : lr3.eraseBuffers = lr.eraseBuffers := by rw [← h3, accumulateChildren_erase]
  have e4 : lr4.eraseBuffers = lr.eraseBuffers := by rw [← h4, feedDerived_erase, e3]
  have e5 : lr5.eraseBuffers = lr.eraseBuffers := by rw [← h5, sumFullChildren_erase, e4]
  obtain ⟨_, _, _, _, _, fu3, _, _, tb3, _, _⟩ := fields_of_erase _ _ e3
  obtain ⟨_, _, _, _, _, fu4, _, _, tb4, _, nt4⟩ := fields_of_erase _ _ e4
  obtain ⟨_, _, _, _, _, fu5, _, _, _, _, _⟩ := fields_of_erase _ _ e5
  have htb := hc.totalBins_eq
  -- the cells of the child and of the blocks after the prefix-and-feed pass
  have hnc4 : ∀ j, j ≤ k →
      lr4.stats nc (S * lr.grid.totalBins + (lr.grid.offset f + j))
        = BinStat.zero lr.usedFeatures.card := by
    intro j hj
    rw [← h4, feedDerived_frame, ← h3, accumulateChildren_stats_low _ _ _ _ _ _ _ nc hnc,
      hzero S _ hS (hbin j hj)]
    intro l lf f2 lb hlf hfu hf2 hlb ⟨_, heq⟩
    rw [(hlayC l lf hlf).2, ← htb, ← hc.offset_eq f hf] at heq
    have hf2' : f2 < lr.fCount := by rw [← h3] at hf2; exact (fields_of_erase _ _ (accumulateChildren_erase lr ds bds ys blockOf lr.usedFeatures.card o)).2.1 ▸ hf2
    have hbo : lr3.binOffset f2 = lr.binOffset f2 := by
      unfold GreedyLinearObliviousTreeLearnerV2.binOffset
      rw [(fields_of_erase _ _ e3).2.2.2.2.2.2.2.2.2.1]
    have hlb' : lb ≤ lr.grid.conditionsCount f2 := by
      rw [← (fields_of_erase _ _ e3).1]
      exact hlb
    rw [hbo] at heq
    have := (hinj S f j l f2 lb hf hf2' (by omega) hlb' heq).1
    rw [fu3, ← this, hfull] at hfu
    exact Bool.noConfusion hfu
  have hblk4 : ∀ blk j, blk < lr.nThreads → j ≤ k →
      (lr4.stats (2 + blk) (S * lr.grid.totalBins + (lr.grid.offset f + j))).filledSize
        = lr.usedFeatures.card ∧
      (lr4.stats (2 + blk) (S * lr.grid.totalBins + (lr.grid.offset f + j))).val e
        = ∑ i in Finset.range lr.nSamples,
            if lr.fullUpdate (lr.leafId i) = true ∧ blockOf i = blk then
              ∑ f2 in Finset.range lr.fCount,
                if lr.leafId i * lr.totalBins + (lr.binOffset f2 + bds.sampleBins i f2)
                    = S * lr.totalBins + (lr.binOffset f + j) then
                  sampleVal (ds.fillSample i lr.usedFeaturesOrdered) (ys i) e
                else 0
            else 0 := by
    intro blk j hblk hj
    have hfr : lr4.stats (2 + blk) (S * lr.grid.totalBins + (lr.grid.offset f + j))
        = lr3.stats (2 + blk) (S * lr.grid.totalBins + (lr.grid.offset f + j)) := by
      rw [← h4, feedDerived_frame]
      intro l lf f2 lb hlf _ _ _ ⟨h1, _⟩
      rw [(hlayC l lf hlf).1] at h1
      omega
    rw [hfr, ← h3]
    have hz := hzeroB blk S _ hblk hS (hbin j hj)
    obtain ⟨k1, k2⟩ := accumulateChildren_block lr ds bds ys blockOf lr.usedFeatures.card o blk
      (S * lr.grid.totalBins + (lr.grid.offset f + j)) lr.usedFeatures.card e
      (by rw [hz]; rfl) he
    refine ⟨k1, ?_⟩
    rw [k2, hz, val_zero, zero_add]
    simp only [GreedyLinearObliviousTreeLearnerV2.cell, htb, hc.offset_eq f hf]
  -- the cells after the sum over the blocks
  have h5val : ∀ j, j ≤ k →
      (lr5.stats nc (S * lr.grid.totalBins + (lr.grid.offset f + j))).filledSize
        = lr.usedFeatures.card ∧
      (lr5.stats nc (S * lr.grid.totalBins + (lr.grid.offset f + j))).val e
        = ∑ blk in Finset.range lr.nThreads, ∑ i in Finset.range lr.nSamples,
            if lr.fullUpdate (lr.leafId i) = true ∧ blockOf i = blk then
              ∑ f2 in Finset.range lr.fCount,
                if lr.leafId i * lr.totalBins + (lr.binOffset f2 + bds.sampleBins i f2)
                    = S * lr.totalBins + (lr.binOffset f + j) then
                  sampleVal (ds.fillSample i lr.usedFeaturesOrdered) (ys i) e
                else 0
            else 0 := by
    intro j hj
    have hcell := sumFullChildren_cell lr4 newLeaves nc hnc (by rw [tb4, htb]; exact hlayC) S
      (lr.grid.offset f + j) hS (by rw [fu4]; exact hfull) (by rw [tb4, htb]; exact hbin j hj)
    rw [tb4, htb, nt4, h5] at hcell
    rw [hcell]
    obtain ⟨s1, s2⟩ := sum_blocks_val
      (fun blk => lr4.stats (2 + blk) (S * lr.grid.totalBins + (lr.grid.offset f + j)))
      (lr4.stats nc (S * lr.grid.totalBins + (lr.grid.offset f + j))) lr.nThreads
      lr.usedFeatures.card e (by rw [hnc4 j hj]; rfl) (fun blk hblk => (hblk4 blk j hblk hj).1) he
    refine ⟨s1, ?_⟩
    rw [s2, hnc4 j hj, val_zero, zero_add]
    exact Finset.sum_congr rfl (fun blk hblk => (hblk4 blk j (Finset.mem_range.mp hblk) hj).2)
  -- the prefix sums
  have hcell6 := prefixFullChildren_cell lr5 newLeaves lr.grid nc hc.disjoint hr hgC hlayC S f k hS
    (by rw [fu5]; exact hfull) hfg hk
  rw [hcell6, sumBins_val _ _ _ lr.usedFeatures.card e (fun j hj => (h5val j hj).1) he]
  rw [Finset.sum_congr rfl (fun j hj => (h5val j (by
    have := Finset.mem_range.mp hj
    omega)).2)]
  -- the sums over the bins, the blocks and the features collapse
  have hswap : ∀ j, (∑ blk in Finset.range lr.nThreads, ∑ i in Finset.range lr.nSamples,
      if lr.fullUpdate (lr.leafId i) = true ∧ blockOf i = blk then
        ∑ f2 in Finset.range lr.fCount,
          if lr.leafId i * lr.totalBins + (lr.binOffset f2 + bds.sampleBins i f2)
              = S * lr.totalBins + (lr.binOffset f + j) then
            sampleVal (ds.fillSample i lr.usedFeaturesOrdered) (ys i) e
          else 0
      else 0)
      = ∑ i in Finset.range lr.nSamples,
          if lr.fullUpdate (lr.leafId i) = true then
            ∑ f2 in Finset.range lr.fCount,
              if lr.leafId i * lr.totalBins + (lr.binOffset f2 + bds.sampleBins i f2)
                  = S * lr.totalBins + (lr.binOffset f + j) then
                sampleVal (ds.fillSample i lr.usedFeaturesOrdered) (ys i) e
              else 0
          else 0 := by
    intro j
    rw [Finset.sum_comm]
    refine Finset.sum_congr rfl (fun i _ => ?_)
    exact sum_block_pick lr.nThreads (blockOf i) (hc.blockOk i) _ _
  rw [Finset.sum_congr rfl (fun j _ => hswap j), Finset.sum_comm]
  refine Finset.sum_congr rfl (fun i _ => ?_)
  have hcol := cells_collapse lr.fCount lr.totalBins lr.binOffset lr.grid.conditionsCount
    (bds.sampleBins i) hinj (fun f2 hf2 => hc.binsOk i f2 hf2) (lr.leafId i) S f k hf hk
    (sampleVal (ds.fillSample i lr.usedFeaturesOrdered) (ys i) e)
  by_cases hfu : lr.fullUpdate (lr.leafId i) = true
  · simp only [hfu, if_true]
    exact hcol
  · simp only [hfu, Bool.false_eq_true, if_false, Finset.sum_const_zero]
    rw [if_neg]
    intro ⟨h1, _⟩
    rw [h1, hfull] at hfu
    exact hfu rfl

/-! ### The new row of the derived child -/

/-- The sum over the workers and over the bins `0 .. k` of what the samples of a
derived child `D` left in the buffers of new correlations: every sample of the
child whose bin of the feature is at most `k` counts once. -/
theorem row_sum (lr : Learner) (bds : BinarizedDataSet) (blockOf : Nat → Nat)
    (hc : Configured lr bds blockOf) (N o D f k : Nat) (hNo : N > o)
    (hder : lr.fullUpdate D = false) (hf : f < lr.fCount) (hk : k ≤ lr.grid.conditionsCount f)
    (V : Nat → ℚ) :
    (∑ th in Finset.range lr.nThreads, ∑ j in Finset.range (k + 1),
      ∑ i in Finset.range lr.nSamples,
        if (lr.fullUpdate (lr.leafId i) = false ∧ N > o) ∧ blockOf i = th ∧ lr.leafId i = D then
          ∑ f2 in Finset.range lr.fCount,
            if lr.binOffset f2 + bds.sampleBins i f2 = lr.binOffset f + j then V i else 0
        else 0)
      = ∑ i in Finset.range lr.nSamples,
          if lr.leafId i = D ∧ bds.sampleBins i f ≤ k then V i else 0 := by
  have hinj := configured_inj lr bds blockOf hc
  have h1 : ∀ th, (∑ j in Finset.range (k + 1), ∑ i in Finset.range lr.nSamples,
        if (lr.fullUpdate (lr.leafId i) = false ∧ N > o) ∧ blockOf i = th ∧ lr.leafId i = D then
          ∑ f2 in Finset.range lr.fCount,
            if lr.binOffset f2 + bds.sampleBins i f2 = lr.binOffset f + j then V i else 0
        else 0)
      = ∑ i in Finset.range lr.nSamples,
          if lr.leafId i = D ∧ blockOf i = th then
            (if bds.sampleBins i f ≤ k then V i else 0)
          else 0 := by
    intro th
    rw [Finset.sum_comm]
    refine Finset.sum_congr rfl (fun i _ => ?_)
    by_cases hcase : lr.leafId i = D ∧ blockOf i = th
    · obtain ⟨h2, h3⟩ := hcase
      have hP : (lr.fullUpdate (lr.leafId i) = false ∧ N > o) ∧ blockOf i = th ∧ lr.leafId i = D :=
        ⟨⟨by rw [h2]; exact hder, hNo⟩, h3, h2⟩
      rw [if_pos ⟨h2, h3⟩, Finset.sum_congr rfl (fun j _ => if_pos hP)]
      exact bins_collapse lr.fCount lr.totalBins lr.binOffset lr.grid.conditionsCount
        (bds.sampleBins i) hinj (fun f2 hf2 => hc.binsOk i f2 hf2) f k hf hk (V i)
    · rw [if_neg hcase]
      apply Finset.sum_eq_zero
      intro j _
      rw [if_neg]
      intro ⟨_, h3, h2⟩
      exact hcase ⟨h2, h3⟩
  rw [Finset.sum_congr rfl (fun th _ => h1 th), Finset.sum_comm]
  refine Finset.sum_congr rfl (fun i _ => ?_)
  have h2 := sum_block_pick lr.nThreads (blockOf i) (hc.blockOk i) (lr.leafId i = D)
    (if bds.sampleBins i f ≤ k then V i else 0)
  rw [h2]
  by_cases h3 : lr.leafId i = D
  · by_cases h4 : bds.sampleBins i f ≤ k
    · simp [h3, h4]
    · simp [h3, h4]
  · simp [h3]

theorem rowVal_le (o : Nat) (x : Nat → ℚ) (c : Nat) (hc : c ≤ o) : rowVal o x c = x c * x o := by
  unfold rowVal
  by_cases h : c < o
  · rw [if_pos h]
  · have : c = o := by omega
    subst this
    rw [if_neg h, if_pos rfl]

/-- The row of the new feature in the cell of bin `k` of feature `f` of a derived
child after the prefix-and-feed pass, when the child's cells start zeroed at
`o + 1` features and the buffers of new correlations start zeroed: it holds the
cumulative statistic of the samples of the child. -/
theorem derived_child_row (lr : Learner) (ds : DataSet) (bds : BinarizedDataSet)
    (ys : Nat → ℚ) (blockOf : Nat → Nat) (newLeaves : List Leaf) (o nc : Nat)
    (hc : Configured lr bds blockOf) (hnc : nc < 2) (hN : lr.usedFeatures.card = o + 1)
    (hlayC : Layout newLeaves nc lr.grid.totalBins)
    (D f k : Nat) (hD : D < newLeaves.length) (hder : lr.fullUpdate D = false)
    (hf : f < lr.fCount) (hk : k ≤ lr.grid.conditionsCount f) (e : Entry)
    (he : e.InBlock (o + 1)) (hne : ¬ e.InBlock o)
    (hzero : ∀ q b, q < newLeaves.length → b < lr.grid.totalBins →
      lr.stats nc (q * lr.grid.totalBins + b) = BinStat.zero lr.usedFeatures.card)
    (hx0 : lr.h_XTX = fun _ _ _ _ => 0) (hy0 : lr.h_XTy = fun _ _ _ => 0) :
    (((lr.accumulateChildren ds bds ys blockOf lr.usedFeatures.card o).feedDerived newLeaves
        lr.usedFeatures.card o).stats nc
        (D * lr.grid.totalBins + (lr.grid.offset f + k))).val e
      = ∑ i in Finset.range lr.nSamples,
          if lr.leafId i = D ∧ bds.sampleBins i f ≤ k then
            sampleVal (ds.fillSample i lr.usedFeaturesOrdered) (ys i) e
          else 0 := by
  have hinj := configured_inj lr bds blockOf hc
  have hfg : f < lr.grid.nzFeaturesCount := hc.fCount_eq ▸ hf
  have hNo : lr.usedFeatures.card > o := by omega
  have htb := hc.totalBins_eq
  have hbin : lr.grid.offset f + k < lr.grid.totalBins := by
    have := hc.inRange f hf
    omega
  have e3 : (lr.accumulateChildren ds bds ys blockOf lr.usedFeatures.card o).eraseBuffers
      = lr.eraseBuffers := accumulateChildren_erase _ _ _ _ _ _ _
  have hX := accumulateChildren_hXTX lr ds bds ys blockOf lr.usedFeatures.card o
  have hY := accumulateChildren_hXTy lr ds bds ys blockOf lr.usedFeatures.card o
  have hS3 := accumulateChildren_stats_low lr ds bds ys blockOf lr.usedFeatures.card o nc hnc
  generalize lr.accumulateChildren ds bds ys blockOf lr.usedFeatures.card o = lr3
    at e3 hX hY hS3 ⊢
  obtain ⟨g3, fc3, _, _, _, fu3, _, _, tb3, bo3, nt3⟩ := fields_of_erase _ _ e3
  have hbo : ∀ f2, lr3.binOffset f2 = lr.binOffset f2 := by
    intro f2
    unfold GreedyLinearObliviousTreeLearnerV2.binOffset
    rw [bo3]
  have hcell := feedDerived_cell lr3 newLeaves lr.usedFeatures.card o nc hNo
    (by
      intro l1 f1 k1 l2 f2 k2 hf1 hf2 hk1 hk2 heq
      rw [tb3, hbo, hbo] at heq
      exact hinj l1 f1 k1 l2 f2 k2 (fc3 ▸ hf1) (fc3 ▸ hf2) (g3 ▸ hk1) (g3 ▸ hk2) heq)
    (by rw [tb3, htb]; exact hlayC) D f k hD (by rw [fu3]; exact hder) (by rw [fc3]; exact hf)
    (by rw [g3]; exact hk)
  rw [tb3, htb, hbo, hc.offset_eq f hf, g3, nt3] at hcell
  rw [hcell]
  obtain ⟨_, hv⟩ := fedCell_val
    (sliceOf lr3 nc (D * lr.grid.totalBins) D (lr.grid.offset f) (lr.grid.conditionsCount f))
    o (-1) k lr.nThreads e
  rw [hv]
  have hcell0 : (sliceOf lr3 nc (D * lr.grid.totalBins) D (lr.grid.offset f)
      (lr.grid.conditionsCount f)).cells k = BinStat.zero lr.usedFeatures.card := by
    simp only [sliceOf, hk, if_true]
    rw [hS3]
    exact hzero D _ hD hbin
  rw [hcell0, val_zero, zero_add]
  have hpos : (((BinStat.zero lr.usedFeatures.card).filledSize : ℤ) + -1).toNat = o := by
    show (((lr.usedFeatures.card : Nat) : ℤ) + -1).toNat = o
    omega
  rw [hpos]
  -- the buffers after the second pass over the samples
  have hrow : ∀ th c, c ≤ o →
      prefRow (sliceOf lr3 nc (D * lr.grid.totalBins) D (lr.grid.offset f)
        (lr.grid.conditionsCount f)) o th k c
      = ∑ j in Finset.range (k + 1), ∑ i in Finset.range lr.nSamples,
          if (lr.fullUpdate (lr.leafId i) = false ∧ lr.usedFeatures.card > o) ∧ blockOf i = th ∧
              lr.leafId i = D then
            ∑ f2 in Finset.range lr.fCount,
              if lr.binOffset f2 + bds.sampleBins i f2 = lr.binOffset f + j then
                rowVal o (ds.fillSample i lr.usedFeaturesOrdered) c
              else 0
          else 0 := by
    intro th c hco
    simp only [prefRow, hco, if_true, sliceOf]
    refine Finset.sum_congr rfl (fun j hj => ?_)
    have hj2 : j ≤ lr.grid.conditionsCount f := by
      have := Finset.mem_range.mp hj
      omega
    rw [if_pos hj2, hX, hx0, zero_add, hc.offset_eq f hf]
  have hy : ∀ th,
      prefY (sliceOf lr3 nc (D * lr.grid.totalBins) D (lr.grid.offset f)
        (lr.grid.conditionsCount f)) th k
      = ∑ j in Finset.range (k + 1), ∑ i in Finset.range lr.nSamples,
          if (lr.fullUpdate (lr.leafId i) = false ∧ lr.usedFeatures.card > o) ∧ blockOf i = th ∧
              lr.leafId i = D then
            ∑ f2 in Finset.range lr.fCount,
              if lr.binOffset f2 + bds.sampleBins i f2 = lr.binOffset f + j then
                ds.fillSample i lr.usedFeaturesOrdered o * ys i
              else 0
          else 0 := by
    intro th
    simp only [prefY, sliceOf]
    refine Finset.sum_congr rfl (fun j hj => ?_)
    have hj2 : j ≤ lr.grid.conditionsCount f := by
      have := Finset.mem_range.mp hj
      omega
    rw [if_pos hj2, hY, hy0, zero_add, hc.offset_eq f hf]
  cases e with
  | cnt => exact absurd trivial hne
  | xtx a b =>
    have he2 : a < o + 1 ∧ b < o + 1 := he
    have hne2 : ¬ (a < o ∧ b < o) := hne
    by_cases ha : a = o ∧ b ≤ o
    · obtain ⟨rfl, hb⟩ := ha
      simp only [newVal, hb, and_self, if_true]
      rw [Finset.sum_congr rfl (fun th _ => hrow th b hb),
        row_sum lr bds blockOf hc lr.usedFeatures.card a D f k hNo hder hf hk]
      refine Finset.sum_congr rfl (fun i _ => ?_)
      rw [rowVal_le _ _ _ hb]
      simp only [sampleVal]
      rw [mul_comm]
    · have hb : b = o ∧ a < o := by omega
      obtain ⟨rfl, ha2⟩ := hb
      simp only [newVal]
      rw [Finset.sum_congr rfl (fun th _ => by rw [if_neg ha, if_pos ⟨trivial, ha2⟩]),
        Finset.sum_congr rfl (fun th _ => hrow th a (by omega)),
        row_sum lr bds blockOf hc lr.usedFeatures.card b D f k hNo hder hf hk]
      refine Finset.sum_congr rfl (fun i _ => ?_)
      rw [rowVal_le _ _ _ (by omega)]
      simp only [sampleVal]
  | xty a =>
    have he2 : a < o + 1 := he
    have hne2 : ¬ (a < o) := hne
    have ha : a = o := by omega
    subst ha
    simp only [newVal, if_true]
    rw [Finset.sum_congr rfl (fun th _ => hy th),
      row_sum lr bds blockOf hc lr.usedFeatures.card a D f k hNo hder hf hk]
    refine Finset.sum_congr rfl (fun i _ => ?_)
    simp only [sampleVal]

/-! ### The learner around a split -/

theorem sampleVal_congr (x x2 : Nat → ℚ) (y : ℚ) (n : Nat) (e : Entry)
    (h : ∀ a, a < n → x a = x2 a) (he : e.InBlock n) : sampleVal x y e = sampleVal x2 y e := by
  cases e with
  | cnt => rfl
  | xtx a b =>
    have h1 : a < n ∧ b < n := he
    simp only [sampleVal]
    rw [h a h1.1, h b h1.2]
  | xty a =>
    have h1 : a < n := he
    simp only [sampleVal]
    rw [h a h1]

theorem fillSample_append (ds : DataSet) (i : Nat) (order : List Nat) (z a : Nat)
    (ha : a < order.length) : ds.fillSample i (order ++ [z]) a = ds.fillSample i order a := by
  unfold DataSet.fillSample
  rw [List.getElem?_append_left ha]

/-- The samples of a parent are the samples of its two children: on the block
of the old features the cumulative statistic of the parent is the sum of the
cumulative statistics of the children. -/
theorem cumulative_split (lrOld lrNew : Learner) (ds : DataSet) (bds : BinarizedDataSet)
    (ys : Nat → ℚ) (col : Nat → ℚ) (border : ℚ) (p f k : Nat) (e : Entry)
    (hn : lrNew.nSamples = lrOld.nSamples) (hns : lrOld.nSamples ≤ ds.samplesCount)
    (hlid : ∀ i, lrNew.leafId i = routedLeafId col border lrOld.leafId ds.samplesCount i)
    (hord : ∀ i a, a < lrOld.usedFeaturesOrdered.length →
      ds.fillSample i lrNew.usedFeaturesOrdered a = ds.fillSample i lrOld.usedFeaturesOrdered a)
    (he : e.InBlock lrOld.usedFeaturesOrdered.length) :
    cumulativeVal lrOld ds bds ys p f k e
      = cumulativeVal lrNew ds bds ys (2 * p) f k e
        + cumulativeVal lrNew ds bds ys (2 * p + 1) f k e := by
  unfold cumulativeVal
  rw [hn, ← Finset.sum_add_distrib]
  refine Finset.sum_congr rfl (fun i hi => ?_)
  have hi2 : i < ds.samplesCount := by
    have := Finset.mem_range.mp hi
    omega
  have hsv := sampleVal_congr _ _ (ys i) _ e (hord i) he
  rw [hlid i, hsv]
  unfold routedLeafId
  rw [if_pos hi2]
  by_cases hcol : col i ≤ border
  · rw [if_pos hcol]
    by_cases hp : lrOld.leafId i = p
    · subst hp
      by_cases hk : bds.sampleBins i f ≤ k
      · simp [hk]
      · simp [hk]
    · have h1 : ¬ (2 * lrOld.leafId i = 2 * p) := by omega
      have h2 : ¬ (2 * lrOld.leafId i = 2 * p + 1) := by omega
      simp [hp, h1, h2]
  · rw [if_neg hcol]
    by_cases hp : lrOld.leafId i = p
    · subst hp
      have h1 : ¬ (2 * lrOld.leafId i + 1 = 2 * lrOld.leafId i) := by omega
      by_cases hk : bds.sampleBins i f ≤ k
      · simp [hk]
      · simp [hk]
    · have h1 : ¬ (2 * lrOld.leafId i + 1 = 2 * p) := by omega
      have h2 : ¬ (2 * lrOld.leafId i + 1 = 2 * p + 1) := by omega
      simp [hp, h1, h2]

theorem useFeatureAndReset_more (lr : Learner) (n f : Nat) :
    (lr.useFeatureAndReset n f).usedFeaturesOrdered
      = (if lr.grid.origFeatureIndex f ∈ lr.usedFeatures then lr.usedFeaturesOrdered
        else lr.usedFeaturesOrdered ++ [lr.grid.origFeatureIndex f]) ∧
    (lr.useFeatureAndReset n f).h_XTX = (fun _ _ _ _ => 0) ∧
    (lr.useFeatureAndReset n f).h_XTy = (fun _ _ _ => 0) ∧
    (lr.useFeatureAndReset n f).settings = lr.settings :=
  ⟨rfl, rfl, rfl, rfl⟩

theorem partition_settings (lr : Learner) (ds : DataSet) (n f : Nat) (border : ℚ) :
    (lr.partition ds n f border).settings = lr.settings := rfl

/-- The steps of a split before its statistics passes. -/
theorem depthStep_context (ds : DataSet) (bds : BinarizedDataSet) (ys : Nat → ℚ)
    (blockOf : Nat → Nat) (st st2 : FitState) (hs : Shape st)
    (h : depthStep ds bds ys blockOf st = .ok st2) :
    ∃ (lrD : Learner) (f c : Nat) (border : ℚ),
      SplitContext ds bds ys blockOf st st2 lrD f c border := by
  obtain ⟨l0, f, c, border, hl0, hf, hc, hbo, hleaves, hlr⟩ :=
    depthStep_unfold ds bds ys blockOf st st2 hs.indexed h
  obtain ⟨hnc, hne⟩ := xor_one_facts _ hs.cur_le
  have eB := correlated_erase ds bds ys blockOf st
  obtain ⟨gB, fcB, curB, colB, _, _, usedB, ordB, tbB, _, nthB⟩ := fields_of_erase _ _ eB
  have lidB := leafId_of_erase _ _ eB
  have setB := settings_of_erase _ _ eB
  have hN : l0.nUsedFeatures = st.lr.usedFeatures.card := (hs.nUsed 0 l0 hl0).1
  have hX : splitLearner ds bds ys blockOf st l0.nUsedFeatures f c border
      = (((correlated ds bds ys blockOf st).partition ds st.leaves.length f border).useFeatureAndReset
          (childrenOf st.leaves f c (st.lr.curLeavesCoord ^^^ 1)).length f).buildChildren ds bds ys
          blockOf st.leaves (childrenOf st.leaves f c (st.lr.curLeavesCoord ^^^ 1))
          st.lr.usedFeatures.card := by
    unfold splitLearner
    simp only [curB, hN]
  obtain ⟨pst, ptb, pgrid, pused, pord, _, _, _, pnth, pcur⟩ :=
    partition_fields (correlated ds bds ys blockOf st) ds st.leaves.length f border
  have plid := partition_leafId (correlated ds bds ys blockOf st) ds st.leaves.length f border
  have pset := partition_settings (correlated ds bds ys blockOf st) ds st.leaves.length f border
  have hCcompl : ∀ p, p < st.leaves.length →
      ((correlated ds bds ys blockOf st).partition ds st.leaves.length f border).fullUpdate
        (2 * p + 1)
      = !(((correlated ds bds ys blockOf st).partition ds st.leaves.length f border).fullUpdate
        (2 * p)) :=
    fun p hp => partition_fullUpdate _ ds _ f border p hp
  generalize hlrC : (correlated ds bds ys blockOf st).partition ds st.leaves.length f border = lrC
    at hX pst ptb pgrid pused pord pnth pcur plid pset hCcompl
  obtain ⟨rfu, rtb, rgrid, rlid, _, _, _, rnth, _⟩ := useFeatureAndReset_fields lrC
    (childrenOf st.leaves f c (st.lr.curLeavesCoord ^^^ 1)).length f
  have rused := useFeatureAndReset_used lrC
    (childrenOf st.leaves f c (st.lr.curLeavesCoord ^^^ 1)).length f
  have rstats := useFeatureAndReset_stats lrC
    (childrenOf st.leaves f c (st.lr.curLeavesCoord ^^^ 1)).length f
  obtain ⟨rord, rhx, rhy, rset⟩ := useFeatureAndReset_more lrC
    (childrenOf st.leaves f c (st.lr.curLeavesCoord ^^^ 1)).length f
  generalize hlrD : lrC.useFeatureAndReset
      (childrenOf st.leaves f c (st.lr.curLeavesCoord ^^^ 1)).length f = lrD
      at hX rfu rtb rgrid rlid rnth rused rstats rord rhx rhy rset
  have hlen := childrenOf_length st.leaves f c (st.lr.curLeavesCoord ^^^ 1)
  have e7 : (splitLearner ds bds ys blockOf st l0.nUsedFeatures f c border).eraseBuffers
      = lrD.eraseBuffers := by
    rw [hX, buildChildren_erase]
  obtain ⟨_, _, _, _, _, fu7, used7, ord7, _, _, _⟩ := fields_of_erase _ _ e7
  have lid7 := leafId_of_erase _ _ e7
  have set7 := settings_of_erase _ _ e7
  refine ⟨lrD, f, c, border, ⟨hf, hleaves, ?_, ?_, ?_, ?_, ?_, ?_, ?_, ?_, ?_, ?_, ?_, ?_, ?_,
    rhx, rhy⟩⟩
  · rw [hlr, ← hX]
  · rw [hlr]; exact lid7
  · rw [hlr]; exact used7
  · rw [hlr]; exact ord7
  · rw [hlr]; exact fu7
  · rw [hlr]
    exact (set7.trans (rset.trans (pset.trans setB)))
  · exact rset.trans (pset.trans setB)
  · rw [rused, pgrid, pused, gB, usedB]
  · rw [rord, pgrid, pused, pord, gB, usedB, ordB]
  · intro i
    rw [rlid, plid, colB, lidB]
  · intro p hp
    rw [rfu]
    exact hCcompl p hp
  · intro cell
    rw [rstats, if_neg, pst]
    intro ⟨_, h2, _⟩
    exact h2 (pcur.trans curB).symm
  · intro c2 q b hc2 hcne hq hb
    rw [rstats, if_pos]
    refine ⟨by rw [pnth, nthB]; exact hc2, by rw [pcur, curB]; exact hcne, ?_⟩
    rw [ptb, tbB, hs.totalBins_eq, hlen]
    exact region_lt _ _ _ _ hq hb

/-! ### One iteration and the statistics -/

theorem configured_congr (a b : Learner) (bds : BinarizedDataSet) (blockOf : Nat → Nat)
    (h : a.settings = b.settings) (hc : Configured a bds blockOf) : Configured b bds blockOf := by
  obtain ⟨hg, hf, _, _, htb, hnt, hbo⟩ := fields_of_settings _ _ h
  have hoff : ∀ f, b.binOffset f = a.binOffset f := by
    intro f
    unfold GreedyLinearObliviousTreeLearnerV2.binOffset
    rw [hbo]
  refine ⟨?_, ?_, ?_, ?_, ?_, ?_, ?_⟩
  · rw [← hf, ← hg]; exact hc.fCount_eq
  · intro f hfl
    rw [hoff, ← hg]
    exact hc.offset_eq f (hf ▸ hfl)
  · rw [← htb, ← hg]; exact hc.totalBins_eq
  · rw [← hg]; exact hc.disjoint
  · intro f hfl
    rw [← hg]
    exact hc.inRange f (hf ▸ hfl)
  · intro i f hfl
    rw [← hg]
    exact hc.binsOk i f (hf ▸ hfl)
  · intro i
    rw [← hnt]
    exact hc.blockOk i

theorem cumulativeVal_congr (a b : Learner) (ds : DataSet) (bds : BinarizedDataSet) (ys : Nat → ℚ)
    (hn : a.nSamples = b.nSamples) (hl : a.leafId = b.leafId)
    (ho : a.usedFeaturesOrdered = b.usedFeaturesOrdered) (p f k : Nat) (e : Entry) :
    cumulativeVal a ds bds ys p f k e = cumulativeVal b ds bds ys p f k e := by
  unfold cumulativeVal
  rw [hn, hl, ho]

/-- One iteration of the growth loop keeps the invariant on the statistics. -/
theorem stat_step (ds : DataSet) (bds : BinarizedDataSet) (ys : Nat → ℚ) (blockOf : Nat → Nat)
    (st st2 : FitState) (hI : StatInv ds bds ys blockOf st)
    (h : depthStep ds bds ys blockOf st = .ok st2) : StatInv ds bds ys blockOf st2 := by
  obtain ⟨hs2, hg2, hlen2, hcur2, _⟩ := shape_step ds bds ys blockOf st st2 hI.shape h
  obtain ⟨lrD, f0, c0, border, ctx⟩ := depthStep_context ds bds ys blockOf st st2 hI.shape h
  obtain ⟨hnc, hne⟩ := xor_one_facts _ hI.shape.cur_le
  obtain ⟨gD, fcD, _, nsD, tbD, ntD, boD⟩ := fields_of_settings _ _ ctx.settingsD
  obtain ⟨_, fc2, _, ns2, _, _, _⟩ := fields_of_settings _ _ ctx.settings2
  have cfgD : Configured lrD bds blockOf :=
    configured_congr _ _ bds blockOf ctx.settingsD.symm hI.cfg
  have cfg2 : Configured st2.lr bds blockOf :=
    configured_congr _ _ bds blockOf ctx.settings2.symm hI.cfg
  obtain ⟨hc1, hc2, _⟩ := used_card_step st.lr.usedFeatures (st.lr.grid.origFeatureIndex f0)
  rw [← ctx.usedD] at hc1 hc2
  have hlenC := childrenOf_length st.leaves f0 c0 (st.lr.curLeavesCoord ^^^ 1)
  have hidxC := childrenOf_indexed st.lr.grid st.leaves f0 c0 (st.lr.curLeavesCoord ^^^ 1)
    hI.shape.indexed
  have hlayC := childrenOf_layout st.lr.grid st.leaves f0 c0 (st.lr.curLeavesCoord ^^^ 1)
    hI.shape.indexed
  have hcum2 : ∀ p f k e, cumulativeVal st2.lr ds bds ys p f k e
      = cumulativeVal lrD ds bds ys p f k e :=
    fun p f k e => cumulativeVal_congr _ _ ds bds ys (ns2.trans nsD.symm) ctx.leafId2 ctx.order2
      p f k e
  have hordlen : lrD.usedFeaturesOrdered.length = lrD.usedFeatures.card := by
    rw [ctx.orderD, ctx.usedD]
    by_cases hm : st.lr.grid.origFeatureIndex f0 ∈ st.lr.usedFeatures
    · rw [if_pos hm, if_pos hm]
      exact hI.order_len
    · rw [if_neg hm, if_neg hm, List.length_append, Finset.card_insert_of_not_mem hm,
        hI.order_len]
      rfl
  have hfill : ∀ i a, a < st.lr.usedFeaturesOrdered.length →
      ds.fillSample i lrD.usedFeaturesOrdered a = ds.fillSample i st.lr.usedFeaturesOrdered a := by
    intro i a ha
    rw [ctx.orderD]
    by_cases hm : st.lr.grid.origFeatureIndex f0 ∈ st.lr.usedFeatures
    · rw [if_pos hm]
    · rw [if_neg hm, fillSample_append _ _ _ _ _ ha]
  have hzero : ∀ q b, q < (childrenOf st.leaves f0 c0 (st.lr.curLeavesCoord ^^^ 1)).length →
      b < lrD.grid.totalBins →
      lrD.stats (st.lr.curLeavesCoord ^^^ 1) (q * lrD.grid.totalBins + b)
        = BinStat.zero lrD.usedFeatures.card := by
    intro q b hq hb
    rw [gD] at hb ⊢
    exact ctx.zeroD _ q b (by omega) (fun h2 => hne h2.symm) (by omega) hb
  have hzeroB : ∀ blk q b, blk < lrD.nThreads →
      q < (childrenOf st.leaves f0 c0 (st.lr.curLeavesCoord ^^^ 1)).length →
      b < lrD.grid.totalBins →
      lrD.stats (2 + blk) (q * lrD.grid.totalBins + b) = BinStat.zero lrD.usedFeatures.card := by
    intro blk q b hblk hq hb
    rw [gD] at hb ⊢
    rw [ntD] at hblk
    have := hI.shape.cur_le
    exact ctx.zeroD _ q b (by omega) (by omega) (by omega) hb
  refine ⟨hs2, cfg2, ns2.trans hI.nsamp, ?_, ?_⟩
  · rw [ctx.order2, ctx.used2]
    exact hordlen
  · intro q f k e hq hf hk he
    rw [hg2] at hk ⊢
    rw [hcur2, hcum2, ctx.stats_eq]
    rw [ctx.used2] at he
    rw [fc2] at hf
    rw [hlen2] at hq
    have hfD : f < lrD.fCount := by rw [fcD]; exact hf
    have hkD : k ≤ lrD.grid.conditionsCount f := by rw [gD]; exact hk
    have hb : st.lr.grid.offset f + k < st.lr.grid.totalBins := by
      have := hI.cfg.inRange f hf
      omega
    have hp : q / 2 < st.leaves.length := by omega
    -- the derived child and the scanned child of the parent of `q`
    have hDS : ∃ D S, ((lrD.fullUpdate (2 * (q / 2)) = true ∧ D = 2 * (q / 2) + 1 ∧ S = 2 * (q / 2)) ∨
        (lrD.fullUpdate (2 * (q / 2)) = false ∧ D = 2 * (q / 2) ∧ S = 2 * (q / 2) + 1)) := by
      cases hfu : lrD.fullUpdate (2 * (q / 2)) with
      | true => exact ⟨2 * (q / 2) + 1, 2 * (q / 2), Or.inl ⟨rfl, rfl, rfl⟩⟩
      | false => exact ⟨2 * (q / 2), 2 * (q / 2) + 1, Or.inr ⟨rfl, rfl, rfl⟩⟩
    obtain ⟨D, S, hDS⟩ := hDS
    have hfuS : lrD.fullUpdate S = true := by
      rcases hDS with ⟨h1, _, h3⟩ | ⟨h1, _, h3⟩
      · rw [h3]; exact h1
      · rw [h3, ctx.complD _ hp, h1]; rfl
    have hfuD : lrD.fullUpdate D = false := by
      rcases hDS with ⟨h1, h2, _⟩ | ⟨h1, h2, _⟩
      · rw [h2, ctx.complD _ hp, h1]; rfl
      · rw [h2]; exact h1
    have hDlt : D < (childrenOf st.leaves f0 c0 (st.lr.curLeavesCoord ^^^ 1)).length := by
      rcases hDS with ⟨_, h2, _⟩ | ⟨_, h2, _⟩ <;> omega
    have hSlt : S < (childrenOf st.leaves f0 c0 (st.lr.curLeavesCoord ^^^ 1)).length := by
      rcases hDS with ⟨_, _, h2⟩ | ⟨_, _, h2⟩ <;> omega
    obtain ⟨a1, a2, _⟩ := buildChildren_anatomy lrD ds bds ys blockOf st.leaves
      (childrenOf st.leaves f0 c0 (st.lr.curLeavesCoord ^^^ 1)) st.lr.usedFeatures.card st.lr.grid
      st.lr.curLeavesCoord (st.lr.curLeavesCoord ^^^ 1) (by have := hI.shape.cur_le; omega) hne
      (tbD.trans hI.shape.totalBins_eq) hI.shape.disjoint hI.shape.inRange hlenC hI.shape.layout
      hlayC (fun j l hj => (hI.shape.indexed j l hj).2)
      (fun j l hj => ⟨(hidxC j l hj).2, (hidxC j l hj).1⟩) (q / 2) D S
      (st.lr.grid.offset f + k) hp hb ctx.complD hDS
    -- the scanned child holds the cumulative statistic of its samples
    have hSval : ∀ e2 : Entry, e2.InBlock lrD.usedFeatures.card →
        (((((lrD.accumulateChildren ds bds ys blockOf lrD.usedFeatures.card
          st.lr.usedFeatures.card).feedDerived
          (childrenOf st.leaves f0 c0 (st.lr.curLeavesCoord ^^^ 1)) lrD.usedFeatures.card
          st.lr.usedFeatures.card).sumFullChildren
          (childrenOf st.leaves f0 c0 (st.lr.curLeavesCoord ^^^ 1))).prefixFullChildren
          (childrenOf st.leaves f0 c0 (st.lr.curLeavesCoord ^^^ 1))).stats
          (st.lr.curLeavesCoord ^^^ 1) (S * st.lr.grid.totalBins + (st.lr.grid.offset f + k))).val e2
        = cumulativeVal lrD ds bds ys S f k e2 := by
      intro e2 he2
      have := scanned_child_val lrD ds bds ys blockOf
        (childrenOf st.leaves f0 c0 (st.lr.curLeavesCoord ^^^ 1)) st.lr.usedFeatures.card
        (st.lr.curLeavesCoord ^^^ 1) cfgD (by omega) (by rw [gD]; exact hlayC)
        (fun j l hj => by rw [gD]; exact (hidxC j l hj).2) S f k hSlt hfuS hfD hkD e2 he2
        hzero hzeroB
      rw [gD] at this
      exact this
    by_cases hqS : q = S
    · rw [hqS, a2]
      exact hSval e he
    · have hqD : q = D := by
        rcases hDS with ⟨_, h2, h3⟩ | ⟨_, h2, h3⟩ <;> omega
      rw [hqD]
      have hPfs : (lrD.stats st.lr.curLeavesCoord
          ((q / 2) * st.lr.grid.totalBins + (st.lr.grid.offset f + k))).filledSize
          = st.lr.usedFeatures.card := by
        rw [ctx.curD]
        exact (correlated_kept ds bds ys blockOf st _ _ _ Entry.cnt trivial
          (hI.shape.filled (q / 2) _ hp hb)).1
      by_cases hin : e.InBlock st.lr.usedFeatures.card
      · -- on the block of the old features: parent minus scanned child
        obtain ⟨_, _, k3⟩ := split_cells lrD ds bds ys blockOf st.leaves
          (childrenOf st.leaves f0 c0 (st.lr.curLeavesCoord ^^^ 1)) st.lr.usedFeatures.card
          st.lr.grid st.lr.curLeavesCoord (st.lr.curLeavesCoord ^^^ 1)
          (by have := hI.shape.cur_le; omega) (by omega) hne
          (tbD.trans hI.shape.totalBins_eq) hI.shape.disjoint hI.shape.inRange hlenC
          hI.shape.layout hlayC (fun j l hj => (hI.shape.indexed j l hj).2)
          (fun j l hj => ⟨(hidxC j l hj).2, (hidxC j l hj).1⟩) (q / 2) D S
          (st.lr.grid.offset f + k) hp hb ctx.complD hDS
          (fun q2 b2 hq2 hb2 => by
            have := hzero q2 b2 hq2 (by rw [gD]; exact hb2)
            rw [gD] at this
            exact this)
          hPfs ⟨hc1, hc2⟩
        have hsum := k3 e hin
        rw [a2, hSval e he, ctx.curD,
          (correlated_kept ds bds ys blockOf st _ _ _ e hin (hI.shape.filled (q / 2) _ hp hb)).2,
          hI.vals (q / 2) f k e hp hf hk hin] at hsum
        have hsplit := cumulative_split st.lr lrD ds bds ys
          (st.lr.fColumnsRefs.getD f0 (fun _ => 0)) border (q / 2) f k e nsD
          (le_of_eq hI.nsamp) ctx.lidD hfill (by rw [hI.order_len]; exact hin)
        rw [hsplit] at hsum
        rcases hDS with ⟨_, h2, h3⟩ | ⟨_, h2, h3⟩
        · subst h2
          subst h3
          linarith
        · subst h2
          subst h3
          linarith
      · -- the row of the new feature: fed by the prefix-and-feed pass
        have hN : lrD.usedFeatures.card = st.lr.usedFeatures.card + 1 := by
          by_contra hcon
          have : lrD.usedFeatures.card = st.lr.usedFeatures.card := by omega
          rw [this] at he
          exact hin he
        have hcnt : e ≠ Entry.cnt := by
          intro h2
          rw [h2] at hin
          exact hin trivial
        have h3z : (lrD.accumulateChildren ds bds ys blockOf lrD.usedFeatures.card
            st.lr.usedFeatures.card).stats (st.lr.curLeavesCoord ^^^ 1)
            (D * st.lr.grid.totalBins + (st.lr.grid.offset f + k))
            = BinStat.zero lrD.usedFeatures.card := by
          rw [accumulateChildren_stats_low _ _ _ _ _ _ _ _ (by omega)]
          have := hzero D (st.lr.grid.offset f + k) hDlt (by rw [gD]; exact hb)
          rw [gD] at this
          exact this
        have h4fs := (feedDerived_kept (lrD.accumulateChildren ds bds ys blockOf
          lrD.usedFeatures.card st.lr.usedFeatures.card)
          (childrenOf st.leaves f0 c0 (st.lr.curLeavesCoord ^^^ 1)) lrD.usedFeatures.card
          st.lr.usedFeatures.card (st.lr.curLeavesCoord ^^^ 1)
          (D * st.lr.grid.totalBins + (st.lr.grid.offset f + k)) lrD.usedFeatures.card Entry.cnt
          trivial (by rw [h3z]; rfl)).1
        rw [a1, val_add_outside _ _ _ hcnt (by
          rw [filledSize_sub, h4fs, hPfs, hN]
          have : min (st.lr.usedFeatures.card + 1) st.lr.usedFeatures.card
              = st.lr.usedFeatures.card := by omega
          rw [this]
          exact hin)]
        have hrow := derived_child_row lrD ds bds ys blockOf
          (childrenOf st.leaves f0 c0 (st.lr.curLeavesCoord ^^^ 1)) st.lr.usedFeatures.card
          (st.lr.curLeavesCoord ^^^ 1) cfgD (by omega) hN (by rw [gD]; exact hlayC) D f k hDlt
          hfuD hfD hkD e (by rw [← hN]; exact he) hin hzero ctx.hxD ctx.hyD
        rw [gD] at hrow
        exact hrow

/-! ### The full rescan of a leaf -/

theorem rescan_raw_val (lr : Learner) (ds : DataSet) (bds : BinarizedDataSet) (ys : Nat → ℚ)
    (lId bin : Nat) (e : Entry) (he : e.InBlock lr.usedFeatures.card) :
    (((List.range lr.nSamples).foldl
      (fun (hist : Nat → BinStat) i =>
        if lr.leafId i = lId then
          (List.range lr.fCount).foldl
            (fun hist fId =>
              Function.update hist (lr.binOffset fId + bds.sampleBins i fId)
                ((hist (lr.binOffset fId + bds.sampleBins i fId)).addFullCorrelation
                  (ds.fillSample i lr.usedFeaturesOrdered) (ys i)))
            hist
        else hist)
      (fun _ => BinStat.zero lr.usedFeatures.card)) bin).filledSize = lr.usedFeatures.card ∧
    (((List.range lr.nSamples).foldl
      (fun (hist : Nat → BinStat) i =>
        if lr.leafId i = lId then
          (List.range lr.fCount).foldl
            (fun hist fId =>
              Function.update hist (lr.binOffset fId + bds.sampleBins i fId)
                ((hist (lr.binOffset fId + bds.sampleBins i fId)).addFullCorrelation
                  (ds.fillSample i lr.usedFeaturesOrdered) (ys i)))
            hist
        else hist)
      (fun _ => BinStat.zero lr.usedFeatures.card)) bin).val e
      = ∑ i in Finset.range lr.nSamples,
          if lr.leafId i = lId then
            ∑ f2 in Finset.range lr.fCount,
              if lr.binOffset f2 + bds.sampleBins i f2 = bin then
                sampleVal (ds.fillSample i lr.usedFeaturesOrdered) (ys i) e
              else 0
          else 0 := by
  have hinner : ∀ (i : Nat) (hist : Nat → BinStat),
      (hist bin).filledSize = lr.usedFeatures.card →
      (((List.range lr.fCount).foldl
        (fun (hist : Nat → BinStat) fId =>
          Function.update hist (lr.binOffset fId + bds.sampleBins i fId)
            ((hist (lr.binOffset fId + bds.sampleBins i fId)).addFullCorrelation
              (ds.fillSample i lr.usedFeaturesOrdered) (ys i)))
        hist) bin).filledSize = lr.usedFeatures.card ∧
      (((List.range lr.fCount).foldl
        (fun (hist : Nat → BinStat) fId =>
          Function.update hist (lr.binOffset fId + bds.sampleBins i fId)
            ((hist (lr.binOffset fId + bds.sampleBins i fId)).addFullCorrelation
              (ds.fillSample i lr.usedFeaturesOrdered) (ys i)))
        hist) bin).val e
        = (hist bin).val e + ∑ f2 in Finset.range lr.fCount,
            if lr.binOffset f2 + bds.sampleBins i f2 = bin then
              sampleVal (ds.fillSample i lr.usedFeaturesOrdered) (ys i) e
            else 0 := by
    intro i hist hh
    refine foldl_range_val _ (fun h : Nat → BinStat => (h bin).val e)
      (fun h : Nat → BinStat => (h bin).filledSize = lr.usedFeatures.card) _ ?_ ?_ lr.fCount hist hh
    · intro h f2 hh
      by_cases hb : bin = lr.binOffset f2 + bds.sampleBins i f2
      · subst hb
        simp only [Function.update_same, filledSize_addFull]
        exact hh
      · simp only [Function.update_noteq hb]
        exact hh
    · intro h f2 hh
      by_cases hb : bin = lr.binOffset f2 + bds.sampleBins i f2
      · subst hb
        simp only [Function.update_same, if_true]
        rw [val_addFull _ _ _ _ (by rw [hh]; exact he)]
      · simp only [Function.update_noteq hb]
        rw [if_neg (fun h2 => hb h2.symm), add_zero]
  have key := foldl_range_val
    (fun (hist : Nat → BinStat) i =>
        if lr.leafId i = lId then
          (List.range lr.fCount).foldl
            (fun hist fId =>
              Function.update hist (lr.binOffset fId + bds.sampleBins i fId)
                ((hist (lr.binOffset fId + bds.sampleBins i fId)).addFullCorrelation
                  (ds.fillSample i lr.usedFeaturesOrdered) (ys i)))
            hist
        else hist)
    (fun h : Nat → BinStat => (h bin).val e)
    (fun h : Nat → BinStat => (h bin).filledSize = lr.usedFeatures.card)
    (fun i => if lr.leafId i = lId then
        ∑ f2 in Finset.range lr.fCount,
          if lr.binOffset f2 + bds.sampleBins i f2 = bin then
            sampleVal (ds.fillSample i lr.usedFeaturesOrdered) (ys i) e
          else 0
      else 0) ?_ ?_ lr.nSamples (fun _ => BinStat.zero lr.usedFeatures.card) rfl
  · refine ⟨key.1, ?_⟩
    have k2 := key.2
    simp only [val_zero, zero_add] at k2
    exact k2
  · intro h i hh
    by_cases hl : lr.leafId i = lId
    · simp only [hl, if_true]
      exact (hinner i h hh).1
    · simp only [hl, if_false]
      exact hh
  · intro h i hh
    by_cases hl : lr.leafId i = lId
    · simp only [hl, if_true]
      exact (hinner i h hh).2
    · simp only [hl, if_false, add_zero]

/-- The rescan histogram holds, on the block of the used features, the
cumulative statistic of the samples of the leaf. -/
theorem rescan_val (lr : Learner) (ds : DataSet) (bds : BinarizedDataSet) (ys : Nat → ℚ)
    (blockOf : Nat → Nat) (hc : Configured lr bds blockOf) (lId f k : Nat) (hf : f < lr.fCount)
    (hk : k ≤ lr.grid.conditionsCount f) (e : Entry) (he : e.InBlock lr.usedFeatures.card) :
    ((rescanHistogram lr ds bds ys lId).hist (lr.grid.offset f + k)).val e
      = cumulativeVal lr ds bds ys lId f k e := by
  have hinj := configured_inj lr bds blockOf hc
  unfold rescanHistogram HistogramV2.prefixSumBins
  simp only
  obtain ⟨_, hb1⟩ := prefixSumBins_loop lr.grid hc.disjoint
    ((List.range lr.nSamples).foldl
      (fun (hist : Nat → BinStat) i =>
        if lr.leafId i = lId then
          (List.range lr.fCount).foldl
            (fun hist fId =>
              Function.update hist (lr.binOffset fId + bds.sampleBins i fId)
                ((hist (lr.binOffset fId + bds.sampleBins i fId)).addFullCorrelation
                  (ds.fillSample i lr.usedFeaturesOrdered) (ys i)))
            hist
        else hist)
      (fun _ => BinStat.zero lr.usedFeatures.card)) lr.grid.nzFeaturesCount (le_refl _)
  rw [hb1 f (hc.fCount_eq ▸ hf) k hk,
    sumBins_val _ _ _ lr.usedFeatures.card e
      (fun j _ => (rescan_raw_val lr ds bds ys lId _ e he).1) he,
    Finset.sum_congr rfl (fun j _ => (rescan_raw_val lr ds bds ys lId _ e he).2),
    Finset.sum_comm]
  unfold cumulativeVal
  refine Finset.sum_congr rfl (fun i _ => ?_)
  by_cases hl : lr.leafId i = lId
  · simp only [hl, if_true, true_and]
    rw [← hc.offset_eq f hf]
    exact bins_collapse lr.fCount lr.totalBins lr.binOffset lr.grid.conditionsCount
      (bds.sampleBins i) hinj (fun f2 hf2 => hc.binsOk i f2 hf2) f k hf hk _
  · simp only [hl, if_false, false_and, Finset.sum_const_zero]

/-! ### The statistics of the root -/

theorem rootAccumulate_low (lr : Learner) (ds : DataSet) (bds : BinarizedDataSet)
    (ys : Nat → ℚ) (blockOf : Nat → Nat) (c : Nat) (hc : c < 2) :
    (lr.rootAccumulate ds bds ys blockOf) c = lr.stats c := by
  unfold GreedyLinearObliviousTreeLearnerV2.rootAccumulate
  refine foldl_inv (fun s : Arena => s c = lr.stats c) _ _ _ rfl ?_
  intro s i hs
  refine foldl_inv (fun s : Arena => s c = lr.stats c) _ _ _ hs ?_
  intro s f hs
  funext k
  simp only [modify_apply]
  rw [if_neg (by omega), hs]

theorem rootAccumulate_block (lr : Learner) (ds : DataSet) (bds : BinarizedDataSet)
    (ys : Nat → ℚ) (blockOf : Nat → Nat) (blk cell n0 : Nat) (e : Entry)
    (hfs : (lr.stats (2 + blk) cell).filledSize = n0) (he : e.InBlock n0) :
    ((lr.rootAccumulate ds bds ys blockOf) (2 + blk) cell).val e
      = (lr.stats (2 + blk) cell).val e
        + ∑ i in Finset.range lr.nSamples,
            if blockOf i = blk then
              ∑ f in Finset.range lr.fCount,
                if lr.cell 0 (lr.binOffset f + bds.sampleBins i f) = cell then
                  sampleVal (ds.fillSample i lr.usedFeaturesOrdered) (ys i) e
                else 0
            else 0 := by
  unfold GreedyLinearObliviousTreeLearnerV2.rootAccumulate
  have hinner : ∀ (i : Nat) (s : Arena), (s (2 + blk) cell).filledSize = n0 →
      (((List.range lr.fCount).foldl
        (fun (s : Arena) fId =>
          s.modify (2 + blockOf i) (lr.cell 0 (lr.binOffset fId + bds.sampleBins i fId))
            (fun t => t.addFullCorrelation (ds.fillSample i lr.usedFeaturesOrdered) (ys i))) s)
          (2 + blk) cell).filledSize = n0 ∧
      (((List.range lr.fCount).foldl
        (fun (s : Arena) fId =>
          s.modify (2 + blockOf i) (lr.cell 0 (lr.binOffset fId + bds.sampleBins i fId))
            (fun t => t.addFullCorrelation (ds.fillSample i lr.usedFeaturesOrdered) (ys i))) s)
          (2 + blk) cell).val e
        = (s (2 + blk) cell).val e + ∑ f in Finset.range lr.fCount,
            if blockOf i = blk ∧ lr.cell 0 (lr.binOffset f + bds.sampleBins i f) = cell then
              sampleVal (ds.fillSample i lr.usedFeaturesOrdered) (ys i) e else 0 := by
    intro i s hs
    refine foldl_range_val _ (fun s : Arena => (s (2 + blk) cell).val e)
      (fun s : Arena => (s (2 + blk) cell).filledSize = n0) _ ?_ ?_ lr.fCount s hs
    · intro s fId hs
      simp only [modify_apply]
      split_ifs with h
      · obtain ⟨h1, h2⟩ := h
        rw [filledSize_addFull, ← h1, ← h2]
        exact hs
      · exact hs
    · intro s fId hs
      simp only [modify_apply]
      by_cases h : 2 + blk = 2 + blockOf i ∧
          cell = lr.cell 0 (lr.binOffset fId + bds.sampleBins i fId)
      · rw [if_pos h]
        obtain ⟨h1, h2⟩ := h
        have hb : blockOf i = blk := by omega
        rw [val_addFull _ _ _ _ (by rw [← h1, ← h2, hs]; exact he), ← h1, ← h2]
        simp [hb, h2]
      · rw [if_neg h]
        have : ¬ (blockOf i = blk ∧
            lr.cell 0 (lr.binOffset fId + bds.sampleBins i fId) = cell) := by
          rintro ⟨h1, h2⟩
          exact h ⟨by omega, h2.symm⟩
        simp [this]
  refine (foldl_range_val _ (fun s : Arena => (s (2 + blk) cell).val e)
    (fun s : Arena => (s (2 + blk) cell).filledSize = n0) _ ?_ ?_ lr.nSamples lr.stats hfs).2
  · intro s i hs
    exact (hinner i s hs).1
  · intro s i hs
    dsimp only
    rw [(hinner i s hs).2]
    congr 1
    by_cases hb : blockOf i = blk
    · simp [hb]
    · simp [hb]

theorem cell_zero_eq (lr : Learner) (a b : Nat) : lr.cell 0 a = lr.cell 0 b ↔ a = b := by
  unfold GreedyLinearObliviousTreeLearnerV2.cell
  constructor
  · intro h
    omega
  · intro h
    rw [h]

theorem rootReduce_low (lr : Learner) (stats : Arena) (c : Nat) (hc : c ≠ 2) :
    (lr.rootReduce stats) c = stats c := by
  unfold GreedyLinearObliviousTreeLearnerV2.rootReduce
  refine foldl_inv (fun s : Arena => s c = stats c) _ _ _ rfl ?_
  intro s bin hs
  refine foldl_inv (fun s : Arena => s c = stats c) _ _ _ hs ?_
  intro s b hs
  funext k
  simp only [modify_apply]
  rw [if_neg (fun h => hc h.1), hs]

theorem rootReduce_val (lr : Learner) (stats : Arena) (n0 b0 : Nat) (e : Entry)
    (hfs : ∀ c cell, (stats c cell).filledSize = n0) (hb0 : b0 < lr.totalBins)
    (he : e.InBlock n0) :
    ((lr.rootReduce stats) 2 (lr.cell 0 b0)).val e
      = (stats 2 (lr.cell 0 b0)).val e
        + ∑ b in Finset.range (lr.nThreads - 1), (stats (2 + (b + 1)) (lr.cell 0 b0)).val e := by
  unfold GreedyLinearObliviousTreeLearnerV2.rootReduce
  have hinner : ∀ (bin : Nat) (s : Arena),
      ((s 2 (lr.cell 0 b0)).filledSize = n0 ∧ ∀ c, c ≠ 2 → s c = stats c) →
      ((((List.range (lr.nThreads - 1)).foldl
          (fun (s : Arena) b =>
            s.modify 2 (lr.cell 0 bin) (fun t => t.add (s (2 + (b + 1)) (lr.cell 0 bin)))) s)
          2 (lr.cell 0 b0)).filledSize = n0 ∧
        ∀ c, c ≠ 2 → ((List.range (lr.nThreads - 1)).foldl
          (fun (s : Arena) b =>
            s.modify 2 (lr.cell 0 bin) (fun t => t.add (s (2 + (b + 1)) (lr.cell 0 bin)))) s) c
          = stats c) ∧
      (((List.range (lr.nThreads - 1)).foldl
          (fun (s : Arena) b =>
            s.modify 2 (lr.cell 0 bin) (fun t => t.add (s (2 + (b + 1)) (lr.cell 0 bin)))) s)
          2 (lr.cell 0 b0)).val e
        = (s 2 (lr.cell 0 b0)).val e + ∑ b in Finset.range (lr.nThreads - 1),
            if bin = b0 then (stats (2 + (b + 1)) (lr.cell 0 b0)).val e else 0 := by
    intro bin s hs
    refine foldl_range_val _ (fun s : Arena => (s 2 (lr.cell 0 b0)).val e)
      (fun s : Arena => (s 2 (lr.cell 0 b0)).filledSize = n0 ∧ ∀ c, c ≠ 2 → s c = stats c)
      _ ?_ ?_ (lr.nThreads - 1) s hs
    · intro s b ⟨hs1, hs2⟩
      refine ⟨?_, ?_⟩
      · simp only [modify_apply]
        split_ifs with h
        · rw [filledSize_add, ← h.2]
          exact hs1
        · exact hs1
      · intro c hc
        funext k
        simp only [modify_apply]
        rw [if_neg (fun h => hc h.1), hs2 c hc]
    · intro s b ⟨hs1, hs2⟩
      simp only [modify_apply]
      by_cases h : bin = b0
      · subst h
        rw [if_pos ⟨trivial, rfl⟩, if_pos rfl, hs2 (2 + (b + 1)) (by omega)]
        rw [val_add _ _ _ (by rw [hs1, hfs, min_self]; exact he)]
      · rw [if_neg (fun hh => h ((cell_zero_eq lr _ _).mp hh.2).symm), if_neg h, add_zero]
  have key := foldl_range_val
    (fun (s : Arena) bin => (List.range (lr.nThreads - 1)).foldl
          (fun (s : Arena) b =>
            s.modify 2 (lr.cell 0 bin) (fun t => t.add (s (2 + (b + 1)) (lr.cell 0 bin)))) s)
    (fun s : Arena => (s 2 (lr.cell 0 b0)).val e)
    (fun s : Arena => (s 2 (lr.cell 0 b0)).filledSize = n0 ∧ ∀ c, c ≠ 2 → s c = stats c)
    (fun bin => ∑ b in Finset.range (lr.nThreads - 1),
            if bin = b0 then (stats (2 + (b + 1)) (lr.cell 0 b0)).val e else 0)
    (fun s bin hs => (hinner bin s hs).1) (fun s bin hs => (hinner bin s hs).2)
    lr.totalBins stats ⟨hfs _ _, fun _ _ => rfl⟩
  have k2 := key.2
  simp only at k2
  refine k2.trans ?_
  congr 1
  rw [Finset.sum_comm]
  refine Finset.sum_congr rfl (fun b _ => ?_)
  rw [Finset.sum_ite_eq']
  simp [hb0]

theorem rootFeed_val (lr : Learner) (root : Leaf) (stats : Arena) (n0 b0 : Nat) (e : Entry)
    (hcoord : root.histCoord < 2) (hbase : root.histBase = 0)
    (hfs : ∀ c cell, (stats c cell).filledSize = n0) (hb0 : b0 < lr.totalBins)
    (he : e.InBlock n0) :
    ((((List.range lr.totalBins).foldl
        (fun (s : Arena) bin => root.addBinStat s bin (s 2 (lr.cell 0 bin))) stats)
        root.histCoord b0).filledSize = n0) ∧
    (((List.range lr.totalBins).foldl
        (fun (s : Arena) bin => root.addBinStat s bin (s 2 (lr.cell 0 bin))) stats)
        root.histCoord b0).val e
      = (stats root.histCoord b0).val e + (stats 2 (lr.cell 0 b0)).val e := by
  have key := foldl_range_val
    (fun (s : Arena) bin => root.addBinStat s bin (s 2 (lr.cell 0 bin)))
    (fun s : Arena => (s root.histCoord b0).val e)
    (fun s : Arena => (s root.histCoord b0).filledSize = n0 ∧ s 2 = stats 2)
    (fun bin => if bin = b0 then (stats 2 (lr.cell 0 b0)).val e else 0)
    ?_ ?_ lr.totalBins stats ⟨hfs _ _, rfl⟩
  · refine ⟨key.1.1, ?_⟩
    have k2 := key.2
    simp only at k2
    refine k2.trans ?_
    rw [Finset.sum_ite_eq']
    simp [hb0]
  · intro s bin ⟨hs1, hs2⟩
    refine ⟨?_, ?_⟩
    · simp only [LinearObliviousTreeLeafV2.addBinStat, modify_apply]
      split_ifs with h
      · rw [filledSize_add, ← h.2]
        exact hs1
      · exact hs1
    · funext k
      simp only [LinearObliviousTreeLeafV2.addBinStat, modify_apply]
      rw [if_neg (fun h => by omega), hs2]
  · intro s bin ⟨hs1, hs2⟩
    simp only [LinearObliviousTreeLeafV2.addBinStat, modify_apply, hbase, Nat.zero_add]
    by_cases h : bin = b0
    · subst h
      rw [if_pos ⟨trivial, rfl⟩, if_pos rfl, hs2]
      rw [val_add _ _ _ (by rw [hs1, hfs, min_self]; exact he)]
    · rw [if_neg (fun hh => h hh.2.symm), if_neg h, add_zero]

/-- The root histogram holds, on the block of the used features, the cumulative
statistic of all samples, when the arena starts zeroed. -/
theorem buildRoot_val (lr : Learner) (ds : DataSet) (bds : BinarizedDataSet) (ys : Nat → ℚ)
    (blockOf : Nat → Nat) (hc : Configured lr bds blockOf) (n0 : Nat)
    (hz : lr.stats = fun _ _ => BinStat.zero n0) (hcur : lr.curLeavesCoord < 2)
    (f k : Nat) (hf : f < lr.fCount) (hk : k ≤ lr.grid.conditionsCount f) (e : Entry)
    (he : e.InBlock n0) :
    ((lr.buildRoot ds bds ys blockOf) lr.curLeavesCoord (lr.grid.offset f + k)).val e
      = ∑ i in Finset.range lr.nSamples,
          if bds.sampleBins i f ≤ k then
            sampleVal (ds.fillSample i lr.usedFeaturesOrdered) (ys i) e
          else 0 := by
  have hinj := configured_inj lr bds blockOf hc
  have hfg : f < lr.grid.nzFeaturesCount := hc.fCount_eq ▸ hf
  have hbin : ∀ j, j ≤ k → lr.grid.offset f + j < lr.totalBins := by
    intro j hj
    have := hc.inRange f hf
    rw [hc.totalBins_eq]
    omega
  have hT : lr.nThreads = (lr.nThreads - 1) + 1 := by
    have := hc.blockOk 0
    omega
  have hfs0 : ∀ c cell, (lr.stats c cell).filledSize = n0 := by
    intro c cell
    rw [hz]
    rfl
  have hfs1 : ∀ c cell, ((lr.rootAccumulate ds bds ys blockOf) c cell).filledSize = n0 := by
    intro c cell
    rw [rootAccumulate_filledSize, hfs0]
  have hfs2 : ∀ c cell,
      ((lr.rootReduce (lr.rootAccumulate ds bds ys blockOf)) c cell).filledSize = n0 := by
    intro c cell
    rw [rootReduce_filledSize, hfs1]
  have hrc : lr.rootLeaf.histCoord = lr.curLeavesCoord := rfl
  have hrb : lr.rootLeaf.histBase = 0 := rfl
  have hrg : lr.rootLeaf.grid = lr.grid := rfl
  unfold GreedyLinearObliviousTreeLearnerV2.buildRoot
  rw [leaf_prefixSumBins_apply, if_pos ⟨hrc.symm, by rw [hrb]; exact Nat.zero_le _⟩, hrg, hrb,
    Nat.sub_zero]
  obtain ⟨_, hb1⟩ := prefixSumBins_loop lr.grid hc.disjoint
    (fun b => ((List.range lr.totalBins).foldl
        (fun (s : Arena) bin => lr.rootLeaf.addBinStat s bin (s 2 (lr.cell 0 bin)))
        (lr.rootReduce (lr.rootAccumulate ds bds ys blockOf))) lr.rootLeaf.histCoord (0 + b))
    lr.grid.nzFeaturesCount (le_refl _)
  rw [hb1 f hfg k hk]
  have hcell : ∀ j, j ≤ k →
      ((((List.range lr.totalBins).foldl
        (fun (s : Arena) bin => lr.rootLeaf.addBinStat s bin (s 2 (lr.cell 0 bin)))
        (lr.rootReduce (lr.rootAccumulate ds bds ys blockOf))) lr.rootLeaf.histCoord
          (0 + (lr.grid.offset f + j))).filledSize = n0) ∧
      (((List.range lr.totalBins).foldl
        (fun (s : Arena) bin => lr.rootLeaf.addBinStat s bin (s 2 (lr.cell 0 bin)))
        (lr.rootReduce (lr.rootAccumulate ds bds ys blockOf))) lr.rootLeaf.histCoord
          (0 + (lr.grid.offset f + j))).val e
        = ∑ i in Finset.range lr.nSamples, ∑ f2 in Finset.range lr.fCount,
            if lr.binOffset f2 + bds.sampleBins i f2 = lr.binOffset f + j then
              sampleVal (ds.fillSample i lr.usedFeaturesOrdered) (ys i) e
            else 0 := by
    intro j hj
    rw [Nat.zero_add]
    obtain ⟨a1, a2⟩ := rootFeed_val lr lr.rootLeaf
      (lr.rootReduce (lr.rootAccumulate ds bds ys blockOf)) n0 (lr.grid.offset f + j) e
      (by rw [hrc]; exact hcur) hrb hfs2 (hbin j hj) he
    refine ⟨a1, ?_⟩
    have hne : lr.rootLeaf.histCoord ≠ 2 := by rw [hrc]; exact Nat.ne_of_lt hcur
    have hlt : lr.rootLeaf.histCoord < 2 := by rw [hrc]; exact hcur
    rw [a2, rootReduce_low lr _ lr.rootLeaf.histCoord hne,
      rootAccumulate_low lr ds bds ys blockOf lr.rootLeaf.histCoord hlt, hz, val_zero, zero_add,
      rootReduce_val lr _ n0 _ e hfs1 (hbin j hj) he]
    have hblk : ∀ blk, ((lr.rootAccumulate ds bds ys blockOf) (2 + blk)
          (lr.cell 0 (lr.grid.offset f + j))).val e
        = ∑ i in Finset.range lr.nSamples,
            if blockOf i = blk then
              ∑ f2 in Finset.range lr.fCount,
                if lr.binOffset f2 + bds.sampleBins i f2 = lr.binOffset f + j then
                  sampleVal (ds.fillSample i lr.usedFeaturesOrdered) (ys i) e
                else 0
            else 0 := by
      intro blk
      rw [rootAccumulate_block lr ds bds ys blockOf blk _ n0 e (hfs0 _ _) he, hz, val_zero,
        zero_add]
      simp only [cell_zero_eq, hc.offset_eq f hf]
    have h0 := hblk 0
    rw [Nat.add_zero] at h0
    rw [h0, Finset.sum_congr rfl (fun b _ => hblk (b + 1))]
    have hsplit := Finset.sum_range_succ' (fun blk => ∑ i in Finset.range lr.nSamples,
            if blockOf i = blk then
              ∑ f2 in Finset.range lr.fCount,
                if lr.binOffset f2 + bds.sampleBins i f2 = lr.binOffset f + j then
                  sampleVal (ds.fillSample i lr.usedFeaturesOrdered) (ys i) e
                else 0
            else 0) (lr.nThreads - 1)
    rw [← hT] at hsplit
    rw [add_comm, ← hsplit, Finset.sum_comm]
    refine Finset.sum_congr rfl (fun i _ => ?_)
    rw [Finset.sum_ite_eq]
    simp [hc.blockOk i]
  rw [sumBins_val _ _ _ n0 e (fun j hj => (hcell j hj).1) he]
  rw [Finset.sum_congr rfl (fun j hj => (hcell j (by
    have := Finset.mem_range.mp hj
    omega)).2), Finset.sum_comm]
  refine Finset.sum_congr rfl (fun i _ => ?_)
  rw [← hc.offset_eq f hf] at *
  exact bins_collapse lr.fCount lr.totalBins lr.binOffset lr.grid.conditionsCount
    (bds.sampleBins i) hinj (fun f2 hf2 => hc.binsOk i f2 hf2) f k hf hk _

/-! ### The invariant on the statistics along the growth loop -/

theorem configured_cacheDs (lr : Learner) (ds : DataSet) (bds : BinarizedDataSet)
    (blockOf : Nat → Nat) (hc : Configured lr bds blockOf) :
    Configured (lr.cacheDs ds) bds blockOf := by
  unfold GreedyLinearObliviousTreeLearnerV2.cacheDs
  split_ifs
  · exact hc
  · exact ⟨hc.fCount_eq, hc.offset_eq, hc.totalBins_eq, hc.disjoint, hc.inRange, hc.binsOk,
      hc.blockOk⟩

theorem rootState_learner (lr : Learner) (ds : DataSet) (bds : BinarizedDataSet) (ys : Nat → ℚ)
    (blockOf : Nat → Nat) :
    ∃ L : Learner,
      (lr.rootState ds bds ys blockOf).lr = { L with stats := L.buildRoot ds bds ys blockOf } ∧
      L.stats = (fun _ _ => BinStat.zero 1) ∧ L.curLeavesCoord = 0 ∧ L.leafId = (fun _ => 0) ∧
      L.usedFeatures = {lr.biasCol.toNat} ∧ L.usedFeaturesOrdered = [lr.biasCol.toNat] ∧
      L.nSamples = (lr.cacheDs ds).nSamples ∧ L.grid = (lr.cacheDs ds).grid ∧
      L.fCount = (lr.cacheDs ds).fCount ∧ L.totalBins = (lr.cacheDs ds).totalBins ∧
      L.nThreads = (lr.cacheDs ds).nThreads ∧ L.binOffsets = (lr.cacheDs ds).binOffsets :=
  ⟨_, rfl, rfl, rfl, rfl, by simp [GreedyLinearObliviousTreeLearnerV2.resetState], rfl, rfl, rfl,
    rfl, rfl, rfl, rfl⟩

/-- The state of `fit` when the root is built satisfies the invariant on the
statistics. -/
theorem stat_root (lr : Learner) (ds : DataSet) (bds : BinarizedDataSet) (ys : Nat → ℚ)
    (blockOf : Nat → Nat) (hc : Configured lr bds blockOf)
    (hn : lr.isDsCached = true → lr.nSamples = ds.samplesCount) :
    StatInv ds bds ys blockOf (lr.rootState ds bds ys blockOf) := by
  have hshape := shape_root lr ds bds ys blockOf hc.totalBins_eq hc.disjoint
    (fun f hf => hc.inRange f (hc.fCount_eq ▸ hf))
  obtain ⟨root, hleaves, _⟩ := rootState_leaf lr ds bds ys blockOf
  obtain ⟨L, hL, hz, hcur, hlid, hu, ho, hns, hg, hfc, htb, hnt, hbo⟩ :=
    rootState_learner lr ds bds ys blockOf
  have hcd := configured_cacheDs lr ds bds blockOf hc
  have hoff : ∀ f, L.binOffset f = (lr.cacheDs ds).binOffset f := by
    intro f
    unfold GreedyLinearObliviousTreeLearnerV2.binOffset
    rw [hbo]
  have hcL : Configured L bds blockOf := by
    refine ⟨?_, ?_, ?_, ?_, ?_, ?_, ?_⟩
    · rw [hfc, hg]; exact hcd.fCount_eq
    · intro f hfl
      rw [hoff, hg]
      exact hcd.offset_eq f (hfc ▸ hfl)
    · rw [htb, hg]; exact hcd.totalBins_eq
    · rw [hg]; exact hcd.disjoint
    · intro f hfl
      rw [hg]
      exact hcd.inRange f (hfc ▸ hfl)
    · intro i f hfl
      rw [hg]
      exact hcd.binsOk i f (hfc ▸ hfl)
    · intro i
      rw [hnt]
      exact hcd.blockOk i
  have hnsamp : (lr.cacheDs ds).nSamples = ds.samplesCount := by
    unfold GreedyLinearObliviousTreeLearnerV2.cacheDs
    split_ifs with h
    · exact hn h
    · rfl
  refine ⟨hshape, ?_, ?_, ?_, ?_⟩
  · rw [hL]
    exact ⟨hcL.fCount_eq, hcL.offset_eq, hcL.totalBins_eq, hcL.disjoint, hcL.inRange, hcL.binsOk,
      hcL.blockOk⟩
  · rw [hL]
    exact hns.trans hnsamp
  · rw [hL]
    show L.usedFeaturesOrdered.length = L.usedFeatures.card
    rw [ho, hu, Finset.card_singleton]
    rfl
  · intro p f k e hp hf hk he
    rw [hleaves] at hp
    have hp0 : p = 0 := by
      have : p < 1 := hp
      omega
    subst hp0
    rw [hL] at hf hk he ⊢
    have hf2 : f < L.fCount := hf
    have hk2 : k ≤ L.grid.conditionsCount f := hk
    have he2 : e.InBlock 1 := by
      have h1 : e.InBlock L.usedFeatures.card := he
      rw [hu, Finset.card_singleton] at h1
      exact h1
    show ((L.buildRoot ds bds ys blockOf) L.curLeavesCoord
        (0 * L.grid.totalBins + (L.grid.offset f + k))).val e
      = ∑ i in Finset.range L.nSamples,
          if L.leafId i = 0 ∧ bds.sampleBins i f ≤ k then
            sampleVal (ds.fillSample i L.usedFeaturesOrdered) (ys i) e
          else 0
    rw [Nat.zero_mul, Nat.zero_add,
      buildRoot_val L ds bds ys blockOf hcL 1 hz (by rw [hcur]; decide) f k hf2 hk2 e he2]
    refine Finset.sum_congr rfl (fun i _ => ?_)
    rw [hlid]
    simp

theorem growLoop_stat (lr : Learner) (ds : DataSet) (bds : BinarizedDataSet) (ys : Nat → ℚ)
    (blockOf : Nat → Nat) (hc : Configured lr bds blockOf)
    (hn : lr.isDsCached = true → lr.nSamples = ds.samplesCount) (n : Nat) (st : FitState)
    (h : growLoop ds bds ys blockOf n (lr.rootState ds bds ys blockOf) = .ok st) :
    StatInv ds bds ys blockOf st ∧ st.lr.grid = lr.grid := by
  refine growLoop_inv ds bds ys blockOf
    (fun st => StatInv ds bds ys blockOf st ∧ st.lr.grid = lr.grid) ?_ n _ st
    ⟨stat_root lr ds bds ys blockOf hc hn, (cacheDs_fields lr ds).1⟩ h
  rintro st st2 ⟨hs, hg⟩ hd
  obtain ⟨_, h2, _⟩ := shape_step ds bds ys blockOf st st2 hs.shape hd
  exact ⟨stat_step ds bds ys blockOf st st2 hs hd, h2.trans hg⟩

theorem derivedAt_ok (r : Except Err FitState) (q : Nat) (st : FitState) (hr : r = .ok st)
    (h : derivedAt r q = true) : st.leaves[q]?.isSome = true ∧ st.lr.fullUpdate q = false := by
  subst hr
  simp only [derivedAt, Bool.and_eq_true, Bool.not_eq_true', Bool.not_eq_eq_eq_not,
    Bool.not_true] at h
  exact h

theorem exLearner_configured : Configured exLearner exBdsTotal (fun _ => 0) := by
  refine ⟨rfl, ?_, rfl, ?_, ?_, ?_, ?_⟩
  · intro f hf
    have e1 : f = 0 := by
      have : f < 1 := hf
      omega
    subst e1
    rfl
  · intro f1 f2 h1 h2 hne
    have e1 : f1 = 0 := by
      have : f1 < 1 := h1
      omega
    have e2 : f2 = 0 := by
      have : f2 < 1 := h2
      omega
    exact absurd (e1.trans e2.symm) hne
  · intro f hf
    have e1 : f = 0 := by
      have : f < 1 := hf
      omega
    subst e1
    decide
  · intro i f _
    exact Nat.min_le_right i 1
  · intro i
    exact Nat.lt_succ_self 0

/-- C6: at any depth of `fit` (after `d` iterations of the growth loop, on a
learner configured for the binarized dataset and the scheduler, whose dataset
cache, if any, has the dataset's sample count), when the split step of the next
iteration returns, the histogram of every child that is not marked for the full
update (the child the code derives: it is fed the prefix sums of the new
correlations and then receives parent minus rescanned sibling) holds at every bin
of every feature, on the count and on every matrix and vector entry of the used
features (the newly added one included), the statistic of `rescanHistogram`: the
full rescan of the child's own samples followed by `prefixSumBins`. -/
theorem derived_child_equals_rescan (lr : Learner) (ds : DataSet) (bds : BinarizedDataSet)
    (ys : Nat → ℚ) (blockOf : Nat → Nat) (hc : Configured lr bds blockOf)
    (hn : lr.isDsCached = true → lr.nSamples = ds.samplesCount)
    (d : Nat) (st st2 : FitState)
    (hgrow : growLoop ds bds ys blockOf d (lr.rootState ds bds ys blockOf) = .ok st)
    (hstep : depthStep ds bds ys blockOf st = .ok st2)
    (q : Nat) (child : Leaf) (hq : st2.leaves[q]? = some child)
    (hder : st2.lr.fullUpdate child.id = false)
    (f k : Nat) (hf : f < lr.fCount) (hk : k ≤ lr.grid.conditionsCount f)
    (e : Entry) (he : e.InBlock child.nUsedFeatures) :
    ((child.hist st2.lr.stats).hist (lr.grid.offset f + k)).val e
      = ((rescanHistogram st2.lr ds bds ys child.id).hist (lr.grid.offset f + k)).val e := by
  have _ := hder
  obtain ⟨hI, hg⟩ := growLoop_stat lr ds bds ys blockOf hc hn d st hgrow
  have hI2 := stat_step ds bds ys blockOf st st2 hI hstep
  obtain ⟨_, hg2, _⟩ := shape_step ds bds ys blockOf st st2 hI.shape hstep
  have hgrid : st2.lr.grid = lr.grid := hg2.trans hg
  have hql : q < st2.leaves.length := by
    by_contra hcon
    rw [List.getElem?_eq_none (by omega)] at hq
    exact Option.noConfusion hq
  obtain ⟨hid, _⟩ := hI2.shape.indexed q child hq
  obtain ⟨lc, lb⟩ := hI2.shape.layout q child hq
  obtain ⟨hnu, _⟩ := hI2.shape.nUsed q child hq
  have hf2 : f < st2.lr.fCount := by
    rw [hI2.cfg.fCount_eq, hgrid, ← hc.fCount_eq]
    exact hf
  rw [← hgrid] at hk ⊢
  rw [hnu] at he
  rw [rescan_val st2.lr ds bds ys blockOf hI2.cfg child.id f k hf2 hk e he, hid]
  simp only [LinearObliviousTreeLeafV2.hist]
  rw [lc, lb]
  exact hI2.vals q f k e hql hf2 hk he

/-- The witness of C6: the first depth of the first `fit` call of `exLearner` on
`exDs`; the right child of the root is the derived one; the last bin of the
feature, the count. -/
theorem derived_child_equals_rescan_witness :
    ∃ (st2 : FitState) (child : Leaf),
      depthStep exDs exBdsTotal exYs (fun _ => 0)
        (exLearner.rootState exDs exBdsTotal exYs (fun _ => 0)) = .ok st2 ∧
      st2.leaves[1]? = some child ∧ st2.lr.fullUpdate child.id = false ∧
      ((child.hist st2.lr.stats).hist (exLearner.grid.offset 0 + 1)).val Entry.cnt
        = ((rescanHistogram st2.lr exDs exBdsTotal exYs child.id).hist
            (exLearner.grid.offset 0 + 1)).val Entry.cnt := by
  have hok : derivedAt (depthStep exDs exBdsTotal exYs (fun _ => 0)
      (exLearner.rootState exDs exBdsTotal exYs (fun _ => 0))) 1 = true := by decide!
  cases h : depthStep exDs exBdsTotal exYs (fun _ => 0)
      (exLearner.rootState exDs exBdsTotal exYs (fun _ => 0)) with
  | error e => rw [h] at hok; exact absurd hok (by simp [derivedAt])
  | ok st2 =>
    obtain ⟨h1, h2⟩ := derivedAt_ok _ 1 st2 h hok
    obtain ⟨child, hchild⟩ := Option.isSome_iff_exists.mp h1
    have hshape := shape_root exLearner exDs exBdsTotal exYs (fun _ => 0)
      exLearner_configured.totalBins_eq exLearner_configured.disjoint
      (fun f hf => exLearner_configured.inRange f hf)
    obtain ⟨hs2, _⟩ := shape_step exDs exBdsTotal exYs (fun _ => 0) _ st2 hshape h
    have hid : child.id = 1 := (hs2.indexed 1 child hchild).1
    have hfl : st2.lr.fullUpdate child.id = false := by rw [hid]; exact h2
    exact ⟨st2, child, rfl, hchild, hfl,
      derived_child_equals_rescan exLearner exDs exBdsTotal exYs (fun _ => 0)
        exLearner_configured (fun hh => absurd hh (by decide)) 0 _ st2 rfl h 1 child hchild hfl
        0 1 (by decide) (by decide) Entry.cnt trivial⟩

/-! ## The leaves: regions, splits, values -/

theorem isInRegionLoop_true_iff (g : Grid) (x : Nat → ℚ) (splits : List (Nat × Nat × Bool)) :
    isInRegionLoop g x splits = .ok true ↔
      ∀ s ∈ splits, ∃ (origFId : Nat) (border : ℚ),
        g.nzFeatures[s.1]? = some origFId ∧ (g.borders s.1)[s.2.1]? = some border ∧
        decide (x origFId ≤ border) = s.2.2 := by
  induction splits with
  | nil => simp [isInRegionLoop]
  | cons a rest ih =>
    obtain ⟨f, c, b⟩ := a
    simp only [isInRegionLoop, List.mem_cons, forall_eq_or_imp]
    cases ho : g.nzFeatures[f]? with
    | none => simp
    | some o =>
      cases hb : (g.borders f)[c]? with
      | none => simp
      | some border =>
        simp only [Option.some.injEq, exists_and_left, exists_eq_left']
        by_cases hx : x o ≤ border <;> cases b <;> simp [hx, ih]

/-- C14: `isInRegion(x)` returns `true` exactly when every split `(f, c, isLeft)`
of the leaf's path names a feature and a border of the grid (the `.at` lookups
succeed) and `(x[origFeature(f)] ≤ borders(f)[c]) == isLeft`; the root leaf of
`fit`, whose path is empty, accepts every `x`. -/
theorem isInRegion_iff_path (l : Leaf) (lr : Learner) (x : Nat → ℚ) :
    (l.isInRegion x = .ok true ↔
      ∀ s ∈ l.splits, ∃ (origFId : Nat) (border : ℚ),
        l.grid.nzFeatures[s.1]? = some origFId ∧ (l.grid.borders s.1)[s.2.1]? = some border ∧
        decide (x origFId ≤ border) = s.2.2) ∧
    lr.rootLeaf.isInRegion x = .ok true :=
  ⟨isInRegionLoop_true_iff l.grid x l.splits, rfl⟩

/-- C15: for a leaf `P`, a split `(f, c)` that names a feature and a border of
the grid, and the children `(L, R)` of `P.split(f, c, ·)`: for every `x`,
`L.isInRegion(x)` and `R.isInRegion(x)` are never both true, and one of them is
true exactly when `P.isInRegion(x)` is. -/
theorem split_children_partition (P : Leaf) (f c coord base : Nat) (x : Nat → ℚ) (o : Nat)
    (border : ℚ) (ho : P.grid.nzFeatures[f]? = some o)
    (hb : (P.grid.borders f)[c]? = some border) :
    ¬ ((P.split f c coord base).1.isInRegion x = .ok true ∧
        (P.split f c coord base).2.isInRegion x = .ok true) ∧
    (((P.split f c coord base).1.isInRegion x = .ok true ∨
        (P.split f c coord base).2.isInRegion x = .ok true) ↔ P.isInRegion x = .ok true) := by
  rw [split_fst_isInRegion P f c coord base x o border ho hb,
    split_snd_isInRegion P f c coord base x o border ho hb]
  cases P.isInRegion x with
  | error e => simp
  | ok b =>
    cases b with
    | false => simp
    | true => by_cases hx : x o ≤ border <;> simp [hx]

/-- The witness of C15: the root of `exLearner`, its only candidate `(0, 0)` and
the sample with all features `0`. -/
theorem split_children_partition_witness :
    exRoot.grid.nzFeatures[0]? = some 1 ∧ (exRoot.grid.borders 0)[0]? = some (1 / 2) ∧
    (¬ ((exRoot.split 0 0 1 0).1.isInRegion (fun _ => 0) = .ok true ∧
        (exRoot.split 0 0 1 0).2.isInRegion (fun _ => 0) = .ok true) ∧
    (((exRoot.split 0 0 1 0).1.isInRegion (fun _ => 0) = .ok true ∨
        (exRoot.split 0 0 1 0).2.isInRegion (fun _ => 0) = .ok true) ↔
      exRoot.isInRegion (fun _ => 0) = .ok true)) :=
  ⟨rfl, rfl, split_children_partition exRoot 0 0 1 0 (fun _ => 0) 1 (1 / 2) rfl rfl⟩

/-- C16 (as stated, refuted): for a parent with the id `2^30` the assignments of
`initChildren`, made in `int32_t`, give the children the ids `-2147483648` and
`-2147483647`, not `2 · id` and `2 · id + 1`. -/
theorem child_ids_wrap_around :
    LinearObliviousTreeLeafV2.childIds exOverflowId = (-2147483648, -2147483647) ∧
    (LinearObliviousTreeLeafV2.childIds exOverflowId).1 ≠ 2 * exOverflowId ∧
    (LinearObliviousTreeLeafV2.childIds exOverflowId).2 ≠ 2 * exOverflowId + 1 := by
  decide

/-- C16 (amended): for a leaf `P` with an id below `2^30`, `P.split(f, c, ·)`
returns `(L, R)` with `L.id = 2 · P.id` and `R.id = 2 · P.id + 1`, and these are
the ids the assignments of `initChildren` give in `int32_t`; both children have
the used-feature set and the ordered list of `P`, with `origFeature(f)` inserted
(appended at the end of the list) exactly when it is not in the set of `P`, and
`nUsedFeatures` is one more exactly in that case; the path of `L` is the path of
`P` followed by `(f, c, true)`, that of `R` the path of `P` followed by
`(f, c, false)`. `P` is an argument of the function and stays as it is. -/
theorem split_children_fields (P : Leaf) (f c coord base : Nat) (hid : P.id < 2 ^ 30) :
    (P.split f c coord base).1.id = 2 * P.id ∧ (P.split f c coord base).2.id = 2 * P.id + 1 ∧
    LinearObliviousTreeLeafV2.childIds (P.id : ℤ)
      = (((P.split f c coord base).1.id : ℤ), ((P.split f c coord base).2.id : ℤ)) ∧
    (P.split f c coord base).1.usedFeatures
      = (if P.grid.origFeatureIndex f ∈ P.usedFeatures then P.usedFeatures
         else insert (P.grid.origFeatureIndex f) P.usedFeatures) ∧
    (P.split f c coord base).2.usedFeatures = (P.split f c coord base).1.usedFeatures ∧
    (P.split f c coord base).1.usedFeaturesInOrder
      = (if P.grid.origFeatureIndex f ∈ P.usedFeatures then P.usedFeaturesInOrder
         else P.usedFeaturesInOrder ++ [P.grid.origFeatureIndex f]) ∧
    (P.split f c coord base).2.usedFeaturesInOrder
      = (P.split f c coord base).1.usedFeaturesInOrder ∧
    (P.split f c coord base).1.nUsedFeatures
      = (if P.grid.origFeatureIndex f ∈ P.usedFeatures then P.nUsedFeatures
         else P.nUsedFeatures + 1) ∧
    (P.split f c coord base).2.nUsedFeatures = (P.split f c coord base).1.nUsedFeatures ∧
    (P.split f c coord base).1.splits = P.splits ++ [(f, c, true)] ∧
    (P.split f c coord base).2.splits = P.splits ++ [(f, c, false)] := by
  have h1 : (P.split f c coord base).1.id = 2 * P.id := rfl
  have h2 : (P.split f c coord base).2.id = 2 * P.id + 1 := rfl
  refine ⟨h1, h2, ?_, rfl, rfl, rfl, rfl, ?_, rfl, rfl, rfl⟩
  · rw [h1, h2]
    have hb : (P.id : ℤ) < 1073741824 := by
      have : P.id < 1073741824 := by
        have h30 : (2 : Nat) ^ 30 = 1073741824 := by norm_num
        omega
      exact_mod_cast this
    have h0 : (0 : ℤ) ≤ (P.id : ℤ) := Int.ofNat_nonneg _
    have e1 : int32 (2 * (P.id : ℤ)) = 2 * (P.id : ℤ) := by
      unfold int32
      omega
    have e2 : int32 (2 * (P.id : ℤ) + 1) = 2 * (P.id : ℤ) + 1 := by
      unfold int32
      omega
    unfold LinearObliviousTreeLeafV2.childIds
    rw [e1, e2]
    push_cast
    rfl
  · show P.nUsedFeatures + (1 - (if P.grid.origFeatureIndex f ∈ P.usedFeatures then 1 else 0)) = _
    by_cases h : P.grid.origFeatureIndex f ∈ P.usedFeatures <;> simp [h]

/-- The witness of C16 (amended): the root of `exLearner` (id `0`) split on its
only candidate: the children have the ids `0` and `1`. -/
theorem split_children_fields_witness :
    exRoot.id < 2 ^ 30 ∧
    (exRoot.split 0 0 1 0).1.id = 2 * exRoot.id ∧ (exRoot.split 0 0 1 0).2.id = 2 * exRoot.id + 1 ∧
    LinearObliviousTreeLeafV2.childIds (exRoot.id : ℤ)
      = (((exRoot.split 0 0 1 0).1.id : ℤ), ((exRoot.split 0 0 1 0).2.id : ℤ)) ∧
    (exRoot.split 0 0 1 0).1.splits = exRoot.splits ++ [(0, 0, true)] ∧
    (exRoot.split 0 0 1 0).2.splits = exRoot.splits ++ [(0, 0, false)] :=
  ⟨by decide, (split_children_fields exRoot 0 0 1 0 (by decide)).1,
    (split_children_fields exRoot 0 0 1 0 (by decide)).2.1,
    (split_children_fields exRoot 0 0 1 0 (by decide)).2.2.1,
    (split_children_fields exRoot 0 0 1 0 (by decide)).2.2.2.2.2.2.2.2.2.1,
    (split_children_fields exRoot 0 0 1 0 (by decide)).2.2.2.2.2.2.2.2.2.2⟩

theorem value_loop (x : Nat → ℚ) (w : Weights) (order : List Nat) (a : ℚ) (n : Nat) :
    order.foldl (fun (acc : ℚ × Nat) f => (acc.1 + x f * w.val acc.2, acc.2 + 1)) (a, n)
      = (a + ∑ i in Finset.range order.length, x (order.getD i 0) * w.val (n + i),
         n + order.length) := by
  induction order generalizing a n with
  | nil => simp
  | cons f rest ih =>
    simp only [List.foldl_cons, List.length_cons]
    rw [ih, Finset.sum_range_succ']
    simp only [List.getD_cons_succ, List.getD_cons_zero, Nat.add_zero]
    refine Prod.ext ?_ ?_
    · simp only
      have : ∀ i, n + 1 + i = n + (i + 1) := fun i => by omega
      simp only [this]
      ring
    · simp only
      omega

/-- C18: `Leaf::value(x)` throws `Not fitted` exactly when no weight column is
cached; with the cached column `w` it returns the sum over the positions `i` of
the ordered used features of `x[usedFeaturesInOrder[i]] · w[i]`. -/
theorem leaf_value_dot (l : Leaf) (x : Nat → ℚ) :
    (l.value x = .error Err.notFitted ↔ l.w = none) ∧
    ∀ w : Weights, l.w = some w →
      l.value x = .ok (∑ i in Finset.range l.usedFeaturesInOrder.length,
        x (l.usedFeaturesInOrder.getD i 0) * w.val i) := by
  unfold LinearObliviousTreeLeafV2.value
  cases hw : l.w with
  | none => simp
  | some w =>
    refine ⟨by simp, ?_⟩
    intro w2 h2
    injection h2 with h2
    subst h2
    simp only [value_loop, zero_add, Nat.zero_add]

/-- The witness of C18: the fitted leaf of `exTree`. -/
theorem leaf_value_dot_witness :
    ∃ l : Leaf, exTree.leaves[0]? = some l ∧ l.w = some { rows := 1, val := fun _ => 1 } ∧
      l.value (fun _ => 3) = .ok (∑ i in Finset.range l.usedFeaturesInOrder.length,
        (fun _ => (3 : ℚ)) (l.usedFeaturesInOrder.getD i 0) * (fun _ => (1 : ℚ)) i) :=
  ⟨_, rfl, rfl, (leaf_value_dot _ (fun _ => 3)).2 { rows := 1, val := fun _ => 1 } rfl⟩

/-- C19: when a first call of `fit()` on a leaf succeeds, a second call returns
the leaf as the first call left it (the same weight column), the weight column
is cached, and the histogram the leaf reads is the one it read before: `fit`
only reads the arena. -/
theorem leaf_fit_idempotent (l l1 : Leaf) (stats : Arena) (h : l.fit stats = .ok l1) :
    l1.fit stats = .ok l1 ∧ l1.w.isSome = true ∧ l1.hist stats = l.hist stats := by
  unfold LinearObliviousTreeLeafV2.fit at h
  cases hw : l.w with
  | some w =>
    rw [hw] at h
    simp only at h
    injection h with h
    subst h
    refine ⟨?_, by rw [hw]; rfl, rfl⟩
    unfold LinearObliviousTreeLeafV2.fit
    rw [hw]
  | none =>
    rw [hw] at h
    simp only at h
    cases hg : (l.hist stats).getW l.l2reg with
    | error e => rw [hg] at h; simp at h
    | ok w =>
      rw [hg] at h
      simp only at h
      injection h with h
      subst h
      exact ⟨rfl, rfl, rfl⟩

/-- The witness of C19: the first `fit()` of the left child of the root of
`exLearner` on the arena `exArena`. -/
theorem leaf_fit_idempotent_witness :
    ∃ l1 : Leaf, exChild.fit exArena = .ok l1 ∧ l1.fit exArena = .ok l1 ∧ l1.w.isSome = true ∧
      l1.hist exArena = exChild.hist exArena := by
  have hok : returned (exChild.fit exArena) = true := by decide!
  cases h : exChild.fit exArena with
  | error e => rw [h] at hok; exact absurd hok (by simp [returned])
  | ok l1 => exact ⟨l1, rfl, leaf_fit_idempotent exChild l1 exArena h⟩

/-- C20: `getW` and `printCnt` throw the "no features are used" error exactly
when `lastUsedFeatureId` is `-1`; in that case they throw it whatever the cells
hold (no bin is read) and return no weight. -/
theorem getW_printCnt_noFeatures (h : HistogramV2) (l2reg : ℚ) :
    (h.getW l2reg = .error Err.noFeatures ↔ h.lastUsedFeatureId = -1) ∧
    (h.printCnt = .error Err.noFeatures ↔ h.lastUsedFeatureId = -1) ∧
    (h.lastUsedFeatureId = -1 → ∀ cells : Nat → BinStat,
      HistogramV2.getW { h with hist := cells } l2reg = .error Err.noFeatures ∧
      HistogramV2.printCnt { h with hist := cells } = .error Err.noFeatures) := by
  refine ⟨?_, ?_, ?_⟩
  · unfold HistogramV2.getW
    by_cases hl : h.lastUsedFeatureId = -1
    · simp [hl]
    · simp only [hl, if_false, iff_false]
      split <;> simp
  · unfold HistogramV2.printCnt
    by_cases hl : h.lastUsedFeatureId = -1
    · simp [hl]
    · simp only [hl, if_false, iff_false]
      split <;> simp
  · intro hl cells
    simp [HistogramV2.getW, HistogramV2.printCnt, hl]

/-- The witness of C20: the histogram of the root of `exLearner`, which has used
no feature. -/
theorem getW_printCnt_noFeatures_witness :
    (exRoot.hist exArena).lastUsedFeatureId = -1 ∧
    HistogramV2.getW { exRoot.hist exArena with hist := fun _ => BinStat.zero 1 } 1
      = .error Err.noFeatures ∧
    HistogramV2.printCnt { exRoot.hist exArena with hist := fun _ => BinStat.zero 1 }
      = .error Err.noFeatures :=
  ⟨rfl, (getW_printCnt_noFeatures (exRoot.hist exArena) 1).2.2 rfl (fun _ => BinStat.zero 1)⟩

/-! ## The value of a tree -/

theorem isInRegionLoop_total (g : Grid) (x : Nat → ℚ) (splits : List (Nat × Nat × Bool))
    (h : ∀ s ∈ splits, (∃ o, g.nzFeatures[s.1]? = some o) ∧
      (∃ b, (g.borders s.1)[s.2.1]? = some b)) :
    ∃ b, isInRegionLoop g x splits = .ok b := by
  induction splits with
  | nil => exact ⟨true, rfl⟩
  | cons a rest ih =>
    obtain ⟨f, c, isLeft⟩ := a
    obtain ⟨⟨o, ho⟩, ⟨border, hb⟩⟩ := h (f, c, isLeft) (List.mem_cons_self _ _)
    simp only [isInRegionLoop, ho, hb]
    split_ifs
    · exact ⟨false, rfl⟩
    · exact ih (fun s hs => h s (List.mem_cons_of_mem _ hs))

theorem treeValueLoop_first (scale : ℚ) (x : Nat → ℚ) (ls : List Leaf)
    (hfit : ∀ l ∈ ls, l.w.isSome = true) (hreg : ∀ l ∈ ls, ∃ b, l.isInRegion x = .ok b)
    (k : Nat) (l : Leaf) (hk : ls[k]? = some l) (hl : l.isInRegion x = .ok true)
    (hfirst : ∀ (j : Nat) (l2 : Leaf), j < k → ls[j]? = some l2 → l2.isInRegion x ≠ .ok true) :
    ∃ v, l.value x = .ok v ∧ treeValueLoop scale x ls = .ok (scale * v) := by
  induction ls generalizing k with
  | nil => simp at hk
  | cons l0 rest ih =>
    cases k with
    | zero =>
      simp at hk
      subst hk
      have hw := hfit l0 (List.mem_cons_self _ _)
      simp only [treeValueLoop, hl]
      unfold LinearObliviousTreeLeafV2.value
      cases hlw : l0.w with
      | none => rw [hlw] at hw; simp at hw
      | some w => exact ⟨_, rfl, rfl⟩
    | succ k =>
      obtain ⟨b, hb⟩ := hreg l0 (List.mem_cons_self _ _)
      have h0 := hfirst 0 l0 (by omega) (by simp)
      have hb2 : b = false := by
        cases b with
        | false => rfl
        | true => exact absurd hb h0
      subst hb2
      simp only [treeValueLoop, hb]
      exact ih (fun l2 h2 => hfit l2 (List.mem_cons_of_mem _ h2))
        (fun l2 h2 => hreg l2 (List.mem_cons_of_mem _ h2)) k (by simpa using hk)
        (fun j l2 hj h2 => hfirst (j + 1) l2 (by omega) (by simpa using h2))

theorem treeValueLoop_error_iff (scale : ℚ) (x : Nat → ℚ) (ls : List Leaf)
    (hfit : ∀ l ∈ ls, l.w.isSome = true) (hreg : ∀ l ∈ ls, ∃ b, l.isInRegion x = .ok b) :
    (∃ e, treeValueLoop scale x ls = .error e) ↔ ∀ l ∈ ls, l.isInRegion x ≠ .ok true := by
  induction ls with
  | nil => simp [treeValueLoop]
  | cons l0 rest ih =>
    obtain ⟨b, hb⟩ := hreg l0 (List.mem_cons_self _ _)
    have ih2 := ih (fun l2 h2 => hfit l2 (List.mem_cons_of_mem _ h2))
      (fun l2 h2 => hreg l2 (List.mem_cons_of_mem _ h2))
    simp only [treeValueLoop, hb, List.mem_cons, forall_eq_or_imp]
    cases b with
    | false =>
      simp only [ih2]
      simp
    | true =>
      have hw := hfit l0 (List.mem_cons_self _ _)
      unfold LinearObliviousTreeLeafV2.value
      cases hlw : l0.w with
      | none => rw [hlw] at hw; simp at hw
      | some w => simp

/-- The scan of `LinearObliviousTreeV2::value`: a fitted leaf that accepts `x`
after every leaf before it has rejected `x` gives the value. -/
theorem treeValueLoop_scan (scale : ℚ) (x : Nat → ℚ) (ls : List Leaf)
    (hfit : ∀ l ∈ ls, l.w.isSome = true)
    (k : Nat) (l : Leaf) (hk : ls[k]? = some l) (hl : l.isInRegion x = .ok true)
    (hfirst : ∀ (j : Nat) (l2 : Leaf), j < k → ls[j]? = some l2 → l2.isInRegion x = .ok false) :
    ∃ v, l.value x = .ok v ∧ treeValueLoop scale x ls = .ok (scale * v) := by
  induction ls generalizing k with
  | nil => simp at hk
  | cons l0 rest ih =>
    cases k with
    | zero =>
      simp at hk
      subst hk
      have hw := hfit l0 (List.mem_cons_self _ _)
      simp only [treeValueLoop, hl]
      unfold LinearObliviousTreeLeafV2.value
      cases hlw : l0.w with
      | none => rw [hlw] at hw; simp at hw
      | some w => exact ⟨_, rfl, rfl⟩
    | succ k =>
      have h0 := hfirst 0 l0 (by omega) (by simp)
      simp only [treeValueLoop, h0]
      exact ih (fun l2 h2 => hfit l2 (List.mem_cons_of_mem _ h2)) k (by simpa using hk)
        (fun j l2 hj h2 => hfirst (j + 1) l2 (by omega) (by simpa using h2))

/-- The scan returns a value only through a leaf that accepts `x` after every
leaf before it has rejected `x`. -/
theorem treeValueLoop_ok_scan (scale : ℚ) (x : Nat → ℚ) (ls : List Leaf) (r : ℚ)
    (h : treeValueLoop scale x ls = .ok r) :
    ∃ (k : Nat) (l : Leaf), ls[k]? = some l ∧ l.isInRegion x = .ok true ∧
      (∀ (j : Nat) (l2 : Leaf), j < k → ls[j]? = some l2 → l2.isInRegion x = .ok false) ∧
      ∃ v, l.value x = .ok v ∧ r = scale * v := by
  induction ls with
  | nil => simp [treeValueLoop] at h
  | cons l0 rest ih =>
    cases hb : l0.isInRegion x with
    | error e => simp [treeValueLoop, hb] at h
    | ok b =>
      cases b with
      | true =>
        simp only [treeValueLoop, hb] at h
        cases hv : l0.value x with
        | error e => simp [hv] at h
        | ok v =>
          simp only [hv] at h
          refine ⟨0, l0, by simp, hb, fun j l2 hj _ => absurd hj (Nat.not_lt_zero j), v, hv, ?_⟩
          exact (Except.ok.inj h).symm
      | false =>
        simp only [treeValueLoop, hb] at h
        obtain ⟨k, l, hk, hl, hfirst, hv⟩ := ih h
        refine ⟨k + 1, l, by simpa using hk, hl, ?_, hv⟩
        intro j l2 hj h2
        cases j with
        | zero =>
          have : l0 = l2 := by simpa using h2
          rw [← this]
          exact hb
        | succ j => exact hfirst j l2 (by omega) (by simpa using h2)

/-- C17: for every tree whose leaves are all fitted and every `x`, the scan of
`LinearObliviousTreeV2::value` returns `scale` times the value of the first
leaf in list order that accepts `x` (the leaves before it reject `x`), and it
returns a value only in this way; when the region test of every leaf returns
(as in every tree `fit` returns), `value(x)` is `scale` times the value of the
first leaf in list order whose `isInRegion(x)` is true, and it throws exactly
when no leaf's `isInRegion(x)` is true. -/
theorem tree_value_first_match (t : LinearObliviousTreeV2) (x : Nat → ℚ)
    (hfit : ∀ l ∈ t.leaves, l.w.isSome = true) :
    (∀ (k : Nat) (l : Leaf), t.leaves[k]? = some l → l.isInRegion x = .ok true →
      (∀ (j : Nat) (l2 : Leaf), j < k → t.leaves[j]? = some l2 → l2.isInRegion x = .ok false) →
      ∃ v, l.value x = .ok v ∧ t.value x = .ok (t.scale * v)) ∧
    (∀ r, t.value x = .ok r →
      ∃ (k : Nat) (l : Leaf), t.leaves[k]? = some l ∧ l.isInRegion x = .ok true ∧
        (∀ (j : Nat) (l2 : Leaf), j < k → t.leaves[j]? = some l2 →
          l2.isInRegion x = .ok false) ∧
        ∃ v, l.value x = .ok v ∧ r = t.scale * v) ∧
    ((∀ l ∈ t.leaves, ∃ b, l.isInRegion x = .ok b) →
      (∀ (k : Nat) (l : Leaf), t.leaves[k]? = some l → l.isInRegion x = .ok true →
        (∀ (j : Nat) (l2 : Leaf), j < k → t.leaves[j]? = some l2 →
          l2.isInRegion x ≠ .ok true) →
        ∃ v, l.value x = .ok v ∧ t.value x = .ok (t.scale * v)) ∧
      ((∃ e, t.value x = .error e) ↔ ∀ l ∈ t.leaves, l.isInRegion x ≠ .ok true)) :=
  ⟨fun k l hk hl hfirst => treeValueLoop_scan t.scale x t.leaves hfit k l hk hl hfirst,
    fun r hr => treeValueLoop_ok_scan t.scale x t.leaves r hr,
    fun hreg =>
      ⟨fun k l hk hl hfirst => treeValueLoop_first t.scale x t.leaves hfit hreg k l hk hl hfirst,
        treeValueLoop_error_iff t.scale x t.leaves hfit hreg⟩⟩

/-- The witness of C17: the tree `exTwoLeafTree` at the sample with all features
`1`: the left leaf is tested first and rejects the sample (`1 > 1/2`), the right
leaf accepts it, and the tree returns `scale` times the value of the right
leaf. -/
theorem tree_value_first_match_witness :
    (∀ l ∈ exTwoLeafTree.leaves, l.w.isSome = true) ∧
    (∀ l ∈ exTwoLeafTree.leaves, ∃ b, l.isInRegion (fun _ => 1) = .ok b) ∧
    ∃ (l0 l1 : Leaf) (v : ℚ), exTwoLeafTree.leaves[0]? = some l0 ∧
      l0.splits = [(0, 0, true)] ∧ l0.isInRegion (fun _ => 1) = .ok false ∧
      exTwoLeafTree.leaves[1]? = some l1 ∧ l1.splits = [(0, 0, false)] ∧
      l1.isInRegion (fun _ => 1) = .ok true ∧
      l1.value (fun _ => 1) = .ok v ∧
      exTwoLeafTree.value (fun _ => 1) = .ok (exTwoLeafTree.scale * v) ∧
      ¬ ∃ e, exTwoLeafTree.value (fun _ => 1) = .error e := by
  have h1 : ∀ l ∈ exTwoLeafTree.leaves, l.w.isSome = true := by
    intro l hl
    simp only [exTwoLeafTree, List.mem_cons, List.mem_singleton, List.not_mem_nil, or_false] at hl
    rcases hl with hl | hl
    · subst hl
      rfl
    · subst hl
      rfl
  have r0 : ({ (exRoot.split 0 0 1 0).1 with
      w := some { rows := 2, val := fun _ => 1 } } : Leaf).isInRegion (fun _ => 1)
      = .ok false := by
    show isInRegionLoop exTreeGrid (fun _ => 1) [(0, 0, true)] = .ok false
    simp [isInRegionLoop, exTreeGrid]
    norm_num
  have r1 : ({ (exRoot.split 0 0 1 0).2 with
      w := some { rows := 2, val := fun i => (i : ℚ) + 1 } } : Leaf).isInRegion (fun _ => 1)
      = .ok true := by
    show isInRegionLoop exTreeGrid (fun _ => 1) [(0, 0, false)] = .ok true
    simp [isInRegionLoop, exTreeGrid]
    norm_num
  have h2 : ∀ l ∈ exTwoLeafTree.leaves, ∃ b, l.isInRegion (fun _ => 1) = .ok b := by
    intro l hl
    simp only [exTwoLeafTree, List.mem_cons, List.mem_singleton, List.not_mem_nil, or_false] at hl
    rcases hl with hl | hl
    · subst hl
      exact ⟨false, r0⟩
    · subst hl
      exact ⟨true, r1⟩
  refine ⟨h1, h2, ?_⟩
  obtain ⟨v, hv, ht⟩ := (tree_value_first_match exTwoLeafTree (fun _ => 1) h1).1 1 _ rfl r1
    (by
      intro j l2 hj hl2
      have hj0 : j = 0 := by omega
      subst hj0
      have : l2 = { (exRoot.split 0 0 1 0).1 with
          w := some { rows := 2, val := fun _ => 1 } } := (Option.some.inj hl2).symm
      rw [this]
      exact r0)
  refine ⟨_, _, v, rfl, rfl, r0, rfl, rfl, r1, hv, ht, ?_⟩
  intro he
  have hnone := (((tree_value_first_match exTwoLeafTree (fun _ => 1) h1).2.2 h2).2).mp he
  exact hnone _ (by simp [exTwoLeafTree]) r1

/-- The tree `exLeftLeafTree` holds the left leaf only: at the sample with all
features `1` its region test returns `false`, no leaf accepts the sample, and
`value` throws. -/
theorem exLeftLeafTree_value_throws :
    (∀ l ∈ exLeftLeafTree.leaves, l.isInRegion (fun _ => 1) = .ok false) ∧
    exLeftLeafTree.value (fun _ => 1) = .error Err.noRegion := by
  have r0 : ({ (exRoot.split 0 0 1 0).1 with
      w := some { rows := 2, val := fun _ => 1 } } : Leaf).isInRegion (fun _ => 1)
      = .ok false := by
    show isInRegionLoop exTreeGrid (fun _ => 1) [(0, 0, true)] = .ok false
    simp [isInRegionLoop, exTreeGrid]
    norm_num
  refine ⟨?_, ?_⟩
  · intro l hl
    simp only [exLeftLeafTree, List.mem_singleton] at hl
    subst hl
    exact r0
  · show treeValueLoop 2 (fun _ => 1)
      [{ (exRoot.split 0 0 1 0).1 with w := some { rows := 2, val := fun _ => 1 } }] = _
    simp only [treeValueLoop, r0]

/-! ## The partition pass: counts and marks -/

theorem samplesIn_succ (leafId : Nat → Nat) (m q : Nat) :
    samplesIn leafId (m + 1) q = samplesIn leafId m q + (if leafId m = q then 1 else 0) := by
  unfold samplesIn
  rw [Finset.range_succ, Finset.filter_insert]
  by_cases h : leafId m = q
  · rw [if_pos h, if_pos h, Finset.card_insert_of_not_mem]
    simp
  · rw [if_neg h, if_neg h, Nat.add_zero]

theorem samplesIn_congr (a b : Nat → Nat) (m q : Nat) (h : ∀ s, s < m → a s = b s) :
    samplesIn a m q = samplesIn b m q := by
  unfold samplesIn
  congr 1
  refine Finset.filter_congr (fun s hs => ?_)
  rw [h s (Finset.mem_range.mp hs)]

theorem samplesIn_children (old new : Nat → Nat) (m i : Nat)
    (h : ∀ s, s < m → new s = 2 * old s ∨ new s = 2 * old s + 1) :
    samplesIn new m (2 * i) + samplesIn new m (2 * i + 1) = samplesIn old m i := by
  induction m with
  | zero => simp [samplesIn]
  | succ m ih =>
    rw [samplesIn_succ, samplesIn_succ, samplesIn_succ, ← ih (fun s hs => h s (by omega))]
    have hm := h m (by omega)
    by_cases h1 : old m = i
    · rcases hm with hm | hm
      · have a1 : new m = 2 * i := by omega
        have a2 : ¬ new m = 2 * i + 1 := by omega
        rw [if_pos a1, if_neg a2, if_pos h1]
        omega
      · have a1 : ¬ new m = 2 * i := by omega
        have a2 : new m = 2 * i + 1 := by omega
        rw [if_neg a1, if_pos a2, if_pos h1]
        omega
    · have a1 : ¬ new m = 2 * i := by omega
      have a2 : ¬ new m = 2 * i + 1 := by omega
      rw [if_neg a1, if_neg a2, if_neg h1]
      omega

/-- The loop of the partition pass over the samples: the leaf ids of the first
`m` samples are the routed ones, and every counter has grown by the number of
those samples that are routed to it. -/
theorem partition_moved (col : Nat → ℚ) (border : ℚ) (L0 : Nat → Nat) (C0 : Nat → ℤ) (m : Nat) :
    (∀ s, ((List.range m).foldl
        (fun (st : (Nat → Nat) × (Nat → ℤ)) i =>
          (Function.update st.1 i (if col i ≤ border then 2 * st.1 i else 2 * st.1 i + 1),
           Function.update st.2
            ((Function.update st.1 i (if col i ≤ border then 2 * st.1 i else 2 * st.1 i + 1)) i)
            (st.2 ((Function.update st.1 i
              (if col i ≤ border then 2 * st.1 i else 2 * st.1 i + 1)) i) + 1)))
        (L0, C0)).1 s = routedLeafId col border L0 m s) ∧
    ∀ q, ((List.range m).foldl
        (fun (st : (Nat → Nat) × (Nat → ℤ)) i =>
          (Function.update st.1 i (if col i ≤ border then 2 * st.1 i else 2 * st.1 i + 1),
           Function.update st.2
            ((Function.update st.1 i (if col i ≤ border then 2 * st.1 i else 2 * st.1 i + 1)) i)
            (st.2 ((Function.update st.1 i
              (if col i ≤ border then 2 * st.1 i else 2 * st.1 i + 1)) i) + 1)))
        (L0, C0)).2 q
      = C0 q + (samplesIn (fun s => if col s ≤ border then 2 * L0 s else 2 * L0 s + 1) m q : ℤ) := by
  induction m with
  | zero => simp [routedLeafId, samplesIn]
  | succ m ih =>
    obtain ⟨ih1, ih2⟩ := ih
    rw [List.range_succ, List.foldl_append]
    simp only [List.foldl_cons, List.foldl_nil]
    have hm : routedLeafId col border L0 m m = L0 m := by simp [routedLeafId]
    refine ⟨?_, ?_⟩
    · intro s
      by_cases hs : s = m
      · subst hs
        rw [Function.update_same, ih1, hm]
        simp [routedLeafId]
      · rw [Function.update_noteq hs, ih1]
        simp only [routedLeafId]
        by_cases h1 : s < m
        · simp [h1, Nat.lt_succ_of_lt h1]
        · have : ¬ s < m + 1 := by omega
          simp [h1, this]
    · intro q
      rw [Function.update_same, ih1, hm, samplesIn_succ]
      by_cases hq : q = (if col m ≤ border then 2 * L0 m else 2 * L0 m + 1)
      · rw [← hq, Function.update_same, ih2]
        simp only [if_true]
        push_cast
        ring
      · rw [Function.update_noteq hq, ih2, if_neg (fun h => hq h.symm)]
        simp

theorem partition_zeroed (n : Nat) (c : Nat → ℤ) (i : Nat) (hi : i < n) :
    ((List.range n).foldl
      (fun cnt i => Function.update (Function.update cnt (2 * i) 0) (2 * i + 1) 0) c) (2 * i) = 0 ∧
    ((List.range n).foldl
      (fun cnt i => Function.update (Function.update cnt (2 * i) 0) (2 * i + 1) 0) c) (2 * i + 1)
      = 0 := by
  induction n with
  | zero => omega
  | succ n ih =>
    rw [List.range_succ, List.foldl_append]
    simp only [List.foldl_cons, List.foldl_nil]
    by_cases hin : i = n
    · subst hin
      have a3 : 2 * i ≠ 2 * i + 1 := by omega
      simp [Function.update_same, Function.update_noteq a3]
    · have a1 : 2 * i + 1 ≠ 2 * n + 1 := by omega
      have a2 : 2 * i + 1 ≠ 2 * n := by omega
      have a3 : 2 * i ≠ 2 * n + 1 := by omega
      have a4 : 2 * i ≠ 2 * n := by omega
      rw [Function.update_noteq a1, Function.update_noteq a2, Function.update_noteq a3,
        Function.update_noteq a4]
      exact ih (by omega)

theorem partition_counts (lr : Learner) (ds : DataSet) (n f : Nat) (border : ℚ) (i : Nat)
    (hi : i < n) :
    (lr.partition ds n f border).samplesLeavesCnt (2 * i)
      = (samplesIn (lr.partition ds n f border).leafId ds.samplesCount (2 * i) : ℤ) ∧
    (lr.partition ds n f border).samplesLeavesCnt (2 * i + 1)
      = (samplesIn (lr.partition ds n f border).leafId ds.samplesCount (2 * i + 1) : ℤ) := by
  have hl : ∀ q, samplesIn (lr.partition ds n f border).leafId ds.samplesCount q
      = samplesIn (fun s => if (lr.fColumnsRefs.getD f (fun _ => 0)) s ≤ border then 2 * lr.leafId s
          else 2 * lr.leafId s + 1) ds.samplesCount q := by
    intro q
    refine samplesIn_congr _ _ _ _ (fun s hs => ?_)
    rw [partition_leafId]
    simp [routedLeafId, hs]
  obtain ⟨z1, z2⟩ := partition_zeroed n lr.samplesLeavesCnt i hi
  have key := (partition_moved (lr.fColumnsRefs.getD f (fun _ => 0)) border lr.leafId
    ((List.range n).foldl
      (fun cnt i => Function.update (Function.update cnt (2 * i) 0) (2 * i + 1) 0)
      lr.samplesLeavesCnt) ds.samplesCount).2
  rw [hl, hl]
  refine ⟨?_, ?_⟩
  · refine (key (2 * i)).trans ?_
    rw [z1, zero_add]
  · refine (key (2 * i + 1)).trans ?_
    rw [z2, zero_add]

theorem fullUpdate_fold_left (cnt : Nat → ℤ) (fu0 : Nat → Bool) (n p : Nat) (hp : p < n) :
    ((List.range n).foldl
      (fun (fu : Nat → Bool) i =>
        Function.update (Function.update fu (2 * i) (decide (cnt (2 * i) ≤ cnt (2 * i + 1))))
          (2 * i + 1)
          (!((Function.update fu (2 * i) (decide (cnt (2 * i) ≤ cnt (2 * i + 1)))) (2 * i))))
      fu0) (2 * p) = decide (cnt (2 * p) ≤ cnt (2 * p + 1)) := by
  induction n with
  | zero => omega
  | succ n ih =>
    rw [List.range_succ, List.foldl_append]
    simp only [List.foldl_cons, List.foldl_nil]
    by_cases hpn : p = n
    · subst hpn
      have a3 : 2 * p ≠ 2 * p + 1 := by omega
      rw [Function.update_noteq a3, Function.update_same]
    · have a3 : 2 * p ≠ 2 * n + 1 := by omega
      have a4 : 2 * p ≠ 2 * n := by omega
      rw [Function.update_noteq a3, Function.update_noteq a4]
      exact ih (by omega)

theorem partition_fullUpdate_left (lr : Learner) (ds : DataSet) (n f : Nat) (border : ℚ) (p : Nat)
    (hp : p < n) :
    (lr.partition ds n f border).fullUpdate (2 * p)
      = decide ((lr.partition ds n f border).samplesLeavesCnt (2 * p)
          ≤ (lr.partition ds n f border).samplesLeavesCnt (2 * p + 1)) :=
  fullUpdate_fold_left (lr.partition ds n f border).samplesLeavesCnt lr.fullUpdate n p hp

/-- C13: after the partition pass over `n` parent leaves, for every parent `i`,
with `n_L` and `n_R` the numbers of samples of the dataset whose new leaf id is
`2i` and `2i + 1`: the counters of the two children are `n_L` and `n_R`,
`n_L + n_R` is the number of samples that were in leaf `i`, the left child is
marked for the full update exactly when `n_L ≤ n_R`, the right child is marked
exactly when the left one is not, and the marked child has no more samples than
its sibling. -/
theorem partition_marks_smaller (lr : Learner) (ds : DataSet) (n f : Nat) (border : ℚ) (i : Nat)
    (hi : i < n) :
    (lr.partition ds n f border).samplesLeavesCnt (2 * i)
      = (samplesIn (lr.partition ds n f border).leafId ds.samplesCount (2 * i) : ℤ) ∧
    (lr.partition ds n f border).samplesLeavesCnt (2 * i + 1)
      = (samplesIn (lr.partition ds n f border).leafId ds.samplesCount (2 * i + 1) : ℤ) ∧
    samplesIn (lr.partition ds n f border).leafId ds.samplesCount (2 * i)
      + samplesIn (lr.partition ds n f border).leafId ds.samplesCount (2 * i + 1)
      = samplesIn lr.leafId ds.samplesCount i ∧
    (lr.partition ds n f border).fullUpdate (2 * i)
      = decide (samplesIn (lr.partition ds n f border).leafId ds.samplesCount (2 * i)
          ≤ samplesIn (lr.partition ds n f border).leafId ds.samplesCount (2 * i + 1)) ∧
    (lr.partition ds n f border).fullUpdate (2 * i + 1)
      = !((lr.partition ds n f border).fullUpdate (2 * i)) ∧
    ((lr.partition ds n f border).fullUpdate (2 * i) = true →
      samplesIn (lr.partition ds n f border).leafId ds.samplesCount (2 * i)
        ≤ samplesIn (lr.partition ds n f border).leafId ds.samplesCount (2 * i + 1)) ∧
    ((lr.partition ds n f border).fullUpdate (2 * i + 1) = true →
      samplesIn (lr.partition ds n f border).leafId ds.samplesCount (2 * i + 1)
        ≤ samplesIn (lr.partition ds n f border).leafId ds.samplesCount (2 * i)) := by
  obtain ⟨c1, c2⟩ := partition_counts lr ds n f border i hi
  have hfl := partition_fullUpdate_left lr ds n f border i hi
  have hfr := partition_fullUpdate lr ds n f border i hi
  rw [c1, c2] at hfl
  have hfl2 : (lr.partition ds n f border).fullUpdate (2 * i)
      = decide (samplesIn (lr.partition ds n f border).leafId ds.samplesCount (2 * i)
          ≤ samplesIn (lr.partition ds n f border).leafId ds.samplesCount (2 * i + 1)) := by
    rw [hfl]
    simp only [Nat.cast_le]
  refine ⟨c1, c2, ?_, hfl2, hfr, ?_, ?_⟩
  · refine samplesIn_children _ _ _ _ (fun s hs => ?_)
    rw [partition_leafId]
    simp only [routedLeafId, hs, if_true]
    split_ifs
    · exact Or.inl rfl
    · exact Or.inr rfl
  · intro h
    rw [hfl2] at h
    exact of_decide_eq_true h
  · intro h
    rw [hfr, hfl2] at h
    have h2 : ¬ (samplesIn (lr.partition ds n f border).leafId ds.samplesCount (2 * i)
        ≤ samplesIn (lr.partition ds n f border).leafId ds.samplesCount (2 * i + 1)) := by
      intro hle
      rw [decide_eq_true hle] at h
      exact Bool.noConfusion h
    omega

/-- The witness of C13: the partition of the two samples of `exDs` at the root of
`exLearner` (one parent, border `1/2`): one sample goes to each child, the left
child is marked. -/
theorem partition_marks_smaller_witness :
    0 < 1 ∧
    ((exLearner.cacheDs exDs).partition exDs 1 0 (1 / 2)).fullUpdate (2 * 0)
      = decide (samplesIn ((exLearner.cacheDs exDs).partition exDs 1 0 (1 / 2)).leafId
          exDs.samplesCount (2 * 0)
        ≤ samplesIn ((exLearner.cacheDs exDs).partition exDs 1 0 (1 / 2)).leafId
          exDs.samplesCount (2 * 0 + 1)) ∧
    ((exLearner.cacheDs exDs).partition exDs 1 0 (1 / 2)).fullUpdate (2 * 0 + 1)
      = !(((exLearner.cacheDs exDs).partition exDs 1 0 (1 / 2)).fullUpdate (2 * 0)) :=
  ⟨Nat.zero_lt_one,
    (partition_marks_smaller (exLearner.cacheDs exDs) exDs 1 0 (1 / 2) 0 Nat.zero_lt_one).2.2.2.1,
    (partition_marks_smaller (exLearner.cacheDs exDs) exDs 1 0 (1 / 2) 0 Nat.zero_lt_one).2.2.2.2.1⟩

/-! ## The split search of a depth -/

theorem degenerate_splitScore (h : HistogramV2) (fId condId : Nat) (l2reg traceReg : ℚ)
    (hd : h.degenerate fId condId = true) :
    h.splitScore fId condId l2reg traceReg = (1000000, 1000000) := by
  unfold HistogramV2.degenerate at hd
  have hd2 := of_decide_eq_true hd
  unfold HistogramV2.splitScore
  simp only
  rw [if_pos hd2]

theorem total_degenerate (leaves : List Leaf) (stats : Arena) (f c : Nat)
    (hd : ∀ l ∈ leaves, (l.hist stats).degenerate f c = true) :
    totalSplitScore leaves stats f c = 2000000 * (leaves.length : ℚ) := by
  have key : ∀ (ls : List Leaf) (a : ℚ), (∀ l ∈ ls, (l.hist stats).degenerate f c = true) →
      ls.foldl (fun acc l => acc + l.splitScore stats f c) a = a + 2000000 * (ls.length : ℚ) := by
    intro ls
    induction ls with
    | nil => intro a _; simp
    | cons l rest ih =>
      intro a hall
      simp only [List.foldl_cons, List.length_cons]
      rw [ih _ (fun l2 h2 => hall l2 (List.mem_cons_of_mem _ h2))]
      have hs : l.splitScore stats f c = 2000000 := by
        unfold LinearObliviousTreeLeafV2.splitScore
        simp only
        rw [degenerate_splitScore _ _ _ _ _ (hall l (List.mem_cons_self _ _))]
        norm_num
      rw [hs]
      push_cast
      ring
  unfold totalSplitScore
  rw [key leaves 0 hd, zero_add]

/-- C11 (amended): a candidate `(f, c)` that is degenerate in every
current leaf (`c ≠ 0` and no sample in the bin) totals the sentinel `2 · 10⁶` per
leaf, and the split search does not select it when some candidate of the table
totals less than that. -/
theorem degenerate_not_selected_below_sentinel (leaves : List Leaf) (stats : Arena)
    (fCount : Nat) (conditionsCount : Nat → Nat) (f c : Nat)
    (hd : ∀ l ∈ leaves, (l.hist stats).degenerate f c = true)
    (f2 c2 : Nat) (hf2 : f2 < fCount) (hc2 : c2 < conditionsCount f2)
    (hlt : totalSplitScore leaves stats f2 c2 < 2000000 * (leaves.length : ℚ)) :
    totalSplitScore leaves stats f c = 2000000 * (leaves.length : ℚ) ∧
    ¬ ((findBestSplit fCount conditionsCount (totalSplitScore leaves stats)).splitFId = (f : ℤ) ∧
       (findBestSplit fCount conditionsCount (totalSplitScore leaves stats)).splitCond = (c : ℤ)) := by
  have htot := total_degenerate leaves stats f c hd
  refine ⟨htot, ?_⟩
  rintro ⟨hsf, hsc⟩
  obtain ⟨_, hle, hsel⟩ :=
    findBestSplit_inv fCount conditionsCount (totalSplitScore leaves stats)
  have hbest := hle f2 c2 hc2 (Or.inl hf2)
  rcases hsel with ⟨h1, _, _⟩ | ⟨f3, c3, h1, h2, _, _, h5, _, _⟩
  · rw [h1] at hsf
    omega
  · rw [h1] at hsf
    rw [h2] at hsc
    have e1 : f3 = f := by exact_mod_cast hsf
    have e2 : c3 = c := by exact_mod_cast hsc
    subst e1
    subst e2
    rw [h5, htot] at hbest
    exact absurd hlt (not_lt.mpr hbest)

/-- The witness of C11 (amended): the first depth of `fit` on `exFarDs` without
trace regulariser; the candidate `(0, 1)` is degenerate in the root and `(0, 0)`
totals less than the sentinel. -/
theorem degenerate_not_selected_below_sentinel_witness :
    (∀ l ∈ (exFarRoot 0).leaves,
      (l.hist (correlated exFarDs exFarBds exYs (fun _ => 0) (exFarRoot 0)).stats).degenerate 0 1
        = true) ∧
    0 < 1 ∧ 0 < (fun _ : Nat => 2) 0 ∧
    totalSplitScore (exFarRoot 0).leaves
      (correlated exFarDs exFarBds exYs (fun _ => 0) (exFarRoot 0)).stats 0 0
      < 2000000 * ((exFarRoot 0).leaves.length : ℚ) ∧
    ¬ ((findBestSplit 1 (fun _ => 2) (totalSplitScore (exFarRoot 0).leaves
          (correlated exFarDs exFarBds exYs (fun _ => 0) (exFarRoot 0)).stats)).splitFId
        = ((0 : Nat) : ℤ) ∧
       (findBestSplit 1 (fun _ => 2) (totalSplitScore (exFarRoot 0).leaves
          (correlated exFarDs exFarBds exYs (fun _ => 0) (exFarRoot 0)).stats)).splitCond
        = ((1 : Nat) : ℤ)) := by
  have h1 : ∀ l ∈ (exFarRoot 0).leaves,
      (l.hist (correlated exFarDs exFarBds exYs (fun _ => 0) (exFarRoot 0)).stats).degenerate 0 1
        = true := by
    intro l hl
    have hl2 : l = (exFarRoot 0).leaves[0] := by
      have : (exFarRoot 0).leaves = [(exFarRoot 0).leaves[0]] := rfl
      rw [this] at hl
      exact List.mem_singleton.mp hl
    subst hl2
    decide!
  have h2 : totalSplitScore (exFarRoot 0).leaves
      (correlated exFarDs exFarBds exYs (fun _ => 0) (exFarRoot 0)).stats 0 0
      < 2000000 * ((exFarRoot 0).leaves.length : ℚ) := by decide!
  exact ⟨h1, Nat.zero_lt_one, Nat.zero_lt_two, h2,
    (degenerate_not_selected_below_sentinel (exFarRoot 0).leaves
      (correlated exFarDs exFarBds exYs (fun _ => 0) (exFarRoot 0)).stats 1 (fun _ => 2) 0 1 h1
      0 0 Nat.zero_lt_one Nat.zero_lt_two h2).2⟩

/-- C11 (as stated, refuted): in the first depth of `fit` on `exFarDs`
with trace regulariser `1`, the candidate `(0, 1)` is degenerate in the only
leaf (no sample is in bin `1`), the other candidate totals more than the
sentinel, and the split search selects `(0, 1)`; the split step returns. -/
theorem degenerate_candidate_selected :
    (∃ root : Leaf, (exFarRoot 1).leaves = [root] ∧
      (root.hist (correlated exFarDs exFarBds exYs (fun _ => 0) (exFarRoot 1)).stats).degenerate
        0 1 = true) ∧
    (selectedSplit exFarDs exFarBds exYs (fun _ => 0) (exFarRoot 1)).splitFId = 0 ∧
    (selectedSplit exFarDs exFarBds exYs (fun _ => 0) (exFarRoot 1)).splitCond = 1 ∧
    returned (depthStep exFarDs exFarBds exYs (fun _ => 0) (exFarRoot 1)) = true :=
  ⟨⟨_, rfl, by decide!⟩, by decide!, by decide!, by decide!⟩

theorem depthStep_searched (ds : DataSet) (bds : BinarizedDataSet) (ys : Nat → ℚ)
    (blockOf : Nat → Nat) (st st2 : FitState) (h : depthStep ds bds ys blockOf st = .ok st2) :
    ¬ ((selectedSplit ds bds ys blockOf st).splitFId < 0 ∨
       (selectedSplit ds bds ys blockOf st).splitCond < 0) := by
  unfold depthStep at h
  cases hl : st.leaves with
  | nil => rw [hl] at h; simp at h
  | cons l0 rest =>
    rw [hl] at h
    simp only at h
    rw [← hl] at h
    have hcor : correlated ds bds ys blockOf st
        = (st.lr.correlate ds bds ys blockOf l0.nUsedFeatures).feedNewCorrelations
            st.leaves l0.nUsedFeatures := by
      unfold correlated
      rw [hl]
    rw [← hcor] at h
    change GreedyLinearObliviousTreeLearnerV2.splitStep _ ds bds ys blockOf st.leaves
      l0.nUsedFeatures (selectedSplit ds bds ys blockOf st).splitFId
      (selectedSplit ds bds ys blockOf st).splitCond = _ at h
    unfold GreedyLinearObliviousTreeLearnerV2.splitStep at h
    intro hneg
    rw [if_pos hneg] at h
    exact absurd h (by simp)

/-- C12 (amended): the split search of a depth scores every
(feature, condition) pair of the grid, selected before or not; when the depth
returns, the selected pair is a pair of the grid whose total is at most the total
of every pair of the grid. -/
theorem split_search_scores_every_pair (ds : DataSet) (bds : BinarizedDataSet) (ys : Nat → ℚ)
    (blockOf : Nat → Nat) (st st2 : FitState) (h : depthStep ds bds ys blockOf st = .ok st2) :
    ∃ f c : Nat,
      (selectedSplit ds bds ys blockOf st).splitFId = (f : ℤ) ∧
      (selectedSplit ds bds ys blockOf st).splitCond = (c : ℤ) ∧
      f < st.lr.fCount ∧ c < st.lr.grid.conditionsCount f ∧
      ∀ f2 c2, f2 < st.lr.fCount → c2 < st.lr.grid.conditionsCount f2 →
        totalSplitScore st.leaves (correlated ds bds ys blockOf st).stats f c
          ≤ totalSplitScore st.leaves (correlated ds bds ys blockOf st).stats f2 c2 := by
  have hneg := depthStep_searched ds bds ys blockOf st st2 h
  obtain ⟨hgr, hfc, _⟩ := fields_of_erase _ _ (correlated_erase ds bds ys blockOf st)
  have hinv : SearchInv (correlated ds bds ys blockOf st).grid.conditionsCount
      (totalSplitScore st.leaves (correlated ds bds ys blockOf st).stats)
      (selectedSplit ds bds ys blockOf st) (correlated ds bds ys blockOf st).fCount 0 :=
    findBestSplit_inv _ _ _
  rw [hgr, hfc] at hinv
  obtain ⟨_, hle, hsel⟩ := hinv
  rcases hsel with ⟨h1, _, _⟩ | ⟨f, c, h1, h2, h3, h4, h5, _, _⟩
  · exact absurd (Or.inl (by rw [h1]; decide)) hneg
  · have hf : f < st.lr.fCount := by
      rcases h4 with h | ⟨_, h⟩
      · exact h
      · omega
    refine ⟨f, c, h1, h2, hf, h3, ?_⟩
    intro f2 c2 hf2 hc2
    rw [← h5]
    exact hle f2 c2 hc2 (Or.inl hf2)

/-- The witness of C12 (amended): the first depth of `fit` of `exLearner` on
`exDs`. -/
theorem split_search_scores_every_pair_witness :
    ∃ (st2 : FitState) (f c : Nat),
      depthStep exDs exBds exYs (fun _ => 0) (exLearner.rootState exDs exBds exYs (fun _ => 0))
        = .ok st2 ∧
      (selectedSplit exDs exBds exYs (fun _ => 0)
        (exLearner.rootState exDs exBds exYs (fun _ => 0))).splitFId = (f : ℤ) ∧
      (selectedSplit exDs exBds exYs (fun _ => 0)
        (exLearner.rootState exDs exBds exYs (fun _ => 0))).splitCond = (c : ℤ) := by
  have hok : returned (depthStep exDs exBds exYs (fun _ => 0)
      (exLearner.rootState exDs exBds exYs (fun _ => 0))) = true := by decide!
  cases h : depthStep exDs exBds exYs (fun _ => 0)
      (exLearner.rootState exDs exBds exYs (fun _ => 0)) with
  | error e => rw [h] at hok; exact absurd hok (by simp [returned])
  | ok st2 =>
    obtain ⟨f, c, h1, h2, _⟩ := split_search_scores_every_pair exDs exBds exYs (fun _ => 0)
      (exLearner.rootState exDs exBds exYs (fun _ => 0)) st2 h
    exact ⟨st2, f, c, rfl, h1, h2⟩

theorem reselects_spec (lr : Learner) (ds : DataSet) (bds : BinarizedDataSet) (ys : Nat → ℚ)
    (blockOf : Nat → Nat) (h : reselects lr ds bds ys blockOf = true) :
    ∃ st1 : FitState,
      depthStep ds bds ys blockOf (lr.rootState ds bds ys blockOf) = .ok st1 ∧
      returned (depthStep ds bds ys blockOf st1) = true ∧
      (selectedSplit ds bds ys blockOf st1).splitFId
        = (selectedSplit ds bds ys blockOf (lr.rootState ds bds ys blockOf)).splitFId ∧
      (selectedSplit ds bds ys blockOf st1).splitCond
        = (selectedSplit ds bds ys blockOf (lr.rootState ds bds ys blockOf)).splitCond := by
  unfold reselects at h
  cases hd : depthStep ds bds ys blockOf (lr.rootState ds bds ys blockOf) with
  | error e => rw [hd] at h; exact absurd h (by simp)
  | ok st1 =>
    rw [hd] at h
    simp only [Bool.and_eq_true, decide_eq_true_eq] at h
    exact ⟨st1, rfl, h.1.1, h.1.2, h.2⟩

/-- C12 (as stated, refuted): in a `fit` call of depth `2` on `exDs`
(which returns), the second depth selects the pair `(0, 0)` that the first depth
selected. -/
theorem same_pair_selected_twice :
    returned (exDeepLearner.fit exDs exBds exYs (fun _ => 0) 1) = true ∧
    (selectedSplit exDs exBds exYs (fun _ => 0)
      (exDeepLearner.rootState exDs exBds exYs (fun _ => 0))).splitFId = 0 ∧
    (selectedSplit exDs exBds exYs (fun _ => 0)
      (exDeepLearner.rootState exDs exBds exYs (fun _ => 0))).splitCond = 0 ∧
    ∃ st1 : FitState,
      depthStep exDs exBds exYs (fun _ => 0) (exDeepLearner.rootState exDs exBds exYs (fun _ => 0))
        = .ok st1 ∧
      returned (depthStep exDs exBds exYs (fun _ => 0) st1) = true ∧
      (selectedSplit exDs exBds exYs (fun _ => 0) st1).splitFId
        = (selectedSplit exDs exBds exYs (fun _ => 0)
            (exDeepLearner.rootState exDs exBds exYs (fun _ => 0))).splitFId ∧
      (selectedSplit exDs exBds exYs (fun _ => 0) st1).splitCond
        = (selectedSplit exDs exBds exYs (fun _ => 0)
            (exDeepLearner.rootState exDs exBds exYs (fun _ => 0))).splitCond :=
  ⟨by decide!, by decide!, by decide!,
    reselects_spec exDeepLearner exDs exBds exYs (fun _ => 0) (by decide!)⟩

/-! ## The levels of the tree -/

/-- An iteration of the growth loop that returns has split every leaf by the
pair its split search selected. -/
theorem depthStep_unfold_selected (ds : DataSet) (bds : BinarizedDataSet) (ys : Nat → ℚ)
    (blockOf : Nat → Nat) (st st2 : FitState) (hidx : LeavesIndexed st.lr.grid st.leaves)
    (h : depthStep ds bds ys blockOf st = .ok st2) :
    ∃ (l0 : Leaf) (f c : Nat) (border : ℚ), st.leaves[0]? = some l0 ∧
      (selectedSplit ds bds ys blockOf st).splitFId = (f : ℤ) ∧
      (selectedSplit ds bds ys blockOf st).splitCond = (c : ℤ) ∧
      f < st.lr.fCount ∧
      c < st.lr.grid.conditionsCount f ∧ (st.lr.grid.borders f)[c]? = some border ∧
      st2.leaves = childrenOf st.leaves f c (st.lr.curLeavesCoord ^^^ 1) ∧
      st2.lr = { splitLearner ds bds ys blockOf st l0.nUsedFeatures f c border with
        curLeavesCoord := st.lr.curLeavesCoord ^^^ 1 } := by
  have ec := correlated_erase ds bds ys blockOf st
  unfold depthStep at h
  cases hl : st.leaves with
  | nil => rw [hl] at h; simp at h
  | cons l0 rest =>
    rw [hl] at h
    simp only at h
    rw [← hl] at h
    have hcor : correlated ds bds ys blockOf st
        = (st.lr.correlate ds bds ys blockOf l0.nUsedFeatures).feedNewCorrelations
            st.leaves l0.nUsedFeatures := by
      unfold correlated
      rw [hl]
    rw [← hcor] at h
    have hsel : selectedSplit ds bds ys blockOf st
        = findBestSplit (correlated ds bds ys blockOf st).fCount
            (correlated ds bds ys blockOf st).grid.conditionsCount
            (totalSplitScore st.leaves (correlated ds bds ys blockOf st).stats) := rfl
    generalize hlr2 : correlated ds bds ys blockOf st = lr2 at h ec hsel
    obtain ⟨hgr, hfc, hcur, hcol, _⟩ := fields_of_erase _ _ ec
    have hinv := findBestSplit_inv lr2.fCount lr2.grid.conditionsCount
      (totalSplitScore st.leaves lr2.stats)
    generalize findBestSplit lr2.fCount lr2.grid.conditionsCount
      (totalSplitScore st.leaves lr2.stats) = best at h hinv hsel
    unfold GreedyLinearObliviousTreeLearnerV2.splitStep at h
    by_cases hneg : best.splitFId < 0 ∨ best.splitCond < 0
    · rw [if_pos hneg] at h
      exact absurd h (by simp)
    · rw [if_neg hneg] at h
      obtain ⟨_, _, hsl⟩ := hinv
      rcases hsl with ⟨h1, _, _⟩ | ⟨f, c, h1, h2, h3, h4, _⟩
      · exact absurd (Or.inl (by rw [h1]; decide)) hneg
      · have hfn : best.splitFId.toNat = f := by rw [h1]; simp
        have hcn : best.splitCond.toNat = c := by rw [h2]; simp
        rw [hfn, hcn] at h
        have hf : f < lr2.fCount := by
          rcases h4 with h | ⟨_, h⟩
          · exact h
          · omega
        cases hb : (lr2.grid.borders f)[c]? with
        | none => rw [hb] at h; exact absurd h (by simp)
        | some border =>
          rw [hb] at h
          simp only at h
          have hnew : derefLeaves ((lr2.partition ds st.leaves.length f border).initNewLeaves
              st.leaves f c) = .ok (childrenOf st.leaves f c (lr2.curLeavesCoord ^^^ 1)) := by
            rw [initNewLeaves_eq _ _ _ _ (fun j l hj => (hidx j l hj).1), derefLeaves_map_some]
            rfl
          rw [hnew] at h
          simp only at h
          injection h with h
          subst h
          refine ⟨l0, f, c, border, by simp, by rw [hsel]; exact h1, by rw [hsel]; exact h2,
            hfc ▸ hf, hgr ▸ h3, hgr ▸ hb, ?_, ?_⟩
          · show childrenOf _ _ _ _ = _
            rw [hcur, hl]
          · have e7 := buildChildren_erase ((lr2.partition ds st.leaves.length f border).useFeatureAndReset
              (childrenOf st.leaves f c (lr2.curLeavesCoord ^^^ 1)).length f) ds bds ys blockOf
              st.leaves (childrenOf st.leaves f c (lr2.curLeavesCoord ^^^ 1)) l0.nUsedFeatures
            have c7 := (fields_of_erase _ _ e7).2.2.1
            have c7b : (GreedyLinearObliviousTreeLearnerV2.buildChildren
                ((lr2.partition ds st.leaves.length f border).useFeatureAndReset
                  (childrenOf st.leaves f c (lr2.curLeavesCoord ^^^ 1)).length f) ds bds ys blockOf
                st.leaves (childrenOf st.leaves f c (lr2.curLeavesCoord ^^^ 1))
                l0.nUsedFeatures).curLeavesCoord = st.lr.curLeavesCoord := by
              rw [c7]
              exact hcur
            simp only [splitLearner, hlr2]
            rw [c7b]

/-- The used features and the leaf ids of the learner after the statistics
passes of a split step. -/
theorem splitLearner_state (ds : DataSet) (bds : BinarizedDataSet) (ys : Nat → ℚ)
    (blockOf : Nat → Nat) (st : FitState) (n f c : Nat) (border : ℚ) :
    (splitLearner ds bds ys blockOf st n f c border).usedFeatures
      = (if st.lr.grid.origFeatureIndex f ∈ st.lr.usedFeatures then st.lr.usedFeatures
         else insert (st.lr.grid.origFeatureIndex f) st.lr.usedFeatures) ∧
    (splitLearner ds bds ys blockOf st n f c border).usedFeaturesOrdered
      = (if st.lr.grid.origFeatureIndex f ∈ st.lr.usedFeatures then st.lr.usedFeaturesOrdered
         else st.lr.usedFeaturesOrdered ++ [st.lr.grid.origFeatureIndex f]) ∧
    (splitLearner ds bds ys blockOf st n f c border).grid = st.lr.grid ∧
    (splitLearner ds bds ys blockOf st n f c border).maxDepth = st.lr.maxDepth ∧
    (∀ i, (splitLearner ds bds ys blockOf st n f c border).leafId i
      = routedLeafId (st.lr.fColumnsRefs.getD f (fun _ => 0)) border st.lr.leafId
          ds.samplesCount i) := by
  have ec := correlated_erase ds bds ys blockOf st
  obtain ⟨hgr, _, _, hcol, _, _, hu, ho, _⟩ := fields_of_erase _ _ ec
  have hlid := leafId_of_erase _ _ ec
  have hmd : (correlated ds bds ys blockOf st).maxDepth = st.lr.maxDepth := by
    have : (correlated ds bds ys blockOf st).eraseBuffers.maxDepth = st.lr.eraseBuffers.maxDepth := by
      rw [ec]
    exact this
  unfold splitLearner
  simp only
  generalize correlated ds bds ys blockOf st = lr2 at hgr hcol hu ho hlid hmd
  have e7 := buildChildren_erase ((lr2.partition ds st.leaves.length f border).useFeatureAndReset
    (childrenOf st.leaves f c (lr2.curLeavesCoord ^^^ 1)).length f) ds bds ys blockOf
    st.leaves (childrenOf st.leaves f c (lr2.curLeavesCoord ^^^ 1)) n
  obtain ⟨g7, _, _, _, _, _, u7, o7, _⟩ := fields_of_erase _ _ e7
  have l7 := leafId_of_erase _ _ e7
  have m7 : (GreedyLinearObliviousTreeLearnerV2.buildChildren
      ((lr2.partition ds st.leaves.length f border).useFeatureAndReset
        (childrenOf st.leaves f c (lr2.curLeavesCoord ^^^ 1)).length f) ds bds ys blockOf
      st.leaves (childrenOf st.leaves f c (lr2.curLeavesCoord ^^^ 1)) n).maxDepth
      = lr2.maxDepth := by
    have : (GreedyLinearObliviousTreeLearnerV2.buildChildren
      ((lr2.partition ds st.leaves.length f border).useFeatureAndReset
        (childrenOf st.leaves f c (lr2.curLeavesCoord ^^^ 1)).length f) ds bds ys blockOf
      st.leaves (childrenOf st.leaves f c (lr2.curLeavesCoord ^^^ 1)) n).eraseBuffers.maxDepth
      = ((lr2.partition ds st.leaves.length f border).useFeatureAndReset
        (childrenOf st.leaves f c (lr2.curLeavesCoord ^^^ 1)).length f).eraseBuffers.maxDepth := by
      rw [e7]
    exact this
  refine ⟨?_, ?_, ?_, ?_, ?_⟩
  · rw [u7]
    show (if lr2.grid.origFeatureIndex f ∈ lr2.usedFeatures then lr2.usedFeatures
      else insert (lr2.grid.origFeatureIndex f) lr2.usedFeatures) = _
    rw [hgr, hu]
  · rw [o7]
    show (if lr2.grid.origFeatureIndex f ∈ lr2.usedFeatures then lr2.usedFeaturesOrdered
      else lr2.usedFeaturesOrdered ++ [lr2.grid.origFeatureIndex f]) = _
    rw [hgr, hu, ho]
  · rw [g7]
    exact hgr
  · rw [m7]
    exact hmd
  · intro i
    rw [l7]
    show (lr2.partition ds st.leaves.length f border).leafId i = _
    rw [partition_leafId, hcol, hlid]

theorem growLoop_inv_indexed (ds : DataSet) (bds : BinarizedDataSet) (ys : Nat → ℚ)
    (blockOf : Nat → Nat) (I : Nat → FitState → Prop)
    (hstep : ∀ k st st2, I k st → depthStep ds bds ys blockOf st = .ok st2 → I (k + 1) st2) :
    ∀ (n k : Nat) (st st2 : FitState), I k st → growLoop ds bds ys blockOf n st = .ok st2 →
      I (k + n) st2 := by
  intro n
  induction n with
  | zero =>
    intro k st st2 hI h
    simp only [growLoop] at h
    injection h with h
    exact h ▸ hI
  | succ n ih =>
    intro k st st2 hI h
    simp only [growLoop] at h
    cases hd : depthStep ds bds ys blockOf st with
    | error e => rw [hd] at h; simp at h
    | ok st1 =>
      rw [hd] at h
      simp only at h
      have := ih (k + 1) st1 st2 (hstep k st st1 hI hd) h
      rw [show k + (n + 1) = k + 1 + n by omega]
      exact this

theorem growLoop_prefix (ds : DataSet) (bds : BinarizedDataSet) (ys : Nat → ℚ)
    (blockOf : Nat → Nat) (p m : Nat) (st st2 : FitState)
    (h : growLoop ds bds ys blockOf (p + m) st = .ok st2) :
    ∃ stp, growLoop ds bds ys blockOf p st = .ok stp ∧ growLoop ds bds ys blockOf m stp = .ok st2 := by
  induction p generalizing st with
  | zero =>
    rw [Nat.zero_add] at h
    exact ⟨st, rfl, h⟩
  | succ p ih =>
    rw [show p + 1 + m = (p + m) + 1 by omega] at h
    simp only [growLoop] at h ⊢
    cases hd : depthStep ds bds ys blockOf st with
    | error e => rw [hd] at h; simp at h
    | ok st1 =>
      rw [hd] at h
      simp only at h ⊢
      exact ih st1 h

theorem level_root (lr : Learner) (ds : DataSet) (bds : BinarizedDataSet) (ys : Nat → ℚ)
    (blockOf : Nat → Nat) :
    LevelInv lr.grid lr.biasCol.toNat 0 (lr.rootState ds bds ys blockOf) := by
  obtain ⟨hg, _, hb, _⟩ := cacheDs_fields lr ds
  obtain ⟨root, hleaves, rid, rgrid, _, _, rn, ru⟩ := rootState_leaf lr ds bds ys blockOf
  have hgrid : (lr.rootState ds bds ys blockOf).lr.grid = lr.grid := hg
  have ho : (lr.rootState ds bds ys blockOf).lr.usedFeaturesOrdered = [lr.biasCol.toNat] := rfl
  have hu : (lr.rootState ds bds ys blockOf).lr.usedFeatures = {lr.biasCol.toNat} := by
    show insert lr.biasCol.toNat (∅ : Finset Nat) = {lr.biasCol.toNat}
    simp
  have hro : ∀ (j : Nat) (l : Leaf), (lr.rootState ds bds ys blockOf).leaves[j]? = some l →
      l.usedFeaturesInOrder = [lr.biasCol.toNat] ∧ l.splits = [] ∧ l.nUsedFeatures = 1 ∧
      l.usedFeatures = {lr.biasCol.toNat} ∧ l.id = j ∧ l.grid = lr.grid := by
    intro j l hj
    have hj2 : [GreedyLinearObliviousTreeLearnerV2.rootLeaf
        { (lr.cacheDs ds).resetState with
          usedFeatures := insert lr.biasCol.toNat (lr.cacheDs ds).resetState.usedFeatures,
          usedFeaturesOrdered := (lr.cacheDs ds).resetState.usedFeaturesOrdered
            ++ [lr.biasCol.toNat] }][j]? = some l := hj
    obtain ⟨hj0, hl⟩ := singleton_getElem? _ _ _ hj2
    subst hl
    subst hj0
    refine ⟨?_, rfl, rfl, ?_, rfl, hg⟩
    · show [(lr.cacheDs ds).biasCol.toNat] = [lr.biasCol.toNat]
      rw [hb]
    · show ({(lr.cacheDs ds).biasCol.toNat} : Finset Nat) = {lr.biasCol.toNat}
      rw [hb]
  refine ⟨?_, hgrid, ?_, ?_, ?_, ?_, ?_, ?_, ?_, ?_⟩
  · intro j l hj
    exact ⟨(hro j l hj).2.2.2.2.1, (hro j l hj).2.2.2.2.2⟩
  · rw [hleaves]
    rfl
  · intro j l hj
    rw [(hro j l hj).2.1]
    rfl
  · intro j l hj
    obtain ⟨h1, _, h3, h4, _⟩ := hro j l hj
    rw [ho, hu]
    exact ⟨h1, h4, h3⟩
  · rw [ho]
    rfl
  · rw [ho]
    exact List.nodup_singleton _
  · intro x
    rw [ho, hu]
    simp
  · rw [ho]
    simp
  · intro i
    show 0 < 2 ^ 0
    decide

theorem routedLeafId_lt (col : Nat → ℚ) (border : ℚ) (leafId : Nat → Nat) (m d i : Nat)
    (h : ∀ i, leafId i < 2 ^ d) : routedLeafId col border leafId m i < 2 ^ (d + 1) := by
  have hi := h i
  have hp : 2 ^ (d + 1) = 2 * 2 ^ d := by rw [pow_succ]; ring
  unfold routedLeafId
  split_ifs <;> omega

theorem level_step (ds : DataSet) (bds : BinarizedDataSet) (ys : Nat → ℚ) (blockOf : Nat → Nat)
    (g : Grid) (bias d : Nat) (st st2 : FitState) (hI : LevelInv g bias d st)
    (h : depthStep ds bds ys blockOf st = .ok st2) : LevelInv g bias (d + 1) st2 := by
  have hidx : LeavesIndexed st.lr.grid st.leaves := by rw [hI.grid_eq]; exact hI.indexed
  obtain ⟨l0, f, c, border, _, _, _, _, _, _, hleaves, hlr⟩ :=
    depthStep_unfold_selected ds bds ys blockOf st st2 hidx h
  obtain ⟨su, so, sg, _, sl⟩ := splitLearner_state ds bds ys blockOf st l0.nUsedFeatures f c border
  have hu2 : st2.lr.usedFeatures
      = (if st.lr.grid.origFeatureIndex f ∈ st.lr.usedFeatures then st.lr.usedFeatures
         else insert (st.lr.grid.origFeatureIndex f) st.lr.usedFeatures) := by
    rw [hlr]; exact su
  have ho2 : st2.lr.usedFeaturesOrdered
      = (if st.lr.grid.origFeatureIndex f ∈ st.lr.usedFeatures then st.lr.usedFeaturesOrdered
         else st.lr.usedFeaturesOrdered ++ [st.lr.grid.origFeatureIndex f]) := by
    rw [hlr]; exact so
  have hg2 : st2.lr.grid = st.lr.grid := by rw [hlr]; exact sg
  have hl2 : ∀ i, st2.lr.leafId i
      = routedLeafId (st.lr.fColumnsRefs.getD f (fun _ => 0)) border st.lr.leafId
          ds.samplesCount i := by
    intro i; rw [hlr]; exact sl i
  have hchild : ∀ (j : Nat) (l : Leaf), st2.leaves[j]? = some l →
      ∃ P, st.leaves[j / 2]? = some P ∧
        l.splits.length = P.splits.length + 1 ∧
        l.usedFeaturesInOrder
          = (if P.grid.origFeatureIndex f ∈ P.usedFeatures then P.usedFeaturesInOrder
             else P.usedFeaturesInOrder ++ [P.grid.origFeatureIndex f]) ∧
        l.usedFeatures
          = (if P.grid.origFeatureIndex f ∈ P.usedFeatures then P.usedFeatures
             else insert (P.grid.origFeatureIndex f) P.usedFeatures) ∧
        l.nUsedFeatures
          = P.nUsedFeatures + (1 - (if P.grid.origFeatureIndex f ∈ P.usedFeatures then 1 else 0)) := by
    intro j l hj
    rw [hleaves, childrenOf_getElem?] at hj
    cases hq : st.leaves[j / 2]? with
    | none => rw [hq] at hj; simp at hj
    | some P =>
      rw [hq] at hj
      simp only [Option.map_some'] at hj
      injection hj with hj
      subst hj
      refine ⟨P, rfl, ?_⟩
      by_cases h0 : j % 2 = 0
      · simp only [h0, if_true]
        refine ⟨?_, rfl, rfl, rfl⟩
        show (P.splits ++ [(f, c, true)]).length = _
        simp
      · simp only [h0, if_false]
        refine ⟨?_, rfl, rfl, rfl⟩
        show (P.splits ++ [(f, c, false)]).length = _
        simp
  refine ⟨?_, hg2.trans hI.grid_eq, ?_, ?_, ?_, ?_, ?_, ?_, ?_, ?_⟩
  · rw [hleaves]
    exact childrenOf_indexed g st.leaves f c _ hI.indexed
  · rw [hleaves, childrenOf_length, hI.length_eq, pow_succ]
    ring
  · intro j l hj
    obtain ⟨P, hP, hs, _⟩ := hchild j l hj
    rw [hs, hI.paths _ P hP]
  · intro j l hj
    obtain ⟨P, hP, _, ho, hu, hn⟩ := hchild j l hj
    obtain ⟨po, pu, pn⟩ := hI.used _ P hP
    have pg : P.grid = st.lr.grid := by rw [hI.grid_eq]; exact (hI.indexed _ P hP).2
    rw [ho, hu, hn, ho2, hu2, pg, po, pu, pn]
    refine ⟨rfl, rfl, ?_⟩
    by_cases hin : st.lr.grid.origFeatureIndex f ∈ st.lr.usedFeatures
    · simp [hin]
    · simp [hin]
  · rw [ho2]
    have hh := hI.head
    split_ifs
    · exact hh
    · cases hlist : st.lr.usedFeaturesOrdered with
      | nil => rw [hlist] at hh; simp at hh
      | cons a rest =>
        rw [hlist] at hh
        simpa using hh
  · rw [ho2]
    split_ifs with hin
    · exact hI.nodup
    · rw [List.nodup_append]
      refine ⟨hI.nodup, List.nodup_singleton _, ?_⟩
      intro x hx hx2
      rw [List.mem_singleton] at hx2
      subst hx2
      exact hin ((hI.same _).mp hx)
  · intro x
    rw [ho2, hu2]
    split_ifs with hin
    · exact hI.same x
    · rw [List.mem_append, List.mem_singleton, Finset.mem_insert, hI.same x]
      exact or_comm
  · rw [ho2]
    have := hI.short
    split_ifs
    · omega
    · rw [List.length_append, List.length_singleton]
      omega
  · intro i
    rw [hl2]
    exact routedLeafId_lt _ _ _ _ _ _ hI.leafIds

theorem growLoop_level (lr : Learner) (ds : DataSet) (bds : BinarizedDataSet) (ys : Nat → ℚ)
    (blockOf : Nat → Nat) (n : Nat) (st : FitState)
    (h : growLoop ds bds ys blockOf n (lr.rootState ds bds ys blockOf) = .ok st) :
    LevelInv lr.grid lr.biasCol.toNat n st := by
  have := growLoop_inv_indexed ds bds ys blockOf (LevelInv lr.grid lr.biasCol.toNat)
    (fun k st st2 hI hd => level_step ds bds ys blockOf _ _ k st st2 hI hd) n 0 _ st
    (level_root lr ds bds ys blockOf) h
  rw [Nat.zero_add] at this
  exact this

/-! ## The shape of the fitted tree -/

/-- C22: whenever `fit` returns a tree, its growth loop has performed `maxDepth_`
splits, the tree has exactly `2 ^ maxDepth_` leaves, the leaf at list position
`j` has id `j`, every leaf has a split path of length exactly `maxDepth_`, and
every leaf holds a fitted weight vector. This holds for every `maxDepth_`, in
particular for `maxDepth_ ≥ 1`. -/
theorem fit_tree_shape (lr : Learner) (ds : DataSet) (bds : BinarizedDataSet) (ys : Nat → ℚ)
    (blockOf : Nat → Nat) (scale : ℚ) (t : LinearObliviousTreeV2) (lr2 : Learner)
    (h : lr.fit ds bds ys blockOf scale = .ok (t, lr2)) :
    (∃ st, growLoop ds bds ys blockOf lr.maxDepth (lr.rootState ds bds ys blockOf) = .ok st ∧
      st.leaves.length = t.leaves.length) ∧
    t.leaves.length = 2 ^ lr.maxDepth ∧
    ∀ (j : Nat) (l : Leaf), t.leaves[j]? = some l →
      l.id = j ∧ l.splits.length = lr.maxDepth ∧ l.w.isSome = true := by
  obtain ⟨_, st, hg, hf, _, _, _⟩ := fit_ok_unfold lr ds bds ys blockOf scale t lr2 h
  have hI := growLoop_level lr ds bds ys blockOf _ st hg
  obtain ⟨hlen, hall⟩ := fitLeaves_ok _ _ _ hf
  refine ⟨⟨st, hg, hlen.symm⟩, by rw [hlen, hI.length_eq], ?_⟩
  intro j l hj
  obtain ⟨l0, h0, hs, _, hid, hw⟩ := hall j l hj
  exact ⟨by rw [hid]; exact (hI.indexed j l0 h0).1, by rw [hs]; exact hI.paths j l0 h0, hw⟩

/-- The witness of C22: `fit` of `exLearner` (depth `1`) on `exDs` returns a tree
of two leaves. -/
theorem fit_tree_shape_witness :
    ∃ (t : LinearObliviousTreeV2) (lr2 : Learner),
      exLearner.fit exDs exBds exYs (fun _ => 0) 1 = .ok (t, lr2) ∧
      t.leaves.length = 2 ^ exLearner.maxDepth := by
  have hok : returned (exLearner.fit exDs exBds exYs (fun _ => 0) 1) = true := by decide!
  cases h : exLearner.fit exDs exBds exYs (fun _ => 0) 1 with
  | error e => rw [h] at hok; exact absurd hok (by simp [returned])
  | ok p =>
    obtain ⟨t, lr2⟩ := p
    exact ⟨t, lr2, rfl, (fit_tree_shape exLearner exDs exBds exYs (fun _ => 0) 1 t lr2 h).2.1⟩

/-- C28: in the state of `fit` after `k` iterations of the growth loop, every
current leaf's ordered list of used features is the learner's
`usedFeaturesOrdered_`, starts with the bias column, has no duplicates, has the
elements of the leaf's set of used features, and has the length
`nUsedFeatures` of the leaf, which is at most `k + 1`. -/
theorem leaves_share_used_features (lr : Learner) (ds : DataSet) (bds : BinarizedDataSet)
    (ys : Nat → ℚ) (blockOf : Nat → Nat) (k : Nat) (st : FitState)
    (h : growLoop ds bds ys blockOf k (lr.rootState ds bds ys blockOf) = .ok st) :
    ∀ (j : Nat) (l : Leaf), st.leaves[j]? = some l →
      l.usedFeaturesInOrder = st.lr.usedFeaturesOrdered ∧
      l.usedFeaturesInOrder.head? = some lr.biasCol.toNat ∧
      l.usedFeaturesInOrder.Nodup ∧
      (∀ x, x ∈ l.usedFeaturesInOrder ↔ x ∈ l.usedFeatures) ∧
      l.usedFeaturesInOrder.length = l.nUsedFeatures ∧
      l.nUsedFeatures ≤ k + 1 := by
  have hI := growLoop_level lr ds bds ys blockOf k st h
  intro j l hj
  obtain ⟨ho, hu, hn⟩ := hI.used j l hj
  refine ⟨ho, by rw [ho]; exact hI.head, by rw [ho]; exact hI.nodup, ?_, by rw [ho, hn], ?_⟩
  · intro x
    rw [ho, hu]
    exact hI.same x
  · rw [hn]
    exact hI.short

/-- The witness of C28: the state of `fit` of `exLearner` on `exDs` after its one
split; the leaf at position `0` has the learner's list. -/
theorem leaves_share_used_features_witness :
    ∃ (st : FitState) (l : Leaf),
      growLoop exDs exBds exYs (fun _ => 0) 1 (exLearner.rootState exDs exBds exYs (fun _ => 0))
        = .ok st ∧
      st.leaves[0]? = some l ∧ l.usedFeaturesInOrder = st.lr.usedFeaturesOrdered ∧
      l.nUsedFeatures ≤ 1 + 1 := by
  have hok : returned (growLoop exDs exBds exYs (fun _ => 0) 1
      (exLearner.rootState exDs exBds exYs (fun _ => 0))) = true := by decide!
  cases h : growLoop exDs exBds exYs (fun _ => 0) 1
      (exLearner.rootState exDs exBds exYs (fun _ => 0)) with
  | error e => rw [h] at hok; exact absurd hok (by simp [returned])
  | ok st =>
    have hlen := (growLoop_level exLearner exDs exBds exYs (fun _ => 0) 1 st h).length_eq
    cases hl : st.leaves[0]? with
    | none =>
      rw [List.getElem?_eq_none_iff] at hl
      rw [hlen] at hl
      exact absurd hl (by decide)
    | some l =>
      have key := leaves_share_used_features exLearner exDs exBds exYs (fun _ => 0) 1 st h 0 l hl
      exact ⟨st, l, rfl, hl, key.1, key.2.2.2.2.2⟩

theorem growLoop_maxDepth (lr : Learner) (ds : DataSet) (bds : BinarizedDataSet) (ys : Nat → ℚ)
    (blockOf : Nat → Nat) (n : Nat) (st : FitState)
    (h : growLoop ds bds ys blockOf n (lr.rootState ds bds ys blockOf) = .ok st) :
    st.lr.maxDepth = lr.maxDepth := by
  have key := growLoop_inv_indexed ds bds ys blockOf
    (fun k s => LevelInv lr.grid lr.biasCol.toNat k s ∧ s.lr.maxDepth = lr.maxDepth) ?_ n 0 _ st
    ⟨level_root lr ds bds ys blockOf, ?_⟩ h
  · exact key.2
  · rintro k s s2 ⟨hI, hm⟩ hstep
    refine ⟨level_step ds bds ys blockOf _ _ k s s2 hI hstep, ?_⟩
    have hidx : LeavesIndexed s.lr.grid s.leaves := by rw [hI.grid_eq]; exact hI.indexed
    obtain ⟨l0, f, c, border, _, _, _, _, _, _, _, hlr⟩ :=
      depthStep_unfold_selected ds bds ys blockOf s s2 hidx hstep
    rw [hlr]
    exact (splitLearner_state ds bds ys blockOf s l0.nUsedFeatures f c border).2.2.2.1.trans hm
  · show (lr.cacheDs ds).maxDepth = lr.maxDepth
    unfold GreedyLinearObliviousTreeLearnerV2.cacheDs
    split_ifs <;> rfl

/-- C29: at depth `d < maxDepth_` of `fit`, after the partition step (on any
feature and border) every `leafId_[i]` is below `2 ^ (d + 1)`, which is at most
`2 ^ maxDepth_`, the length of `samplesLeavesCnt_` and `fullUpdate_` and the
number of leaf slots of the arena; the counters `2 · p` and `2 · p + 1` of the
`2 ^ d` current leaves `p` are below it too, and every child is stored at the
position of its id, below `2 · |leaves|`, the length of `newLeaves`. -/
theorem leaf_ids_in_bounds (lr : Learner) (ds : DataSet) (bds : BinarizedDataSet)
    (ys : Nat → ℚ) (blockOf : Nat → Nat) (d : Nat) (hd : d < lr.maxDepth) (st : FitState)
    (h : growLoop ds bds ys blockOf d (lr.rootState ds bds ys blockOf) = .ok st) :
    (∀ (f : Nat) (border : ℚ) (i : Nat),
      ((correlated ds bds ys blockOf st).partition ds st.leaves.length f border).leafId i
        < 2 ^ (d + 1)) ∧
    2 ^ (d + 1) ≤ 2 ^ lr.maxDepth ∧
    st.lr.maxDepth = lr.maxDepth ∧
    st.leaves.length = 2 ^ d ∧
    (∀ p, p < st.leaves.length → 2 * p + 1 < 2 ^ (d + 1)) ∧
    (∀ (f c coord j : Nat) (l : Leaf), (childrenOf st.leaves f c coord)[j]? = some l →
      l.id = j ∧ j < 2 * st.leaves.length) ∧
    (∀ (st2 : FitState), depthStep ds bds ys blockOf st = .ok st2 →
      (∀ i, st2.lr.leafId i < 2 ^ (d + 1)) ∧ st2.leaves.length = 2 * st.leaves.length) := by
  have hI := growLoop_level lr ds bds ys blockOf d st h
  have hp : 2 ^ (d + 1) = 2 * 2 ^ d := by rw [pow_succ]; ring
  have hmd := growLoop_maxDepth lr ds bds ys blockOf d st h
  have hlid : ∀ i, (correlated ds bds ys blockOf st).leafId i = st.lr.leafId i := by
    intro i
    rw [leafId_of_erase _ _ (correlated_erase ds bds ys blockOf st)]
  refine ⟨?_, Nat.pow_le_pow_right (by decide) hd, hmd, hI.length_eq, ?_, ?_, ?_⟩
  · intro f border i
    rw [partition_leafId]
    exact routedLeafId_lt _ _ _ _ d i (fun i => by rw [hlid]; exact hI.leafIds i)
  · intro p hlt
    rw [hI.length_eq] at hlt
    omega
  · intro f c coord j l hj
    refine ⟨(childrenOf_indexed lr.grid st.leaves f c coord hI.indexed j l hj).1, ?_⟩
    have := (List.getElem?_eq_some_iff.mp hj).1
    rw [childrenOf_length] at this
    exact this
  · intro st2 h2
    have hI2 := level_step ds bds ys blockOf _ _ d st st2 hI h2
    exact ⟨hI2.leafIds, by rw [hI2.length_eq, hI.length_eq, hp]⟩

/-- The witness of C29: depth `0` of `fit` of `exLearner` (depth `1`) on `exDs`. -/
theorem leaf_ids_in_bounds_witness :
    0 < exLearner.maxDepth ∧
    ∀ i, ((correlated exDs exBds exYs (fun _ => 0)
        (exLearner.rootState exDs exBds exYs (fun _ => 0))).partition exDs
          (exLearner.rootState exDs exBds exYs (fun _ => 0)).leaves.length 0 (1 / 2)).leafId i
      < 2 ^ (0 + 1) :=
  ⟨by decide, fun i => (leaf_ids_in_bounds exLearner exDs exBds exYs (fun _ => 0) 0 (by decide) _
    rfl).1 0 (1 / 2) i⟩

/-! ## The failures of `fit` -/

/-- C21: when the bias column is `-1`, for every dataset, binarization, target
and block assignment, the run of `fit` throws "provide bias col!" and returns
no tree, and the learner it leaves behind is the one of the statements before
the test: the dataset is cached and the state reset, every cell of the arena is
the zero statistic (no count, no cross-product, no cross-target: no sample was
accumulated and no root histogram built) and every leaf id is `0`. -/
theorem fit_fails_without_bias (lr : Learner) (hb : lr.biasCol = -1) (ds : DataSet)
    (bds : BinarizedDataSet) (ys : Nat → ℚ) (blockOf : Nat → Nat) (scale : ℚ) :
    lr.fit ds bds ys blockOf scale = .error Err.noBias ∧
    (lr.fitRun ds bds ys blockOf scale).2 = .error Err.noBias ∧
    (lr.fitRun ds bds ys blockOf scale).1 = lr.prologue ds ∧
    (lr.fitRun ds bds ys blockOf scale).1.isDsCached = true ∧
    (∀ coord cell, (lr.fitRun ds bds ys blockOf scale).1.stats coord cell = BinStat.zero 1) ∧
    (∀ coord cell, ((lr.fitRun ds bds ys blockOf scale).1.stats coord cell).cnt = 0 ∧
      (∀ a b, ((lr.fitRun ds bds ys blockOf scale).1.stats coord cell).XTX a b = 0) ∧
      (∀ a, ((lr.fitRun ds bds ys blockOf scale).1.stats coord cell).XTy a = 0)) ∧
    (∀ i, (lr.fitRun ds bds ys blockOf scale).1.leafId i = 0) := by
  have hrun : lr.fitRun ds bds ys blockOf scale = (lr.prologue ds, .error Err.noBias) := by
    unfold GreedyLinearObliviousTreeLearnerV2.fitRun
    simp only [hb, if_true]
  have hcache : (lr.prologue ds).isDsCached = true := by
    show (lr.cacheDs ds).isDsCached = true
    unfold GreedyLinearObliviousTreeLearnerV2.cacheDs
    by_cases hc : lr.isDsCached = true
    · rw [if_pos hc]
      exact hc
    · rw [if_neg hc]
  refine ⟨?_, ?_, ?_, ?_, ?_, ?_, ?_⟩
  · rw [fit_eq, if_pos hb]
  · rw [hrun]
  · rw [hrun]
  · rw [hrun]
    exact hcache
  · intro coord cell
    rw [hrun]
    rfl
  · intro coord cell
    rw [hrun]
    exact ⟨rfl, fun _ _ => rfl, fun _ => rfl⟩
  · intro i
    rw [hrun]
    rfl

/-- The witness of C21: `exNoBiasLearner` on `exDs`: the call throws and leaves
an arena of zero statistics. -/
theorem fit_fails_without_bias_witness :
    exNoBiasLearner.biasCol = -1 ∧
    exNoBiasLearner.fit exDs exBds exYs (fun _ => 0) 1 = .error Err.noBias ∧
    (exNoBiasLearner.fitRun exDs exBds exYs (fun _ => 0) 1).2 = .error Err.noBias ∧
    (∀ coord cell,
      (exNoBiasLearner.fitRun exDs exBds exYs (fun _ => 0) 1).1.stats coord cell
        = BinStat.zero 1) :=
  ⟨rfl, (fit_fails_without_bias exNoBiasLearner rfl exDs exBds exYs (fun _ => 0) 1).1,
    (fit_fails_without_bias exNoBiasLearner rfl exDs exBds exYs (fun _ => 0) 1).2.1,
    (fit_fails_without_bias exNoBiasLearner rfl exDs exBds exYs (fun _ => 0) 1).2.2.2.2.1⟩

theorem depthStep_passes (ds : DataSet) (bds : BinarizedDataSet) (ys : Nat → ℚ)
    (blockOf : Nat → Nat) (st : FitState) (l0 : Leaf) (rest : List Leaf)
    (hl : st.leaves = l0 :: rest) :
    depthStep ds bds ys blockOf st
      = (correlated ds bds ys blockOf st).splitStep ds bds ys blockOf st.leaves l0.nUsedFeatures
          (selectedSplit ds bds ys blockOf st).splitFId
          (selectedSplit ds bds ys blockOf st).splitCond := by
  have hcor : correlated ds bds ys blockOf st
      = (st.lr.correlate ds bds ys blockOf l0.nUsedFeatures).feedNewCorrelations
          st.leaves l0.nUsedFeatures := by
    unfold correlated
    rw [hl]
  unfold depthStep selectedSplit
  rw [hcor, hl]

/-- C30: the split search of a depth of `fit` selects a valid candidate pair if
and only if some candidate `(f, c)` of the grid has a total score strictly below
`1e9`; otherwise it leaves `splitFId = splitCond = -1` (and the best score
`1e9`). The selected pair is passed unchanged to the split step, which starts
with the border lookup; on the pair `(-1, -1)` the lookup fails. -/
theorem split_search_valid_iff (ds : DataSet) (bds : BinarizedDataSet) (ys : Nat → ℚ)
    (blockOf : Nat → Nat) (st : FitState) :
    ((∃ f c : Nat, (selectedSplit ds bds ys blockOf st).splitFId = (f : ℤ) ∧
        (selectedSplit ds bds ys blockOf st).splitCond = (c : ℤ) ∧
        f < st.lr.fCount ∧ c < st.lr.grid.conditionsCount f) ↔
      ∃ f c, f < st.lr.fCount ∧ c < st.lr.grid.conditionsCount f ∧
        totalSplitScore st.leaves (correlated ds bds ys blockOf st).stats f c < 1000000000) ∧
    ((¬ ∃ f c, f < st.lr.fCount ∧ c < st.lr.grid.conditionsCount f ∧
        totalSplitScore st.leaves (correlated ds bds ys blockOf st).stats f c < 1000000000) →
      (selectedSplit ds bds ys blockOf st).splitFId = -1 ∧
      (selectedSplit ds bds ys blockOf st).splitCond = -1 ∧
      (selectedSplit ds bds ys blockOf st).bestSplitScore = 1000000000 ∧
      depthStep ds bds ys blockOf st = .error Err.outOfRange) ∧
    (∀ (l0 : Leaf) (rest : List Leaf), st.leaves = l0 :: rest →
      depthStep ds bds ys blockOf st
        = (correlated ds bds ys blockOf st).splitStep ds bds ys blockOf st.leaves l0.nUsedFeatures
            (selectedSplit ds bds ys blockOf st).splitFId
            (selectedSplit ds bds ys blockOf st).splitCond) := by
  obtain ⟨hgr, hfc, _⟩ := fields_of_erase _ _ (correlated_erase ds bds ys blockOf st)
  have hinv : SearchInv (correlated ds bds ys blockOf st).grid.conditionsCount
      (totalSplitScore st.leaves (correlated ds bds ys blockOf st).stats)
      (selectedSplit ds bds ys blockOf st) (correlated ds bds ys blockOf st).fCount 0 :=
    findBestSplit_inv _ _ _
  rw [hgr, hfc] at hinv
  obtain ⟨_, hle, hsel⟩ := hinv
  have hnone : (selectedSplit ds bds ys blockOf st).splitFId = -1 →
      depthStep ds bds ys blockOf st = .error Err.outOfRange := by
    intro h1
    cases hl : st.leaves with
    | nil =>
      unfold depthStep
      rw [hl]
    | cons l0 rest =>
      rw [depthStep_passes ds bds ys blockOf st l0 rest hl]
      unfold GreedyLinearObliviousTreeLearnerV2.splitStep
      rw [if_pos (Or.inl (by rw [h1]; decide))]
  refine ⟨⟨?_, ?_⟩, ?_, fun l0 rest hl => depthStep_passes ds bds ys blockOf st l0 rest hl⟩
  · rintro ⟨f, c, h1, h2, hf, hc⟩
    rcases hsel with ⟨e1, _, _⟩ | ⟨f2, c2, e1, e2, e3, e4, e5, e6, _⟩
    · rw [h1] at e1
      exact absurd e1 (by omega)
    · have hf2 : f2 < st.lr.fCount := by
        rcases e4 with h | ⟨_, h⟩
        · exact h
        · omega
      exact ⟨f2, c2, hf2, e3, e6⟩
  · rintro ⟨f0, c0, hf0, hc0, hs0⟩
    rcases hsel with ⟨_, _, e3⟩ | ⟨f2, c2, e1, e2, e3, e4, e5, e6, _⟩
    · have := hle f0 c0 hc0 (Or.inl hf0)
      rw [e3] at this
      exact absurd hs0 (not_lt.mpr this)
    · have hf2 : f2 < st.lr.fCount := by
        rcases e4 with h | ⟨_, h⟩
        · exact h
        · omega
      exact ⟨f2, c2, e1, e2, hf2, e3⟩
  · intro hno
    rcases hsel with ⟨e1, e2, e3⟩ | ⟨f2, c2, e1, e2, e3, e4, e5, e6, _⟩
    · exact ⟨e1, e2, e3, hnone e1⟩
    · have hf2 : f2 < st.lr.fCount := by
        rcases e4 with h | ⟨_, h⟩
        · exact h
        · omega
      exact absurd ⟨f2, c2, hf2, e3, e6⟩ hno

/-- The witness of C30: the learner `exBlindLearner` reads no feature, so no
candidate exists; the search of its first depth leaves `(-1, -1)`, and the depth
fails at the lookup. -/
theorem split_search_valid_iff_witness :
    (selectedSplit exDs exBds exYs (fun _ => 0)
      (exBlindLearner.rootState exDs exBds exYs (fun _ => 0))).splitFId = -1 ∧
    (selectedSplit exDs exBds exYs (fun _ => 0)
      (exBlindLearner.rootState exDs exBds exYs (fun _ => 0))).splitCond = -1 ∧
    depthStep exDs exBds exYs (fun _ => 0) (exBlindLearner.rootState exDs exBds exYs (fun _ => 0))
      = .error Err.outOfRange := by
  have key := (split_search_valid_iff exDs exBds exYs (fun _ => 0)
    (exBlindLearner.rootState exDs exBds exYs (fun _ => 0))).2.1 (by
      rintro ⟨f, c, hf, _⟩
      exact absurd hf (Nat.not_lt_zero f))
  exact ⟨key.1, key.2.1, key.2.2.2⟩

/-! ## The regions of the children -/

theorem split_child_fields (l : Leaf) (f c coord base : Nat) :
    (l.split f c coord base).1.id = 2 * l.id ∧
    (l.split f c coord base).1.histCoord = coord ∧
    (l.split f c coord base).1.histBase = base + 2 * l.id * l.grid.totalBins ∧
    (l.split f c coord base).1.grid = l.grid ∧
    (l.split f c coord base).2.id = 2 * l.id + 1 ∧
    (l.split f c coord base).2.histCoord = coord ∧
    (l.split f c coord base).2.histBase = base + (2 * l.id + 1) * l.grid.totalBins ∧
    (l.split f c coord base).2.grid = l.grid :=
  ⟨rfl, rfl, rfl, rfl, rfl, rfl, rfl, rfl⟩

theorem mem_splitAll (leaves : List Leaf) (f c coord base : Nat) (ch : Leaf) :
    ch ∈ splitAll leaves f c coord base ↔
      ∃ l ∈ leaves, ch = (l.split f c coord base).1 ∨ ch = (l.split f c coord base).2 := by
  unfold splitAll
  simp only [List.mem_flatMap, List.mem_cons, List.mem_singleton, List.not_mem_nil, or_false]

/-- C25: `split` gives the child with id `c` (`2 · id` for the left child,
`2 · id + 1` for the right one) the `totalBins` cells of the caller's buffer
from cell `c · totalBins` on; for the leaves of one level (ids `0 .. n - 1`,
pairwise distinct, one grid) the children have pairwise distinct ids, the
regions of two different children are disjoint, and a cell of the buffer lies
in the region of some child exactly when it is one of the first
`2 · n · totalBins` cells. -/
theorem split_children_regions (leaves : List Leaf) (n T f c coord base : Nat)
    (hT : ∀ l ∈ leaves, l.grid.totalBins = T) (hlt : ∀ l ∈ leaves, l.id < n)
    (hall : ∀ i, i < n → ∃ l ∈ leaves, l.id = i)
    (hdist : ∀ l1 ∈ leaves, ∀ l2 ∈ leaves, l1.id = l2.id → l1 = l2) :
    (∀ l ∈ leaves,
      (l.split f c coord base).1.id = 2 * l.id ∧ (l.split f c coord base).2.id = 2 * l.id + 1) ∧
    (∀ ch ∈ splitAll leaves f c coord base,
      ch.histCoord = coord ∧ ch.histBase = base + ch.id * T ∧ ch.grid.totalBins = T ∧
      ch.id < 2 * n) ∧
    (∀ ch1 ∈ splitAll leaves f c coord base, ∀ ch2 ∈ splitAll leaves f c coord base,
      ch1.id = ch2.id → ch1 = ch2) ∧
    (∀ ch1 ∈ splitAll leaves f c coord base, ∀ ch2 ∈ splitAll leaves f c coord base,
      ch1 ≠ ch2 → ∀ cell, ¬ (ch1.inRegionOfHist cell ∧ ch2.inRegionOfHist cell)) ∧
    (∀ cell, (∃ ch ∈ splitAll leaves f c coord base, ch.inRegionOfHist cell) ↔
      (base ≤ cell ∧ cell < base + 2 * n * T)) := by
  have hch : ∀ ch ∈ splitAll leaves f c coord base,
      ch.histCoord = coord ∧ ch.histBase = base + ch.id * T ∧ ch.grid.totalBins = T ∧
      ch.id < 2 * n ∧ ∃ l ∈ leaves, (ch = (l.split f c coord base).1 ∧ ch.id = 2 * l.id) ∨
        (ch = (l.split f c coord base).2 ∧ ch.id = 2 * l.id + 1) := by
    intro ch hmem
    rw [mem_splitAll] at hmem
    obtain ⟨l, hl, hch⟩ := hmem
    obtain ⟨a1, a2, a3, a4, b1, b2, b3, b4⟩ := split_child_fields l f c coord base
    have hTl := hT l hl
    have hn := hlt l hl
    rcases hch with hch | hch
    · subst hch
      refine ⟨a2, by rw [a3, a1, hTl], by rw [a4, hTl], by rw [a1]; omega, l, hl, Or.inl ⟨rfl, a1⟩⟩
    · subst hch
      refine ⟨b2, by rw [b3, b1, hTl], by rw [b4, hTl], by rw [b1]; omega, l, hl, Or.inr ⟨rfl, b1⟩⟩
  have hinj : ∀ ch1 ∈ splitAll leaves f c coord base, ∀ ch2 ∈ splitAll leaves f c coord base,
      ch1.id = ch2.id → ch1 = ch2 := by
    intro ch1 h1 ch2 h2 hid
    obtain ⟨_, _, _, _, l1, hl1, hc1⟩ := hch ch1 h1
    obtain ⟨_, _, _, _, l2, hl2, hc2⟩ := hch ch2 h2
    rcases hc1 with ⟨e1, i1⟩ | ⟨e1, i1⟩ <;> rcases hc2 with ⟨e2, i2⟩ | ⟨e2, i2⟩
    · have : l1 = l2 := hdist l1 hl1 l2 hl2 (by omega)
      rw [e1, e2, this]
    · omega
    · omega
    · have : l1 = l2 := hdist l1 hl1 l2 hl2 (by omega)
      rw [e1, e2, this]
  refine ⟨fun l _ => ⟨rfl, rfl⟩, fun ch hmem => ?_, hinj, ?_, ?_⟩
  · obtain ⟨h1, h2, h3, h4, _⟩ := hch ch hmem
    exact ⟨h1, h2, h3, h4⟩
  · intro ch1 h1 ch2 h2 hne cell hcell
    obtain ⟨_, hb1, ht1, _, _⟩ := hch ch1 h1
    obtain ⟨_, hb2, ht2, _, _⟩ := hch ch2 h2
    have hid : ch1.id ≠ ch2.id := fun hid => hne (hinj ch1 h1 ch2 h2 hid)
    obtain ⟨⟨r1, r2⟩, ⟨r3, r4⟩⟩ := hcell
    rw [hb1] at r1 r2
    rw [ht1] at r2
    rw [hb2] at r3 r4
    rw [ht2] at r4
    rcases Nat.lt_or_gt_of_ne hid with hlt2 | hlt2
    · have : (ch1.id + 1) * T ≤ ch2.id * T := Nat.mul_le_mul_right T hlt2
      rw [Nat.add_mul, Nat.one_mul] at this
      omega
    · have : (ch2.id + 1) * T ≤ ch1.id * T := Nat.mul_le_mul_right T hlt2
      rw [Nat.add_mul, Nat.one_mul] at this
      omega
  · intro cell
    constructor
    · rintro ⟨ch, hmem, r1, r2⟩
      obtain ⟨_, hb, ht, hid, _⟩ := hch ch hmem
      rw [hb] at r1 r2
      rw [ht] at r2
      have : (ch.id + 1) * T ≤ 2 * n * T := Nat.mul_le_mul_right T hid
      rw [Nat.add_mul, Nat.one_mul] at this
      omega
    · rintro ⟨r1, r2⟩
      have hTpos : 0 < T := by
        rcases Nat.eq_zero_or_pos T with h0 | h0
        · rw [h0] at r2
          omega
        · exact h0
      have hq : (cell - base) / T < 2 * n := by
        rw [Nat.div_lt_iff_lt_mul hTpos]
        omega
      obtain ⟨l, hl, hlid⟩ := hall ((cell - base) / T / 2) (by omega)
      obtain ⟨a1, a2, a3, a4, b1, b2, b3, b4⟩ := split_child_fields l f c coord base
      have hTl := hT l hl
      have hdm := Nat.div_add_mod (cell - base) T
      have hml := Nat.mod_lt (cell - base) hTpos
      rcases Nat.mod_two_eq_zero_or_one ((cell - base) / T) with hpar | hpar
      · refine ⟨(l.split f c coord base).1, (mem_splitAll _ _ _ _ _ _).mpr ⟨l, hl, Or.inl rfl⟩, ?_⟩
        have hidq : 2 * l.id = (cell - base) / T := by omega
        unfold LinearObliviousTreeLeafV2.inRegionOfHist
        rw [a3, a4, hTl, hidq, Nat.mul_comm]
        omega
      · refine ⟨(l.split f c coord base).2, (mem_splitAll _ _ _ _ _ _).mpr ⟨l, hl, Or.inr rfl⟩, ?_⟩
        have hidq : 2 * l.id + 1 = (cell - base) / T := by omega
        unfold LinearObliviousTreeLeafV2.inRegionOfHist
        rw [b3, b4, hTl, hidq, Nat.mul_comm]
        omega

/-- The witness of C25: the level of the root `exRoot` alone (`n = 1`), whose grid
has two bins, split into the buffer of coordinate `1`. -/
theorem split_children_regions_witness :
    (∀ l ∈ [exRoot], l.grid.totalBins = 2) ∧ (∀ l ∈ [exRoot], l.id < 1) ∧
    (∀ i, i < 1 → ∃ l ∈ [exRoot], l.id = i) ∧
    (∀ l1 ∈ [exRoot], ∀ l2 ∈ [exRoot], l1.id = l2.id → l1 = l2) ∧
    ∀ cell, (∃ ch ∈ splitAll [exRoot] 0 0 1 0, ch.inRegionOfHist cell) ↔
      (0 ≤ cell ∧ cell < 0 + 2 * 1 * 2) := by
  have h1 : ∀ l ∈ [exRoot], l.grid.totalBins = 2 := by
    intro l hl
    rw [List.mem_singleton] at hl
    subst hl
    rfl
  have h2 : ∀ l ∈ [exRoot], l.id < 1 := by
    intro l hl
    rw [List.mem_singleton] at hl
    subst hl
    exact Nat.zero_lt_one
  have h3 : ∀ i, i < 1 → ∃ l ∈ [exRoot], l.id = i := by
    intro i hi
    refine ⟨exRoot, List.mem_singleton.mpr rfl, ?_⟩
    have : i = 0 := by omega
    rw [this]
    rfl
  have h4 : ∀ l1 ∈ [exRoot], ∀ l2 ∈ [exRoot], l1.id = l2.id → l1 = l2 := by
    intro l1 hl1 l2 hl2 _
    rw [List.mem_singleton] at hl1 hl2
    rw [hl1, hl2]
  exact ⟨h1, h2, h3, h4, (split_children_regions [exRoot] 1 2 0 0 1 0 h1 h2 h3 h4).2.2.2.2⟩

/-! ## The paths of the fitted tree -/

theorem growLoop_last (ds : DataSet) (bds : BinarizedDataSet) (ys : Nat → ℚ)
    (blockOf : Nat → Nat) (d : Nat) (st0 st2 : FitState)
    (h : growLoop ds bds ys blockOf (d + 1) st0 = .ok st2) :
    ∃ st, growLoop ds bds ys blockOf d st0 = .ok st ∧ depthStep ds bds ys blockOf st = .ok st2 := by
  obtain ⟨st, hst, h1⟩ := growLoop_prefix ds bds ys blockOf d 1 st0 st2 h
  refine ⟨st, hst, ?_⟩
  simp only [growLoop] at h1
  cases hd : depthStep ds bds ys blockOf st with
  | error e => rw [hd] at h1; simp at h1
  | ok st1 =>
    rw [hd] at h1
    simp only at h1
    exact h1

theorem split_child_splits (l : Leaf) (f c coord base : Nat) :
    (l.split f c coord base).1.splits = l.splits ++ [(f, c, true)] ∧
    (l.split f c coord base).2.splits = l.splits ++ [(f, c, false)] :=
  ⟨rfl, rfl⟩

theorem growLoop_paths (lr : Learner) (ds : DataSet) (bds : BinarizedDataSet) (ys : Nat → ℚ)
    (blockOf : Nat → Nat) (d : Nat) :
    ∀ (st : FitState), growLoop ds bds ys blockOf d (lr.rootState ds bds ys blockOf) = .ok st →
    ∀ p, p < d → ∃ stp, growLoop ds bds ys blockOf p (lr.rootState ds bds ys blockOf) = .ok stp ∧
      ∀ (j : Nat) (l : Leaf), st.leaves[j]? = some l →
        ∃ s, l.splits[p]? = some s ∧
          (s.1 : ℤ) = (selectedSplit ds bds ys blockOf stp).splitFId ∧
          (s.2.1 : ℤ) = (selectedSplit ds bds ys blockOf stp).splitCond ∧
          (s.2.2 = true ↔ (j / 2 ^ (d - 1 - p)) % 2 = 0) := by
  induction d with
  | zero =>
    intro st _ p hp
    exact absurd hp (Nat.not_lt_zero p)
  | succ d ih =>
    intro st2 h p hp
    obtain ⟨st, hst, hstep⟩ := growLoop_last ds bds ys blockOf d _ st2 h
    have hI := growLoop_level lr ds bds ys blockOf d st hst
    have hidx : LeavesIndexed st.lr.grid st.leaves := by rw [hI.grid_eq]; exact hI.indexed
    obtain ⟨l0, f, c, border, _, hsf, hsc, _, _, _, hleaves, _⟩ :=
      depthStep_unfold_selected ds bds ys blockOf st st2 hidx hstep
    have hchild : ∀ (j : Nat) (l : Leaf), st2.leaves[j]? = some l →
        ∃ P, st.leaves[j / 2]? = some P ∧ l.splits = P.splits ++ [(f, c, decide (j % 2 = 0))] := by
      intro j l hj
      rw [hleaves, childrenOf_getElem?] at hj
      cases hq : st.leaves[j / 2]? with
      | none => rw [hq] at hj; simp at hj
      | some P =>
        rw [hq] at hj
        simp only [Option.map_some'] at hj
        injection hj with hj
        subst hj
        refine ⟨P, rfl, ?_⟩
        obtain ⟨a, b⟩ := split_child_splits P f c (st.lr.curLeavesCoord ^^^ 1) 0
        by_cases h0 : j % 2 = 0
        · simp only [h0, if_true, decide_True]
          exact a
        · simp only [h0, if_false, decide_False]
          exact b
    by_cases hlt : p < d
    · obtain ⟨stp, hstp, hall⟩ := ih st hst p hlt
      refine ⟨stp, hstp, ?_⟩
      intro j l hj
      obtain ⟨P, hP, hs⟩ := hchild j l hj
      obtain ⟨s, hsp, e1, e2, e3⟩ := hall (j / 2) P hP
      have hlen := hI.paths _ P hP
      refine ⟨s, ?_, e1, e2, ?_⟩
      · rw [hs, List.getElem?_append_left (by omega)]
        exact hsp
      · rw [e3]
        have hk : d + 1 - 1 - p = (d - 1 - p) + 1 := by omega
        rw [hk, pow_succ, Nat.div_div_eq_div_mul, Nat.mul_comm]
    · have hpd : p = d := by omega
      subst hpd
      refine ⟨st, hst, ?_⟩
      intro j l hj
      obtain ⟨P, hP, hs⟩ := hchild j l hj
      have hlen := hI.paths _ P hP
      refine ⟨(f, c, decide (j % 2 = 0)), ?_, hsf.symm, hsc.symm, ?_⟩
      · rw [hs, List.getElem?_append_right (by omega), hlen]
        simp
      · have hk : p + 1 - 1 - p = 0 := by omega
        rw [hk, pow_zero, Nat.div_one]
        simp

/-- C23: in the tree that `fit` returns, at every path position `p < maxDepth_`
every leaf has the (feature, condition) pair that the split search selected at
depth `p` (the search of the state after `p` iterations of the growth loop), and
the side flag of the leaf with id `j` at position `p` is `true` (left) exactly
when bit `maxDepth_ - 1 - p` of `j` is `0`. -/
theorem fit_tree_oblivious (lr : Learner) (ds : DataSet) (bds : BinarizedDataSet) (ys : Nat → ℚ)
    (blockOf : Nat → Nat) (scale : ℚ) (t : LinearObliviousTreeV2) (lr2 : Learner)
    (h : lr.fit ds bds ys blockOf scale = .ok (t, lr2)) (p : Nat) (hp : p < lr.maxDepth) :
    ∃ stp, growLoop ds bds ys blockOf p (lr.rootState ds bds ys blockOf) = .ok stp ∧
      ∀ l ∈ t.leaves, ∃ s, l.splits[p]? = some s ∧
        (s.1 : ℤ) = (selectedSplit ds bds ys blockOf stp).splitFId ∧
        (s.2.1 : ℤ) = (selectedSplit ds bds ys blockOf stp).splitCond ∧
        (s.2.2 = true ↔ (l.id / 2 ^ (lr.maxDepth - 1 - p)) % 2 = 0) := by
  obtain ⟨_, st, hg, hf, _, _, _⟩ := fit_ok_unfold lr ds bds ys blockOf scale t lr2 h
  have hI := growLoop_level lr ds bds ys blockOf _ st hg
  obtain ⟨hlen, hall⟩ := fitLeaves_ok _ _ _ hf
  obtain ⟨stp, hstp, hpaths⟩ := growLoop_paths lr ds bds ys blockOf lr.maxDepth st hg p hp
  refine ⟨stp, hstp, ?_⟩
  intro l hl
  obtain ⟨j, hj⟩ := List.getElem?_of_mem hl
  obtain ⟨l0, h0, hs, _, hid, _⟩ := hall j l hj
  obtain ⟨s, hsp, e1, e2, e3⟩ := hpaths j l0 h0
  refine ⟨s, by rw [hs]; exact hsp, e1, e2, ?_⟩
  rw [hid, (hI.indexed j l0 h0).1]
  exact e3

/-- The witness of C23: `fit` of `exLearner` (depth `1`) on `exDs`, position `0`:
the leaf at list position `0` has a first split of the selected pair. -/
theorem fit_tree_oblivious_witness :
    0 < exLearner.maxDepth ∧
    ∃ (t : LinearObliviousTreeV2) (lr2 : Learner) (stp : FitState),
      exLearner.fit exDs exBds exYs (fun _ => 0) 1 = .ok (t, lr2) ∧
      growLoop exDs exBds exYs (fun _ => 0) 0 (exLearner.rootState exDs exBds exYs (fun _ => 0))
        = .ok stp ∧
      ∀ l ∈ t.leaves, ∃ s, l.splits[0]? = some s ∧
        (s.1 : ℤ) = (selectedSplit exDs exBds exYs (fun _ => 0) stp).splitFId ∧
        (s.2.1 : ℤ) = (selectedSplit exDs exBds exYs (fun _ => 0) stp).splitCond ∧
        (s.2.2 = true ↔ (l.id / 2 ^ (exLearner.maxDepth - 1 - 0)) % 2 = 0) := by
  refine ⟨by decide, ?_⟩
  have hok : returned (exLearner.fit exDs exBds exYs (fun _ => 0) 1) = true := by decide!
  cases h : exLearner.fit exDs exBds exYs (fun _ => 0) 1 with
  | error e => rw [h] at hok; exact absurd hok (by simp [returned])
  | ok q =>
    obtain ⟨t, lr2⟩ := q
    obtain ⟨stp, hstp, hall⟩ :=
      fit_tree_oblivious exLearner exDs exBds exYs (fun _ => 0) 1 t lr2 h 0 (by decide)
    exact ⟨t, lr2, stp, rfl, hstp, hall⟩

/-! ## The new correlations of a depth -/

theorem addNewAt_row (s : Learner) (blockId lId bin n : Nat) (x : Nat → ℚ) (fVal y : ℚ)
    (b l k a : Nat) :
    (s.addNewAt blockId lId bin n x fVal y).h_XTX b l k a
      = s.h_XTX b l k a + (if b = blockId ∧ l = lId ∧ k = bin then newRow n x fVal a else 0) := by
  simp only [GreedyLinearObliviousTreeLearnerV2.addNewAt, addRow, newRow]
  by_cases h : b = blockId ∧ l = lId ∧ k = bin
  · simp only [h, and_self, if_true]
    split_ifs <;> simp
  · simp only [h, if_false, add_zero]

/-- The buffer `h_XTX_ref_[blk][l][bin]` after the correlation pass: the sum of the
rows of the samples of block `blk` and leaf `l` whose bin of a new feature is
`bin`. -/
theorem correlate_hXTX (lr : Learner) (ds : DataSet) (bds : BinarizedDataSet)
    (ys : Nat → ℚ) (blockOf : Nat → Nat) (n blk l bin a : Nat) :
    (lr.correlate ds bds ys blockOf n).h_XTX blk l bin a
      = ∑ i in Finset.range lr.nSamples,
          if blockOf i = blk ∧ lr.leafId i = l then
            ∑ f in Finset.range lr.fCount,
              if lr.grid.origFeatureIndex f ∉ lr.usedFeatures ∧
                  lr.binOffset f + bds.sampleBins i f = bin then
                newRow n (ds.fillSample i lr.usedFeaturesOrdered)
                  (ds.fVal i (lr.grid.origFeatureIndex f)) a
              else 0
          else 0 := by
  unfold GreedyLinearObliviousTreeLearnerV2.correlate
  have hinner : ∀ (i : Nat) (s : Learner),
      ((List.range lr.fCount).foldl
        (fun (s : Learner) fId =>
          if lr.grid.origFeatureIndex fId ∈ lr.usedFeatures then s
          else s.addNewAt (blockOf i) (lr.leafId i) (lr.binOffset fId + bds.sampleBins i fId) n
            (ds.fillSample i lr.usedFeaturesOrdered) (ds.fVal i (lr.grid.origFeatureIndex fId))
            (ys i)) s).h_XTX blk l bin a
        = s.h_XTX blk l bin a + ∑ f in Finset.range lr.fCount,
            if lr.grid.origFeatureIndex f ∉ lr.usedFeatures ∧
                (blk = blockOf i ∧ l = lr.leafId i ∧ bin = lr.binOffset f + bds.sampleBins i f) then
              newRow n (ds.fillSample i lr.usedFeaturesOrdered)
                (ds.fVal i (lr.grid.origFeatureIndex f)) a
            else 0 := by
    intro i s
    refine (foldl_range_val _ (fun s : Learner => s.h_XTX blk l bin a) (fun _ => True) _
      (fun _ _ _ => trivial) ?_ lr.fCount s trivial).2
    intro s fId _
    dsimp only
    by_cases hu : lr.grid.origFeatureIndex fId ∈ lr.usedFeatures
    · rw [if_pos hu, if_neg (fun hh => hh.1 hu), add_zero]
    · rw [if_neg hu, addNewAt_row]
      congr 1
      by_cases hcnd : blk = blockOf i ∧ l = lr.leafId i ∧
          bin = lr.binOffset fId + bds.sampleBins i fId
      · rw [if_pos hcnd, if_pos ⟨hu, hcnd⟩]
      · rw [if_neg hcnd, if_neg (fun hh => hcnd hh.2)]
  refine ((foldl_range_val _ (fun s : Learner => s.h_XTX blk l bin a) (fun _ => True)
    (fun i => if blockOf i = blk ∧ lr.leafId i = l then
            ∑ f in Finset.range lr.fCount,
              if lr.grid.origFeatureIndex f ∉ lr.usedFeatures ∧
                  lr.binOffset f + bds.sampleBins i f = bin then
                newRow n (ds.fillSample i lr.usedFeaturesOrdered)
                  (ds.fVal i (lr.grid.origFeatureIndex f)) a
              else 0
          else 0)
    (fun _ _ _ => trivial) ?_ lr.nSamples _ trivial).2).trans ?_
  · intro s i _
    dsimp only
    rw [hinner]
    congr 1
    by_cases hb : blockOf i = blk ∧ lr.leafId i = l
    · obtain ⟨hb1, hb2⟩ := hb
      subst hb1 hb2
      simp only [and_self, if_true, true_and]
      apply Finset.sum_congr rfl
      intro f _
      by_cases hbin : lr.binOffset f + bds.sampleBins i f = bin
      · simp [hbin]
      · have : ¬ bin = lr.binOffset f + bds.sampleBins i f := fun h => hbin h.symm
        simp [hbin, this]
    · have h1 : ¬ (blk = blockOf i ∧ l = lr.leafId i) := fun h => hb ⟨h.1.symm, h.2.symm⟩
      have h2 : ∀ f, ¬ (lr.grid.origFeatureIndex f ∉ lr.usedFeatures ∧ (blk = blockOf i ∧
          l = lr.leafId i ∧ bin = lr.binOffset f + bds.sampleBins i f)) :=
        fun f h => h1 ⟨h.2.1, h.2.2.1⟩
      rw [if_neg hb]
      exact Finset.sum_eq_zero (fun f _ => if_neg (h2 f))
  · show (0 : ℚ) + _ = _
    rw [zero_add]

/-- The buffer `h_XTy_ref_[blk][l][bin]` after the correlation pass. -/
theorem correlate_hXTy (lr : Learner) (ds : DataSet) (bds : BinarizedDataSet)
    (ys : Nat → ℚ) (blockOf : Nat → Nat) (n blk l bin : Nat) :
    (lr.correlate ds bds ys blockOf n).h_XTy blk l bin
      = ∑ i in Finset.range lr.nSamples,
          if blockOf i = blk ∧ lr.leafId i = l then
            ∑ f in Finset.range lr.fCount,
              if lr.grid.origFeatureIndex f ∉ lr.usedFeatures ∧
                  lr.binOffset f + bds.sampleBins i f = bin then
                ds.fVal i (lr.grid.origFeatureIndex f) * ys i
              else 0
          else 0 := by
  unfold GreedyLinearObliviousTreeLearnerV2.correlate
  have hinner : ∀ (i : Nat) (s : Learner),
      ((List.range lr.fCount).foldl
        (fun (s : Learner) fId =>
          if lr.grid.origFeatureIndex fId ∈ lr.usedFeatures then s
          else s.addNewAt (blockOf i) (lr.leafId i) (lr.binOffset fId + bds.sampleBins i fId) n
            (ds.fillSample i lr.usedFeaturesOrdered) (ds.fVal i (lr.grid.origFeatureIndex fId))
            (ys i)) s).h_XTy blk l bin
        = s.h_XTy blk l bin + ∑ f in Finset.range lr.fCount,
            if lr.grid.origFeatureIndex f ∉ lr.usedFeatures ∧
                (blk = blockOf i ∧ l = lr.leafId i ∧ bin = lr.binOffset f + bds.sampleBins i f) then
              ds.fVal i (lr.grid.origFeatureIndex f) * ys i
            else 0 := by
    intro i s
    refine (foldl_range_val _ (fun s : Learner => s.h_XTy blk l bin) (fun _ => True) _
      (fun _ _ _ => trivial) ?_ lr.fCount s trivial).2
    intro s fId _
    dsimp only
    by_cases hu : lr.grid.origFeatureIndex fId ∈ lr.usedFeatures
    · rw [if_pos hu, if_neg (fun hh => hh.1 hu), add_zero]
    · rw [if_neg hu, addNewAt_hXTy]
      congr 1
      by_cases hcnd : blk = blockOf i ∧ l = lr.leafId i ∧
          bin = lr.binOffset fId + bds.sampleBins i fId
      · rw [if_pos hcnd, if_pos ⟨hu, hcnd⟩]
      · rw [if_neg hcnd, if_neg (fun hh => hcnd hh.2)]
  refine ((foldl_range_val _ (fun s : Learner => s.h_XTy blk l bin) (fun _ => True)
    (fun i => if blockOf i = blk ∧ lr.leafId i = l then
            ∑ f in Finset.range lr.fCount,
              if lr.grid.origFeatureIndex f ∉ lr.usedFeatures ∧
                  lr.binOffset f + bds.sampleBins i f = bin then
                ds.fVal i (lr.grid.origFeatureIndex f) * ys i
              else 0
          else 0)
    (fun _ _ _ => trivial) ?_ lr.nSamples _ trivial).2).trans ?_
  · intro s i _
    dsimp only
    rw [hinner]
    congr 1
    by_cases hb : blockOf i = blk ∧ lr.leafId i = l
    · obtain ⟨hb1, hb2⟩ := hb
      subst hb1 hb2
      simp only [and_self, if_true, true_and]
      apply Finset.sum_congr rfl
      intro f _
      by_cases hbin : lr.binOffset f + bds.sampleBins i f = bin
      · simp [hbin]
      · have : ¬ bin = lr.binOffset f + bds.sampleBins i f := fun h => hbin h.symm
        simp [hbin, this]
    · have h1 : ¬ (blk = blockOf i ∧ l = lr.leafId i) := fun h => hb ⟨h.1.symm, h.2.symm⟩
      have h2 : ∀ f, ¬ (lr.grid.origFeatureIndex f ∉ lr.usedFeatures ∧ (blk = blockOf i ∧
          l = lr.leafId i ∧ bin = lr.binOffset f + bds.sampleBins i f)) :=
        fun f h => h1 ⟨h.2.1, h.2.2.1⟩
      rw [if_neg hb]
      exact Finset.sum_eq_zero (fun f _ => if_neg (h2 f))
  · show (0 : ℚ) + _ = _
    rw [zero_add]

/-- The reduce pass of a depth on the slice of a leaf and a new feature: the
prefix-and-feed steps of the feature's bins, for every worker, with shift `0`. -/
theorem feedNewCorrelations_slice (lr : Learner) (leaves : List Leaf) (n coord : Nat)
    (hinj : ∀ l1 f1 k1 l2 f2 k2, f1 < lr.fCount → f2 < lr.fCount →
      k1 ≤ lr.grid.conditionsCount f1 → k2 ≤ lr.grid.conditionsCount f2 →
      l1 * lr.totalBins + (lr.binOffset f1 + k1) = l2 * lr.totalBins + (lr.binOffset f2 + k2) →
      l1 = l2 ∧ f1 = f2 ∧ k1 = k2)
    (hlay : Layout leaves coord lr.totalBins)
    (q f0 : Nat) (hq : q < leaves.length)
    (hnew : lr.grid.origFeatureIndex f0 ∉ lr.usedFeatures) (hf0 : f0 < lr.fCount) :
    sliceOf (lr.feedNewCorrelations leaves n) coord (q * lr.totalBins) q (lr.binOffset f0)
        (lr.grid.conditionsCount f0)
      = (List.range (lr.grid.conditionsCount f0 + 1)).foldl
          (fun t lb => (List.range lr.nThreads).foldl
            (fun t th => t.feedStep (lr.grid.conditionsCount f0) n 0 lb th) t)
          (sliceOf lr coord (q * lr.totalBins) q (lr.binOffset f0) (lr.grid.conditionsCount f0)) := by
  unfold GreedyLinearObliviousTreeLearnerV2.feedNewCorrelations
  refine (foldl_proj _
    (fun s => sliceOf s coord (q * lr.totalBins) q (lr.binOffset f0) (lr.grid.conditionsCount f0))
    (fun t f => if f = f0 then
      (List.range (lr.grid.conditionsCount f0 + 1)).foldl
          (fun t lb => (List.range lr.nThreads).foldl
            (fun t th => t.feedStep (lr.grid.conditionsCount f0) n 0 lb th) t) t else t)
    _ ?_ _).trans ?_
  · intro s f hf
    have hf : f < lr.fCount := List.mem_range.mp hf
    by_cases hff : f = f0
    · subst hff
      simp only [if_true, hnew, if_false]
      refine foldl_proj _
        (fun s => sliceOf s coord (q * lr.totalBins) q (lr.binOffset f) (lr.grid.conditionsCount f))
        (fun t lb => (List.range lr.nThreads).foldl
            (fun t th => t.feedStep (lr.grid.conditionsCount f) n 0 lb th) t) _ ?_ _
      intro s lb hlb
      have hlb : lb ≤ lr.grid.conditionsCount f := by
        have := List.mem_range.mp hlb
        omega
      refine (foldl_proj _
        (fun s => sliceOf s coord (q * lr.totalBins) q (lr.binOffset f) (lr.grid.conditionsCount f))
        (fun t l => if l = q then (List.range lr.nThreads).foldl
            (fun t th => t.feedStep (lr.grid.conditionsCount f) n 0 lb th) t else t) _ ?_ _).trans
        ?_
      · intro s l hl
        have hl : l < leaves.length := List.mem_range.mp hl
        obtain ⟨lf, hlf⟩ : ∃ lf, leaves[l]? = some lf := ⟨leaves[l], List.getElem?_eq_getElem hl⟩
        obtain ⟨hc, hb⟩ := hlay l lf hlf
        by_cases hlq : l = q
        · subst hlq
          simp only [if_true, hlf]
          refine foldl_proj _
            (fun s => sliceOf s coord (l * lr.totalBins) l (lr.binOffset f)
              (lr.grid.conditionsCount f))
            (fun t th => t.feedStep (lr.grid.conditionsCount f) n 0 lb th) _ ?_ _
          intro s th _
          exact feed_step_slice_own s lf coord (l * lr.totalBins) l (lr.binOffset f)
            (lr.grid.conditionsCount f) lb th n 0 hlb hc hb
        · simp only [hlq, if_false, hlf]
          refine (foldl_proj _
            (fun s => sliceOf s coord (q * lr.totalBins) q (lr.binOffset f)
              (lr.grid.conditionsCount f))
            (fun t _ => t) _ ?_ _).trans (foldl_id _ _)
          intro s th _
          refine feed_step_slice_other s lf coord (q * lr.totalBins) q (lr.binOffset f)
            (lr.grid.conditionsCount f) l (lr.binOffset f + lb) lb th n 0 (Or.inl hlq)
            (Or.inr ?_)
          intro k hk heq
          rw [hb] at heq
          exact hlq (hinj _ _ _ _ _ _ hf hf hlb hk heq).1
      · exact foldl_range_single _ q leaves.length _ |>.trans (by rw [if_pos hq])
    · simp only [hff, if_false]
      by_cases hu : lr.grid.origFeatureIndex f ∈ lr.usedFeatures
      · simp only [hu, if_true]
      simp only [hu, if_false]
      refine (foldl_proj _
        (fun s => sliceOf s coord (q * lr.totalBins) q (lr.binOffset f0)
          (lr.grid.conditionsCount f0))
        (fun t _ => t) _ ?_ _).trans (foldl_id _ _)
      intro s lb hlb
      have hlb : lb ≤ lr.grid.conditionsCount f := by
        have := List.mem_range.mp hlb
        omega
      refine (foldl_proj _
        (fun s => sliceOf s coord (q * lr.totalBins) q (lr.binOffset f0)
          (lr.grid.conditionsCount f0))
        (fun t _ => t) _ ?_ _).trans (foldl_id _ _)
      intro s l hl
      have hl : l < leaves.length := List.mem_range.mp hl
      obtain ⟨lf, hlf⟩ : ∃ lf, leaves[l]? = some lf := ⟨leaves[l], List.getElem?_eq_getElem hl⟩
      obtain ⟨hc, hb⟩ := hlay l lf hlf
      simp only [hlf]
      refine (foldl_proj _
        (fun s => sliceOf s coord (q * lr.totalBins) q (lr.binOffset f0)
          (lr.grid.conditionsCount f0))
        (fun t _ => t) _ ?_ _).trans (foldl_id _ _)
      intro s th _
      refine feed_step_slice_other s lf coord (q * lr.totalBins) q (lr.binOffset f0)
        (lr.grid.conditionsCount f0) l (lr.binOffset f + lb) lb th n 0 (Or.inr ?_)
        (Or.inr ?_)
      · intro k hk heq
        have := hinj 0 f lb 0 f0 k hf hf0 hlb hk (by rw [heq])
        exact hff this.2.1
      · intro k hk heq
        rw [hb] at heq
        exact hff (hinj _ _ _ _ _ _ hf hf0 hlb hk heq).2.1
  · exact foldl_range_single _ f0 lr.fCount _ |>.trans (by rw [if_pos hf0])

/-- The cell of bin `k` of a new feature `f0` of leaf `q` after the reduce pass of
a depth: every worker's prefix-summed buffer has been fed to it. -/
theorem feedNewCorrelations_cell (lr : Learner) (leaves : List Leaf) (n coord : Nat)
    (hinj : ∀ l1 f1 k1 l2 f2 k2, f1 < lr.fCount → f2 < lr.fCount →
      k1 ≤ lr.grid.conditionsCount f1 → k2 ≤ lr.grid.conditionsCount f2 →
      l1 * lr.totalBins + (lr.binOffset f1 + k1) = l2 * lr.totalBins + (lr.binOffset f2 + k2) →
      l1 = l2 ∧ f1 = f2 ∧ k1 = k2)
    (hlay : Layout leaves coord lr.totalBins)
    (q f0 k : Nat) (hq : q < leaves.length)
    (hnew : lr.grid.origFeatureIndex f0 ∉ lr.usedFeatures)
    (hf0 : f0 < lr.fCount) (hk : k ≤ lr.grid.conditionsCount f0) :
    (lr.feedNewCorrelations leaves n).stats coord (q * lr.totalBins + (lr.binOffset f0 + k))
      = fedCell (sliceOf lr coord (q * lr.totalBins) q (lr.binOffset f0)
          (lr.grid.conditionsCount f0)) n 0 k lr.nThreads := by
  have h1 := feedNewCorrelations_slice lr leaves n coord hinj hlay q f0 hq hnew hf0
  have h2 := congrArg (fun t : Slice => t.cells k) h1
  simp only at h2
  rw [feed_slice_cells _ _ _ _ _ _ hk] at h2
  rw [← h2]
  simp [sliceOf, hk]

/-- The reduce pass of a depth writes the cells of the bins of new features of
the current leaves only. -/
theorem feedNewCorrelations_frame (lr : Learner) (leaves : List Leaf) (n : Nat) (c cell : Nat)
    (hfr : ∀ (l : Nat) (lf : Leaf) (f lb : Nat), leaves[l]? = some lf →
      lr.grid.origFeatureIndex f ∉ lr.usedFeatures →
      f < lr.fCount → lb ≤ lr.grid.conditionsCount f →
      ¬ (c = lf.histCoord ∧ cell = lf.histBase + (lr.binOffset f + lb))) :
    (lr.feedNewCorrelations leaves n).stats c cell = lr.stats c cell := by
  unfold GreedyLinearObliviousTreeLearnerV2.feedNewCorrelations
  refine (foldl_proj _ (fun s : Learner => s.stats c cell) (fun t _ => t) _ ?_ _).trans
    (foldl_id _ _)
  intro s f hf
  have hf : f < lr.fCount := List.mem_range.mp hf
  by_cases hu : lr.grid.origFeatureIndex f ∈ lr.usedFeatures
  · simp only [hu, if_true]
  simp only [hu, if_false]
  refine (foldl_proj _ (fun s : Learner => s.stats c cell) (fun t _ => t) _ ?_ _).trans
    (foldl_id _ _)
  intro s lb hlb
  have hlb : lb ≤ lr.grid.conditionsCount f := by
    have := List.mem_range.mp hlb
    omega
  refine (foldl_proj _ (fun s : Learner => s.stats c cell) (fun t _ => t) _ ?_ _).trans
    (foldl_id _ _)
  intro s l hl
  have hl : l < leaves.length := List.mem_range.mp hl
  obtain ⟨lf, hlf⟩ : ∃ lf, leaves[l]? = some lf := ⟨leaves[l], List.getElem?_eq_getElem hl⟩
  simp only [hlf]
  refine (foldl_proj _ (fun s : Learner => s.stats c cell) (fun t _ => t) _ ?_ _).trans
    (foldl_id _ _)
  intro s th _
  have hst : (if lb ≠ 0 then s.prefixStep th l (lr.binOffset f + lb) n else s).stats = s.stats := by
    by_cases h0 : lb = 0 <;> simp [h0, GreedyLinearObliviousTreeLearnerV2.prefixStep]
  simp only [GreedyLinearObliviousTreeLearnerV2.feedAt,
    LinearObliviousTreeLeafV2.addNewCorrelation, modify_apply, hst]
  rw [if_neg (hfr l lf f lb hlf hu hf hlb)]

/-- The sum over the workers and over the bins `0 .. k` of a new feature `f` of
what the samples of leaf `p` left in the buffers of new correlations: every
sample of the leaf whose bin of the feature is at most `k` counts once, with its
value for this feature. -/
theorem fed_sum (lr : Learner) (bds : BinarizedDataSet) (blockOf : Nat → Nat)
    (hc : Configured lr bds blockOf) (p f k : Nat)
    (hnew : lr.grid.origFeatureIndex f ∉ lr.usedFeatures)
    (hf : f < lr.fCount) (hk : k ≤ lr.grid.conditionsCount f) (V : Nat → Nat → ℚ) :
    (∑ th in Finset.range lr.nThreads, ∑ j in Finset.range (k + 1),
      ∑ i in Finset.range lr.nSamples,
        if blockOf i = th ∧ lr.leafId i = p then
          ∑ f2 in Finset.range lr.fCount,
            if lr.grid.origFeatureIndex f2 ∉ lr.usedFeatures ∧
                lr.binOffset f2 + bds.sampleBins i f2 = lr.binOffset f + j then V i f2 else 0
        else 0)
      = ∑ i in Finset.range lr.nSamples,
          if lr.leafId i = p ∧ bds.sampleBins i f ≤ k then V i f else 0 := by
  have hinj := configured_inj lr bds blockOf hc
  have hcell : ∀ i j, j ∈ Finset.range (k + 1) →
      (∑ f2 in Finset.range lr.fCount,
        if lr.grid.origFeatureIndex f2 ∉ lr.usedFeatures ∧
            lr.binOffset f2 + bds.sampleBins i f2 = lr.binOffset f + j then V i f2 else 0)
      = ∑ f2 in Finset.range lr.fCount,
          if lr.binOffset f2 + bds.sampleBins i f2 = lr.binOffset f + j then V i f else 0 := by
    intro i j hj
    have hj2 : j ≤ lr.grid.conditionsCount f := by
      have := Finset.mem_range.mp hj
      omega
    refine Finset.sum_congr rfl (fun f2 hf2 => ?_)
    have hf2 : f2 < lr.fCount := Finset.mem_range.mp hf2
    by_cases hbin : lr.binOffset f2 + bds.sampleBins i f2 = lr.binOffset f + j
    · have hff : f2 = f :=
        (hinj 0 f2 (bds.sampleBins i f2) 0 f j hf2 hf (hc.binsOk i f2 hf2) hj2
          (by rw [hbin])).2.1
      subst hff
      rw [if_pos ⟨hnew, hbin⟩, if_pos hbin]
    · rw [if_neg (fun hh => hbin hh.2), if_neg hbin]
  have h1 : ∀ th, (∑ j in Finset.range (k + 1), ∑ i in Finset.range lr.nSamples,
        if blockOf i = th ∧ lr.leafId i = p then
          ∑ f2 in Finset.range lr.fCount,
            if lr.grid.origFeatureIndex f2 ∉ lr.usedFeatures ∧
                lr.binOffset f2 + bds.sampleBins i f2 = lr.binOffset f + j then V i f2 else 0
        else 0)
      = ∑ i in Finset.range lr.nSamples,
          if lr.leafId i = p ∧ blockOf i = th then
            (if bds.sampleBins i f ≤ k then V i f else 0)
          else 0 := by
    intro th
    rw [Finset.sum_comm]
    refine Finset.sum_congr rfl (fun i _ => ?_)
    by_cases hcase : lr.leafId i = p ∧ blockOf i = th
    · obtain ⟨h2, h3⟩ := hcase
      rw [if_pos ⟨h2, h3⟩, Finset.sum_congr rfl (fun j _ => if_pos ⟨h3, h2⟩),
        Finset.sum_congr rfl (fun j hj => hcell i j hj)]
      exact bins_collapse lr.fCount lr.totalBins lr.binOffset lr.grid.conditionsCount
        (bds.sampleBins i) hinj (fun f2 hf2 => hc.binsOk i f2 hf2) f k hf hk (V i f)
    · rw [if_neg hcase]
      apply Finset.sum_eq_zero
      intro j _
      rw [if_neg]
      intro ⟨h3, h2⟩
      exact hcase ⟨h2, h3⟩
  rw [Finset.sum_congr rfl (fun th _ => h1 th), Finset.sum_comm]
  refine Finset.sum_congr rfl (fun i _ => ?_)
  have h2 := sum_block_pick lr.nThreads (blockOf i) (hc.blockOk i) (lr.leafId i = p)
    (if bds.sampleBins i f ≤ k then V i f else 0)
  rw [h2]
  by_cases h3 : lr.leafId i = p
  · by_cases h4 : bds.sampleBins i f ≤ k
    · simp [h3, h4]
    · simp [h3, h4]
  · simp [h3]

theorem newVal_sum (p : Nat) (T : Nat) (xtx : Nat → Nat → ℚ) (xty : Nat → ℚ) (e : Entry) :
    (∑ th in Finset.range T, newVal p (xtx th) (xty th) e)
      = newVal p (fun a => ∑ th in Finset.range T, xtx th a) (∑ th in Finset.range T, xty th) e := by
  cases e with
  | cnt => simp [newVal]
  | xtx a b =>
    simp only [newVal]
    split_ifs <;> simp
  | xty a =>
    simp only [newVal]
    split_ifs <;> simp

theorem newVal_sum_samples (p : Nat) (S : Finset Nat) (P : Nat → Prop) [DecidablePred P]
    (xtx : Nat → Nat → ℚ) (xty : Nat → ℚ) (e : Entry) :
    newVal p (fun a => ∑ i in S, if P i then xtx i a else 0) (∑ i in S, if P i then xty i else 0) e
      = ∑ i in S, if P i then newVal p (xtx i) (xty i) e else 0 := by
  cases e with
  | cnt => simp [newVal]
  | xtx a b =>
    simp only [newVal]
    split_ifs <;> simp
  | xty a =>
    simp only [newVal]
    split_ifs <;> simp

theorem newVal_congr (p : Nat) (xtx xtx2 : Nat → ℚ) (xty xty2 : ℚ) (e : Entry)
    (h1 : ∀ a, a ≤ p → xtx a = xtx2 a) (h2 : xty = xty2) :
    newVal p xtx xty e = newVal p xtx2 xty2 e := by
  cases e with
  | cnt => rfl
  | xtx a b =>
    simp only [newVal]
    by_cases ha : a = p ∧ b ≤ p
    · rw [if_pos ha, if_pos ha, h1 b ha.2]
    · rw [if_neg ha, if_neg ha]
      by_cases hb : b = p ∧ a < p
      · rw [if_pos hb, if_pos hb, h1 a (by omega)]
      · rw [if_neg hb, if_neg hb]
  | xty a =>
    simp only [newVal]
    rw [h2]

/-- The cell of bin `k` of a new feature `f` of the leaf at position `p` after the
correlation pass and the reduce pass of a depth: each of its entries has grown by
the sum, over the samples of the leaf whose bin of `f` is at most `k`, of what
`addNewCorrelation` adds for the sample's row of new correlations. -/
theorem fed_cell_val (lr : Learner) (ds : DataSet) (bds : BinarizedDataSet)
    (ys : Nat → ℚ) (blockOf : Nat → Nat) (leaves : List Leaf) (n : Nat)
    (hc : Configured lr bds blockOf) (hlay : Layout leaves lr.curLeavesCoord lr.grid.totalBins)
    (p f k : Nat) (hp : p < leaves.length)
    (hnew : lr.grid.origFeatureIndex f ∉ lr.usedFeatures)
    (hf : f < lr.fCount) (hk : k ≤ lr.grid.conditionsCount f)
    (hfill : (lr.stats lr.curLeavesCoord
      (p * lr.grid.totalBins + (lr.grid.offset f + k))).filledSize = n) (e : Entry) :
    (((lr.correlate ds bds ys blockOf n).feedNewCorrelations leaves n).stats lr.curLeavesCoord
        (p * lr.grid.totalBins + (lr.grid.offset f + k))).val e
      = (lr.stats lr.curLeavesCoord (p * lr.grid.totalBins + (lr.grid.offset f + k))).val e
        + ∑ i in Finset.range lr.nSamples,
            if lr.leafId i = p ∧ bds.sampleBins i f ≤ k then
              newVal n (newRow n (ds.fillSample i lr.usedFeaturesOrdered)
                  (ds.fVal i (lr.grid.origFeatureIndex f)))
                (ds.fVal i (lr.grid.origFeatureIndex f) * ys i) e
            else 0 := by
  have hinj := configured_inj lr bds blockOf hc
  have htb := hc.totalBins_eq
  have e1 : (lr.correlate ds bds ys blockOf n).eraseBuffers = lr.eraseBuffers :=
    correlate_erase _ _ _ _ _ _
  have hX := correlate_hXTX lr ds bds ys blockOf n
  have hY := correlate_hXTy lr ds bds ys blockOf n
  have hS := correlate_stats lr ds bds ys blockOf n
  generalize lr.correlate ds bds ys blockOf n = lr1 at e1 hX hY hS ⊢
  obtain ⟨g1, fc1, cur1, _, _, _, u1, _, tb1, bo1, nt1⟩ := fields_of_erase _ _ e1
  have hbo : ∀ f2, lr1.binOffset f2 = lr.binOffset f2 := by
    intro f2
    unfold GreedyLinearObliviousTreeLearnerV2.binOffset
    rw [bo1]
  have hcell := feedNewCorrelations_cell lr1 leaves n lr.curLeavesCoord
    (by
      intro l1 f1 k1 l2 f2 k2 hf1 hf2 hk1 hk2 heq
      rw [tb1, hbo, hbo] at heq
      exact hinj l1 f1 k1 l2 f2 k2 (fc1 ▸ hf1) (fc1 ▸ hf2) (g1 ▸ hk1) (g1 ▸ hk2) heq)
    (by rw [tb1, htb]; exact hlay) p f k hp (by rw [g1, u1]; exact hnew) (by rw [fc1]; exact hf)
    (by rw [g1]; exact hk)
  rw [tb1, htb, hbo, hc.offset_eq f hf, g1, nt1] at hcell
  rw [hcell]
  obtain ⟨_, hv⟩ := fedCell_val
    (sliceOf lr1 lr.curLeavesCoord (p * lr.grid.totalBins) p (lr.grid.offset f)
      (lr.grid.conditionsCount f)) n 0 k lr.nThreads e
  rw [hv]
  have hcell0 : (sliceOf lr1 lr.curLeavesCoord (p * lr.grid.totalBins) p (lr.grid.offset f)
      (lr.grid.conditionsCount f)).cells k
      = lr.stats lr.curLeavesCoord (p * lr.grid.totalBins + (lr.grid.offset f + k)) := by
    simp only [sliceOf, hk, if_true]
    rw [hS]
  rw [hcell0, hfill]
  congr 1
  have hpos : ((n : ℤ) + 0).toNat = n := by omega
  rw [hpos, newVal_sum]
  have hrow : ∀ a, a ≤ n →
      (∑ th in Finset.range lr.nThreads,
        prefRow (sliceOf lr1 lr.curLeavesCoord (p * lr.grid.totalBins) p (lr.grid.offset f)
          (lr.grid.conditionsCount f)) n th k a)
      = ∑ i in Finset.range lr.nSamples,
          if lr.leafId i = p ∧ bds.sampleBins i f ≤ k then
            newRow n (ds.fillSample i lr.usedFeaturesOrdered)
              (ds.fVal i (lr.grid.origFeatureIndex f)) a
          else 0 := by
    intro a ha
    rw [← fed_sum lr bds blockOf hc p f k hnew hf hk
      (fun i f2 => newRow n (ds.fillSample i lr.usedFeaturesOrdered)
        (ds.fVal i (lr.grid.origFeatureIndex f2)) a)]
    refine Finset.sum_congr rfl (fun th _ => ?_)
    simp only [prefRow, ha, if_true, sliceOf]
    refine Finset.sum_congr rfl (fun j hj => ?_)
    have hj2 : j ≤ lr.grid.conditionsCount f := by
      have := Finset.mem_range.mp hj
      omega
    rw [if_pos hj2, hX, hc.offset_eq f hf]
  have hy : (∑ th in Finset.range lr.nThreads,
        prefY (sliceOf lr1 lr.curLeavesCoord (p * lr.grid.totalBins) p (lr.grid.offset f)
          (lr.grid.conditionsCount f)) th k)
      = ∑ i in Finset.range lr.nSamples,
          if lr.leafId i = p ∧ bds.sampleBins i f ≤ k then
            ds.fVal i (lr.grid.origFeatureIndex f) * ys i
          else 0 := by
    rw [← fed_sum lr bds blockOf hc p f k hnew hf hk
      (fun i f2 => ds.fVal i (lr.grid.origFeatureIndex f2) * ys i)]
    refine Finset.sum_congr rfl (fun th _ => ?_)
    simp only [prefY, sliceOf]
    refine Finset.sum_congr rfl (fun j hj => ?_)
    have hj2 : j ≤ lr.grid.conditionsCount f := by
      have := Finset.mem_range.mp hj
      omega
    rw [if_pos hj2, hY, hc.offset_eq f hf]
  rw [← newVal_sum_samples]
  exact newVal_congr n _ _ _ _ e hrow hy

/-- The cells of the bins of a used feature are not written by the correlation
pass and the reduce pass of a depth. -/
theorem fed_cell_used (lr : Learner) (ds : DataSet) (bds : BinarizedDataSet)
    (ys : Nat → ℚ) (blockOf : Nat → Nat) (leaves : List Leaf) (n : Nat)
    (hc : Configured lr bds blockOf) (hlay : Layout leaves lr.curLeavesCoord lr.grid.totalBins)
    (p f k : Nat)
    (hused : lr.grid.origFeatureIndex f ∈ lr.usedFeatures)
    (hf : f < lr.fCount) (hk : k ≤ lr.grid.conditionsCount f) :
    ((lr.correlate ds bds ys blockOf n).feedNewCorrelations leaves n).stats lr.curLeavesCoord
        (p * lr.grid.totalBins + (lr.grid.offset f + k))
      = lr.stats lr.curLeavesCoord (p * lr.grid.totalBins + (lr.grid.offset f + k)) := by
  have hinj := configured_inj lr bds blockOf hc
  have htb := hc.totalBins_eq
  have e1 : (lr.correlate ds bds ys blockOf n).eraseBuffers = lr.eraseBuffers :=
    correlate_erase _ _ _ _ _ _
  have hS := correlate_stats lr ds bds ys blockOf n
  generalize lr.correlate ds bds ys blockOf n = lr1 at e1 hS ⊢
  obtain ⟨g1, fc1, cur1, _, _, _, u1, _, tb1, bo1, nt1⟩ := fields_of_erase _ _ e1
  have hbo : ∀ f2, lr1.binOffset f2 = lr.binOffset f2 := by
    intro f2
    unfold GreedyLinearObliviousTreeLearnerV2.binOffset
    rw [bo1]
  rw [feedNewCorrelations_frame lr1 leaves n _ _ ?_, hS]
  intro l lf f2 lb hlf hu2 hf2 hlb ⟨_, hcell⟩
  obtain ⟨_, hb⟩ := hlay l lf hlf
  rw [hb, hbo, ← htb, ← hc.offset_eq f hf] at hcell
  rw [g1, u1] at hu2
  have := (hinj p f k l f2 lb hf (fc1 ▸ hf2) hk (g1 ▸ hlb) hcell).2.1
  rw [← this] at hu2
  exact hu2 hused

theorem newVal_newRow (n : Nat) (x : Nat → ℚ) (v y : ℚ) :
    (∀ u, u < n → newVal n (newRow n x v) (v * y) (Entry.xtx n u) = x u * v) ∧
    (∀ u, u < n → newVal n (newRow n x v) (v * y) (Entry.xtx u n) = x u * v) ∧
    newVal n (newRow n x v) (v * y) (Entry.xtx n n) = v * v ∧
    newVal n (newRow n x v) (v * y) (Entry.xty n) = v * y := by
  refine ⟨?_, ?_, ?_, ?_⟩
  · intro u hu
    simp [newVal, newRow, hu, Nat.le_of_lt hu]
  · intro u hu
    have hne : ¬ u = n := by omega
    simp [newVal, newRow, hu, hne]
  · simp [newVal, newRow]
  · simp [newVal]

/-- C27: at a depth of `fit` (after `d` iterations of the growth loop, on a
learner configured for the binarized dataset and the scheduler), for a current
leaf `l`, a feature `f` and a bin `k ≤ conditionsCount(f)`, compare the cell of
bin `binOffsets[f] + k` of the leaf's histogram after the correlation and reduce
passes with the cell before them. If `f` is not in the used set, row and column
`nUsedFeatures` of the matrix have grown by the sums, over the samples of the
leaf whose bin of `f` is at most `k`, of `x_u · v` (entry `u`, for every used
feature `u`) and of `v²` (the diagonal entry), the cross-target entry
`nUsedFeatures` has grown by the sum of `v · y`, and the count and the block of
the used features are unchanged, whatever the distribution of the samples over
the workers. If `f` is in the used set, the cell is unchanged. -/
theorem new_correlations_fed (lr : Learner) (ds : DataSet) (bds : BinarizedDataSet)
    (ys : Nat → ℚ) (blockOf : Nat → Nat) (hc : Configured lr bds blockOf)
    (hn : lr.isDsCached = true → lr.nSamples = ds.samplesCount)
    (d : Nat) (st : FitState)
    (hgrow : growLoop ds bds ys blockOf d (lr.rootState ds bds ys blockOf) = .ok st)
    (p : Nat) (l : Leaf) (hl : st.leaves[p]? = some l)
    (f k : Nat) (hf : f < lr.fCount) (hk : k ≤ lr.grid.conditionsCount f) :
    (lr.grid.origFeatureIndex f ∉ st.lr.usedFeatures →
      (∀ u, u < l.nUsedFeatures →
        ((l.hist (correlated ds bds ys blockOf st).stats).hist (lr.grid.offset f + k)).XTX
            l.nUsedFeatures u
          = ((l.hist st.lr.stats).hist (lr.grid.offset f + k)).XTX l.nUsedFeatures u
            + ∑ i in leafSamples st.lr ds bds l.id f k,
                ds.fillSample i st.lr.usedFeaturesOrdered u * ds.fVal i (lr.grid.origFeatureIndex f)) ∧
      (∀ u, u < l.nUsedFeatures →
        ((l.hist (correlated ds bds ys blockOf st).stats).hist (lr.grid.offset f + k)).XTX
            u l.nUsedFeatures
          = ((l.hist st.lr.stats).hist (lr.grid.offset f + k)).XTX u l.nUsedFeatures
            + ∑ i in leafSamples st.lr ds bds l.id f k,
                ds.fillSample i st.lr.usedFeaturesOrdered u * ds.fVal i (lr.grid.origFeatureIndex f)) ∧
      ((l.hist (correlated ds bds ys blockOf st).stats).hist (lr.grid.offset f + k)).XTX
          l.nUsedFeatures l.nUsedFeatures
        = ((l.hist st.lr.stats).hist (lr.grid.offset f + k)).XTX l.nUsedFeatures l.nUsedFeatures
          + ∑ i in leafSamples st.lr ds bds l.id f k,
              ds.fVal i (lr.grid.origFeatureIndex f) * ds.fVal i (lr.grid.origFeatureIndex f) ∧
      ((l.hist (correlated ds bds ys blockOf st).stats).hist (lr.grid.offset f + k)).XTy
          l.nUsedFeatures
        = ((l.hist st.lr.stats).hist (lr.grid.offset f + k)).XTy l.nUsedFeatures
          + ∑ i in leafSamples st.lr ds bds l.id f k,
              ds.fVal i (lr.grid.origFeatureIndex f) * ys i ∧
      ((l.hist (correlated ds bds ys blockOf st).stats).hist (lr.grid.offset f + k)).cnt
        = ((l.hist st.lr.stats).hist (lr.grid.offset f + k)).cnt ∧
      (∀ a b, a < l.nUsedFeatures → b < l.nUsedFeatures →
        ((l.hist (correlated ds bds ys blockOf st).stats).hist (lr.grid.offset f + k)).XTX a b
          = ((l.hist st.lr.stats).hist (lr.grid.offset f + k)).XTX a b) ∧
      (∀ a, a < l.nUsedFeatures →
        ((l.hist (correlated ds bds ys blockOf st).stats).hist (lr.grid.offset f + k)).XTy a
          = ((l.hist st.lr.stats).hist (lr.grid.offset f + k)).XTy a)) ∧
    (lr.grid.origFeatureIndex f ∈ st.lr.usedFeatures →
      (l.hist (correlated ds bds ys blockOf st).stats).hist (lr.grid.offset f + k)
        = (l.hist st.lr.stats).hist (lr.grid.offset f + k)) := by
  obtain ⟨hI, hg⟩ := growLoop_stat lr ds bds ys blockOf hc hn d st hgrow
  have hpl : p < st.leaves.length := (List.getElem?_eq_some_iff.mp hl).1
  obtain ⟨hid, _⟩ := hI.shape.indexed p l hl
  obtain ⟨lc, lb⟩ := hI.shape.layout p l hl
  obtain ⟨hnu, _⟩ := hI.shape.nUsed p l hl
  have hf2 : f < st.lr.fCount := by
    rw [hI.cfg.fCount_eq, hg, ← hc.fCount_eq]
    exact hf
  have hk2 : k ≤ st.lr.grid.conditionsCount f := by rw [hg]; exact hk
  have hbin : st.lr.grid.offset f + k < st.lr.grid.totalBins := by
    have := hI.cfg.inRange f hf2
    omega
  have hfill := hI.shape.filled p (st.lr.grid.offset f + k) hpl hbin
  -- the learner at the split search
  obtain ⟨l0, rest, hls⟩ : ∃ l0 rest, st.leaves = l0 :: rest := by
    cases hls : st.leaves with
    | nil => rw [hls] at hpl; exact absurd hpl (Nat.not_lt_zero p)
    | cons l0 rest => exact ⟨l0, rest, rfl⟩
  have hn0 : l0.nUsedFeatures = st.lr.usedFeatures.card :=
    (hI.shape.nUsed 0 l0 (by rw [hls]; simp)).1
  have hcor : correlated ds bds ys blockOf st
      = (st.lr.correlate ds bds ys blockOf st.lr.usedFeatures.card).feedNewCorrelations
          st.leaves st.lr.usedFeatures.card := by
    unfold correlated
    rw [hls]
    simp only
    rw [hn0]
  have hcellA : (l.hist (correlated ds bds ys blockOf st).stats).hist (lr.grid.offset f + k)
      = ((st.lr.correlate ds bds ys blockOf st.lr.usedFeatures.card).feedNewCorrelations
          st.leaves st.lr.usedFeatures.card).stats st.lr.curLeavesCoord
          (p * st.lr.grid.totalBins + (st.lr.grid.offset f + k)) := by
    simp only [LinearObliviousTreeLeafV2.hist]
    rw [lc, lb, hcor, hg]
  have hcellB : (l.hist st.lr.stats).hist (lr.grid.offset f + k)
      = st.lr.stats st.lr.curLeavesCoord (p * st.lr.grid.totalBins + (st.lr.grid.offset f + k)) := by
    simp only [LinearObliviousTreeLeafV2.hist]
    rw [lc, lb, hg]
  rw [hcellA, hcellB, hnu, hid, ← hg]
  constructor
  · intro hnew
    have key := fun e => fed_cell_val st.lr ds bds ys blockOf st.leaves st.lr.usedFeatures.card
      hI.cfg hI.shape.layout p f k hpl hnew hf2 hk2 hfill e
    have hsum : ∀ g : Nat → ℚ,
        (∑ i in Finset.range st.lr.nSamples,
          if st.lr.leafId i = p ∧ bds.sampleBins i f ≤ k then g i else 0)
        = ∑ i in leafSamples st.lr ds bds p f k, g i := by
      intro g
      unfold leafSamples
      rw [Finset.sum_filter, hI.nsamp]
    have hrow := fun i => newVal_newRow st.lr.usedFeatures.card
      (ds.fillSample i st.lr.usedFeaturesOrdered) (ds.fVal i (st.lr.grid.origFeatureIndex f)) (ys i)
    refine ⟨?_, ?_, ?_, ?_, ?_, ?_, ?_⟩
    · intro u hu
      have := key (Entry.xtx st.lr.usedFeatures.card u)
      simp only [BinStat.val] at this
      rw [this, ← hsum]
      congr 1
      refine Finset.sum_congr rfl (fun i _ => ?_)
      rw [(hrow i).1 u hu]
    · intro u hu
      have := key (Entry.xtx u st.lr.usedFeatures.card)
      simp only [BinStat.val] at this
      rw [this, ← hsum]
      congr 1
      refine Finset.sum_congr rfl (fun i _ => ?_)
      rw [(hrow i).2.1 u hu]
    · have := key (Entry.xtx st.lr.usedFeatures.card st.lr.usedFeatures.card)
      simp only [BinStat.val] at this
      rw [this, ← hsum]
      congr 1
      refine Finset.sum_congr rfl (fun i _ => ?_)
      rw [(hrow i).2.2.1]
    · have := key (Entry.xty st.lr.usedFeatures.card)
      simp only [BinStat.val] at this
      rw [this, ← hsum]
      congr 1
      refine Finset.sum_congr rfl (fun i _ => ?_)
      rw [(hrow i).2.2.2]
    · have := key Entry.cnt
      simp only [BinStat.val, newVal, ite_self, Finset.sum_const_zero, add_zero] at this
      exact_mod_cast this
    · intro a b ha hb
      have := key (Entry.xtx a b)
      rw [Finset.sum_eq_zero (fun i _ => by
        rw [newVal_inBlock _ _ _ _ (show (Entry.xtx a b).InBlock _ from ⟨ha, hb⟩), ite_self]),
        add_zero] at this
      exact this
    · intro a ha
      have := key (Entry.xty a)
      rw [Finset.sum_eq_zero (fun i _ => by
        rw [newVal_inBlock _ _ _ _ (show (Entry.xty a).InBlock _ from ha), ite_self]),
        add_zero] at this
      exact this
  · intro hused
    exact fed_cell_used st.lr ds bds ys blockOf st.leaves st.lr.usedFeatures.card
      hI.cfg hI.shape.layout p f k hused hf2 hk2

/-- The witness of C27: the first depth of `fit` of `exLearner` on `exDs`; the
root, the feature of the grid (not used yet) and its last bin: the cross-target
entry of the new feature. -/
theorem new_correlations_fed_witness :
    ∃ l : Leaf, (exLearner.rootState exDs exBdsTotal exYs (fun _ => 0)).leaves[0]? = some l ∧
      exLearner.grid.origFeatureIndex 0
        ∉ (exLearner.rootState exDs exBdsTotal exYs (fun _ => 0)).lr.usedFeatures ∧
      ((l.hist (correlated exDs exBdsTotal exYs (fun _ => 0)
          (exLearner.rootState exDs exBdsTotal exYs (fun _ => 0))).stats).hist
          (exLearner.grid.offset 0 + 1)).XTy l.nUsedFeatures
        = ((l.hist (exLearner.rootState exDs exBdsTotal exYs (fun _ => 0)).lr.stats).hist
            (exLearner.grid.offset 0 + 1)).XTy l.nUsedFeatures
          + ∑ i in leafSamples (exLearner.rootState exDs exBdsTotal exYs (fun _ => 0)).lr exDs
              exBdsTotal l.id 0 1,
              exDs.fVal i (exLearner.grid.origFeatureIndex 0) * exYs i := by
  have hnew : exLearner.grid.origFeatureIndex 0
      ∉ (exLearner.rootState exDs exBdsTotal exYs (fun _ => 0)).lr.usedFeatures := by decide
  exact ⟨_, rfl, hnew,
    ((new_correlations_fed exLearner exDs exBdsTotal exYs (fun _ => 0) exLearner_configured
      (fun hh => absurd hh (by decide)) 0 _ rfl 0 _ rfl 0 1 (by decide) (by decide)).1
      hnew).2.2.2.1⟩

/-! ## The root histogram -/

/-- C24: after the root-building pass of `fit` (on a learner configured for the
binarized dataset and the scheduler), for every feature `f` and every
`k ≤ conditionsCount(f)`, the root histogram at bin `binOffsets[f] + k` holds the
statistics of exactly the samples whose bin of `f` is at most `k`: their number,
the sum of `x · x` and the sum of `y · x`, `x` being the value of the bias
column; the values are the same for every other distribution of the samples
over the workers; and the count at the last bin of the feature is the number of
samples. -/
theorem root_histogram_cumulative (lr : Learner) (ds : DataSet) (bds : BinarizedDataSet)
    (ys : Nat → ℚ) (blockOf : Nat → Nat) (hc : Configured lr bds blockOf)
    (hn : lr.isDsCached = true → lr.nSamples = ds.samplesCount)
    (f k : Nat) (hf : f < lr.fCount) (hk : k ≤ lr.grid.conditionsCount f) :
    ∃ root : Leaf, (lr.rootState ds bds ys blockOf).leaves = [root] ∧
      ((root.hist (lr.rootState ds bds ys blockOf).lr.stats).hist (lr.grid.offset f + k)).cnt
        = (((Finset.range ds.samplesCount).filter (fun i => bds.sampleBins i f ≤ k)).card : ℤ) ∧
      ((root.hist (lr.rootState ds bds ys blockOf).lr.stats).hist (lr.grid.offset f + k)).XTX 0 0
        = ∑ i in (Finset.range ds.samplesCount).filter (fun i => bds.sampleBins i f ≤ k),
            ds.fVal i lr.biasCol.toNat * ds.fVal i lr.biasCol.toNat ∧
      ((root.hist (lr.rootState ds bds ys blockOf).lr.stats).hist (lr.grid.offset f + k)).XTy 0
        = ∑ i in (Finset.range ds.samplesCount).filter (fun i => bds.sampleBins i f ≤ k),
            ys i * ds.fVal i lr.biasCol.toNat ∧
      (∀ blockOf2 : Nat → Nat, Configured lr bds blockOf2 →
        ∀ e : Entry, e.InBlock 1 →
          ((root.hist (lr.rootState ds bds ys blockOf2).lr.stats).hist (lr.grid.offset f + k)).val e
            = ((root.hist (lr.rootState ds bds ys blockOf).lr.stats).hist
                (lr.grid.offset f + k)).val e) ∧
      ((root.hist (lr.rootState ds bds ys blockOf).lr.stats).hist
          (lr.grid.offset f + lr.grid.conditionsCount f)).cnt = (ds.samplesCount : ℤ) := by
  obtain ⟨root, hleaves, _, _, rhc, rhb, _, _⟩ := rootState_leaf lr ds bds ys blockOf
  have hgrid : (lr.rootState ds bds ys blockOf).lr.grid = lr.grid := (cacheDs_fields lr ds).1
  have key : ∀ (blk : Nat → Nat), Configured lr bds blk → ∀ (k2 : Nat),
      k2 ≤ lr.grid.conditionsCount f → ∀ e : Entry, e.InBlock 1 →
      ((root.hist (lr.rootState ds bds ys blk).lr.stats).hist (lr.grid.offset f + k2)).val e
        = ∑ i in (Finset.range ds.samplesCount).filter (fun i => bds.sampleBins i f ≤ k2),
            sampleVal (ds.fillSample i [lr.biasCol.toNat]) (ys i) e := by
    intro blk hcb k2 hk2 e he
    have hS := stat_root lr ds bds ys blk hcb hn
    have hg2 : (lr.rootState ds bds ys blk).lr.grid = lr.grid := (cacheDs_fields lr ds).1
    have hfc : f < (lr.rootState ds bds ys blk).lr.fCount := by
      rw [hS.cfg.fCount_eq, hg2, ← hcb.fCount_eq]
      exact hf
    have hcard : (lr.rootState ds bds ys blk).lr.usedFeatures.card = 1 := by
      show (insert lr.biasCol.toNat (∅ : Finset Nat)).card = 1
      simp
    have hv := hS.vals 0 f k2 e (by show 0 < [_].length; simp) hfc (by rw [hg2]; exact hk2)
      (by rw [hcard]; exact he)
    rw [Nat.zero_mul, Nat.zero_add, hg2] at hv
    simp only [LinearObliviousTreeLeafV2.hist]
    rw [rhc, rhb, Nat.zero_add]
    have hcur : (lr.rootState ds bds ys blk).lr.curLeavesCoord = 0 := rfl
    rw [hcur] at hv
    rw [hv, Finset.sum_filter]
    unfold cumulativeVal
    rw [hS.nsamp]
    refine Finset.sum_congr rfl (fun i _ => ?_)
    have hlid : (lr.rootState ds bds ys blk).lr.leafId i = 0 := rfl
    have hord : (lr.rootState ds bds ys blk).lr.usedFeaturesOrdered = [lr.biasCol.toNat] := rfl
    rw [hlid, hord]
    simp
  have hx : ∀ i, ds.fillSample i [lr.biasCol.toNat] 0 = ds.fVal i lr.biasCol.toNat := by
    intro i
    simp [DataSet.fillSample]
  have hcnt : ∀ k2, k2 ≤ lr.grid.conditionsCount f →
      ((root.hist (lr.rootState ds bds ys blockOf).lr.stats).hist (lr.grid.offset f + k2)).cnt
        = (((Finset.range ds.samplesCount).filter (fun i => bds.sampleBins i f ≤ k2)).card : ℤ) := by
    intro k2 hk2
    have := key blockOf hc k2 hk2 Entry.cnt trivial
    simp only [BinStat.val, sampleVal, Finset.sum_const, nsmul_eq_mul, mul_one] at this
    exact_mod_cast this
  refine ⟨root, hleaves, hcnt k hk, ?_, ?_, ?_, ?_⟩
  · have := key blockOf hc k hk (Entry.xtx 0 0) ⟨Nat.zero_lt_one, Nat.zero_lt_one⟩
    simp only [BinStat.val, sampleVal, hx] at this
    exact this
  · have := key blockOf hc k hk (Entry.xty 0) Nat.zero_lt_one
    simp only [BinStat.val, sampleVal, hx] at this
    rw [this]
    refine Finset.sum_congr rfl (fun i _ => mul_comm _ _)
  · intro blockOf2 hc2 e he
    rw [key blockOf2 hc2 k hk e he, key blockOf hc k hk e he]
  · rw [hcnt _ (le_refl _)]
    have hall : (Finset.range ds.samplesCount).filter
        (fun i => bds.sampleBins i f ≤ lr.grid.conditionsCount f) = Finset.range ds.samplesCount :=
      Finset.filter_true_of_mem (fun i _ => hc.binsOk i f hf)
    rw [hall, Finset.card_range]

/-- The witness of C24: the root of `exLearner` on `exDs`, feature `0`, bin `1`
(the last one): the count is the number of samples. -/
theorem root_histogram_cumulative_witness :
    ∃ root : Leaf, (exLearner.rootState exDs exBdsTotal exYs (fun _ => 0)).leaves = [root] ∧
      ((root.hist (exLearner.rootState exDs exBdsTotal exYs (fun _ => 0)).lr.stats).hist
          (exLearner.grid.offset 0 + exLearner.grid.conditionsCount 0)).cnt
        = (exDs.samplesCount : ℤ) := by
  obtain ⟨root, h1, _, _, _, _, h6⟩ := root_histogram_cumulative exLearner exDs exBdsTotal exYs
    (fun _ => 0) exLearner_configured (fun hh => absurd hh (by decide)) 0 1 (by decide) (by decide)
  exact ⟨root, h1, h6⟩

/-! ## Properties of a cell that every update of the statistics keeps -/

theorem modify_closed (Q : BinStat → Prop) (a : Arena) (coord k : Nat) (f : BinStat → BinStat)
    (hf : ∀ s, Q s → Q (f s)) (c cell : Nat) (h : Q (a c cell)) :
    Q ((a.modify coord k f) c cell) := by
  rw [modify_apply]
  by_cases hc : c = coord ∧ cell = k
  · rw [if_pos hc]
    obtain ⟨rfl, rfl⟩ := hc
    exact hf _ h
  · rw [if_neg hc]
    exact h

theorem prefixSumFeature_closed (Q : BinStat → Prop) (hadd : ∀ s t, Q s → Q (s.add t))
    (offset n : Nat) (hist : Nat → BinStat) (b : Nat) (h : Q (hist b)) :
    Q (prefixSumFeature offset n hist b) := by
  induction n with
  | zero => simpa [prefixSumFeature] using h
  | succ n ih =>
    rw [prefixSumFeature_succ]
    by_cases hb : b = offset + (n + 1)
    · subst hb
      rw [Function.update_same]
      exact hadd _ _ ih
    · rw [Function.update_noteq hb]
      exact ih

theorem leaf_prefixSumBins_closed (Q : BinStat → Prop) (hadd : ∀ s t, Q s → Q (s.add t))
    (lf : Leaf) (stats : Arena) (c cell : Nat) (h : Q (stats c cell)) :
    Q ((lf.prefixSumBins stats) c cell) := by
  rw [leaf_prefixSumBins_apply]
  by_cases hc : c = lf.histCoord ∧ lf.histBase ≤ cell
  · rw [if_pos hc]
    obtain ⟨rfl, h2⟩ := hc
    refine foldl_inv (fun hist : Nat → BinStat => Q (hist (cell - lf.histBase))) _ _ _ ?_ ?_
    · have : lf.histBase + (cell - lf.histBase) = cell := by omega
      simp only [this]
      exact h
    · intro hist f hh
      exact prefixSumFeature_closed Q hadd _ _ _ _ hh
  · rw [if_neg hc]
    exact h

theorem leaf_subHist_closed (Q : BinStat → Prop) (hsub : ∀ s t, Q s → Q (s.sub t))
    (dst src : Leaf) (stats : Arena) (c cell : Nat) (h : Q (stats c cell)) :
    Q ((dst.subHist src stats) c cell) := by
  rw [leaf_subHist_apply]
  split_ifs
  · exact hsub _ _ h
  · exact h

theorem leaf_addHist_closed (Q : BinStat → Prop) (hadd : ∀ s t, Q s → Q (s.add t))
    (dst src : Leaf) (stats : Arena) (c cell : Nat) (h : Q (stats c cell)) :
    Q ((dst.addHist src stats) c cell) := by
  rw [leaf_addHist_apply]
  split_ifs
  · exact hadd _ _ h
  · exact h

theorem buildRoot_closed (Q : BinStat → Prop) (hadd : ∀ s t, Q s → Q (s.add t))
    (hfull : ∀ s x y, Q s → Q (s.addFullCorrelation x y))
    (lr : Learner) (ds : DataSet) (bds : BinarizedDataSet) (ys : Nat → ℚ) (blockOf : Nat → Nat)
    (c cell : Nat) (h : Q (lr.stats c cell)) : Q ((lr.buildRoot ds bds ys blockOf) c cell) := by
  unfold GreedyLinearObliviousTreeLearnerV2.buildRoot
  refine leaf_prefixSumBins_closed Q hadd _ _ _ _ ?_
  refine foldl_inv (fun s : Arena => Q (s c cell)) _ _ _ ?_ ?_
  · unfold GreedyLinearObliviousTreeLearnerV2.rootReduce
    refine foldl_inv (fun s : Arena => Q (s c cell)) _ _ _ ?_ ?_
    · unfold GreedyLinearObliviousTreeLearnerV2.rootAccumulate
      refine foldl_inv (fun s : Arena => Q (s c cell)) _ _ _ h ?_
      intro s i hs
      refine foldl_inv (fun s : Arena => Q (s c cell)) _ _ _ hs ?_
      intro s f hs
      exact modify_closed Q _ _ _ _ (fun t ht => hfull _ _ _ ht) _ _ hs
    · intro s bin hs
      refine foldl_inv (fun s : Arena => Q (s c cell)) _ _ _ hs ?_
      intro s b hs
      exact modify_closed Q _ _ _ _ (fun t ht => hadd _ _ ht) _ _ hs
  · intro s bin hs
    exact modify_closed Q _ _ _ _ (fun t ht => hadd _ _ ht) _ _ hs

theorem accumulateChildren_closed (Q : BinStat → Prop)
    (hfull : ∀ s x y, Q s → Q (s.addFullCorrelation x y))
    (lr : Learner) (ds : DataSet) (bds : BinarizedDataSet) (ys : Nat → ℚ) (blockOf : Nat → Nat)
    (n o c cell : Nat) (h : Q (lr.stats c cell)) :
    Q ((lr.accumulateChildren ds bds ys blockOf n o).stats c cell) := by
  unfold GreedyLinearObliviousTreeLearnerV2.accumulateChildren
  refine foldl_inv (fun s : Learner => Q (s.stats c cell)) _ _ _ h ?_
  intro s i hs
  dsimp only
  split_ifs
  · refine foldl_inv (fun s : Learner => Q (s.stats c cell)) _ _ _ hs ?_
    intro s f hs
    exact modify_closed Q _ _ _ _ (fun t ht => hfull _ _ _ ht) _ _ hs
  · refine foldl_inv (fun s : Learner => Q (s.stats c cell)) _ _ _ hs ?_
    intro s f hs
    exact hs
  · exact hs

theorem feedDerived_closed (Q : BinStat → Prop)
    (hnew : ∀ s xtx xty, Q s → Q (s.addNewCorrelation xtx xty (-1)))
    (lr : Learner) (newLeaves : List Leaf) (N o c cell : Nat) (h : Q (lr.stats c cell)) :
    Q ((lr.feedDerived newLeaves N o).stats c cell) := by
  unfold GreedyLinearObliviousTreeLearnerV2.feedDerived
  by_cases hNo : N > o
  swap
  · rw [if_neg hNo]
    exact h
  rw [if_pos hNo]
  refine foldl_inv (fun s : Learner => Q (s.stats c cell)) _ _ _ h ?_
  intro s f hs
  refine foldl_inv (fun s : Learner => Q (s.stats c cell)) _ _ _ hs ?_
  intro s lb hs
  refine foldl_inv (fun s : Learner => Q (s.stats c cell)) _ _ _ hs ?_
  intro s l hs
  dsimp only
  by_cases hfu : lr.fullUpdate l = true
  · simp only [hfu, Bool.not_true, Bool.false_eq_true, if_false]
    exact hs
  simp only [hfu, Bool.not_false, if_true]
  refine foldl_inv (fun s : Learner => Q (s.stats c cell)) _ _ _ hs ?_
  intro s th hs
  have hst : (if lb ≠ 0 then s.prefixStep th l (lr.binOffset f + lb) o else s).stats = s.stats := by
    by_cases h0 : lb = 0 <;> simp [h0, GreedyLinearObliviousTreeLearnerV2.prefixStep]
  cases hl : newLeaves[l]? with
  | none =>
    simp only
    rw [hst]
    exact hs
  | some lf =>
    simp only [GreedyLinearObliviousTreeLearnerV2.feedAt,
      LinearObliviousTreeLeafV2.addNewCorrelation, hst]
    exact modify_closed Q _ _ _ _ (fun t ht => hnew _ _ _ ht) _ _ hs

theorem sumFullChildren_closed (Q : BinStat → Prop) (hadd : ∀ s t, Q s → Q (s.add t))
    (lr : Learner) (newLeaves : List Leaf) (c cell : Nat) (h : Q (lr.stats c cell)) :
    Q ((lr.sumFullChildren newLeaves).stats c cell) := by
  unfold GreedyLinearObliviousTreeLearnerV2.sumFullChildren
  refine foldl_inv (fun s : Learner => Q (s.stats c cell)) _ _ _ h ?_
  intro s bin hs
  refine foldl_inv (fun s : Learner => Q (s.stats c cell)) _ _ _ hs ?_
  intro s l hs
  dsimp only
  split_ifs
  swap
  · exact hs
  refine foldl_inv (fun s : Learner => Q (s.stats c cell)) _ _ _ hs ?_
  intro s blk hs
  cases hl : newLeaves[l]? with
  | none => exact hs
  | some lf =>
    simp only [GreedyLinearObliviousTreeLearnerV2.sumAt, LinearObliviousTreeLeafV2.addBinStat]
    exact modify_closed Q _ _ _ _ (fun t ht => hadd _ _ ht) _ _ hs

theorem prefixFullChildren_closed (Q : BinStat → Prop) (hadd : ∀ s t, Q s → Q (s.add t))
    (lr : Learner) (newLeaves : List Leaf) (c cell : Nat) (h : Q (lr.stats c cell)) :
    Q ((lr.prefixFullChildren newLeaves).stats c cell) := by
  unfold GreedyLinearObliviousTreeLearnerV2.prefixFullChildren
  refine foldl_inv (fun s : Learner => Q (s.stats c cell)) _ _ _ h ?_
  intro s l hs
  dsimp only
  split_ifs
  swap
  · exact hs
  cases hl : newLeaves[l]? with
  | none => exact hs
  | some lf =>
    simp only
    exact leaf_prefixSumBins_closed Q hadd _ _ _ _ hs

theorem deriveChildren_closed (Q : BinStat → Prop) (hadd : ∀ s t, Q s → Q (s.add t))
    (hsub : ∀ s t, Q s → Q (s.sub t))
    (lr : Learner) (leaves newLeaves : List Leaf) (c cell : Nat) (h : Q (lr.stats c cell)) :
    Q ((lr.deriveChildren leaves newLeaves).stats c cell) := by
  unfold GreedyLinearObliviousTreeLearnerV2.deriveChildren
  refine foldl_inv (fun s : Learner => Q (s.stats c cell)) _ _ _ h ?_
  intro s l hs
  dsimp only
  split
  · split_ifs
    · exact leaf_addHist_closed Q hadd _ _ _ _ _ (leaf_subHist_closed Q hsub _ _ _ _ _ hs)
    · exact leaf_addHist_closed Q hadd _ _ _ _ _ (leaf_subHist_closed Q hsub _ _ _ _ _ hs)
  · exact hs

/-- A property of a cell that `+=`, `-=`, `addFullCorrelation` and
`addNewCorrelation(…, -1)` keep is kept by the statistics passes of a split. -/
theorem buildChildren_closed (Q : BinStat → Prop) (hadd : ∀ s t, Q s → Q (s.add t))
    (hsub : ∀ s t, Q s → Q (s.sub t))
    (hfull : ∀ s x y, Q s → Q (s.addFullCorrelation x y))
    (hnew : ∀ s xtx xty, Q s → Q (s.addNewCorrelation xtx xty (-1)))
    (lr : Learner) (ds : DataSet) (bds : BinarizedDataSet) (ys : Nat → ℚ) (blockOf : Nat → Nat)
    (leaves newLeaves : List Leaf) (o c cell : Nat) (h : Q (lr.stats c cell)) :
    Q ((lr.buildChildren ds bds ys blockOf leaves newLeaves o).stats c cell) := by
  unfold GreedyLinearObliviousTreeLearnerV2.buildChildren
  exact deriveChildren_closed Q hadd hsub _ _ _ _ _
    (prefixFullChildren_closed Q hadd _ _ _ _
      (sumFullChildren_closed Q hadd _ _ _ _
        (feedDerived_closed Q hnew _ _ _ _ _ _
          (accumulateChildren_closed Q hfull _ _ _ _ _ _ _ _ _ h))))

theorem fedCell_dim (t0 : Slice) (o : Nat) (shift : ℤ) (k T : Nat) (hT : 0 < T) :
    (fedCell t0 o shift k T).dim
      = max (t0.cells k).dim ((((t0.cells k).filledSize : ℤ) + shift).toNat + 1) := by
  unfold fedCell
  have key : ∀ n, ((List.range (n + 1)).foldl
      (fun c th => c.addNewCorrelation (prefRow t0 o th k) (prefY t0 th k) shift) (t0.cells k)).dim
        = max (t0.cells k).dim ((((t0.cells k).filledSize : ℤ) + shift).toNat + 1) ∧
      ((List.range (n + 1)).foldl
      (fun c th => c.addNewCorrelation (prefRow t0 o th k) (prefY t0 th k) shift)
        (t0.cells k)).filledSize = (t0.cells k).filledSize := by
    intro n
    induction n with
    | zero => exact ⟨rfl, rfl⟩
    | succ n ih =>
      rw [List.range_succ, List.foldl_append]
      simp only [List.foldl_cons, List.foldl_nil]
      refine ⟨?_, ?_⟩
      · show max _ _ = _
        rw [ih.1, ih.2]
        simp
      · show BinStat.filledSize _ = _
        exact ih.2
  obtain ⟨n, rfl⟩ : ∃ n, T = n + 1 := ⟨T - 1, by omega⟩
  exact (key n).1

/-! ## The exact fit of one feature with an intercept -/

/-- The moments of targets that are an exact linear function `α + β · v` of the
feature, over a set of samples. -/
theorem linear_moments (S : Finset Nat) (v y : Nat → ℚ) (α β : ℚ)
    (hy : ∀ i ∈ S, y i = α + β * v i) :
    (∑ i in S, y i) = α * (S.card : ℚ) + β * ∑ i in S, v i ∧
    (∑ i in S, v i * y i) = α * (∑ i in S, v i) + β * ∑ i in S, v i * v i ∧
    (∑ i in S, y i * y i) = α * (∑ i in S, y i) + β * ∑ i in S, v i * y i := by
  refine ⟨?_, ?_, ?_⟩
  · rw [Finset.sum_congr rfl hy, Finset.sum_add_distrib, Finset.sum_const, nsmul_eq_mul,
      Finset.mul_sum]
    ring
  · rw [Finset.sum_congr rfl (fun i hi =>
      (by rw [hy i hi]; ring : v i * y i = α * v i + β * (v i * v i))),
      Finset.sum_add_distrib, Finset.mul_sum, Finset.mul_sum]
  · rw [Finset.sum_congr rfl (fun i hi =>
      (by nth_rewrite 1 [hy i hi]; ring : y i * y i = α * y i + β * (v i * y i))),
      Finset.sum_add_distrib, Finset.mul_sum, Finset.mul_sum]

/-- The cross-product matrix of the intercept and a feature that takes two
different values on the samples has a positive determinant. -/
theorem gram_det_pos (S : Finset Nat) (v : Nat → ℚ) (i j : Nat) (hi : i ∈ S) (hj : j ∈ S)
    (hne : v i ≠ v j) :
    0 < (S.card : ℚ) * (∑ k in S, v k * v k) - (∑ k in S, v k) * (∑ k in S, v k) := by
  have hinner : ∀ a, (∑ b in S, (v a - v b) * (v a - v b))
      = (S.card : ℚ) * (v a * v a) - 2 * (v a * ∑ b in S, v b) + ∑ b in S, v b * v b := by
    intro a
    rw [Finset.sum_congr rfl (fun b _ =>
      (by ring : (v a - v b) * (v a - v b) = v a * v a - 2 * (v a * v b) + v b * v b)),
      Finset.sum_add_distrib, Finset.sum_sub_distrib, Finset.sum_const, nsmul_eq_mul,
      ← Finset.mul_sum, ← Finset.mul_sum]
  have hsum : (∑ a in S, ∑ b in S, (v a - v b) * (v a - v b))
      = 2 * ((S.card : ℚ) * (∑ k in S, v k * v k) - (∑ k in S, v k) * (∑ k in S, v k)) := by
    rw [Finset.sum_congr rfl (fun a _ => hinner a), Finset.sum_add_distrib,
      Finset.sum_sub_distrib, ← Finset.mul_sum, ← Finset.mul_sum, ← Finset.sum_mul,
      Finset.sum_const, nsmul_eq_mul]
    ring
  have hpos : 0 < (v i - v j) * (v i - v j) := by
    exact mul_self_pos.mpr (sub_ne_zero.mpr hne)
  have h1 : (v i - v j) * (v i - v j) ≤ ∑ b in S, (v i - v b) * (v i - v b) :=
    Finset.single_le_sum (f := fun b => (v i - v b) * (v i - v b))
      (fun b _ => mul_self_nonneg _) hj
  have h2 : (∑ b in S, (v i - v b) * (v i - v b))
      ≤ ∑ a in S, ∑ b in S, (v a - v b) * (v a - v b) :=
    Finset.single_le_sum (f := fun a => ∑ b in S, (v a - v b) * (v a - v b))
      (fun a _ => Finset.sum_nonneg (fun b _ => mul_self_nonneg _)) hi
  linarith

/-- The solve of `getW` and the loss of `computeScore` for a matrix of two rows
that is the cross-product matrix of targets that are exactly `α + β · v`, with
`l2reg = 0`: the solution is `(α, β)` and the loss is `-(α · b₀ + β · b₁)` plus
the trace term. -/
theorem solve_two (d : Nat) (hd : d = 2) (A : Matrix (Fin d) (Fin d) ℚ) (b : Fin d → ℚ)
    (X : Nat → Nat → ℚ) (Y : Nat → ℚ) (hA : ∀ i j : Fin d, A i j = X i j)
    (hb : ∀ i : Fin d, b i = Y i) (n sv q α β : ℚ)
    (h00 : X 0 0 = n) (h01 : X 0 1 = sv) (h10 : X 1 0 = sv) (h11 : X 1 1 = q)
    (hy0 : Y 0 = α * n + β * sv) (hy1 : Y 1 = α * sv + β * q) (hdet : n * q - sv * sv ≠ 0) :
    (Weights.ofVec ((inverse (A + DiagMx d 0)).mulVec b)).val 0 = α ∧
    (Weights.ofVec ((inverse (A + DiagMx d 0)).mulVec b)).val 1 = β ∧
    ∀ (tr : ℚ) (cnt : ℤ) (traceReg : ℚ),
      computeScore (A + DiagMx d 0) b tr cnt 0 traceReg
        = -(α * Y 0 + β * Y 1) + traceReg * tr / 2 := by
  subst hd
  have hA2 : A + DiagMx 2 0 = !![n, sv; sv, q] := by
    ext i j
    fin_cases i <;> fin_cases j <;> simp [DiagMx, hA, h00, h01, h10, h11]
  have hb2 : b = ![α * n + β * sv, α * sv + β * q] := by
    ext i
    fin_cases i <;> simp [hb, hy0, hy1]
  have hw : (inverse (!![n, sv; sv, q] : Matrix (Fin 2) (Fin 2) ℚ)).mulVec
      ![α * n + β * sv, α * sv + β * q] = ![α, β] := by
    have hM : ![α * n + β * sv, α * sv + β * q]
        = (!![n, sv; sv, q] : Matrix (Fin 2) (Fin 2) ℚ).mulVec ![α, β] := by
      ext i
      fin_cases i <;> simp [Matrix.mulVec, Matrix.dotProduct, Fin.sum_univ_two] <;> ring
    rw [hM, Matrix.mulVec_mulVec,
      (inverse_mul_self _ (by rw [Matrix.det_fin_two_of]; exact hdet)).1, Matrix.one_mulVec]
  rw [hA2, hb2]
  refine ⟨by rw [hw]; simp [Weights.ofVec], by rw [hw]; simp [Weights.ofVec], ?_⟩
  intro tr cnt traceReg
  simp only [computeScore]
  rw [hw, hy0, hy1]
  simp [Matrix.dotProduct, Matrix.vecMul, Fin.sum_univ_two]
  ring

theorem getTrace_two (s : BinStat) (d : Nat) (hd : d = 2) :
    s.getTrace d = s.XTX 0 0 + s.XTX 1 1 := by
  subst hd
  simp [BinStat.getTrace, Fin.sum_univ_two]

/-- The weights `getW` returns with `l2reg = 0` on a histogram whose cell at the
last bin of the last used feature has two rows and holds the moments of targets
that are exactly `α + β · v`. -/
theorem getW_two (h : HistogramV2) (f offset : Nat) (hlast : h.lastUsedFeatureId = (f : ℤ))
    (hoff : h.grid.binOffsets[f]? = some offset)
    (hdim : (h.hist (offset + h.grid.conditionsCount f)).dim = 2) (n sv q α β : ℚ)
    (h00 : (h.hist (offset + h.grid.conditionsCount f)).XTX 0 0 = n)
    (h01 : (h.hist (offset + h.grid.conditionsCount f)).XTX 0 1 = sv)
    (h10 : (h.hist (offset + h.grid.conditionsCount f)).XTX 1 0 = sv)
    (h11 : (h.hist (offset + h.grid.conditionsCount f)).XTX 1 1 = q)
    (hy0 : (h.hist (offset + h.grid.conditionsCount f)).XTy 0 = α * n + β * sv)
    (hy1 : (h.hist (offset + h.grid.conditionsCount f)).XTy 1 = α * sv + β * q)
    (hdet : n * q - sv * sv ≠ 0) :
    ∃ w : Weights, h.getW 0 = .ok w ∧ w.val 0 = α ∧ w.val 1 = β := by
  have hne : ¬ (h.lastUsedFeatureId = -1) := by rw [hlast]; omega
  have hnn : 0 ≤ h.lastUsedFeatureId := by rw [hlast]; omega
  have htn : h.lastUsedFeatureId.toNat = f := by rw [hlast]; simp
  have key := solve_two (h.hist (offset + h.grid.conditionsCount f)).dim hdim
    ((h.hist (offset + h.grid.conditionsCount f)).getXTX _)
    ((h.hist (offset + h.grid.conditionsCount f)).getXTy _)
    (h.hist (offset + h.grid.conditionsCount f)).XTX
    (h.hist (offset + h.grid.conditionsCount f)).XTy (fun _ _ => rfl) (fun _ => rfl)
    n sv q α β h00 h01 h10 h11 hy0 hy1 hdet
  refine ⟨Weights.ofVec ((inverse (h.XTX_r (offset + h.grid.conditionsCount f) 0)).mulVec
    ((h.hist (offset + h.grid.conditionsCount f)).getXTy _)), ?_, key.1, key.2.1⟩
  simp only [HistogramV2.getW]
  rw [if_neg hne, if_pos hnn, htn, hoff]

/-- The two components of `splitScore(f, 0)` with `l2reg = 0` on a histogram
whose cells at the first and the last bin of `f` have two rows and hold, on the
left of the border and on its right, the moments of targets that are exactly
linear in the feature. -/
theorem splitScore_two (h : HistogramV2) (f : Nat) (traceReg : ℚ)
    (hdim : (h.hist (h.binPos f 0)).dim = 2)
    (nL svL qL αL βL nR svR qR αR βR : ℚ)
    (l00 : (h.hist (h.binPos f 0)).XTX 0 0 = nL) (l01 : (h.hist (h.binPos f 0)).XTX 0 1 = svL)
    (l10 : (h.hist (h.binPos f 0)).XTX 1 0 = svL) (l11 : (h.hist (h.binPos f 0)).XTX 1 1 = qL)
    (ly0 : (h.hist (h.binPos f 0)).XTy 0 = αL * nL + βL * svL)
    (ly1 : (h.hist (h.binPos f 0)).XTy 1 = αL * svL + βL * qL)
    (hdetL : nL * qL - svL * svL ≠ 0)
    (r00 : (h.hist (h.lastPos f)).XTX 0 0 - (h.hist (h.binPos f 0)).XTX 0 0 = nR)
    (r01 : (h.hist (h.lastPos f)).XTX 0 1 - (h.hist (h.binPos f 0)).XTX 0 1 = svR)
    (r10 : (h.hist (h.lastPos f)).XTX 1 0 - (h.hist (h.binPos f 0)).XTX 1 0 = svR)
    (r11 : (h.hist (h.lastPos f)).XTX 1 1 - (h.hist (h.binPos f 0)).XTX 1 1 = qR)
    (ry0 : (h.hist (h.lastPos f)).XTy 0 - (h.hist (h.binPos f 0)).XTy 0 = αR * nR + βR * svR)
    (ry1 : (h.hist (h.lastPos f)).XTy 1 - (h.hist (h.binPos f 0)).XTy 1 = αR * svR + βR * qR)
    (hdetR : nR * qR - svR * svR ≠ 0) :
    (h.splitScore f 0 0 traceReg).1
      = -(αL * (αL * nL + βL * svL) + βL * (αL * svL + βL * qL)) + traceReg * (nL + qL) / 2 ∧
    (h.splitScore f 0 0 traceReg).2
      = -(αR * (αR * nR + βR * svR) + βR * (αR * svR + βR * qR)) + traceReg * (nR + qR) / 2 := by
  have hd : h.ydim f 0 = 2 := hdim
  have keyL := (solve_two (h.ydim f 0) hd
    ((h.hist (h.binPos f 0)).getXTX _) (h.left_XTy f 0)
    (h.hist (h.binPos f 0)).XTX (h.hist (h.binPos f 0)).XTy (fun _ _ => rfl) (fun _ => rfl)
    nL svL qL αL βL l00 l01 l10 l11 ly0 ly1 hdetL).2.2 (h.left_XTX_trace f 0)
    (h.hist (h.binPos f 0)).getCnt traceReg
  have keyR := (solve_two (h.ydim f 0) hd
    ((h.hist (h.lastPos f)).getXTX _ - (h.hist (h.binPos f 0)).getXTX _) (h.right_XTy f 0)
    (fun a b => (h.hist (h.lastPos f)).XTX a b - (h.hist (h.binPos f 0)).XTX a b)
    (fun a => (h.hist (h.lastPos f)).XTy a - (h.hist (h.binPos f 0)).XTy a)
    (fun _ _ => rfl) (fun _ => rfl)
    nR svR qR αR βR r00 r01 r10 r11 ry0 ry1 hdetR).2.2 (h.right_XTX_trace f 0)
    ((h.hist (h.lastPos f)).getCnt - (h.hist (h.binPos f 0)).getCnt) traceReg
  have htL : h.left_XTX_trace f 0 = nL + qL := by
    unfold HistogramV2.left_XTX_trace
    rw [getTrace_two _ _ hd, l00, l11]
  have htR : h.right_XTX_trace f 0 = nR + qR := by
    unfold HistogramV2.right_XTX_trace
    rw [getTrace_two _ _ hd, getTrace_two _ _ hd, ← r00, ← r11]
    ring
  have hsplit : h.splitScore f 0 0 traceReg
      = (computeScore (h.left_XTX f 0 0) (h.left_XTy f 0) (h.left_XTX_trace f 0)
          (h.hist (h.binPos f 0)).getCnt 0 traceReg,
         computeScore (h.right_XTX f 0 0) (h.right_XTy f 0) (h.right_XTX_trace f 0)
          ((h.hist (h.lastPos f)).getCnt - (h.hist (h.binPos f 0)).getCnt) 0 traceReg) := by
    unfold HistogramV2.splitScore
    simp
  rw [hsplit]
  refine ⟨?_, ?_⟩
  · exact keyL.trans (by rw [htL, ly0, ly1])
  · exact keyR.trans (by rw [htR, ry0, ry1])

/-! ## The end-to-end scenario -/

theorem scenario_configured (ds : DataSet) (bds : BinarizedDataSet) (ys : Nat → ℚ)
    (blockOf : Nat → Nat) (tr : ℚ) (T : Nat) (aL bL aR bR : ℚ)
    (hs : Scenario ds bds ys blockOf T aL bL aR bR) :
    Configured (scenarioLearner tr T) bds blockOf := by
  refine ⟨rfl, ?_, rfl, ?_, ?_, ?_, hs.blocks⟩
  · intro f hf
    have e1 : f = 0 := by
      have : f < 1 := hf
      omega
    subst e1
    rfl
  · intro f1 f2 h1 h2 hne
    have e1 : f1 = 0 := by
      have : f1 < 1 := h1
      omega
    have e2 : f2 = 0 := by
      have : f2 < 1 := h2
      omega
    exact absurd (e1.trans e2.symm) hne
  · intro f hf
    have e1 : f = 0 := by
      have : f < 1 := hf
      omega
    subst e1
    exact exLearner_configured.inRange 0 (Nat.lt_succ_self 0)
  · intro i f hf
    have e1 : f = 0 := by
      have : f < 1 := hf
      omega
    subst e1
    rw [hs.bins]
    show (if ds.fVal i 1 ≤ 1 / 2 then 0 else 1) ≤ 1
    split_ifs <;> omega

/-- The dimension of the cell of a new feature after the correlation pass and the
reduce pass of a depth, when there is at least one worker. -/
theorem fed_cell_dim (lr : Learner) (ds : DataSet) (bds : BinarizedDataSet)
    (ys : Nat → ℚ) (blockOf : Nat → Nat) (leaves : List Leaf) (n : Nat)
    (hc : Configured lr bds blockOf) (hlay : Layout leaves lr.curLeavesCoord lr.grid.totalBins)
    (p f k : Nat) (hp : p < leaves.length)
    (hnew : lr.grid.origFeatureIndex f ∉ lr.usedFeatures)
    (hf : f < lr.fCount) (hk : k ≤ lr.grid.conditionsCount f) (hT : 0 < lr.nThreads) :
    (((lr.correlate ds bds ys blockOf n).feedNewCorrelations leaves n).stats lr.curLeavesCoord
        (p * lr.grid.totalBins + (lr.grid.offset f + k))).dim
      = max (lr.stats lr.curLeavesCoord (p * lr.grid.totalBins + (lr.grid.offset f + k))).dim
          ((((lr.stats lr.curLeavesCoord
              (p * lr.grid.totalBins + (lr.grid.offset f + k))).filledSize : ℤ) + 0).toNat
            + 1) := by
  have hinj := configured_inj lr bds blockOf hc
  have htb := hc.totalBins_eq
  have e1 : (lr.correlate ds bds ys blockOf n).eraseBuffers = lr.eraseBuffers :=
    correlate_erase _ _ _ _ _ _
  have hS := correlate_stats lr ds bds ys blockOf n
  generalize lr.correlate ds bds ys blockOf n = lr1 at e1 hS ⊢
  obtain ⟨g1, fc1, cur1, _, _, _, u1, _, tb1, bo1, nt1⟩ := fields_of_erase _ _ e1
  have hbo : ∀ f2, lr1.binOffset f2 = lr.binOffset f2 := by
    intro f2
    unfold GreedyLinearObliviousTreeLearnerV2.binOffset
    rw [bo1]
  have hcell := feedNewCorrelations_cell lr1 leaves n lr.curLeavesCoord
    (by
      intro l1 f1 k1 l2 f2 k2 hf1 hf2 hk1 hk2 heq
      rw [tb1, hbo, hbo] at heq
      exact hinj l1 f1 k1 l2 f2 k2 (fc1 ▸ hf1) (fc1 ▸ hf2) (g1 ▸ hk1) (g1 ▸ hk2) heq)
    (by rw [tb1, htb]; exact hlay) p f k hp (by rw [g1, u1]; exact hnew) (by rw [fc1]; exact hf)
    (by rw [g1]; exact hk)
  rw [tb1, htb, hbo, hc.offset_eq f hf, g1, nt1] at hcell
  rw [hcell, fedCell_dim _ _ _ _ _ hT]
  have hcell0 : (sliceOf lr1 lr.curLeavesCoord (p * lr.grid.totalBins) p (lr.grid.offset f)
      (lr.grid.conditionsCount f)).cells k
      = lr.stats lr.curLeavesCoord (p * lr.grid.totalBins + (lr.grid.offset f + k)) := by
    simp only [sliceOf, hk, if_true]
    rw [hS]
  rw [hcell0]

/-- What every cell of the arena satisfies when the root is built: one row, and
nothing outside the block of the intercept. -/
theorem root_cell_plain (lr : Learner) (ds : DataSet) (bds : BinarizedDataSet) (ys : Nat → ℚ)
    (blockOf : Nat → Nat) (c cell : Nat) :
    ((lr.rootState ds bds ys blockOf).lr.stats c cell).filledSize = 1 ∧
    ((lr.rootState ds bds ys blockOf).lr.stats c cell).dim = 1 ∧
    ((lr.rootState ds bds ys blockOf).lr.stats c cell).XTX 0 1 = 0 ∧
    ((lr.rootState ds bds ys blockOf).lr.stats c cell).XTX 1 0 = 0 ∧
    ((lr.rootState ds bds ys blockOf).lr.stats c cell).XTX 1 1 = 0 ∧
    ((lr.rootState ds bds ys blockOf).lr.stats c cell).XTy 1 = 0 := by
  obtain ⟨L, hL, hz, _⟩ := rootState_learner lr ds bds ys blockOf
  rw [hL]
  refine buildRoot_closed (fun s : BinStat => s.filledSize = 1 ∧ s.dim = 1 ∧ s.XTX 0 1 = 0 ∧
    s.XTX 1 0 = 0 ∧ s.XTX 1 1 = 0 ∧ s.XTy 1 = 0) ?_ ?_ L ds bds ys blockOf c cell ?_
  · rintro s t ⟨h1, h2, h3, h4, h5, h6⟩
    refine ⟨h1, h2, ?_, ?_, ?_, ?_⟩
    · show (if 0 < min s.filledSize t.filledSize ∧ 1 < min s.filledSize t.filledSize
        then s.XTX 0 1 + t.XTX 0 1 else s.XTX 0 1) = 0
      rw [if_neg (by rw [h1]; omega), h3]
    · show (if 1 < min s.filledSize t.filledSize ∧ 0 < min s.filledSize t.filledSize
        then s.XTX 1 0 + t.XTX 1 0 else s.XTX 1 0) = 0
      rw [if_neg (by rw [h1]; omega), h4]
    · show (if 1 < min s.filledSize t.filledSize ∧ 1 < min s.filledSize t.filledSize
        then s.XTX 1 1 + t.XTX 1 1 else s.XTX 1 1) = 0
      rw [if_neg (by rw [h1]; omega), h5]
    · show (if 1 < min s.filledSize t.filledSize then s.XTy 1 + t.XTy 1 else s.XTy 1) = 0
      rw [if_neg (by rw [h1]; omega), h6]
  · rintro s x y ⟨h1, h2, h3, h4, h5, h6⟩
    refine ⟨h1, h2, ?_, ?_, ?_, ?_⟩
    · show (if 0 < s.filledSize ∧ 1 < s.filledSize then s.XTX 0 1 + x 0 * x 1 else s.XTX 0 1) = 0
      rw [if_neg (by rw [h1]; omega), h3]
    · show (if 1 < s.filledSize ∧ 0 < s.filledSize then s.XTX 1 0 + x 1 * x 0 else s.XTX 1 0) = 0
      rw [if_neg (by rw [h1]; omega), h4]
    · show (if 1 < s.filledSize ∧ 1 < s.filledSize then s.XTX 1 1 + x 1 * x 1 else s.XTX 1 1) = 0
      rw [if_neg (by rw [h1]; omega), h5]
    · show (if 1 < s.filledSize then s.XTy 1 + x 1 * y else s.XTy 1) = 0
      rw [if_neg (by rw [h1]; omega), h6]
  · rw [hz]
    exact ⟨rfl, rfl, rfl, rfl, rfl, rfl⟩

theorem sideSamples_card (ds : DataSet) :
    ((sideSamples ds true).card : ℚ) + ((sideSamples ds false).card : ℚ) = ds.samplesCount := by
  have h := Finset.filter_card_add_filter_neg_card_eq_card (s := Finset.range ds.samplesCount)
    (fun i => decide (ds.fVal i 1 ≤ 1 / 2) = true)
  rw [Finset.card_range] at h
  have e : (Finset.range ds.samplesCount).filter
      (fun i => ¬ (decide (ds.fVal i 1 ≤ 1 / 2) = true)) = sideSamples ds false := by
    unfold sideSamples
    refine Finset.filter_congr (fun i _ => ?_)
    simp
  rw [e] at h
  unfold sideSamples at h ⊢
  exact_mod_cast h

theorem sideSamples_sum (ds : DataSet) (g : Nat → ℚ) :
    (∑ i in sideSamples ds true, g i) + (∑ i in sideSamples ds false, g i)
      = ∑ i in Finset.range ds.samplesCount, g i := by
  have h := Finset.sum_filter_add_sum_filter_not (Finset.range ds.samplesCount)
    (fun i => decide (ds.fVal i 1 ≤ 1 / 2) = true) g
  have e : (Finset.range ds.samplesCount).filter
      (fun i => ¬ (decide (ds.fVal i 1 ≤ 1 / 2) = true)) = sideSamples ds false := by
    unfold sideSamples
    refine Finset.filter_congr (fun i _ => ?_)
    simp
  rw [e] at h
  exact h

/-- The state of `fit` on the scenario when the root is built. -/
theorem scenario_root (ds : DataSet) (bds : BinarizedDataSet) (ys : Nat → ℚ)
    (blockOf : Nat → Nat) (tr : ℚ) (T : Nat) :
    ((scenarioLearner tr T).rootState ds bds ys blockOf).lr.grid = exTreeGrid ∧
    ((scenarioLearner tr T).rootState ds bds ys blockOf).lr.fCount = 1 ∧
    ((scenarioLearner tr T).rootState ds bds ys blockOf).lr.nSamples = ds.samplesCount ∧
    ((scenarioLearner tr T).rootState ds bds ys blockOf).lr.leafId = (fun _ => 0) ∧
    ((scenarioLearner tr T).rootState ds bds ys blockOf).lr.usedFeatures = {0} ∧
    ((scenarioLearner tr T).rootState ds bds ys blockOf).lr.usedFeaturesOrdered = [0] ∧
    ((scenarioLearner tr T).rootState ds bds ys blockOf).lr.curLeavesCoord = 0 ∧
    ((scenarioLearner tr T).rootState ds bds ys blockOf).lr.nThreads = T ∧
    ((scenarioLearner tr T).rootState ds bds ys blockOf).lr.fColumnsRefs
      = [fun i => ds.fVal i 1] ∧
    ((scenarioLearner tr T).rootState ds bds ys blockOf).leaves = [scenarioRoot tr] :=
  ⟨rfl, rfl, rfl, rfl, rfl, rfl, rfl, rfl, rfl, rfl⟩

/-- The cells of the root when the split search of the scenario reads them: the
cell of bin `k` holds the moments of the samples whose bin is at most `k`. -/
theorem scenario_root_cell (ds : DataSet) (bds : BinarizedDataSet) (ys : Nat → ℚ)
    (blockOf : Nat → Nat) (tr : ℚ) (T : Nat) (aL bL aR bR : ℚ)
    (hs : Scenario ds bds ys blockOf T aL bL aR bR) (k : Nat) (hk : k ≤ 1) :
    Moments ds ys ((Finset.range ds.samplesCount).filter (fun i => bds.sampleBins i 0 ≤ k))
      ((correlated ds bds ys blockOf ((scenarioLearner tr T).rootState ds bds ys blockOf)).stats
        0 k) := by
  have hc := scenario_configured ds bds ys blockOf tr T aL bL aR bR hs
  have hI := stat_root (scenarioLearner tr T) ds bds ys blockOf hc
    (fun h => absurd (show false = true from h) Bool.false_ne_true)
  obtain ⟨hg, hfc, hns, hlid, hu, hord, hcur, hT, _, hlv⟩ :=
    scenario_root ds bds ys blockOf tr T
  have hplain := root_cell_plain (scenarioLearner tr T) ds bds ys blockOf 0 k
  have hT0 : 0 < T := lt_of_le_of_lt (Nat.zero_le _) (hs.blocks 0)
  have hcorr : correlated ds bds ys blockOf ((scenarioLearner tr T).rootState ds bds ys blockOf)
      = (((scenarioLearner tr T).rootState ds bds ys blockOf).lr.correlate ds bds ys blockOf
          1).feedNewCorrelations ((scenarioLearner tr T).rootState ds bds ys blockOf).leaves 1 :=
    rfl
  have hcell : 0 * ((scenarioLearner tr T).rootState ds bds ys blockOf).lr.grid.totalBins
      + (((scenarioLearner tr T).rootState ds bds ys blockOf).lr.grid.offset 0 + k) = k := by
    rw [hg]
    show 0 * 2 + (0 + k) = k
    omega
  have hvals := fun e (he : Entry.InBlock 1 e) => hI.vals 0 0 k e (by rw [hlv]; exact Nat.one_pos)
    (by rw [hfc]; exact Nat.one_pos) (by rw [hg]; exact hk) (by rw [hu]; exact he)
  have hfed := fed_cell_val ((scenarioLearner tr T).rootState ds bds ys blockOf).lr ds bds ys
    blockOf ((scenarioLearner tr T).rootState ds bds ys blockOf).leaves 1 hI.cfg hI.shape.layout
    0 0 k (by rw [hlv]; exact Nat.one_pos) (by rw [hg, hu]; decide)
    (by rw [hfc]; exact Nat.one_pos) (by rw [hg]; exact hk)
    (by rw [hcell, hcur]; exact hplain.1)
  have hdim := fed_cell_dim ((scenarioLearner tr T).rootState ds bds ys blockOf).lr ds bds ys
    blockOf ((scenarioLearner tr T).rootState ds bds ys blockOf).leaves 1 hI.cfg hI.shape.layout
    0 0 k (by rw [hlv]; exact Nat.one_pos) (by rw [hg, hu]; decide)
    (by rw [hfc]; exact Nat.one_pos) (by rw [hg]; exact hk) (by rw [hT]; exact hT0)
  rw [← hcorr, hcell, hcur] at hfed hdim
  rw [hcell, hcur] at hvals
  simp only [cumulativeVal, hns, hlid, hord] at hvals
  simp only [hns, hlid, hord, hg] at hfed
  generalize ((scenarioLearner tr T).rootState ds bds ys blockOf).lr.stats 0 k = s0
    at hvals hfed hdim hplain
  generalize (correlated ds bds ys blockOf
    ((scenarioLearner tr T).rootState ds bds ys blockOf)).stats 0 k = s1 at hfed hdim ⊢
  obtain ⟨p1, p2, p3, p4, p5, p6⟩ := hplain
  have hfs : ∀ i, ds.fillSample i [0] 0 = 1 := by
    intro i
    show ds.fVal i 0 = 1
    exact hs.bias i
  have horig : exTreeGrid.origFeatureIndex 0 = 1 := rfl
  refine ⟨?_, ?_, ?_, ?_, ?_, ?_, ?_⟩
  · rw [hdim, p1, p2]
    rfl
  · have h1 := hfed (.xtx 0 0)
    have h2 := hvals (.xtx 0 0) ⟨Nat.one_pos, Nat.one_pos⟩
    simp only [BinStat.val] at h1 h2
    rw [h1, h2, Finset.card_eq_sum_ones, Finset.sum_filter]
    simp [newVal, sampleVal, hfs]
  · have h1 := hfed (.xtx 0 1)
    simp only [BinStat.val] at h1
    rw [h1, p3, Finset.sum_filter]
    simp [newVal, newRow, hfs, horig]
  · have h1 := hfed (.xtx 1 0)
    simp only [BinStat.val] at h1
    rw [h1, p4, Finset.sum_filter]
    simp [newVal, newRow, hfs, horig]
  · have h1 := hfed (.xtx 1 1)
    simp only [BinStat.val] at h1
    rw [h1, p5, Finset.sum_filter]
    simp [newVal, newRow, hfs, horig]
  · have h1 := hfed (.xty 0)
    have h2 := hvals (.xty 0) Nat.one_pos
    simp only [BinStat.val] at h1 h2
    rw [h1, h2, Finset.sum_filter]
    simp [newVal, sampleVal, hfs]
  · have h1 := hfed (.xty 1)
    simp only [BinStat.val] at h1
    rw [h1, p6, Finset.sum_filter]
    simp [newVal, newRow, hfs, horig]

theorem scenario_left_bin (ds : DataSet) (bds : BinarizedDataSet) (ys : Nat → ℚ)
    (blockOf : Nat → Nat) (T : Nat) (aL bL aR bR : ℚ)
    (hs : Scenario ds bds ys blockOf T aL bL aR bR) :
    (Finset.range ds.samplesCount).filter (fun i => bds.sampleBins i 0 ≤ 0)
      = sideSamples ds true := by
  unfold sideSamples
  refine Finset.filter_congr (fun i _ => ?_)
  rw [hs.bins]
  by_cases h : ds.fVal i 1 ≤ 1 / 2
  · simp [h]
  · simp [h]

theorem scenario_last_bin (ds : DataSet) (bds : BinarizedDataSet) (ys : Nat → ℚ)
    (blockOf : Nat → Nat) (T : Nat) (aL bL aR bR : ℚ)
    (hs : Scenario ds bds ys blockOf T aL bL aR bR) :
    (Finset.range ds.samplesCount).filter (fun i => bds.sampleBins i 0 ≤ 1)
      = Finset.range ds.samplesCount := by
  refine Finset.filter_true_of_mem (fun i _ => ?_)
  rw [hs.bins]
  split_ifs <;> omega

/-- On each side of the border the targets of the scenario are linear in the
feature, so the moments of the side satisfy the normal equations of the line,
and its matrix is invertible. -/
theorem scenario_side (ds : DataSet) (bds : BinarizedDataSet) (ys : Nat → ℚ)
    (blockOf : Nat → Nat) (T : Nat) (aL bL aR bR : ℚ)
    (hs : Scenario ds bds ys blockOf T aL bL aR bR) (side : Bool) :
    (∑ i in sideSamples ds side, ys i)
      = (if side then aL else aR) * ((sideSamples ds side).card : ℚ)
        + (if side then bL else bR) * ∑ i in sideSamples ds side, ds.fVal i 1 ∧
    (∑ i in sideSamples ds side, ds.fVal i 1 * ys i)
      = (if side then aL else aR) * (∑ i in sideSamples ds side, ds.fVal i 1)
        + (if side then bL else bR) * ∑ i in sideSamples ds side, ds.fVal i 1 * ds.fVal i 1 ∧
    (∑ i in sideSamples ds side, ys i * ys i)
      = (if side then aL else aR) * (∑ i in sideSamples ds side, ys i)
        + (if side then bL else bR) * ∑ i in sideSamples ds side, ds.fVal i 1 * ys i ∧
    ((sideSamples ds side).card : ℚ) * (∑ i in sideSamples ds side, ds.fVal i 1 * ds.fVal i 1)
      - (∑ i in sideSamples ds side, ds.fVal i 1) * (∑ i in sideSamples ds side, ds.fVal i 1)
      ≠ 0 := by
  have hy : ∀ i ∈ sideSamples ds side,
      ys i = (if side then aL else aR) + (if side then bL else bR) * ds.fVal i 1 := by
    intro i hi
    unfold sideSamples at hi
    rw [Finset.mem_filter, Finset.mem_range] at hi
    rw [hs.targets i hi.1]
    cases side
    · have h : ¬ ds.fVal i 1 ≤ 1 / 2 := of_decide_eq_false hi.2
      rw [if_neg h]
      rfl
    · have h : ds.fVal i 1 ≤ 1 / 2 := of_decide_eq_true hi.2
      rw [if_pos h]
      rfl
  obtain ⟨m1, m2, m3⟩ := linear_moments (sideSamples ds side) (fun i => ds.fVal i 1) ys _ _ hy
  refine ⟨m1, m2, m3, ?_⟩
  have hpos : ∃ i j, i ∈ sideSamples ds side ∧ j ∈ sideSamples ds side ∧
      ds.fVal i 1 ≠ ds.fVal j 1 := by
    cases side
    · obtain ⟨i, j, hi, hj, vi, vj, hne⟩ := hs.right
      refine ⟨i, j, ?_, ?_, hne⟩
      · unfold sideSamples
        rw [Finset.mem_filter, Finset.mem_range]
        exact ⟨hi, by simpa using vi⟩
      · unfold sideSamples
        rw [Finset.mem_filter, Finset.mem_range]
        exact ⟨hj, by simpa using vj⟩
    · obtain ⟨i, j, hi, hj, vi, vj, hne⟩ := hs.left
      refine ⟨i, j, ?_, ?_, hne⟩
      · unfold sideSamples
        rw [Finset.mem_filter, Finset.mem_range]
        exact ⟨hi, by simpa using vi⟩
      · unfold sideSamples
        rw [Finset.mem_filter, Finset.mem_range]
        exact ⟨hj, by simpa using vj⟩
  obtain ⟨i, j, hi, hj, hne⟩ := hpos
  exact ne_of_gt (gram_det_pos (sideSamples ds side) (fun i => ds.fVal i 1) i j hi hj hne)

/-- The total score of the one candidate of the scenario: the trace penalty less
the sum of the squared targets. -/
theorem scenario_score (ds : DataSet) (bds : BinarizedDataSet) (ys : Nat → ℚ)
    (blockOf : Nat → Nat) (tr : ℚ) (T : Nat) (aL bL aR bR : ℚ)
    (hs : Scenario ds bds ys blockOf T aL bL aR bR) :
    totalSplitScore ((scenarioLearner tr T).rootState ds bds ys blockOf).leaves
        (correlated ds bds ys blockOf
          ((scenarioLearner tr T).rootState ds bds ys blockOf)).stats 0 0
      = tr * ((ds.samplesCount : ℚ)
            + ∑ i in Finset.range ds.samplesCount, ds.fVal i 1 * ds.fVal i 1) / 2
          - ∑ i in Finset.range ds.samplesCount, ys i * ys i := by
  have c0 := scenario_root_cell ds bds ys blockOf tr T aL bL aR bR hs 0 (Nat.zero_le 1)
  have c1 := scenario_root_cell ds bds ys blockOf tr T aL bL aR bR hs 1 (Nat.le_refl 1)
  rw [scenario_left_bin ds bds ys blockOf T aL bL aR bR hs] at c0
  rw [scenario_last_bin ds bds ys blockOf T aL bL aR bR hs] at c1
  have c100 := c1.x00
  rw [Finset.card_range] at c100
  obtain ⟨l1, l2, l3, ldet⟩ := scenario_side ds bds ys blockOf T aL bL aR bR hs true
  obtain ⟨r1, r2, r3, rdet⟩ := scenario_side ds bds ys blockOf T aL bL aR bR hs false
  simp only [if_true, Bool.false_eq_true, if_false] at l1 l2 l3 r1 r2 r3
  have hcard := sideSamples_card ds
  have hv := sideSamples_sum ds (fun i => ds.fVal i 1)
  have hq := sideSamples_sum ds (fun i => ds.fVal i 1 * ds.fVal i 1)
  have hy := sideSamples_sum ds ys
  have hvy := sideSamples_sum ds (fun i => ds.fVal i 1 * ys i)
  have hyy := sideSamples_sum ds (fun i => ys i * ys i)
  obtain ⟨_, _, _, _, _, _, _, _, _, hlv⟩ := scenario_root ds bds ys blockOf tr T
  rw [hlv]
  generalize (correlated ds bds ys blockOf
    ((scenarioLearner tr T).rootState ds bds ys blockOf)).stats = stats at c0 c1 c100 ⊢
  have key := splitScore_two
    ((scenarioRoot tr).hist stats) 0 tr c0.dim_eq
    _ _ _ aL bL _ _ _ aR bR c0.x00 c0.x01 c0.x10 c0.x11 (c0.y0.trans l1) (c0.y1.trans l2) ldet
    (show (stats 0 1).XTX 0 0 - (stats 0 0).XTX 0 0 = ((sideSamples ds false).card : ℚ) by
      rw [c100, c0.x00]; linarith)
    (show (stats 0 1).XTX 0 1 - (stats 0 0).XTX 0 1 = ∑ i in sideSamples ds false, ds.fVal i 1 by
      rw [c1.x01, c0.x01]; linarith)
    (show (stats 0 1).XTX 1 0 - (stats 0 0).XTX 1 0 = ∑ i in sideSamples ds false, ds.fVal i 1 by
      rw [c1.x10, c0.x10]; linarith)
    (show (stats 0 1).XTX 1 1 - (stats 0 0).XTX 1 1
        = ∑ i in sideSamples ds false, ds.fVal i 1 * ds.fVal i 1 by
      rw [c1.x11, c0.x11]; linarith)
    (show (stats 0 1).XTy 0 - (stats 0 0).XTy 0 = _ by
      rw [c1.y0, c0.y0, ← r1]; linarith)
    (show (stats 0 1).XTy 1 - (stats 0 0).XTy 1 = _ by
      rw [c1.y1, c0.y1, ← r2]; linarith)
    rdet
  show (0 : ℚ) + ((((scenarioRoot tr).hist stats).splitScore 0 0 0 tr).1
    + (((scenarioRoot tr).hist stats).splitScore 0 0 0 tr).2) = _
  rw [key.1, key.2, ← l1, ← l2, ← r1, ← r2, ← l3, ← r3, ← hcard, ← hq, ← hyy]
  ring

/-- The split search of the scenario selects the feature and its border when the
score of the candidate is below the initial bound of the search. -/
theorem scenario_selected (ds : DataSet) (bds : BinarizedDataSet) (ys : Nat → ℚ)
    (blockOf : Nat → Nat) (tr : ℚ) (T : Nat) (aL bL aR bR : ℚ)
    (hs : Scenario ds bds ys blockOf T aL bL aR bR)
    (hscore : tr * ((ds.samplesCount : ℚ)
            + ∑ i in Finset.range ds.samplesCount, ds.fVal i 1 * ds.fVal i 1) / 2
          - ∑ i in Finset.range ds.samplesCount, ys i * ys i < 1000000000) :
    (selectedSplit ds bds ys blockOf
      ((scenarioLearner tr T).rootState ds bds ys blockOf)).splitFId = 0 ∧
    (selectedSplit ds bds ys blockOf
      ((scenarioLearner tr T).rootState ds bds ys blockOf)).splitCond = 0 := by
  have hsc := scenario_score ds bds ys blockOf tr T aL bL aR bR hs
  obtain ⟨g1, fc1, _⟩ := fields_of_erase _ _
    (correlated_erase ds bds ys blockOf ((scenarioLearner tr T).rootState ds bds ys blockOf))
  obtain ⟨hg, hfc, _⟩ := scenario_root ds bds ys blockOf tr T
  unfold selectedSplit
  rw [g1, fc1, hg, hfc]
  generalize totalSplitScore ((scenarioLearner tr T).rootState ds bds ys blockOf).leaves
    (correlated ds bds ys blockOf
      ((scenarioLearner tr T).rootState ds bds ys blockOf)).stats = score at hsc ⊢
  obtain ⟨_, hle, hsel⟩ := findBestSplit_inv 1 exTreeGrid.conditionsCount score
  have h00 := hle 0 0 Nat.one_pos (Or.inl Nat.one_pos)
  rcases hsel with ⟨_, _, hb⟩ | ⟨f, c, hf, hc, hcc, hseen, _⟩
  · rw [hb, hsc] at h00
    exact absurd hscore (not_lt.mpr h00)
  · have hc0 : c = 0 := by
      have : c < 1 := hcc
      omega
    have hf0 : f = 0 := by
      rcases hseen with h | ⟨_, h⟩
      · omega
      · omega
    subst hc0 hf0
    exact ⟨hf, hc⟩

/-- The one iteration of the growth loop of the scenario returns. -/
theorem scenario_step (ds : DataSet) (bds : BinarizedDataSet) (ys : Nat → ℚ)
    (blockOf : Nat → Nat) (tr : ℚ) (T : Nat) (aL bL aR bR : ℚ)
    (hs : Scenario ds bds ys blockOf T aL bL aR bR)
    (hscore : tr * ((ds.samplesCount : ℚ)
            + ∑ i in Finset.range ds.samplesCount, ds.fVal i 1 * ds.fVal i 1) / 2
          - ∑ i in Finset.range ds.samplesCount, ys i * ys i < 1000000000) :
    ∃ st2, depthStep ds bds ys blockOf ((scenarioLearner tr T).rootState ds bds ys blockOf)
      = .ok st2 := by
  obtain ⟨hf, hc⟩ := scenario_selected ds bds ys blockOf tr T aL bL aR bR hs hscore
  obtain ⟨g1, _⟩ := fields_of_erase _ _
    (correlated_erase ds bds ys blockOf ((scenarioLearner tr T).rootState ds bds ys blockOf))
  obtain ⟨hg, _, _, _, _, _, _, _, _, hlv⟩ := scenario_root ds bds ys blockOf tr T
  rw [depthStep_passes ds bds ys blockOf _ _ _ hlv, hf, hc]
  unfold GreedyLinearObliviousTreeLearnerV2.splitStep
  rw [if_neg (by decide), g1, hg, hlv]
  have hb : (exTreeGrid.borders (0 : ℤ).toNat)[(0 : ℤ).toNat]? = some (1 / 2) := rfl
  rw [hb]
  simp only []
  rw [initNewLeaves_eq _ _ _ _ (by
    intro j l hj
    cases j with
    | zero =>
      simp only [List.getElem?_cons_zero, Option.some.injEq] at hj
      rw [← hj]
      rfl
    | succ j => simp at hj), derefLeaves_map_some]
  exact ⟨_, rfl⟩

/-- The state of the scenario after its one split: the two children of the root,
and the cell of the last bin of each child holds the moments of the samples of
its side of the border. -/
theorem scenario_children (ds : DataSet) (bds : BinarizedDataSet) (ys : Nat → ℚ)
    (blockOf : Nat → Nat) (tr : ℚ) (T : Nat) (aL bL aR bR : ℚ)
    (hs : Scenario ds bds ys blockOf T aL bL aR bR)
    (hscore : tr * ((ds.samplesCount : ℚ)
            + ∑ i in Finset.range ds.samplesCount, ds.fVal i 1 * ds.fVal i 1) / 2
          - ∑ i in Finset.range ds.samplesCount, ys i * ys i < 1000000000)
    (st2 : FitState)
    (h : depthStep ds bds ys blockOf ((scenarioLearner tr T).rootState ds bds ys blockOf)
      = .ok st2) :
    st2.leaves = childrenOf [scenarioRoot tr] 0 0 1 ∧
    ∀ side : Bool, Moments ds ys (sideSamples ds side)
      (st2.lr.stats 1 ((if side then 0 else 1) * 2 + 1)) := by
  have hc := scenario_configured ds bds ys blockOf tr T aL bL aR bR hs
  have hI := stat_root (scenarioLearner tr T) ds bds ys blockOf hc
    (fun h => absurd (show false = true from h) Bool.false_ne_true)
  have hI2 := stat_step ds bds ys blockOf _ st2 hI h
  obtain ⟨hg, hfc, hns, hlid, hu, hord, hcur, hT, hcols, hlv⟩ :=
    scenario_root ds bds ys blockOf tr T
  obtain ⟨hsf, hsc⟩ := scenario_selected ds bds ys blockOf tr T aL bL aR bR hs hscore
  obtain ⟨l0, f, c, border, hl0, hf, hcc, _, _, hb, hleaves, hlr⟩ :=
    depthStep_unfold_selected ds bds ys blockOf _ st2 hI.shape.indexed h
  have hf0 : f = 0 := by
    rw [hsf] at hf
    exact_mod_cast hf.symm
  have hc0 : c = 0 := by
    rw [hsc] at hcc
    exact_mod_cast hcc.symm
  subst hf0 hc0
  rw [hg] at hb
  have hbv : border = 1 / 2 := by
    have : (some (1 / 2 : ℚ)) = some border := hb
    exact (Option.some.inj this).symm
  subst hbv
  obtain ⟨su, so, sg, _, sl⟩ := splitLearner_state ds bds ys blockOf
    ((scenarioLearner tr T).rootState ds bds ys blockOf) l0.nUsedFeatures 0 0 (1 / 2)
  rw [hg, hu] at su
  rw [hg, hu, hord] at so
  rw [hg] at sg
  rw [hcols, hlid] at sl
  rw [if_neg (by decide)] at su so
  have e_used : st2.lr.usedFeatures = insert 1 {0} := by rw [hlr]; exact su
  have e_ord : st2.lr.usedFeaturesOrdered = [0, 1] := by rw [hlr]; exact so
  have e_grid : st2.lr.grid = exTreeGrid := by rw [hlr]; exact sg
  have e_lid : ∀ i, st2.lr.leafId i
      = routedLeafId (fun i => ds.fVal i 1) (1 / 2) (fun _ => 0) ds.samplesCount i := by
    intro i
    rw [hlr]
    exact sl i
  have e_cur : st2.lr.curLeavesCoord = 1 := by rw [hlr]; exact congrArg (· ^^^ 1) hcur
  have e_fc : st2.lr.fCount = 1 := by rw [hI2.cfg.fCount_eq, e_grid]; rfl
  have e_ns := hI2.nsamp
  have e_card : st2.lr.usedFeatures.card = 2 := by rw [e_used]; rfl
  have e_lv : st2.leaves = childrenOf [scenarioRoot tr] 0 0 1 := by
    rw [hleaves, hlv, hcur]
    rfl
  refine ⟨e_lv, ?_⟩
  obtain ⟨lrD, f2, c2, border2, ctx⟩ := depthStep_context ds bds ys blockOf _ st2 hI.shape h
  have hQ : ∀ q b, q < 2 → b < 2 →
      (st2.lr.stats 1 (q * 2 + b)).filledSize = 2 ∧ (st2.lr.stats 1 (q * 2 + b)).dim = 2 := by
    intro q b hq hb2
    rw [ctx.stats_eq]
    refine buildChildren_closed (fun s : BinStat => s.filledSize = 2 ∧ s.dim = 2) ?_ ?_ ?_ ?_
      lrD ds bds ys blockOf _ _ _ 1 (q * 2 + b) ?_
    · rintro s t ⟨h1, h2⟩
      exact ⟨h1, h2⟩
    · rintro s t ⟨h1, h2⟩
      exact ⟨h1, h2⟩
    · rintro s x y ⟨h1, h2⟩
      exact ⟨h1, h2⟩
    · rintro s xtx xty ⟨h1, h2⟩
      refine ⟨h1, ?_⟩
      show max s.dim (((s.filledSize : ℤ) + (-1)).toNat + 1) = 2
      rw [h1, h2]
      rfl
    · have hz := ctx.zeroD 1 q b (by rw [hT]; omega) (by rw [hcur]; decide)
        (by rw [hlv]; exact hq) (by rw [hg]; exact hb2)
      rw [hg] at hz
      have hz2 : lrD.stats 1 (q * 2 + b) = BinStat.zero lrD.usedFeatures.card := hz
      rw [hz2, ← ctx.used2, e_card]
      exact ⟨rfl, rfl⟩
  intro side
  have hlen : st2.leaves.length = 2 := by rw [e_lv]; rfl
  have hvals := fun e (he : Entry.InBlock 2 e) =>
    hI2.vals (if side then 0 else 1) 0 1 e (by rw [hlen]; split_ifs <;> omega)
      (by rw [e_fc]; exact Nat.one_pos) (by rw [e_grid]; exact Nat.le_refl 1)
      (by rw [e_card]; exact he)
  have hcell : (if side then 0 else 1) * st2.lr.grid.totalBins + (st2.lr.grid.offset 0 + 1)
      = (if side then 0 else 1) * 2 + 1 := by
    rw [e_grid]
    rfl
  rw [hcell, e_cur] at hvals
  simp only [cumulativeVal, e_ns, e_ord] at hvals
  have hq := (hQ (if side then 0 else 1) 1 (by split_ifs <;> omega) (by omega)).2
  have hin : ∀ i ∈ Finset.range ds.samplesCount,
      (st2.lr.leafId i = (if side then 0 else 1) ∧ bds.sampleBins i 0 ≤ 1)
        ↔ decide (ds.fVal i 1 ≤ 1 / 2) = side := by
    intro i hi
    rw [Finset.mem_range] at hi
    have hbin : bds.sampleBins i 0 ≤ 1 := by
      rw [hs.bins]
      split_ifs <;> omega
    rw [e_lid]
    unfold routedLeafId
    rw [if_pos hi]
    by_cases hv : ds.fVal i 1 ≤ 1 / 2
    · cases side <;> simp [hv, hbin]
    · cases side <;> simp [hv, hbin]
  have hsum : ∀ g : Nat → ℚ,
      (∑ i in Finset.range ds.samplesCount,
        if st2.lr.leafId i = (if side then 0 else 1) ∧ bds.sampleBins i 0 ≤ 1 then g i else 0)
      = ∑ i in sideSamples ds side, g i := by
    intro g
    unfold sideSamples
    rw [Finset.sum_filter]
    refine Finset.sum_congr rfl (fun i hi => ?_)
    by_cases hd : decide (ds.fVal i 1 ≤ 1 / 2) = side
    · rw [if_pos ((hin i hi).mpr hd), if_pos hd]
    · rw [if_neg (fun hh => hd ((hin i hi).mp hh)), if_neg hd]
  have hf0 : ∀ i, ds.fillSample i [0, 1] 0 = 1 := fun i => hs.bias i
  have hf1 : ∀ i, ds.fillSample i [0, 1] 1 = ds.fVal i 1 := fun i => rfl
  generalize st2.lr.stats 1 ((if side then 0 else 1) * 2 + 1) = s at hvals hq ⊢
  refine ⟨hq, ?_, ?_, ?_, ?_, ?_, ?_⟩
  · have h2 := hvals (.xtx 0 0) ⟨by decide, by decide⟩
    simp only [BinStat.val, sampleVal, hf0] at h2
    rw [h2, hsum (fun _ => 1 * 1), Finset.card_eq_sum_ones]
    simp
  · have h2 := hvals (.xtx 0 1) ⟨by decide, by decide⟩
    simp only [BinStat.val, sampleVal, hf0, hf1] at h2
    rw [h2, hsum (fun i => 1 * ds.fVal i 1)]
    simp
  · have h2 := hvals (.xtx 1 0) ⟨by decide, by decide⟩
    simp only [BinStat.val, sampleVal, hf0, hf1] at h2
    rw [h2, hsum (fun i => ds.fVal i 1 * 1)]
    simp
  · have h2 := hvals (.xtx 1 1) ⟨by decide, by decide⟩
    simp only [BinStat.val, sampleVal, hf1] at h2
    rw [h2, hsum (fun i => ds.fVal i 1 * ds.fVal i 1)]
  · have h2 := hvals (.xty 0) (show 0 < 2 by decide)
    simp only [BinStat.val, sampleVal, hf0] at h2
    rw [h2, hsum (fun i => 1 * ys i)]
    simp
  · have h2 := hvals (.xty 1) (show 1 < 2 by decide)
    simp only [BinStat.val, sampleVal, hf1] at h2
    rw [h2, hsum (fun i => ds.fVal i 1 * ys i)]

/-- The fit of a child of the scenario: its weights are the intercept and the
slope of the line of its side. -/
theorem scenario_leaf_fit (ds : DataSet) (bds : BinarizedDataSet) (ys : Nat → ℚ)
    (blockOf : Nat → Nat) (tr : ℚ) (T : Nat) (aL bL aR bR : ℚ)
    (hs : Scenario ds bds ys blockOf T aL bL aR bR) (stats : Arena)
    (hL : Moments ds ys (sideSamples ds true) (stats 1 1))
    (hR : Moments ds ys (sideSamples ds false) (stats 1 3)) :
    ∃ wL wR : Weights,
      fitLeaves stats (childrenOf [scenarioRoot tr] 0 0 1)
        = .ok [{ ((scenarioRoot tr).split 0 0 1 0).1 with w := some wL },
               { ((scenarioRoot tr).split 0 0 1 0).2 with w := some wR }] ∧
      wL.val 0 = aL ∧ wL.val 1 = bL ∧ wR.val 0 = aR ∧ wR.val 1 = bR := by
  obtain ⟨l1, l2, _, ldet⟩ := scenario_side ds bds ys blockOf T aL bL aR bR hs true
  obtain ⟨r1, r2, _, rdet⟩ := scenario_side ds bds ys blockOf T aL bL aR bR hs false
  simp only [if_true, Bool.false_eq_true, if_false] at l1 l2 r1 r2
  obtain ⟨wL, hwL, wL0, wL1⟩ := getW_two (((scenarioRoot tr).split 0 0 1 0).1.hist stats) 0 0
    rfl rfl hL.dim_eq _ _ _ aL bL hL.x00 hL.x01 hL.x10 hL.x11 (hL.y0.trans l1) (hL.y1.trans l2)
    ldet
  obtain ⟨wR, hwR, wR0, wR1⟩ := getW_two (((scenarioRoot tr).split 0 0 1 0).2.hist stats) 0 0
    rfl rfl hR.dim_eq _ _ _ aR bR hR.x00 hR.x01 hR.x10 hR.x11 (hR.y0.trans r1) (hR.y1.trans r2)
    rdet
  refine ⟨wL, wR, ?_, wL0, wL1, wR0, wR1⟩
  have fL : ((scenarioRoot tr).split 0 0 1 0).1.fit stats
      = (match (((scenarioRoot tr).split 0 0 1 0).1.hist stats).getW 0 with
        | .error e => .error e
        | .ok w => .ok { ((scenarioRoot tr).split 0 0 1 0).1 with w := some w }) := rfl
  have fR : ((scenarioRoot tr).split 0 0 1 0).2.fit stats
      = (match (((scenarioRoot tr).split 0 0 1 0).2.hist stats).getW 0 with
        | .error e => .error e
        | .ok w => .ok { ((scenarioRoot tr).split 0 0 1 0).2 with w := some w }) := rfl
  rw [hwL] at fL
  rw [hwR] at fR
  show fitLeaves stats [((scenarioRoot tr).split 0 0 1 0).1, ((scenarioRoot tr).split 0 0 1 0).2]
    = _
  simp only [fitLeaves, fL, fR]

/-- C26 (amended): on the end-to-end scenario (an intercept column, one
informative feature whose grid has the border `1/2`, targets that are an exact
linear function of the feature on each side of the border, two different
feature values on each side; in particular four samples, two on each side),
`fit` of a fresh learner with `maxDepth = 1` and `l2reg = 0`, whose candidate
scores below the initial bound `1e9` of the search, returns; it selects the
feature at that border, the tree has exactly two leaves, the first with the
split to the left and the second to the right, and `value` of every training
sample is the scale of the tree times the target of the sample (the target
itself at scale `1`). -/
theorem fit_scenario_exact (ds : DataSet) (bds : BinarizedDataSet) (ys : Nat → ℚ)
    (blockOf : Nat → Nat) (traceReg : ℚ) (nThreads : Nat) (aL bL aR bR scale : ℚ)
    (hs : Scenario ds bds ys blockOf nThreads aL bL aR bR)
    (hscore : traceReg * ((ds.samplesCount : ℚ)
            + ∑ i in Finset.range ds.samplesCount, ds.fVal i 1 * ds.fVal i 1) / 2
          - ∑ i in Finset.range ds.samplesCount, ys i * ys i < 1000000000) :
    ∃ (t : LinearObliviousTreeV2) (lr2 : Learner),
      (scenarioLearner traceReg nThreads).fit ds bds ys blockOf scale = .ok (t, lr2) ∧
      (selectedSplit ds bds ys blockOf
        ((scenarioLearner traceReg nThreads).rootState ds bds ys blockOf)).splitFId = 0 ∧
      (selectedSplit ds bds ys blockOf
        ((scenarioLearner traceReg nThreads).rootState ds bds ys blockOf)).splitCond = 0 ∧
      (exTreeGrid.borders 0)[0]? = some (1 / 2) ∧
      t.leaves.length = 2 ∧
      t.leaves.map (fun l => l.splits) = [[(0, 0, true)], [(0, 0, false)]] ∧
      ∀ i, i < ds.samplesCount → t.value (ds.sample i) = .ok (scale * ys i) := by
  obtain ⟨hsf, hsc⟩ := scenario_selected ds bds ys blockOf traceReg nThreads aL bL aR bR hs hscore
  obtain ⟨st2, hstep⟩ := scenario_step ds bds ys blockOf traceReg nThreads aL bL aR bR hs hscore
  obtain ⟨hlv2, hM⟩ :=
    scenario_children ds bds ys blockOf traceReg nThreads aL bL aR bR hs hscore st2 hstep
  obtain ⟨wL, wR, hfl, wL0, wL1, wR0, wR1⟩ :=
    scenario_leaf_fit ds bds ys blockOf traceReg nThreads aL bL aR bR hs st2.lr.stats
      (hM true) (hM false)
  have hgrow : growLoop ds bds ys blockOf (scenarioLearner traceReg nThreads).maxDepth
      ((scenarioLearner traceReg nThreads).rootState ds bds ys blockOf) = .ok st2 := by
    show (match depthStep ds bds ys blockOf
        ((scenarioLearner traceReg nThreads).rootState ds bds ys blockOf) with
      | Except.error e => Except.error e
      | Except.ok st1 => growLoop ds bds ys blockOf 0 st1) = _
    rw [hstep]
    rfl
  rw [← hlv2] at hfl
  refine ⟨LinearObliviousTreeV2.mk exTreeGrid scale
      [{ ((scenarioRoot traceReg).split 0 0 1 0).1 with w := some wL },
       { ((scenarioRoot traceReg).split 0 0 1 0).2 with w := some wR }],
    st2.lr, ?_, hsf, hsc, rfl, ?_, ?_, ?_⟩
  · rw [fit_eq]
    rw [if_neg (show ¬ ((scenarioLearner traceReg nThreads).biasCol = -1) from
      (by decide : ¬ ((0 : ℤ) = -1))), hgrow]
    simp only []
    rw [hfl]
    rfl
  · rfl
  · rfl
  · intro i hi
    have hb := hs.bias i
    have hy := hs.targets i hi
    show treeValueLoop scale (ds.sample i) _ = _
    by_cases hv : ds.fVal i 1 ≤ 1 / 2
    · rw [if_pos hv] at hy
      have hv1 : ds.fVal i 1 ≤ 2⁻¹ := by simpa using hv
      have hv2 : ¬ (2⁻¹ < ds.fVal i 1) := not_lt.mpr hv1
      simp [treeValueLoop, LinearObliviousTreeLeafV2.isInRegion, isInRegionLoop,
        LinearObliviousTreeLeafV2.value, LinearObliviousTreeLeafV2.split,
        LinearObliviousTreeLeafV2.initChildren, LinearObliviousTreeLeafV2.mk0, scenarioRoot,
        exTreeGrid, DataSet.sample, hv1, hv2, hb, hy, wL0, wL1]
      exact Or.inl (mul_comm _ _)
    · rw [if_neg hv] at hy
      have hv1 : ¬ ds.fVal i 1 ≤ 2⁻¹ := by simpa using hv
      have hv2 : 2⁻¹ < ds.fVal i 1 := not_le.mp hv1
      simp [treeValueLoop, LinearObliviousTreeLeafV2.isInRegion, isInRegionLoop,
        LinearObliviousTreeLeafV2.value, LinearObliviousTreeLeafV2.split,
        LinearObliviousTreeLeafV2.initChildren, LinearObliviousTreeLeafV2.mk0, scenarioRoot,
        exTreeGrid, DataSet.sample, hv1, hv2, hb, hy, wR0, wR1]
      exact Or.inl (mul_comm _ _)

/-- The data `exScenarioDs`, `exScenarioBds`, `exScenarioYs` are an instance of
the end-to-end scenario: one worker, the constant `1` on the left of the border
and the constant `2` on its right. -/
theorem exScenario_holds :
    Scenario exScenarioDs exScenarioBds exScenarioYs (fun _ => 0) 1 1 0 2 0 := by
  have key : ∀ i : Nat, ((i : ℚ) / 3 ≤ 1 / 2) ↔ i ≤ 1 := by
    intro i
    constructor
    · intro h
      have h2 : (i : ℚ) < 2 := by linarith
      have h3 : i < 2 := by exact_mod_cast h2
      omega
    · intro h
      have h2 : (i : ℚ) ≤ 1 := by exact_mod_cast h
      linarith
  refine ⟨fun i => rfl, ?_, fun _ => Nat.one_pos, ?_, ?_, ?_⟩
  · intro i
    show (if i ≤ 1 then 0 else 1) = if (i : ℚ) / 3 ≤ 1 / 2 then 0 else 1
    by_cases h : i ≤ 1
    · rw [if_pos h, if_pos ((key i).mpr h)]
    · rw [if_neg h, if_neg (fun hh => h ((key i).mp hh))]
  · intro i _
    show (if i ≤ 1 then (1 : ℚ) else 2)
      = if (i : ℚ) / 3 ≤ 1 / 2 then 1 + 0 * ((i : ℚ) / 3) else 2 + 0 * ((i : ℚ) / 3)
    by_cases h : i ≤ 1
    · rw [if_pos h, if_pos ((key i).mpr h)]
      ring
    · rw [if_neg h, if_neg (fun hh => h ((key i).mp hh))]
      ring
  · refine ⟨0, 1, by decide, by decide, ?_, ?_, ?_⟩
    · show ((0 : Nat) : ℚ) / 3 ≤ 1 / 2
      norm_num
    · show ((1 : Nat) : ℚ) / 3 ≤ 1 / 2
      norm_num
    · show ((0 : Nat) : ℚ) / 3 ≠ ((1 : Nat) : ℚ) / 3
      norm_num
  · refine ⟨2, 3, by decide, by decide, ?_, ?_, ?_⟩
    · show ¬ ((2 : Nat) : ℚ) / 3 ≤ 1 / 2
      norm_num
    · show ¬ ((3 : Nat) : ℚ) / 3 ≤ 1 / 2
      norm_num
    · show ((2 : Nat) : ℚ) / 3 ≠ ((3 : Nat) : ℚ) / 3
      norm_num

/-- The witness of C26 (amended): the four samples of `exScenarioDs` with the
targets `1, 1, 2, 2`, fitted without regularisation by one worker at scale `1`. -/
theorem fit_scenario_exact_witness :
    Scenario exScenarioDs exScenarioBds exScenarioYs (fun _ => 0) 1 1 0 2 0 ∧
    exScenarioDs.samplesCount = 4 ∧
    ∃ (t : LinearObliviousTreeV2) (lr2 : Learner),
      (scenarioLearner 0 1).fit exScenarioDs exScenarioBds exScenarioYs (fun _ => 0) 1
        = .ok (t, lr2) ∧
      (selectedSplit exScenarioDs exScenarioBds exScenarioYs (fun _ => 0)
        ((scenarioLearner 0 1).rootState exScenarioDs exScenarioBds exScenarioYs
          (fun _ => 0))).splitFId = 0 ∧
      (selectedSplit exScenarioDs exScenarioBds exScenarioYs (fun _ => 0)
        ((scenarioLearner 0 1).rootState exScenarioDs exScenarioBds exScenarioYs
          (fun _ => 0))).splitCond = 0 ∧
      (exTreeGrid.borders 0)[0]? = some (1 / 2) ∧
      t.leaves.length = 2 ∧
      t.leaves.map (fun l => l.splits) = [[(0, 0, true)], [(0, 0, false)]] ∧
      ∀ i, i < exScenarioDs.samplesCount →
        t.value (exScenarioDs.sample i) = .ok (1 * exScenarioYs i) :=
  ⟨exScenario_holds, rfl,
    fit_scenario_exact exScenarioDs exScenarioBds exScenarioYs (fun _ => 0) 0 1 1 0 2 0 1
      exScenario_holds (by
        rw [zero_mul, zero_div, zero_sub]
        have h : (0 : ℚ) ≤ ∑ i in Finset.range exScenarioDs.samplesCount,
            exScenarioYs i * exScenarioYs i :=
          Finset.sum_nonneg (fun i _ => mul_self_nonneg _)
        linarith)⟩

/-- C26 (as stated, refuted): on the four samples of `exScenarioDs` (intercept,
one feature with the border `1/2`, targets `1, 1, 2, 2` separated at the border)
`fit` of `exLearner` (`maxDepth = 1`, `l2reg = 1`) at scale `1` returns a tree
whose `value` on training sample `0` is not the target of the sample: the
leaves are ridge fits, which the regulariser shrinks. -/
theorem ridge_fit_misses_target :
    ∃ (t : LinearObliviousTreeV2) (lr2 : Learner) (v : ℚ),
      exLearner.fit exScenarioDs exScenarioBds exScenarioYs (fun _ => 0) 1 = .ok (t, lr2) ∧
      t.value (exScenarioDs.sample 0) = .ok v ∧ v ≠ exScenarioYs 0 := by
  have hm : missesTarget exLearner exScenarioDs exScenarioBds exScenarioYs 0 = true := by
    decide!
  unfold missesTarget at hm
  cases hfit : exLearner.fit exScenarioDs exScenarioBds exScenarioYs (fun _ => 0) 1 with
  | error e =>
    rw [hfit] at hm
    exact absurd hm (by simp)
  | ok p =>
    obtain ⟨t, lr2⟩ := p
    rw [hfit] at hm
    cases hval : t.value (exScenarioDs.sample 0) with
    | error e =>
      simp only [hval] at hm
      exact absurd hm (by simp)
    | ok v =>
      simp only [hval] at hm
      exact ⟨t, lr2, v, rfl, hval, of_decide_eq_true hm⟩

/-! ## A tree of depth zero -/

/-- C31: with `maxDepth = 0` and a bias column configured (`biasCol ≠ -1`), for
every dataset, `fit` performs no split: the growth loop returns the state in
which the root was built, whose only leaf is the root with
`lastUsedFeatureId = -1` and no weights; `getW` on the root histogram fails with
`No features are used`, so does `fit` of the leaf in the final loop, and `fit`
of the learner fails with that error: no tree is returned. -/
theorem fit_depth_zero_fails (lr : Learner) (ds : DataSet) (bds : BinarizedDataSet)
    (ys : Nat → ℚ) (blockOf : Nat → Nat) (scale : ℚ) (hd : lr.maxDepth = 0)
    (hb : lr.biasCol ≠ -1) :
    growLoop ds bds ys blockOf lr.maxDepth (lr.rootState ds bds ys blockOf)
      = .ok (lr.rootState ds bds ys blockOf) ∧
    (∃ root : Leaf, (lr.rootState ds bds ys blockOf).leaves = [root] ∧
      root.lastUsedFeatureId = -1 ∧ root.splits = [] ∧
      (root.hist (lr.rootState ds bds ys blockOf).lr.stats).getW root.l2reg
        = .error Err.noFeatures ∧
      root.fit (lr.rootState ds bds ys blockOf).lr.stats = .error Err.noFeatures) ∧
    fitLeaves (lr.rootState ds bds ys blockOf).lr.stats (lr.rootState ds bds ys blockOf).leaves
      = .error Err.noFeatures ∧
    lr.fit ds bds ys blockOf scale = .error Err.noFeatures := by
  have hgrow : growLoop ds bds ys blockOf lr.maxDepth (lr.rootState ds bds ys blockOf)
      = .ok (lr.rootState ds bds ys blockOf) := by
    rw [hd]
    rfl
  have hfitLeaf : ∀ (stats : Arena) (root : Leaf), root.lastUsedFeatureId = -1 → root.w = none →
      (root.hist stats).getW root.l2reg = .error Err.noFeatures ∧
      root.fit stats = .error Err.noFeatures := by
    intro stats root hlast hnone
    have hg : (root.hist stats).getW root.l2reg = .error Err.noFeatures := by
      unfold HistogramV2.getW
      rw [if_pos (show (root.hist stats).lastUsedFeatureId = -1 from hlast)]
    refine ⟨hg, ?_⟩
    unfold LinearObliviousTreeLeafV2.fit
    rw [hnone]
    simp only []
    rw [hg]
  have hleaves : ∃ root : Leaf, (lr.rootState ds bds ys blockOf).leaves = [root] ∧
      root.lastUsedFeatureId = -1 ∧ root.splits = [] ∧ root.w = none :=
    ⟨_, rfl, rfl, rfl, rfl⟩
  obtain ⟨root, hl, hlast, hsplits, hnone⟩ := hleaves
  obtain ⟨hg, hf⟩ := hfitLeaf (lr.rootState ds bds ys blockOf).lr.stats root hlast hnone
  have hfl : fitLeaves (lr.rootState ds bds ys blockOf).lr.stats
      (lr.rootState ds bds ys blockOf).leaves = .error Err.noFeatures := by
    rw [hl]
    unfold fitLeaves
    rw [hf]
  refine ⟨hgrow, ⟨root, hl, hlast, hsplits, hg, hf⟩, hfl, ?_⟩
  rw [fit_eq]
  rw [if_neg hb, hgrow]
  simp only []
  rw [hfl]

/-- The witness of C31: `exShallowLearner` (bias column `0`, `maxDepth = 0`) on the
two samples of `exDs`. -/
theorem fit_depth_zero_fails_witness :
    exShallowLearner.maxDepth = 0 ∧ exShallowLearner.biasCol ≠ -1 ∧
    exShallowLearner.fit exDs exBds exYs (fun _ => 0) 1 = .error Err.noFeatures :=
  ⟨rfl, by decide,
    (fit_depth_zero_fails exShallowLearner exDs exBds exYs (fun _ => 0) 1 rfl
      (by decide)).2.2.2⟩

/-! ## The flat arrays of the polynom -/

theorem pushSplits_fields (splits : List BinarySplit) (st : FlatPolynom) :
    (splits.foldl
      (fun (s : FlatPolynom) split =>
        { s with
          flatFeatureIds := s.flatFeatureIds ++ [split.Feature]
          conditions := s.conditions ++ [split.Condition] })
      st)
      = { st with
          flatFeatureIds := st.flatFeatureIds ++ splits.map (fun s => s.Feature)
          conditions := st.conditions ++ splits.map (fun s => s.Condition) } := by
  induction splits generalizing st with
  | nil => simp
  | cons s rest ih =>
    rw [List.foldl_cons, ih]
    simp

theorem pushMonom_fields (st : FlatPolynom) (m : Monom) :
    st.pushMonom m
      = { flatFeatureIds := st.flatFeatureIds ++ m.Structure_.Splits.map (fun s => s.Feature)
          conditions := st.conditions ++ m.Structure_.Splits.map (fun s => s.Condition)
          offsets := st.offsets ++ [st.cursor]
          values := st.values ++ m.Values_
          cursor := st.cursor + (m.Structure_.Splits.length : Int) } := by
  unfold FlatPolynom.pushMonom
  rw [pushSplits_fields]

/-- The loop of the constructor in closed form. -/
theorem flatten_fields (ms : List Monom) (st : FlatPolynom) :
    (ms.foldl FlatPolynom.pushMonom st).flatFeatureIds
      = st.flatFeatureIds ++ ms.flatMap (fun m => m.Structure_.Splits.map (fun s => s.Feature)) ∧
    (ms.foldl FlatPolynom.pushMonom st).conditions
      = st.conditions ++ ms.flatMap (fun m => m.Structure_.Splits.map (fun s => s.Condition)) ∧
    (ms.foldl FlatPolynom.pushMonom st).values = st.values ++ ms.flatMap (fun m => m.Values_) ∧
    (ms.foldl FlatPolynom.pushMonom st).offsets
        ++ [(ms.foldl FlatPolynom.pushMonom st).cursor]
      = st.offsets ++ offsetsFrom st.cursor ms := by
  induction ms generalizing st with
  | nil => simp [offsetsFrom]
  | cons m rest ih =>
    rw [List.foldl_cons]
    obtain ⟨h1, h2, h3, h4⟩ := ih (st.pushMonom m)
    rw [h1, h2, h3, h4, pushMonom_fields]
    simp [offsetsFrom, List.flatMap_cons]

theorem offsetsFrom_length (ms : List Monom) (c : Int) :
    (offsetsFrom c ms).length = ms.length + 1 := by
  induction ms generalizing c with
  | nil => rfl
  | cons m rest ih => simp [offsetsFrom, ih]

theorem splitsCount_cons (m : Monom) (ms : List Monom) :
    splitsCount (m :: ms) = m.Structure_.Splits.length + splitsCount ms := by
  simp [splitsCount]

/-- Entry `i` of the offsets is the cursor plus the number of splits of the
first `i` monoms. -/
theorem offsetsFrom_get (ms : List Monom) (c : Int) (i : Nat) (hi : i ≤ ms.length) :
    (offsetsFrom c ms)[i]? = some (c + (splitsCount (ms.take i) : Int)) := by
  induction ms generalizing c i with
  | nil =>
    have h0 : i = 0 := by simpa using hi
    subst h0
    simp [offsetsFrom, splitsCount]
  | cons m rest ih =>
    cases i with
    | zero => simp [offsetsFrom, splitsCount]
    | succ j =>
      have hj : j ≤ rest.length := by simpa using hi
      rw [offsetsFrom, List.getElem?_cons_succ, ih _ j hj, List.take_succ_cons,
        splitsCount_cons]
      push_cast
      rw [add_assoc]

theorem offsetsFrom_lower (ms : List Monom) (c : Int) : ∀ a ∈ offsetsFrom c ms, c ≤ a := by
  induction ms generalizing c with
  | nil =>
    intro a ha
    have : a = c := by simpa [offsetsFrom] using ha
    omega
  | cons m rest ih =>
    intro a ha
    have hmem : a = c ∨ a ∈ offsetsFrom (c + (m.Structure_.Splits.length : Int)) rest := by
      simpa [offsetsFrom] using ha
    rcases hmem with h | h
    · omega
    · have := ih _ a h
      omega

theorem offsetsFrom_sorted (ms : List Monom) (c : Int) :
    (offsetsFrom c ms).Pairwise (fun a b => a ≤ b) := by
  induction ms generalizing c with
  | nil => simp [offsetsFrom]
  | cons m rest ih =>
    show (c :: offsetsFrom (c + (m.Structure_.Splits.length : Int)) rest).Pairwise _
    rw [List.pairwise_cons]
    refine ⟨?_, ih _⟩
    intro a ha
    have := offsetsFrom_lower rest _ a ha
    omega

theorem offsetsFrom_getLast (ms : List Monom) (c : Int) :
    (offsetsFrom c ms).getLast? = some (c + (splitsCount ms : Int)) := by
  rw [List.getLast?_eq_getElem?, offsetsFrom_length, Nat.add_sub_cancel,
    offsetsFrom_get ms c ms.length (Nat.le_refl _), List.take_length]

theorem flat_length {α : Type} (ms : List Monom) (g : BinarySplit → α) :
    (ms.flatMap (fun m => m.Structure_.Splits.map g)).length = splitsCount ms := by
  induction ms with
  | nil => rfl
  | cons m rest ih => simp [List.flatMap_cons, splitsCount_cons, ih]

/-- The splits of the monom at position `i` are the slice of the flat array that
starts after the splits of the first `i` monoms. -/
theorem flat_slice {α : Type} (ms : List Monom) (g : BinarySplit → α) (i : Nat) (m : Monom)
    (hm : ms[i]? = some m) :
    ((ms.flatMap (fun m => m.Structure_.Splits.map g)).drop (splitsCount (ms.take i))).take
        m.Structure_.Splits.length
      = m.Structure_.Splits.map g := by
  induction ms generalizing i with
  | nil => simp at hm
  | cons m0 rest ih =>
    cases i with
    | zero =>
      have h0 : m0 = m := by simpa using hm
      subst h0
      simp [splitsCount, List.flatMap_cons]
    | succ j =>
      have hj : rest[j]? = some m := by simpa using hm
      rw [List.take_succ_cons, splitsCount_cons, List.flatMap_cons, List.drop_append_eq_append_drop]
      have hlen : (m0.Structure_.Splits.map g).length = m0.Structure_.Splits.length :=
        List.length_map _ _
      rw [List.drop_of_length_le (by rw [hlen]; omega), List.nil_append, hlen,
        Nat.add_sub_cancel_left]
      exact ih j hj

/-- C32: for every polynom of `n` monoms, the constructor of `PolynomCuda` leaves
the ensemble a permutation of the given one ordered by non-decreasing depth;
the offsets are `n + 1` entries, the first is `0`, they are non-decreasing, and
for the monom `m` at position `i` of that order the entries `i` and `i + 1`
differ by the number of splits of `m`, and the features and the conditions of
its splits are the entries `offsets[i] .. offsets[i + 1] - 1` of the flat
arrays; the last offset is the length of both flat arrays. -/
theorem polynomCuda_offsets (GetDepth : PolynomStructure → Nat) (polynom : Polynom) :
    (PolynomCuda.create GetDepth polynom).Polynom_.Ensemble_.Perm polynom.Ensemble_ ∧
    (PolynomCuda.create GetDepth polynom).Polynom_.Ensemble_.Pairwise
      (fun a b => GetDepth a.Structure_ ≤ GetDepth b.Structure_) ∧
    (PolynomCuda.create GetDepth polynom).PolynomOffsets.length = polynom.Ensemble_.length + 1 ∧
    (PolynomCuda.create GetDepth polynom).PolynomOffsets[0]? = some 0 ∧
    (PolynomCuda.create GetDepth polynom).PolynomOffsets.Pairwise (fun a b => a ≤ b) ∧
    (PolynomCuda.create GetDepth polynom).PolynomOffsets.getLast?
      = some ((PolynomCuda.create GetDepth polynom).Features.length : Int) ∧
    (PolynomCuda.create GetDepth polynom).PolynomOffsets.getLast?
      = some ((PolynomCuda.create GetDepth polynom).Conditions.length : Int) ∧
    (∀ (i : Nat) (m : Monom),
      (PolynomCuda.create GetDepth polynom).Polynom_.Ensemble_[i]? = some m →
      ∃ a b : Nat,
        (PolynomCuda.create GetDepth polynom).PolynomOffsets[i]? = some (a : Int) ∧
        (PolynomCuda.create GetDepth polynom).PolynomOffsets[i + 1]? = some (b : Int) ∧
        b - a = m.Structure_.Splits.length ∧ a ≤ b ∧
        b ≤ (PolynomCuda.create GetDepth polynom).Features.length ∧
        (((PolynomCuda.create GetDepth polynom).Features.drop a).take (b - a)
          = m.Structure_.Splits.map (fun s => s.Feature)) ∧
        (((PolynomCuda.create GetDepth polynom).Conditions.drop a).take (b - a)
          = m.Structure_.Splits.map (fun s => s.Condition))) := by
  have hperm : (stdSort (fun (left right : Monom) =>
      decide (GetDepth left.Structure_ < GetDepth right.Structure_)) polynom.Ensemble_).Perm
      polynom.Ensemble_ := List.mergeSort_perm _ _
  have hsorted : (stdSort (fun (left right : Monom) =>
      decide (GetDepth left.Structure_ < GetDepth right.Structure_)) polynom.Ensemble_).Pairwise
      (fun a b => GetDepth a.Structure_ ≤ GetDepth b.Structure_) := by
    have h : (polynom.Ensemble_.mergeSort
        (fun a b => !decide (GetDepth b.Structure_ < GetDepth a.Structure_))).Pairwise
        (fun a b => (!decide (GetDepth b.Structure_ < GetDepth a.Structure_)) = true) :=
      List.sorted_mergeSort
        (by
          intro a b c hab hbc
          simp only [Bool.not_eq_true', decide_eq_false_iff_not, not_lt] at hab hbc ⊢
          omega)
        (by
          intro a b
          simp only [Bool.or_eq_true, Bool.not_eq_true', decide_eq_false_iff_not, not_lt]
          omega)
        polynom.Ensemble_
    refine h.imp ?_
    intro a b hab
    simpa using hab
  generalize hms : stdSort (fun (left right : Monom) =>
      decide (GetDepth left.Structure_ < GetDepth right.Structure_)) polynom.Ensemble_ = ms
    at hperm hsorted
  obtain ⟨h1, h2, _, h4⟩ := flatten_fields ms
    { flatFeatureIds := [], conditions := [], offsets := [], values := [], cursor := 0 }
  simp only [List.nil_append] at h1 h2 h4
  have eF : (PolynomCuda.create GetDepth polynom).Features
      = ms.flatMap (fun m => m.Structure_.Splits.map (fun s => s.Feature)) := by
    unfold PolynomCuda.create
    simp only [hms]
    exact h1
  have eC : (PolynomCuda.create GetDepth polynom).Conditions
      = ms.flatMap (fun m => m.Structure_.Splits.map (fun s => s.Condition)) := by
    unfold PolynomCuda.create
    simp only [hms]
    exact h2
  have eO : (PolynomCuda.create GetDepth polynom).PolynomOffsets = offsetsFrom 0 ms := by
    unfold PolynomCuda.create
    simp only [hms]
    exact h4
  have eE : (PolynomCuda.create GetDepth polynom).Polynom_.Ensemble_ = ms := by
    unfold PolynomCuda.create
    simp only [hms]
  rw [eF, eC, eO, eE, flat_length, flat_length]
  refine ⟨hperm, hsorted, ?_, ?_, offsetsFrom_sorted ms 0, ?_, ?_, ?_⟩
  · rw [offsetsFrom_length, hperm.length_eq]
  · rw [offsetsFrom_get ms 0 0 (Nat.zero_le _)]
    simp [splitsCount]
  · rw [offsetsFrom_getLast, zero_add]
  · rw [offsetsFrom_getLast, zero_add]
  · intro i m hm
    have hi : i < ms.length := by
      rcases Nat.lt_or_ge i ms.length with h | h
      · exact h
      · rw [List.getElem?_eq_none h] at hm
        exact absurd hm (by simp)
    have htake : ms.take (i + 1) = ms.take i ++ [m] := by
      rw [List.take_succ, hm]
      rfl
    have hcount : splitsCount (ms.take (i + 1))
        = splitsCount (ms.take i) + m.Structure_.Splits.length := by
      rw [htake]
      simp [splitsCount]
    have htotal : splitsCount (ms.take (i + 1)) ≤ splitsCount ms := by
      have hsplit : ms = ms.take (i + 1) ++ ms.drop (i + 1) := (List.take_append_drop _ _).symm
      have : splitsCount ms
          = splitsCount (ms.take (i + 1)) + splitsCount (ms.drop (i + 1)) := by
        conv_lhs => rw [hsplit]
        simp [splitsCount]
      omega
    refine ⟨splitsCount (ms.take i), splitsCount (ms.take (i + 1)), ?_, ?_, ?_, ?_, htotal, ?_, ?_⟩
    · rw [offsetsFrom_get ms 0 i (Nat.le_of_lt hi), zero_add]
    · rw [offsetsFrom_get ms 0 (i + 1) hi, zero_add]
    · omega
    · omega
    · rw [hcount, Nat.add_sub_cancel_left]
      exact flat_slice ms _ i m hm
    · rw [hcount, Nat.add_sub_cancel_left]
      exact flat_slice ms _ i m hm

/-- The constructor on `exPolynom` (depth as the number of splits): the monoms
come in the order of the depths `0`, `1`, `2`. -/
theorem exPolynom_flat :
    (PolynomCuda.create (fun s => s.Splits.length) exPolynom).PolynomOffsets = [0, 0, 1, 3] ∧
    (PolynomCuda.create (fun s => s.Splits.length) exPolynom).Features = [7, 3, 5] ∧
    (PolynomCuda.create (fun s => s.Splits.length) exPolynom).Conditions = [3, 1, 2] ∧
    (PolynomCuda.create (fun s => s.Splits.length) exPolynom).PolynomValues = [2, 3, 1] := by
  decide!

/-! ## The shift by a stored vector -/

/-- C33: for every `x` and every output vector `to` of the dimension of the
stored vector `b_`, `AddVecTrans::trans(x, to)` returns `to` with the same
dimension and with `to[i] = x[i] - b_[i]` at every index `i`. -/
theorem addVec_trans_subtracts (t : AddVecTrans) (x toVec : Vec) (hx : x.dim = t.b_.dim)
    (hto : toVec.dim = t.b_.dim) :
    ∃ r : Vec, t.trans x toVec = some r ∧ r.dim = toVec.dim ∧
      ∀ i : Nat, i < toVec.dim →
        ∃ xi bi : ℚ, x.data[i]? = some xi ∧ t.b_.data[i]? = some bi ∧
          r.data[i]? = some (xi - bi) := by
  have hdim : x.dim = toVec.dim := hx.trans hto.symm
  refine ⟨VecTools.subtract (VecTools.copyTo x toVec) t.b_, ?_, ?_, ?_⟩
  · unfold AddVecTrans.trans
    rw [if_pos hdim]
  · simp [VecTools.subtract, VecTools.copyTo, Vec.dim]
  · intro i hi
    have hi2 : i < toVec.data.length := hi
    have hix : i < x.data.length := by
      have h : x.data.length = toVec.data.length := hdim
      omega
    have hib : i < t.b_.data.length := by
      have h : toVec.data.length = t.b_.data.length := hto
      omega
    refine ⟨x.data[i], t.b_.data[i], List.getElem?_eq_getElem hix, List.getElem?_eq_getElem hib, ?_⟩
    simp [VecTools.subtract, VecTools.copyTo, Vec.dim, hi2, hix, hib, List.getD_eq_getElem?_getD]

/-- The witness of C33: `x = (5, 7)` shifted by the stored vector `(1, 2)` into
an output vector of two entries. -/
theorem addVec_trans_subtracts_witness :
    ({ data := [5, 7] } : Vec).dim = exAddVec.b_.dim ∧
    ({ data := [0, 0] } : Vec).dim = exAddVec.b_.dim ∧
    ∃ r : Vec, exAddVec.trans { data := [5, 7] } { data := [0, 0] } = some r ∧
      r.dim = ({ data := [0, 0] } : Vec).dim ∧
      ∀ i : Nat, i < ({ data := [0, 0] } : Vec).dim →
        ∃ xi bi : ℚ, ({ data := [5, 7] } : Vec).data[i]? = some xi ∧
          exAddVec.b_.data[i]? = some bi ∧ r.data[i]? = some (xi - bi) :=
  ⟨rfl, rfl, addVec_trans_subtracts exAddVec { data := [5, 7] } { data := [0, 0] } rfl rfl⟩

/-- The shift of `(5, 7)` by the stored vector `(1, 2)` is `(4, 5)`. -/
theorem exAddVec_trans :
    exAddVec.trans { data := [5, 7] } { data := [0, 0] } = some { data := [4, 5] } := by
  decide!
